import Mathlib

/-!
# satori-go: the xhtml package, the attribute binder and the typed elements

A shallow embedding of `pkg/satori/internal/xhtml/parser.go` (entity and case utilities,
elements, template parser, selectors), of `pkg/satori/internal/attr` (the binder of attributes
to struct fields) and of `Transform` of `pkg/satori/model/message/element`.

Modelling conventions.

* A Go `string` is a list of Unicode code points (`Str`), i.e. the text a valid UTF-8 string
  denotes.  Byte order of UTF-8 strings is code point order, so `sort.Strings` is the
  lexicographic order on `Str`.
* The patterns of `regexp.MustCompile` are kept as data (`Re`) and run by one backtracking
  matcher (`Re.run`) with Go's leftmost-first preference: alternatives in order, greedy
  repetition longest first, lazy repetition shortest first.
* A Go `map[string]any` is an association list whose keys are distinct; the order of the list
  stands for the (unspecified) iteration order of the map.
-/

namespace Xhtml

/-- A Go string, as the list of its code points. -/
abbrev Str := List Char

/-! ## Library functions: `strings`, `strconv`, `regexp` -/

/-- Scan of `strings.ReplaceAll`: the counter is the number of characters of the current
occurrence of `old` that are still to be skipped. -/
def replaceAllAux (old new : Str) : Nat → Str → Str
  | _, [] => []
  | skip + 1, _ :: cs => replaceAllAux old new skip cs
  | 0, c :: cs =>
    if old.isPrefixOf (c :: cs) then new ++ replaceAllAux old new (old.length - 1) cs
    else c :: replaceAllAux old new 0 cs

/-- Go `strings.ReplaceAll(s, old, new)`: every non-overlapping occurrence of `old`, found left
to right, is replaced by `new`.  `old` is non-empty at every call site of parser.go. -/
def replaceAll (s old new : Str) : Str := replaceAllAux old new 0 s

/-- Go `strings.Join(ws, sep)`. -/
def stringsJoin (sep : Str) : List Str → Str
  | [] => []
  | [w] => w
  | w :: ws => w ++ sep ++ stringsJoin sep ws

/-- Go `strings.HasPrefix`. -/
def hasPrefix (s pre : Str) : Bool := pre.isPrefixOf s

/-- A position of the matcher inside one match attempt: the character before the position
(for the line anchors), the number of characters consumed since the start of the attempt, the
text still to read, and the capture groups closed so far (most recent first). -/
structure Pos where
  prev : Option Char
  pos : Nat
  rest : Str
  caps : List (Nat × Str)

/-- Regular expressions: the fragment of Go's RE2 syntax that parser.go uses. -/
inductive Re where
  /-- One character satisfying a class. -/
  | chr (p : Char → Bool)
  /-- The empty expression. -/
  | eps
  /-- Concatenation. -/
  | seq (a b : Re)
  /-- Ordered alternation `a|b`. -/
  | alt (a b : Re)
  /-- Repetition `a*` (greedy) or `a*?` (lazy). -/
  | star (a : Re) (greedy : Bool)
  /-- Capturing group number `i`. -/
  | group (i : Nat) (a : Re)
  /-- Line start: `^` under the flag `(?m)`. -/
  | bol
  /-- Line end: `$` under the flag `(?m)`. -/
  | eol
  /-- Text start: `^` without flags. -/
  | bot
  /-- Text end: `$` without flags. -/
  | eot

/-- Repetition of `body`, at most `fuel` times, each round consuming at least one character.
The greedy form tries one more round before leaving the loop, the lazy form leaves first. -/
def starLoop {α : Type} (body : (Pos → Option α) → Pos → Option α) (greedy : Bool)
    (k : Pos → Option α) : Nat → Pos → Option α
  | 0, st => k st
  | n + 1, st =>
    if greedy then
      match body (fun st' => if st.pos < st'.pos then starLoop body greedy k n st' else none) st with
      | some r => some r
      | none => k st
    else
      match k st with
      | some r => some r
      | none => body (fun st' => if st.pos < st'.pos then starLoop body greedy k n st' else none) st

/-- Backtracking matcher in continuation-passing style: `re.run k st` is the first success, in
preference order, of `re` read from `st` and followed by `k`. -/
def Re.run {α : Type} : Re → (Pos → Option α) → Pos → Option α
  | .chr p, k, st =>
    match st.rest with
    | [] => none
    | c :: cs => if p c then k { st with prev := some c, pos := st.pos + 1, rest := cs } else none
  | .eps, k, st => k st
  | .seq a b, k, st => a.run (fun st' => b.run k st') st
  | .alt a b, k, st =>
    match a.run k st with
    | some r => some r
    | none => b.run k st
  | .star a g, k, st => starLoop (fun k' st' => a.run k' st') g k st.rest.length st
  | .group i a, k, st =>
    a.run (fun st' => k { st' with caps := (i, st.rest.take (st'.pos - st.pos)) :: st'.caps }) st
  | .bol, k, st => if st.prev = none ∨ st.prev = some '\n' then k st else none
  | .eol, k, st =>
    match st.rest with
    | [] => k st
    | c :: _ => if c = '\n' then k st else none
  | .bot, k, st => if st.prev = none then k st else none
  | .eot, k, st =>
    match st.rest with
    | [] => k st
    | _ :: _ => none

/-- The literal character `c`. -/
def Re.lit (c : Char) : Re := .chr (fun x => x == c)

/-- The literal text `s`. -/
def Re.str : Str → Re
  | [] => .eps
  | [c] => Re.lit c
  | c :: cs => .seq (Re.lit c) (Re.str cs)

/-- One or more: `a+` (greedy) or `a+?` (lazy). -/
def Re.plus (a : Re) (greedy : Bool) : Re := .seq a (.star a greedy)

/-- Zero or one, greedy: `a?`. -/
def Re.opt (a : Re) : Re := .alt a .eps

/-- A match of a pattern: the matched text, the text after it and the capture groups. -/
structure Match where
  text : Str
  after : Str
  caps : List (Nat × Str)

/-- Submatch `i` of a match, `none` when the group took no part in it (index -1 in Go). -/
def Match.group? (m : Match) (i : Nat) : Option Str := m.caps.lookup i

/-- Submatch `i` as `FindStringSubmatch` gives it: the empty string when the group took no
part. -/
def Match.group (m : Match) (i : Nat) : Str := (m.caps.lookup i).getD []

/-- The preferred match of `re` starting exactly at the head of `s`; `prev` is the character
before it. -/
def Re.matchAt (re : Re) (prev : Option Char) (s : Str) : Option Match :=
  (re.run some ⟨prev, 0, s, []⟩).map fun st => ⟨s.take st.pos, st.rest, st.caps⟩

/-- Leftmost search from the head of `s`: the text before the match and the match. -/
def Re.findFrom (re : Re) : Option Char → Str → Option (Str × Match)
  | prev, [] => (re.matchAt prev []).map fun m => ([], m)
  | prev, c :: cs =>
    match re.matchAt prev (c :: cs) with
    | some m => some ([], m)
    | none => (re.findFrom (some c) cs).map fun r => (c :: r.1, r.2)

/-- Go `FindStringSubmatchIndex` / `FindStringSubmatch` on a whole string: the leftmost match,
with the text before it. -/
def Re.find (re : Re) (s : Str) : Option (Str × Match) := re.findFrom none s

/-- Scan of `ReplaceAllStringFunc`: the counter is the number of characters of the current
match still to be skipped. -/
def Re.replaceAux (re : Re) (f : Str → Str) : Nat → Option Char → Str → Str
  | _, _, [] => []
  | skip + 1, _, c :: cs => re.replaceAux f skip (some c) cs
  | 0, prev, c :: cs =>
    match re.matchAt prev (c :: cs) with
    | some m =>
      if m.text.length = 0 then c :: re.replaceAux f 0 (some c) cs
      else f m.text ++ re.replaceAux f (m.text.length - 1) (some c) cs
    | none => c :: re.replaceAux f 0 (some c) cs

/-- Go `re.ReplaceAllStringFunc(s, f)`: every match of `re`, found left to right without
overlap, is replaced by `f` of the matched text.  No pattern of parser.go that is used for
replacement matches the empty string, so the rules of Go for empty matches are not modelled:
an empty match leaves the text as it is. -/
def Re.replaceAllFunc (re : Re) (s : Str) (f : Str → Str) : Str := re.replaceAux f 0 none s

/-- Go `re.ReplaceAllString(s, repl)` for a replacement text without `$`. -/
def Re.replaceAllString (re : Re) (s repl : Str) : Str := re.replaceAllFunc s fun _ => repl

/-- Class `\d`. -/
def isDigit (c : Char) : Bool := decide ('0' ≤ c) && decide (c ≤ '9')

/-- Class `[a-f]`. -/
def isLowerHexLetter (c : Char) : Bool := decide ('a' ≤ c) && decide (c ≤ 'f')

/-- Class `[A-Z]`. -/
def isUpper (c : Char) : Bool := decide ('A' ≤ c) && decide (c ≤ 'Z')

/-- Class `[a-z]`. -/
def isLower (c : Char) : Bool := decide ('a' ≤ c) && decide (c ≤ 'z')

/-- Class `\s` of RE2: tab, line feed, form feed, carriage return, space. -/
def isSpace (c : Char) : Bool :=
  c == '\t' || c == '\n' || c == Char.ofNat 12 || c == '\r' || c == ' '

/-- Class `\w` of RE2. -/
def isWord (c : Char) : Bool := isDigit c || isUpper c || isLower c || c == '_'

/-- Class `.`: any character but the line feed. -/
def isDot (c : Char) : Bool := c != '\n'

/-- Value of a run of decimal digits. -/
def decValue (ds : Str) : Nat := ds.foldl (fun acc c => 10 * acc + (c.toNat - 48)) 0

/-- Value of a hexadecimal digit `0-9`, `a-f`, `A-F`. -/
def hexDigitValue (c : Char) : Nat :=
  if isDigit c then c.toNat - 48 else if isLowerHexLetter c then c.toNat - 87 else c.toNat - 55

/-- Value of a run of hexadecimal digits. -/
def hexValue (ds : Str) : Nat := ds.foldl (fun acc c => 16 * acc + hexDigitValue c) 0

/-- Go `i, _ := strconv.Atoi(ds)` on a non-empty run of decimal digits: the value, or the
largest `int` (64 bits) when the value does not fit, the range error being ignored. -/
def Atoi (ds : Str) : Int := if decValue ds ≤ 2 ^ 63 - 1 then decValue ds else 2 ^ 63 - 1

/-- Go `i, _ := strconv.ParseInt(ds, 16, 32)` on a non-empty run of hexadecimal digits: the
value, or the largest 32-bit integer when it does not fit, the range error being ignored. -/
def ParseIntHex32 (ds : Str) : Int := if hexValue ds ≤ 2 ^ 31 - 1 then hexValue ds else 2 ^ 31 - 1

/-- Go conversion `rune(i)` of an integer to `int32`: the low 32 bits, read as signed. -/
def toRune (i : Int) : Int :=
  if i % 2 ^ 32 < 2 ^ 31 then i % 2 ^ 32 else i % 2 ^ 32 - 2 ^ 32

/-- Go `string(rune(i))`: the one-character string of the code point, or U+FFFD when the rune
is not a valid code point (negative, a surrogate, or above U+10FFFF). -/
def runeString (i : Int) : Str :=
  if 0 ≤ toRune i ∧ ((toRune i).toNat < 0xd800 ∨ (0xdfff < (toRune i).toNat ∧ (toRune i).toNat < 0x110000))
  then [Char.ofNat (toRune i).toNat] else [Char.ofNat 0xfffd]

/-! ## Entity utilities -/

/-- Source: `Escape`. -/
def Escape (text : Str) (inLine : Bool) : Str :=
  let text := replaceAll text "&".toList "&amp;".toList
  let text := replaceAll text "<".toList "&lt;".toList
  let text := replaceAll text ">".toList "&gt;".toList
  if inLine then replaceAll text "\"".toList "&quot;".toList else text

/-- Pattern `&#(\d+);`. -/
def decEntityPat : Re :=
  .seq (Re.str "&#".toList) (.seq (.group 1 (Re.plus (.chr isDigit) true)) (Re.lit ';'))

/-- Pattern `&#x([0-9a-f]+);`. -/
def hexEntityPat : Re :=
  .seq (Re.str "&#x".toList)
    (.seq (.group 1 (Re.plus (.chr fun c => isDigit c || isLowerHexLetter c) true)) (Re.lit ';'))

/-- Pattern `&(amp|#38|#x26);`. -/
def ampEntityPat : Re :=
  .seq (Re.lit '&')
    (.seq (.group 1 (.alt (Re.str "amp".toList) (.alt (Re.str "#38".toList) (Re.str "#x26".toList))))
      (Re.lit ';'))

/-- Submatch 1 of `re.FindStringSubmatch(s)`, as the callbacks of `unescape` read it; `s` is
always a match of `re` there, so the search succeeds. -/
def submatch1 (re : Re) (s : Str) : Str :=
  match re.find s with
  | some r => r.2.group 1
  | none => []

/-- Source: the callback of the decimal pass of `unescape`. -/
def unescapeDec (s : Str) : Str :=
  if submatch1 decEntityPat s = "38".toList then s else runeString (Atoi (submatch1 decEntityPat s))

/-- Source: the callback of the hexadecimal pass of `unescape`. -/
def unescapeHex (s : Str) : Str :=
  if submatch1 hexEntityPat s = "26".toList then s
  else runeString (ParseIntHex32 (submatch1 hexEntityPat s))

/-- Source: `unescape`. -/
def unescape (text : Str) : Str :=
  let text := replaceAll text "&lt;".toList "<".toList
  let text := replaceAll text "&gt;".toList ">".toList
  let text := replaceAll text "&quot;".toList "\"".toList
  let text := decEntityPat.replaceAllFunc text unescapeDec
  let text := hexEntityPat.replaceAllFunc text unescapeHex
  ampEntityPat.replaceAllString text "&".toList

/-! ## Case utilities -/

/-- Go `unicode.ToLower`: on ASCII the fixed rule `A-Z` to `a-z`; on the other code points the
mapping of the Unicode tables, which is the parameter `tbl` of the model. -/
def toLowerRune (tbl : Char → Char) (c : Char) : Char :=
  if c.toNat < 128 then (if isUpper c then Char.ofNat (c.toNat + 32) else c) else tbl c

/-- Go `strings.ToLower` on a valid text: `unicode.ToLower` on every code point. -/
def stringsToLower (tbl : Char → Char) (s : Str) : Str := s.map (toLowerRune tbl)

/-- Go `len(s)`: the number of bytes of the UTF-8 encoding. -/
def byteLen (s : Str) : Nat := (s.map Char.utf8Size).sum

/-- Go `mat[:1]`, the first byte of `mat`, as text.  It is the first character when that is
ASCII.  Otherwise it is the lead byte of a multi-byte code point, which is not text any more:
it is rendered as U+FFFD, the way Go reads such a byte back. -/
def firstByte (mat : Str) : Str :=
  match mat with
  | [] => []
  | c :: _ => if c.toNat < 128 then [c] else [Char.ofNat 0xfffd]

/-- Go `strings.ToLower(mat[1:])`: the lower-cased rest of `mat` after its first byte.  When
the first character is not ASCII, its remaining bytes are each replaced by U+FFFD
(`strings.Map` on invalid UTF-8). -/
def lowerAfterFirstByte (tbl : Char → Char) (mat : Str) : Str :=
  match mat with
  | [] => []
  | c :: cs => List.replicate (c.utf8Size - 1) (Char.ofNat 0xfffd) ++ stringsToLower tbl cs

/-- Pattern `[_-][a-z]`. -/
def camelCasePat : Re := .seq (.chr fun c => c == '_' || c == '-') (.chr isLower)

/-- Pattern `.[A-Z]+`. -/
def paramCasePat : Re := .seq (.chr isDot) (Re.plus (.chr isUpper) true)

/-- Pattern `.[A-Z]`. -/
def snakeCasePat : Re := .seq (.chr isDot) (.chr isUpper)

/-- Source: `uncapitalize`. -/
def uncapitalize (tbl : Char → Char) (source : Str) : Str :=
  match source with
  | [] => []
  | r :: rest => toLowerRune tbl r :: rest

/-- Source: `camelCase`.  A match is a separator followed by one letter `a-z`, so `mat[1:]`
is that letter and `strings.ToUpper` acts on ASCII. -/
def camelCase (source : Str) : Str :=
  camelCasePat.replaceAllFunc source fun mat =>
    if byteLen mat < 2 then mat else (mat.drop 1).map Char.toUpper

/-- Source: `ParamCase`. -/
def ParamCase (tbl : Char → Char) (source : Str) : Str :=
  let source := replaceAll (uncapitalize tbl source) "_".toList "-".toList
  paramCasePat.replaceAllFunc source fun mat =>
    if byteLen mat < 2 then mat else firstByte mat ++ "-".toList ++ lowerAfterFirstByte tbl mat

/-- Source: `SnakeCase`. -/
def SnakeCase (tbl : Char → Char) (source : Str) : Str :=
  let source := replaceAll (uncapitalize tbl source) "-".toList "_".toList
  snakeCasePat.replaceAllFunc source fun mat =>
    if byteLen mat < 2 then mat else firstByte mat ++ "_".toList ++ lowerAfterFirstByte tbl mat

/-! ## Dynamic values and elements -/

/-- A Go `float64` by its value: a NaN, an infinity, the negative zero, or a finite number;
`fin 0` is the positive zero.  The finite values of a `float64` are rationals; which rationals
they are does not matter to parser.go, which gets its floats from the library (`GoLib`). -/
inductive F64 where
  | nan
  | posInf
  | negInf
  | negZero
  | fin (q : ℚ)
deriving DecidableEq

/-- The number a finite `float64` or a zero stands for; 0 for a NaN and the infinities. -/
def F64.val : F64 → ℚ
  | .fin q => q
  | _ => 0

/-- Go `f == 0` on a `float64`: both zeros. -/
def F64.isZero : F64 → Bool
  | .fin q => q = 0
  | .negZero => true
  | _ => false

/-- Go `a < b` on `float64`: false when either side is a NaN, the zeros are equal. -/
def F64.lt : F64 → F64 → Bool
  | .nan, _ => false
  | _, .nan => false
  | .negInf, .negInf => false
  | .negInf, _ => true
  | _, .negInf => false
  | .posInf, _ => false
  | _, .posInf => true
  | a, b => a.val < b.val

/-- Go `a == b` on `float64`: a NaN equals nothing, the zeros are equal. -/
def F64.eq : F64 → F64 → Bool
  | .nan, _ => false
  | _, .nan => false
  | .posInf, b => b = .posInf
  | .negInf, b => b = .negInf
  | _, .posInf => false
  | _, .negInf => false
  | a, b => a.val = b.val

/-- Go `-f` on a `float64`. -/
def F64.neg : F64 → F64
  | .nan => .nan
  | .posInf => .negInf
  | .negInf => .posInf
  | .negZero => .fin 0
  | .fin q => if q = 0 then .negZero else .fin (-q)

/-- The number of binary digits of `n`, by halving at most `fuel` times; `bitLength n n` is
the length of `n`. -/
def bitLength : Nat → Nat → Nat
  | 0, _ => 0
  | fuel + 1, n => if n = 0 then 0 else bitLength fuel (n / 2) + 1

/-- The natural number nearest to `n` that has at most 53 significant bits, ties to the even
mantissa: the rounding of the conversion of an integer to `float64`. -/
def roundNat53 (n : Nat) : Nat :=
  let len := bitLength n n
  if len ≤ 53 then n
  else
    let s := len - 53
    let q := n / 2 ^ s
    let r := n % 2 ^ s
    let half := 2 ^ (s - 1)
    (if r > half ∨ (r = half ∧ q % 2 = 1) then q + 1 else q) * 2 ^ s

/-- Go conversion `float64(i)` of an `int` or `int64`. -/
def float64OfInt (i : Int) : F64 :=
  .fin (if i < 0 then -((roundNat53 (-i).toNat : Nat) : ℚ) else ((roundNat53 i.toNat : Nat) : ℚ))

mutual
/-- A Go value of type `any`, as far as parser.go tells values apart: `nil`, a `bool`, a
`string`, an `int`, an `int64`, a `float64`, a slice `[]any`, a map `map[string]any`, a
non-nil `*Element`, or the nil `*string` that the field `Source` of an element holds.  A
`float64` carries the text that `fmt.Sprint` prints for it. -/
inductive Value where
  | nil
  | bool (b : Bool)
  | str (s : Str)
  | int (i : Int)
  | list (vs : List Value)
  | dict (kvs : List (Str × Value))
  | elem (e : Element)
  | int64 (i : Int)
  | float (f : F64) (text : Str)
  | nilPtr
/-- Source: `Element` (a non-nil `*Element`): its `Type`, its `Attrs` and its `Children`.  The
field `Source` is never read or written by parser.go and is left out, and the children are
non-nil, as `NewElement` builds them. -/
inductive Element where
  | mk (type : Str) (attrs : List (Str × Value)) (children : List Element)
end

/-- The field `Type`. -/
def Element.type : Element → Str
  | .mk t _ _ => t

/-- The field `Attrs`. -/
def Element.attrs : Element → List (Str × Value)
  | .mk _ a _ => a

/-- The field `Children`. -/
def Element.children : Element → List Element
  | .mk _ _ c => c

/-- Test `value == nil` on an `any`. -/
def Value.isNil : Value → Bool
  | .nil => true
  | _ => false

/-- Map read `m[k]` with its presence flag. -/
def mapGet (m : List (Str × Value)) (k : Str) : Option Value := m.lookup k

/-- Map write `m[k] = v`: the value of an existing key is replaced, a new key is added. -/
def mapSet : List (Str × Value) → Str → Value → List (Str × Value)
  | [], k, v => [(k, v)]
  | (k', v') :: m, k, v => if k' = k then (k, v) :: m else (k', v') :: mapSet m k v

/-- Map removal `delete(m, k)`. -/
def mapDelete (m : List (Str × Value)) (k : Str) : List (Str × Value) :=
  m.filter fun kv => kv.1 != k

/-- Byte order of Go strings, which is the lexicographic order of the code points: `a < b`. -/
def strLt : Str → Str → Bool
  | [], [] => false
  | [], _ :: _ => true
  | _ :: _, [] => false
  | a :: as, b :: bs => decide (a < b) || (a == b && strLt as bs)

/-- Order `a <= b` of Go strings. -/
def strLe (a b : Str) : Bool := !strLt b a

/-- Insertion of a string into an ascending list. -/
def insertString (k : Str) : List Str → List Str
  | [] => [k]
  | x :: xs => if strLe k x then k :: x :: xs else x :: insertString k xs

/-- Go `sort.Strings`: the strings in ascending order. -/
def sortStrings : List Str → List Str
  | [] => []
  | k :: ks => insertString k (sortStrings ks)

/-- Name of the dynamic type of a non-nil value as `reflect` reports it once pointers are
followed: slices and maps are unnamed types. -/
def typeName : Value → Str
  | .nil => []
  | .bool _ => "bool".toList
  | .str _ => "string".toList
  | .int _ => "int".toList
  | .list _ => []
  | .dict _ => []
  | .elem _ => "Element".toList
  | .int64 _ => "int64".toList
  | .float _ _ => "float64".toList
  | .nilPtr => "string".toList

/-- Source: `Element.Tag`. -/
def Element.Tag (e : Element) : Str :=
  if e.type ≠ "component".toList then e.type
  else
    match mapGet e.attrs "is".toList with
    | none => "component".toList
    | some v =>
      if v.isNil then "component".toList
      else if typeName v ≠ [] then typeName v else "component".toList

/-- Source: one round of the loop of `Element.attributes`, for the key `key` bound to a value
whose `fmt.Sprint` text is `text`. -/
def attributeText (tbl : Char → Char) (key : Str) (value : Value) (text : Str) : Str :=
  match value with
  | .nil => []
  | .bool true => " ".toList ++ ParamCase tbl key
  | .bool false => " no-".toList ++ ParamCase tbl key
  | _ => " ".toList ++ ParamCase tbl key ++ "=\"".toList ++ Escape text true ++ "\"".toList

/-- Decimal text of an `int`, as `fmt.Sprint` prints it. -/
def intText (i : Int) : Str := (toString i).toList

/-- Text of a `bool`, as `fmt.Sprint` prints it. -/
def boolText (b : Bool) : Str := if b then "true".toList else "false".toList

/-- Texts of a sorted association list, looked up by key. -/
def textOf (table : List (Str × Str)) (k : Str) : Str := (table.lookup k).getD []

/-- Assembly of a tag by `Element.dumps(false)` from the tag name, the attribute text, the
presence of children and their rendering. -/
def tagText (tag attrs : Str) (noChildren : Bool) (inner : Str) : Str :=
  if noChildren then "<".toList ++ tag ++ attrs ++ "/>".toList
  else "<".toList ++ tag ++ attrs ++ ">".toList ++ inner ++ "</".toList ++ tag ++ ">".toList

mutual
/-- Go `fmt.Sprint(v)` on a dynamic value.  A `*Element` prints through its `String` method. -/
def Sprint (tbl : Char → Char) : Value → Str
  | .nil => "<nil>".toList
  | .bool b => boolText b
  | .str s => s
  | .int i => intText i
  | .list vs => "[".toList ++ stringsJoin " ".toList (sprintList tbl vs) ++ "]".toList
  | .dict kvs =>
    "map[".toList
      ++ stringsJoin " ".toList
          ((sortStrings (kvs.map Prod.fst)).map fun k =>
            k ++ ":".toList ++ textOf (sprintDict tbl kvs) k)
      ++ "]".toList
  | .elem e => dumps tbl false e
  | .int64 i => intText i
  | .float _ text => text
  | .nilPtr => "<nil>".toList
/-- The `fmt.Sprint` texts of the items of a slice. -/
def sprintList (tbl : Char → Char) : List Value → List Str
  | [] => []
  | v :: vs => Sprint tbl v :: sprintList tbl vs
/-- The `fmt.Sprint` texts of the values of a map, by key. -/
def sprintDict (tbl : Char → Char) : List (Str × Value) → List (Str × Str)
  | [] => []
  | (k, v) :: kvs => (k, Sprint tbl v) :: sprintDict tbl kvs
/-- Source: `Element.dumps`.  The values of `Attrs` are printed first (`sprintDict`) and read
back by key, which is the map lookup of the source followed by `fmt.Sprint`. -/
def dumps (tbl : Char → Char) (strip : Bool) : Element → Str
  | .mk type attrs children =>
    if type = "text".toList then
      let text :=
        match mapGet attrs "text".toList with
        | none => []
        | some v => if v.isNil then [] else textOf (sprintDict tbl attrs) "text".toList
      if strip then text else Escape text false
    else
      let inner := dumpsList tbl strip children
      if strip then inner
      else
        let attrText :=
          if attrs.length = 0 then []
          else
            (sortStrings (attrs.map Prod.fst)).flatMap fun key =>
              match mapGet attrs key with
              | none => []
              | some v => attributeText tbl key v (textOf (sprintDict tbl attrs) key)
        tagText (Element.mk type attrs children).Tag attrText (children.length = 0) inner
/-- The loop of `Element.dumps` over the children. -/
def dumpsList (tbl : Char → Char) (strip : Bool) : List Element → Str
  | [] => []
  | c :: cs => dumps tbl strip c ++ dumpsList tbl strip cs
end

/-- Source: `Element.attributes`. -/
def Element.attributes (tbl : Char → Char) (e : Element) : Str :=
  if e.attrs.length = 0 then []
  else
    (sortStrings (e.attrs.map Prod.fst)).flatMap fun key =>
      match mapGet e.attrs key with
      | none => []
      | some v => attributeText tbl key v (Sprint tbl v)

/-- Source: `Element.String`. -/
def Element.String (tbl : Char → Char) (e : Element) : Str := dumps tbl false e

/-! ## Construction of elements -/

/-- Source: `ensureList`. -/
def ensureList : Value → List Value
  | .nil => []
  | .nilPtr => []
  | .list vs => vs
  | v => [v]

/-- The element `NewElement("text", map[string]any{"text": v})` for a non-nil `v`, which is
what `makeElement` builds (see `NewElement_text`). -/
def textElement (v : Value) : Element := .mk "text".toList [("text".toList, v)] []

/-- Source: `makeElement`; `none` is the nil pointer.  `fmt.Sprint` of a `bool` or an integer is
`boolText` or `intText`, that of a `float64` is the text it carries. -/
def makeElement : Value → Option Element
  | .nil => none
  | .elem e => some e
  | .bool b => some (textElement (.str (boolText b)))
  | .int i => some (textElement (.str (intText i)))
  | .int64 i => some (textElement (.str (intText i)))
  | .float _ text => some (textElement (.str text))
  | .str s => if s ≠ [] then some (textElement (.str s)) else none
  | _ => none

/-- Source: `makeElements`. -/
def makeElements (content : Value) : List Element :=
  (ensureList content).filterMap makeElement

/-- Source: the first loop of `NewElement`, over the entries of `attrs` in the iteration order
of the map, on the pair of `e.Attrs` and `e.Children`. -/
def newElementAttrs :
    List (Str × Value) → List (Str × Value) × List Element → List (Str × Value) × List Element
  | [], acc => acc
  | (k, v) :: rest, acc =>
    if v.isNil then newElementAttrs rest acc
    else if k = "children".toList then newElementAttrs rest (acc.1, acc.2 ++ makeElements v)
    else newElementAttrs rest (mapSet acc.1 (camelCase k) v, acc.2)

/-- Source: `NewElement(typ, attrs, children...)`.  The list `attrs` stands for the map in its
iteration order, which matters only when two keys have the same camel case. -/
def NewElement (typ : Value) (attrs : List (Str × Value)) (children : List Value) : Element :=
  let acc := newElementAttrs attrs ([], [])
  let kids := acc.2 ++ children.flatMap makeElements
  let e : Element :=
    match typ with
    | .str s => .mk s acc.1 kids
    | _ => .mk "component".toList (mapSet acc.1 "is".toList typ) kids
  if e.Tag = "text".toList then
    match mapGet e.attrs "content".toList with
    | some content =>
      .mk e.type (mapSet (mapDelete e.attrs "content".toList) "text".toList content) e.children
    | none =>
      if e.attrs.length = 0 then .mk e.type (mapSet e.attrs "text".toList (.str [])) e.children
      else e
  else e

/-! ## Tokens -/

/-- Source: `Position`. -/
inductive Position where
  | Open
  | Close
  | Empty
  | Continue
deriving DecidableEq

mutual
/-- An item of a token list `[]any`: a text run or a non-nil `*Token`.  Items of any other
dynamic type are skipped by `foldToken` and `parseTokens` and are not represented. -/
inductive Item where
  | text (s : Str)
  | tok (t : Token)
/-- Source: `Token`.  A nil `Children` map reads as the empty map everywhere in parser.go, so
it is the empty list. -/
inductive Token where
  | mk (kind name : Str) (position : Position) (source extra : Str)
      (children : List (Str × List Item))
end

/-- The field `Kind`, `"angle"` or `"curly"`. -/
def Token.kind : Token → Str
  | .mk k _ _ _ _ _ => k

/-- The field `Name`. -/
def Token.name : Token → Str
  | .mk _ n _ _ _ _ => n

/-- The field `Position`. -/
def Token.position : Token → Position
  | .mk _ _ p _ _ _ => p

/-- The field `Extra`. -/
def Token.extra : Token → Str
  | .mk _ _ _ _ e _ => e

/-- The field `Children`. -/
def Token.children : Token → List (Str × List Item)
  | .mk _ _ _ _ _ c => c

/-- A token with its `Children` map replaced. -/
def Token.withChildren : Token → List (Str × List Item) → Token
  | .mk k n p s e _, c => .mk k n p s e c

/-- Write `m[k] = v` on a children map. -/
def slotSet : List (Str × List Item) → Str → List Item → List (Str × List Item)
  | [], k, v => [(k, v)]
  | (k', v') :: m, k, v => if k' = k then (k, v) :: m else (k', v') :: slotSet m k v

/-- Read `m[k]` on a children map: the nil slice when the key is absent. -/
def slotGet (m : List (Str × List Item)) (k : Str) : List Item := (m.lookup k).getD []

/-- Source: `stackItem`, with the token held by value: the children collected so far are in
`token`. -/
structure StackItem where
  token : Token
  slot : Str

/-- Source: `pushToken` inside `foldToken`, on the top frame. -/
def StackItem.push (top : StackItem) (values : List Item) : StackItem :=
  ⟨top.token.withChildren
      (slotSet top.token.children top.slot (slotGet top.token.children top.slot ++ values)),
    top.slot⟩

/-- Source: the loop of `foldToken`, on the top frame and the frames below it.  In the source
an Open token enters the slot of its parent at once and is filled through its pointer; here
the frame is added to the slot of its parent when it leaves the stack, the slot of the parent
being untouched in between. -/
def foldLoop : List Item → StackItem → List StackItem → StackItem × List StackItem
  | [], top, below => (top, below)
  | .text s :: rest, top, below => foldLoop rest (top.push [.text s]) below
  | .tok t :: rest, top, below =>
    match t.position with
    | .Close =>
      match below with
      | parent :: below' =>
        if top.token.name = t.name then foldLoop rest (parent.push [.tok top.token]) below'
        else foldLoop rest top below
      | [] => foldLoop rest top below
    | .Continue =>
      foldLoop rest ⟨top.token.withChildren (slotSet top.token.children t.name []), t.name⟩ below
    | .Open =>
      foldLoop rest ⟨t.withChildren [("default".toList, [])], "default".toList⟩ (top :: below)
    | .Empty => foldLoop rest (top.push [.tok t]) below

/-- The frames still open at the end of `foldToken` stay where they entered their parents. -/
def foldClose : StackItem → List StackItem → Token
  | top, [] => top.token
  | top, parent :: below => foldClose (parent.push [.tok top.token]) below

/-- Source: `foldToken`. -/
def foldToken (tokens : List Item) : List Item :=
  let root : StackItem :=
    ⟨.mk "angle".toList "template".toList .Open [] [] [("default".toList, [])], "default".toList⟩
  let r := foldLoop tokens root []
  slotGet (foldClose r.1 r.2).children "default".toList

/-- Source: the loop of `foldToken` on an arbitrary stack, the top frame first; `none` is the
run-time panic of `stack[len(stack)-1]` on an empty stack.  A Close token reads the top frame
only when `len(stack) > 1`.  On a non-empty stack this is `foldLoop` (see `foldStack_cons`). -/
def foldStack : List Item → List StackItem → Option (List StackItem)
  | [], stack => some stack
  | .text s :: rest, stack =>
    match stack with
    | top :: below => foldStack rest (top.push [.text s] :: below)
    | [] => none
  | .tok t :: rest, stack =>
    match t.position with
    | .Close =>
      match stack with
      | top :: parent :: below =>
        if top.token.name = t.name then foldStack rest (parent.push [.tok top.token] :: below)
        else foldStack rest stack
      | _ => foldStack rest stack
    | .Continue =>
      match stack with
      | top :: below =>
        foldStack rest
          (⟨top.token.withChildren (slotSet top.token.children t.name []), t.name⟩ :: below)
      | [] => none
    | .Open =>
      match stack with
      | top :: below =>
        foldStack rest
          (⟨t.withChildren [("default".toList, [])], "default".toList⟩ :: top :: below)
      | [] => none
    | .Empty =>
      match stack with
      | top :: below => foldStack rest (top.push [.tok t] :: below)
      | [] => none

/-! ## Tokenizer -/

/-- Class `[\s\S]`: every character. -/
def isAny (_ : Char) : Bool := true

/-- Class `[^!\s>/]`. -/
def isNameChar (c : Char) : Bool := !(c == '!' || isSpace c || c == '>' || c == '/')

/-- Class `[^>]`. -/
def isNotGt (c : Char) : Bool := c != '>'

/-- Class `[@:/#]`. -/
def isDirectiveMark (c : Char) : Bool := c == '@' || c == ':' || c == '/' || c == '#'

/-- Class `[^\s\}]`. -/
def isNotSpaceBrace (c : Char) : Bool := !(isSpace c || c == Char.ofNat 125)

/-- Class `[^\}]`. -/
def isNotBrace (c : Char) : Bool := c != Char.ofNat 125

/-- Class `[^\s=]`. -/
def isKeyChar (c : Char) : Bool := !(isSpace c || c == '=')

/-- Class `[^"]`. -/
def isNotDQuote (c : Char) : Bool := c != Char.ofNat 34

/-- Class `[^']`. -/
def isNotSQuote (c : Char) : Bool := c != Char.ofNat 39

/-- Alternative `(<!--[\s\S]*?-->)` of the tag patterns. -/
def commentPat : Re :=
  .group 1 (.seq (Re.str "<!--".toList) (.seq (.star (.chr isAny) false) (Re.str "-->".toList)))

/-- Alternative `(<(/?)([^!\s>/]*)([^>]*?)\s*(/?)>)` of the tag patterns. -/
def anglePat : Re :=
  .group 2
    (.seq (Re.lit '<')
      (.seq (.group 3 (Re.opt (Re.lit '/')))
        (.seq (.group 4 (.star (.chr isNameChar) true))
          (.seq (.group 5 (.star (.chr isNotGt) false))
            (.seq (.star (.chr isSpace) true)
              (.seq (.group 6 (Re.opt (Re.lit '/'))) (Re.lit '>')))))))

/-- Alternative `(\{([@:/#][^\s\}]*)?[\s\S]*?\})` of `tagPat2`. -/
def curlyPat : Re :=
  .group 7
    (.seq (Re.lit (Char.ofNat 123))
      (.seq (Re.opt (.group 8 (.seq (.chr isDirectiveMark) (.star (.chr isNotSpaceBrace) true))))
        (.seq (.star (.chr isAny) false) (Re.lit (Char.ofNat 125)))))

/-- Pattern `tagPat1`. -/
def tagPat1 : Re := .alt commentPat anglePat

/-- Pattern `tagPat2`. -/
def tagPat2 : Re := .alt commentPat (.alt anglePat curlyPat)

/-- Part `="([^"]*)"` of the attribute patterns. -/
def dquotedPat : Re :=
  .seq (Re.str [Char.ofNat 61, Char.ofNat 34])
    (.seq (.group 2 (.star (.chr isNotDQuote) true)) (Re.lit (Char.ofNat 34)))

/-- Part `='([^']*)'` of the attribute patterns. -/
def squotedPat : Re :=
  .seq (Re.str [Char.ofNat 61, Char.ofNat 39])
    (.seq (.group 3 (.star (.chr isNotSQuote) true)) (Re.lit (Char.ofNat 39)))

/-- Part `=\{([^\}]+)\}` of `attrPat2`. -/
def bracedPat : Re :=
  .seq (Re.str [Char.ofNat 61, Char.ofNat 123])
    (.seq (.group 4 (Re.plus (.chr isNotBrace) true)) (Re.lit (Char.ofNat 125)))

/-- Pattern `attrPat1`: `([^\s=]+)(?:="([^"]*)"|='([^']*)')?`. -/
def attrPat1 : Re :=
  .seq (.group 1 (Re.plus (.chr isKeyChar) true)) (Re.opt (.alt dquotedPat squotedPat))

/-- Pattern `attrPat2`: `([^\s=]+)(?:="([^"]*)"|='([^']*)'|=\{([^\}]+)\})?`. -/
def attrPat2 : Re :=
  .seq (.group 1 (Re.plus (.chr isKeyChar) true))
    (Re.opt (.alt dquotedPat (.alt squotedPat bracedPat)))

/-- Pattern `trimStartPat`: `(?m)^\s*\n\s*`. -/
def trimStartPat : Re :=
  .seq .bol (.seq (.star (.chr isSpace) true) (.seq (Re.lit '\n') (.star (.chr isSpace) true)))

/-- Pattern `trimEndPat`: `(?m)\s*\n\s*$`. -/
def trimEndPat : Re :=
  .seq (.star (.chr isSpace) true) (.seq (Re.lit '\n') (.seq (.star (.chr isSpace) true) .eol))

/-- Pattern `eachSplitPat`: `\s+as\s+`. -/
def eachSplitPat : Re :=
  .seq (Re.plus (.chr isSpace) true) (.seq (Re.str "as".toList) (Re.plus (.chr isSpace) true))

/-- Source: `pushText` and `parseContent` inside `Parse`: the text run that the content adds
to the token list, if any. -/
def parseContent (content : Str) (stripStart stripEnd : Bool) : List Item :=
  let content := unescape content
  let content := if stripStart then trimStartPat.replaceAllString content [] else content
  let content := if stripEnd then trimEndPat.replaceAllString content [] else content
  if content ≠ [] then [.text content] else []

/-- Source: the directive token that `Parse` builds from the submatches 7 (`curly`) and 8
(`derivative`).  The byte offsets of the source fall between characters, so the slice
`curly[1+len(derivative) : len(curly)-1]` is taken by characters. -/
def curlyToken (curly derivative : Str) : Token :=
  let name := derivative.drop 1
  let position : Position :=
    match derivative.head? with
    | some '#' => .Open
    | some '/' => .Close
    | some ':' => .Continue
    | _ => .Empty
  let extra :=
    if curly.length - 1 ≥ 1 + derivative.length then
      (curly.take (curly.length - 1)).drop (1 + derivative.length)
    else []
  .mk "curly".toList name position curly extra []

/-- Source: the tag token that `Parse` builds from the submatches 3 to 6 and the whole match. -/
def angleToken (whole closeTag typeName extra selfClose : Str) : Token :=
  let typeName := if typeName = [] then "template".toList else typeName
  let position : Position :=
    if closeTag ≠ [] then .Close else if selfClose ≠ [] then .Empty else .Open
  .mk "angle".toList typeName position whole extra []

/-- Source: the token that one round of the loop of `Parse` appends for the match `m`: none
for a comment (submatch 1), a directive token for submatch 7, a tag token otherwise. -/
def matchTokens (m : Match) : List Item :=
  if m.group 1 ≠ [] then []
  else if m.group 7 ≠ [] then [.tok (curlyToken (m.group 7) (m.group 8))]
  else [.tok (angleToken m.text (m.group 3) (m.group 4) (m.group 5) (m.group 6))]

/-- Source: the loop of `Parse`, on the rest of the source and the flag `stripStart`; the
result is the list `tokens`, final call of `parseContent` included.  Every round removes a
non-empty match from the source, so `fuel` larger than the length of the source is never
used up. -/
def tokenLoop (tagPat : Re) : Nat → Str → Bool → List Item
  | 0, source, stripStart => parseContent source stripStart true
  | fuel + 1, source, stripStart =>
    match tagPat.find source with
    | none => parseContent source stripStart true
    | some (before, m) =>
      parseContent before stripStart (decide (m.group 7 = [])) ++ matchTokens m
        ++ tokenLoop tagPat fuel m.after (decide (m.group 7 = []))

/-! ## Template evaluation -/

/-- The expression evaluator as `parseTokens` uses it: the functions `evaluate` and
`interpolate` of parser.go, on an expression text and a non-nil context. -/
structure Evaluator where
  evaluate : Str → List (Str × Value) → Value
  interpolate : Str → List (Str × Value) → Value

/-- Source: `ensureContext`; `none` is the nil map. -/
def ensureContext (context : Option (List (Str × Value))) : List (Str × Value) :=
  context.getD []

/-- Source: `truthy`. -/
def truthy : Value → Bool
  | .nil => false
  | .bool b => b
  | .str s => s ≠ []
  | .int i => i ≠ 0
  | .list vs => vs.length > 0
  | .dict kvs => kvs.length > 0
  | .elem _ => true
  | .int64 i => i ≠ 0
  | .float f _ => !f.isZero
  | .nilPtr => false

/-- Source: `isIterable`. -/
def isIterable : Value → Bool
  | .list _ => true
  | .dict _ => true
  | .str _ => true
  | _ => false

/-- Source: `iterate`: the items of a slice, the keys of a map in ascending order of their
text, the code points of a string. -/
def iterate : Value → List Value
  | .list vs => vs
  | .dict kvs => (sortStrings (kvs.map Prod.fst)).map Value.str
  | .str s => s.map fun r => Value.str [r]
  | _ => []

/-- Go `unicode.IsSpace`. -/
def isUnicodeSpace (c : Char) : Bool :=
  (9 ≤ c.toNat && c.toNat ≤ 13) || c.toNat == 32 || c.toNat == 0x85 || c.toNat == 0xa0
    || c.toNat == 0x1680 || (0x2000 ≤ c.toNat && c.toNat ≤ 0x200a) || c.toNat == 0x2028
    || c.toNat == 0x2029 || c.toNat == 0x202f || c.toNat == 0x205f || c.toNat == 0x3000

/-- Go `strings.TrimSpace`. -/
def trimSpace (s : Str) : Str :=
  ((s.dropWhile isUnicodeSpace).reverse.dropWhile isUnicodeSpace).reverse

/-- Source: the body of the attribute loop of `parseTokens`: the key and the value that one
match `m` of the attribute pattern binds (`attrs[key] = value`).  Submatch 2 is the value in
double quotes, 3 the value in single quotes, 4 the expression in braces (`attrPat2` only). -/
def attrBinding (ev : Evaluator) (context : Option (List (Str × Value))) (m : Match) :
    Str × Value :=
  let key := m.group 1
  match context, m.group? 4 with
  | some ctx, some (c :: curly) => (key, ev.interpolate (c :: curly) ctx)
  | _, _ =>
    match m.group? 3 with
    | some value2 => (key, .str (unescape value2))
    | none =>
      match m.group? 2 with
      | some value1 => (key, .str (unescape value1))
      | none =>
        if hasPrefix key "no-".toList then (key.drop 3, .bool false) else (key, .bool true)

/-- Source: the attribute loop of `parseTokens` for a tag token, on the rest of `extra` and
the map `attrs` built so far.  Every round removes a non-empty match, so `fuel` larger than
the length of `extra` is never used up. -/
def parseAttrsLoop (ev : Evaluator) (context : Option (List (Str × Value))) :
    Nat → Str → List (Str × Value) → List (Str × Value)
  | 0, _, attrs => attrs
  | fuel + 1, extra, attrs =>
    match (if context.isSome then attrPat2 else attrPat1).find extra with
    | none => attrs
    | some (_, m) =>
      parseAttrsLoop ev context fuel m.after
        (mapSet attrs (attrBinding ev context m).1 (attrBinding ev context m).2)

/-- Source: the map `attrs` that `parseTokens` builds from the attribute text `extra` of a
tag token. -/
def parseAttrs (ev : Evaluator) (context : Option (List (Str × Value))) (extra : Str) :
    List (Str × Value) :=
  parseAttrsLoop ev context (extra.length + 1) extra []

mutual
/-- Source: `parseTokens`. -/
def parseTokens (ev : Evaluator) : List Item → Option (List (Str × Value)) → List Element
  | [], _ => []
  | .text s :: rest, context =>
    NewElement (.str "text".toList) [("text".toList, .str s)] [] :: parseTokens ev rest context
  | .tok t :: rest, context => parseToken ev t context ++ parseTokens ev rest context
/-- Source: one round of the loop of `parseTokens`, for a token. -/
def parseToken (ev : Evaluator) : Token → Option (List (Str × Value)) → List Element
  | .mk kind name _ _ extra children, context =>
    if kind = "angle".toList then
      let attrs := parseAttrs ev context extra
      let kids := parseSlot ev "default".toList children context
      [NewElement (.str name) attrs [.list (kids.map Value.elem)]]
    else
      let ctx := ensureContext context
      if name = [] then makeElements (ev.interpolate extra ctx)
      else if name = "if".toList then
        if truthy (ev.evaluate extra ctx) then parseSlot ev "default".toList children (some ctx)
        else parseSlot ev "else".toList children (some ctx)
      else if name = "each".toList then
        match eachSplitPat.find extra with
        | none => []
        | some (before, m) =>
          let items := ev.interpolate (trimSpace before) ctx
          if isIterable items then
            (iterate items).flatMap fun item =>
              parseSlot ev "default".toList children (some (mapSet ctx (trimSpace m.after) item))
          else []
      else []
/-- The call `parseTokens(token.Children[slot], context)`. -/
def parseSlot (ev : Evaluator) (slot : Str) :
    List (Str × List Item) → Option (List (Str × Value)) → List Element
  | [], _ => []
  | (k, items) :: rest, context =>
    if k = slot then parseTokens ev items context else parseSlot ev slot rest context
end

/-- Source: `Parse`. -/
def Parse (ev : Evaluator) (source : Str) (context : Option (List (Str × Value))) :
    List Element :=
  let tagPat := if context.isSome then tagPat2 else tagPat1
  parseTokens ev (foldToken (tokenLoop tagPat (source.length + 1) source true)) context

/-! ## Expression evaluator -/

/-- Go `token.Token`, as far as `evalAST` and `applyBinary` tell operators apart. -/
inductive Op where
  | LAND | LOR | EQL | NEQ | GTR | GEQ | LSS | LEQ | ADD | SUB | MUL | QUO | REM | NOT | other
deriving DecidableEq

/-- Go `token.Token` of a basic literal. -/
inductive LitKind where
  | INT | FLOAT | IMAG | CHAR | STRING
deriving DecidableEq

/-- Go `ast.Expr`, as far as `evalAST` tells nodes apart; `other` is every node type that
`evalAST` has no case for (calls, composite literals, slices, ...). -/
inductive Expr where
  | basicLit (kind : LitKind) (value : Str)
  | ident (name : Str)
  | paren (x : Expr)
  | unary (op : Op) (x : Expr)
  | binary (x : Expr) (op : Op) (y : Expr)
  | selector (x : Expr) (sel : Str)
  | index (x : Expr) (index : Expr)
  | other

/-- The library functions that the expression evaluator calls and that are not modelled here:
`go/parser.ParseExpr` (`none` is a syntax error), `strconv.ParseInt(s, 0, 64)`,
`strconv.ParseFloat(s, 64)`, `strconv.Unquote`, the `%v` format of a `float64`, the arithmetic
of `float64`, and the Unicode lower-case table that `fmt.Sprint` of an element needs (see
`toLowerRune`). -/
structure GoLib where
  parseExpr : Str → Option Expr
  parseIntLit : Str → Option Int
  parseFloat : Str → Option F64
  unquote : Str → Option Str
  formatFloat : F64 → Str
  fadd : F64 → F64 → F64
  fsub : F64 → F64 → F64
  fmul : F64 → F64 → F64
  fdiv : F64 → F64 → F64
  lower : Char → Char

/-- A `float64` as a value of type `any`, with its `fmt.Sprint` text. -/
def mkFloat (lib : GoLib) (f : F64) : Value := .float f (lib.formatFloat f)

/-- Go `strconv.ParseInt(s, 10, 64)`; `none` is an error (syntax or range). -/
def parseInt10 (s : Str) : Option Int :=
  let neg := decide (s.head? = some '-')
  let ds := if s.head? = some '+' ∨ s.head? = some '-' then s.drop 1 else s
  if ds ≠ [] ∧ ds.all isDigit = true then
    if neg then (if decValue ds ≤ 2 ^ 63 then some (-(decValue ds : Int)) else none)
    else (if decValue ds < 2 ^ 63 then some (decValue ds : Int) else none)
  else none

/-- Source: `asFloat`, on the dynamic types of the model. -/
def asFloat (lib : GoLib) : Value → Option F64
  | .float f _ => some f
  | .int i => some (float64OfInt i)
  | .int64 i => some (float64OfInt i)
  | .str s => lib.parseFloat s
  | _ => none

/-- Source: `asInt`, on the dynamic types of the model. -/
def asInt : Value → Option Int
  | .int i => some i
  | .int64 i => some i
  | .str s => parseInt10 s
  | _ => none

/-- Source: `compare`; `none` is the result `(0, false)`. -/
def compare (lib : GoLib) (left right : Value) : Option Int :=
  match asFloat lib left with
  | some lf =>
    match asFloat lib right with
    | none => none
    | some rf => some (if lf.lt rf then -1 else if rf.lt lf then 1 else 0)
  | none =>
    match left, right with
    | .str ls, .str rs => some (if strLt ls rs then -1 else if strLt rs ls then 1 else 0)
    | .bool lb, .bool rb =>
      some (if lb.toNat < rb.toNat then -1 else if lb.toNat > rb.toNat then 1 else 0)
    | _, _ => none

/-- Go `reflect` conversion of an integer to `string` (`cvtIntString`): the code point as a
one-character string, U+FFFD when the integer is not a valid rune. -/
def intKeyString (i : Int) : Str := if toRune i = i then runeString i else [Char.ofNat 0xfffd]

/-- Source: `indexValue`; `none` is the result `(nil, false)`.  A map of the model has string
keys, so an index is used as it is when it is a string and converted when it is an integer. -/
def indexValue (base index : Value) : Option Value :=
  match base with
  | .list vs =>
    match asInt index with
    | none => none
    | some i => if i < 0 ∨ (vs.length : Int) ≤ i then none else vs.get? i.toNat
  | .str s =>
    match asInt index with
    | none => none
    | some i =>
      if i < 0 then none
      else if (s.length : Int) ≤ i then none
      else (s.get? i.toNat).map fun r => Value.str [r]
  | .dict kvs =>
    match index with
    | .str k => mapGet kvs k
    | .int i => mapGet kvs (intKeyString i)
    | .int64 i => mapGet kvs (intKeyString i)
    | _ => none
  | _ => none

/-- Source: `lookupValue`; `none` is the result `(nil, false)`.  The struct case is the struct
`Element`, whose fields have no `json` tag, so that the tag loop finds the first field for the
empty name; the field `Source` of the elements of the model is the nil pointer. -/
def lookupValue (value : Value) (part : Str) : Option Value :=
  match value with
  | .dict kvs => mapGet kvs part
  | .elem e =>
    if part = "Type".toList then some (.str e.type)
    else if part = "Attrs".toList then some (.dict e.attrs)
    else if part = "Children".toList then some (.list (e.children.map Value.elem))
    else if part = "Source".toList then some .nilPtr
    else if part = [] then some (.str e.type)
    else none
  | _ => none

mutual
/-- Go `reflect.DeepEqual` on two values of type `any`: equal dynamic types and deeply equal
contents; floats are compared with `==`. -/
def deepEqual : Value → Value → Bool
  | .nil, .nil => true
  | .bool a, .bool b => a == b
  | .str a, .str b => a == b
  | .int a, .int b => a == b
  | .int64 a, .int64 b => a == b
  | .float a _, .float b _ => a.eq b
  | .list xs, .list ys => deepEqualList xs ys
  | .dict xs, .dict ys => xs.length == ys.length && deepEqualDict xs ys
  | .elem a, .elem b => deepEqualElem a b
  | .nilPtr, .nilPtr => true
  | _, _ => false
/-- Deep equality of slices: the same length and deeply equal items. -/
def deepEqualList : List Value → List Value → Bool
  | [], [] => true
  | a :: xs, b :: ys => deepEqual a b && deepEqualList xs ys
  | _, _ => false
/-- Every entry of the first map has a deeply equal entry under the same key in the second. -/
def deepEqualDict : List (Str × Value) → List (Str × Value) → Bool
  | [], _ => true
  | (k, v) :: rest, ys =>
    (match mapGet ys k with
      | some w => deepEqual v w
      | none => false) && deepEqualDict rest ys
/-- Deep equality of two elements through their pointers. -/
def deepEqualElem : Element → Element → Bool
  | .mk t a c, .mk t' a' c' =>
    t == t' && (a.length == a'.length && deepEqualDict a a') && deepEqualElems c c'
/-- Deep equality of the children of two elements. -/
def deepEqualElems : List Element → List Element → Bool
  | [], [] => true
  | a :: xs, b :: ys => deepEqualElem a b && deepEqualElems xs ys
  | _, _ => false
end

/-- Source: `applyBinary`; `none` is the result `(nil, false)`. -/
def applyBinary (lib : GoLib) (op : Op) (left right : Value) : Option Value :=
  match op with
  | .LAND => some (.bool (truthy left && truthy right))
  | .LOR => some (.bool (truthy left || truthy right))
  | .EQL => some (.bool (deepEqual left right))
  | .NEQ => some (.bool (!deepEqual left right))
  | .GTR => (compare lib left right).map fun cmp => Value.bool (decide (cmp > 0))
  | .GEQ => (compare lib left right).map fun cmp => Value.bool (decide (cmp ≥ 0))
  | .LSS => (compare lib left right).map fun cmp => Value.bool (decide (cmp < 0))
  | .LEQ => (compare lib left right).map fun cmp => Value.bool (decide (cmp ≤ 0))
  | .ADD =>
    match left, right with
    | .str ls, _ => some (.str (ls ++ Sprint lib.lower right))
    | _, .str rs => some (.str (Sprint lib.lower left ++ rs))
    | _, _ =>
      match asFloat lib left, asFloat lib right with
      | some lf, some rf => some (mkFloat lib (lib.fadd lf rf))
      | _, _ => none
  | .SUB =>
    match asFloat lib left, asFloat lib right with
    | some lf, some rf => some (mkFloat lib (lib.fsub lf rf))
    | _, _ => none
  | .MUL =>
    match asFloat lib left, asFloat lib right with
    | some lf, some rf => some (mkFloat lib (lib.fmul lf rf))
    | _, _ => none
  | .QUO =>
    match asFloat lib left, asFloat lib right with
    | some lf, some rf => if rf.isZero then none else some (mkFloat lib (lib.fdiv lf rf))
    | _, _ => none
  | .REM =>
    match asInt left, asInt right with
    | some li, some ri => if ri = 0 then none else some (.int64 (Int.tmod li ri))
    | _, _ => none
  | _ => none

/-- Source: `evalAST`; `none` is an error, `some .nil` the value nil without an error. -/
def evalAST (lib : GoLib) : Expr → List (Str × Value) → Option Value
  | .basicLit kind value, _ =>
    match kind with
    | .INT => (lib.parseIntLit value).map Value.int64
    | .FLOAT => (lib.parseFloat value).map (mkFloat lib)
    | .STRING => (lib.unquote value).map Value.str
    | .CHAR => (lib.unquote value).map Value.str
    | .IMAG => none
  | .ident name, context =>
    if name = "true".toList then some (.bool true)
    else if name = "false".toList then some (.bool false)
    else if name = "nil".toList ∨ name = "null".toList then some .nil
    else mapGet context name
  | .paren x, context => evalAST lib x context
  | .unary op x, context =>
    match evalAST lib x context with
    | none => none
    | some value =>
      match op with
      | .NOT => some (.bool (!truthy value))
      | .SUB => (asFloat lib value).map fun f => mkFloat lib f.neg
      | .ADD => (asFloat lib value).map (mkFloat lib)
      | _ => none
  | .binary x op y, context =>
    match evalAST lib x context with
    | none => none
    | some left =>
      match evalAST lib y context with
      | none => none
      | some right => applyBinary lib op left right
  | .selector x sel, context =>
    match evalAST lib x context with
    | none => none
    | some base => lookupValue base sel
  | .index x index, context =>
    match evalAST lib x context with
    | none => none
    | some base =>
      match evalAST lib index context with
      | none => none
      | some i => indexValue base i
  | .other, _ => none

/-- Source: `evalExpress`; `none` is the result `(nil, false)`. -/
def evalExpress (lib : GoLib) (expr : Str) (context : Option (List (Str × Value))) :
    Option Value :=
  match lib.parseExpr expr with
  | none => none
  | some node => evalAST lib node (ensureContext context)

/-- Source: `evaluate`. -/
def evaluate (lib : GoLib) (expr : Str) (context : Option (List (Str × Value))) : Value :=
  match evalExpress lib expr context with
  | none => .str []
  | some value => if value.isNil then .str [] else value

/-- Pattern `identifierPat`. -/
def identifierPat : Re :=
  .seq .bot (.seq (Re.plus (.chr fun c => isWord c || c == '.') true) .eot)

/-- Go `strings.Split(s, ".")`. -/
def splitOnDot : Str → List Str
  | [] => [[]]
  | c :: cs =>
    if c = '.' then [] :: splitOnDot cs
    else
      match splitOnDot cs with
      | p :: ps => (c :: p) :: ps
      | [] => [[c]]

/-- Source: the loop of `interpolate` over the parts of a dotted path, with the test of the
final value. -/
def lookupPath : Value → List Str → Value
  | value, [] => if value.isNil then .str [] else value
  | value, part :: rest =>
    match lookupValue value part with
    | none => .str []
    | some next => if next.isNil then .str [] else lookupPath next rest

/-- Source: `interpolate`. -/
def interpolate (lib : GoLib) (expr : Str) (context : Option (List (Str × Value))) : Value :=
  let expr := trimSpace expr
  if (identifierPat.find expr).isNone then evaluate lib expr context
  else lookupPath (.dict (ensureContext context)) (splitOnDot expr)

/-- Source: `cloneContext`: a new map with the entries of `context`. -/
def cloneContext (context : List (Str × Value)) : List (Str × Value) := context

/-- The evaluator of parser.go, as `parseTokens` calls it: with the non-nil context
`ensureContext(context)`. -/
def codeEvaluator (lib : GoLib) : Evaluator :=
  ⟨fun expr ctx => evaluate lib expr (some ctx), fun expr ctx => interpolate lib expr (some ctx)⟩

/-! ## Contexts as mutable maps

A Go `map[string]any` is a reference to a mutable map.  The definitions of this section run
`parseTokens` and `Parse` on a heap of maps, so that an assignment `m[k] = v` is a change of
the heap that every holder of the same map observes. -/

/-- The maps allocated so far; the address of a map is its index. -/
abbrev Heap := List (List (Str × Value))

/-- A variable of type `map[string]any`: `none` is the nil map, `some a` the map at address
`a`. -/
abbrev Ref := Option Nat

/-- The entries of the map at an address. -/
def Heap.entries (h : Heap) (a : Nat) : List (Str × Value) := h.getD a []

/-- What a reader sees through a map variable. -/
def Heap.view (h : Heap) (context : Ref) : Option (List (Str × Value)) :=
  context.map h.entries

/-- Allocation of a new map with the given entries: its address and the new heap. -/
def Heap.alloc (h : Heap) (m : List (Str × Value)) : Nat × Heap := (h.length, h ++ [m])

/-- The assignment `m[k] = v` on the map at address `a`. -/
def Heap.write (h : Heap) (a : Nat) (k : Str) (v : Value) : Heap :=
  h.set a (mapSet (h.entries a) k v)

/-- Source: `ensureContext`; a nil map is replaced by a newly allocated empty map. -/
def Stateful.ensureContext (context : Ref) (h : Heap) : Nat × Heap :=
  match context with
  | none => h.alloc []
  | some a => (a, h)

/-- Source: `cloneContext`; a newly allocated map that receives the entries of the map at
`a`. -/
def Stateful.cloneContext (a : Nat) (h : Heap) : Nat × Heap :=
  h.alloc (Xhtml.cloneContext (h.entries a))

/-- Source: one round of the loop over `iterate(items)` in `parseTokens`: the context `ctx`
is cloned, the loop variable is assigned in the clone, and the body is parsed with the clone;
`body` is the call `parseTokens(token.Children["default"], nextCtx)`. -/
def Stateful.eachRound (body : Ref → Heap → List Element × Heap) (ctx : Nat) (ident : Str)
    (acc : List Element × Heap) (item : Value) : List Element × Heap :=
  let n := Stateful.cloneContext ctx acc.2
  let h3 := n.2.write n.1 ident item
  let r := body (some n.1) h3
  (acc.1 ++ r.1, r.2)

mutual
/-- Source: `parseTokens`, with the context a map of the heap. -/
def Stateful.parseTokens (ev : Evaluator) : List Item → Ref → Heap → List Element × Heap
  | [], _, h => ([], h)
  | .text s :: rest, context, h =>
    let r := Stateful.parseTokens ev rest context h
    (NewElement (.str "text".toList) [("text".toList, .str s)] [] :: r.1, r.2)
  | .tok t :: rest, context, h =>
    let r1 := Stateful.parseToken ev t context h
    let r2 := Stateful.parseTokens ev rest context r1.2
    (r1.1 ++ r2.1, r2.2)
/-- Source: one round of the loop of `parseTokens`, for a token. -/
def Stateful.parseToken (ev : Evaluator) : Token → Ref → Heap → List Element × Heap
  | .mk kind name _ _ extra children, context, h =>
    if kind = "angle".toList then
      let attrs := parseAttrs ev (h.view context) extra
      let kids := Stateful.parseSlot ev "default".toList children context h
      ([NewElement (.str name) attrs [.list (kids.1.map Value.elem)]], kids.2)
    else
      let c := Stateful.ensureContext context h
      let ctx := c.1
      let h1 := c.2
      if name = [] then (makeElements (ev.interpolate extra (h1.entries ctx)), h1)
      else if name = "if".toList then
        if truthy (ev.evaluate extra (h1.entries ctx)) then
          Stateful.parseSlot ev "default".toList children (some ctx) h1
        else Stateful.parseSlot ev "else".toList children (some ctx) h1
      else if name = "each".toList then
        match eachSplitPat.find extra with
        | none => ([], h1)
        | some (before, m) =>
          let items := ev.interpolate (trimSpace before) (h1.entries ctx)
          if isIterable items then
            (iterate items).foldl
              (Stateful.eachRound (Stateful.parseSlot ev "default".toList children) ctx
                (trimSpace m.after))
              ([], h1)
          else ([], h1)
      else ([], h1)
/-- The call `parseTokens(token.Children[slot], context)`. -/
def Stateful.parseSlot (ev : Evaluator) (slot : Str) :
    List (Str × List Item) → Ref → Heap → List Element × Heap
  | [], _, h => ([], h)
  | (k, items) :: rest, context, h =>
    if k = slot then Stateful.parseTokens ev items context h
    else Stateful.parseSlot ev slot rest context h
end

/-- Source: `Parse`, with the context a map of the heap. -/
def Stateful.Parse (ev : Evaluator) (source : Str) (context : Ref) (h : Heap) :
    List Element × Heap :=
  let tagPat := if context.isSome then tagPat2 else tagPat1
  Stateful.parseTokens ev (foldToken (tokenLoop tagPat (source.length + 1) source true))
    context h

/-! ## Selectors -/

/-- Source: `selector`. -/
structure selector where
  type : Str
  combinator : Str
deriving DecidableEq

/-- Class `[ >+~]`. -/
def isCombinator (c : Char) : Bool := c == ' ' || c == '>' || c == '+' || c == '~'

/-- Pattern `combPat`: ` *([ >+~]) *`. -/
def combPat : Re :=
  .seq (.star (Re.lit ' ') true) (.seq (.group 1 (.chr isCombinator)) (.star (Re.lit ' ') true))

/-- Go `strings.Split(s, sep)` for a separator of one character. -/
def stringsSplit (sep : Char) : Str → List Str
  | [] => [[]]
  | c :: cs =>
    if c = sep then [] :: stringsSplit sep cs
    else
      match stringsSplit sep cs with
      | p :: ps => (c :: p) :: ps
      | [] => [[c]]

/-- Source: the loop of `parseQuery` inside `parseSelector`, on the rest of the query and the
pending combinator; the result is the list `selectors`, the final selector included.  Every
round removes a non-empty match from the query, so `fuel` larger than the length of the query
is never used up. -/
def parseQueryLoop : Nat → Str → Str → List selector
  | 0, query, combinator => [⟨query, combinator⟩]
  | fuel + 1, query, combinator =>
    match combPat.find query with
    | none => [⟨query, combinator⟩]
    | some (before, m) => ⟨before, combinator⟩ :: parseQueryLoop fuel m.after (m.group 1)

/-- Source: `parseQuery` inside `parseSelector`. -/
def parseQuery (query : Str) : List selector :=
  parseQueryLoop (query.length + 1) query " ".toList

/-- Source: `parseSelector`. -/
def parseSelector (input : Str) : List (List selector) :=
  (stringsSplit ',' input).map parseQuery

/-- The variables that the loop over `local` in `selectElements` updates. -/
structure GroupState where
  matched : Bool
  inner : List (List selector)
  adjacent : List (List selector)
  baseQuery : List (List selector)

/-- Source: one round of the loop over `local` in `selectElements`, for an element of type
`elemType` and the selector group `group`. -/
def groupStep (elemType : Str) (st : GroupState) (group : List selector) : GroupState :=
  match group with
  | [] => st
  | first :: next =>
    let st1 :=
      if first.type = elemType ∨ first.type = "*".toList then
        match next with
        | [] => { st with matched := true }
        | second :: _ =>
          if second.combinator = " ".toList ∨ second.combinator = ">".toList then
            { st with inner := st.inner ++ [next] }
          else if second.combinator = "+".toList then
            { st with adjacent := st.adjacent ++ [next] }
          else { st with baseQuery := st.baseQuery ++ [next] }
      else st
    if first.combinator = " ".toList then { st1 with inner := st1.inner ++ [group] } else st1

mutual
/-- Source: the loop over `source` of `selectElements`, from some element on, with the current
values of `baseQuery` and `adjacent`; the result is what the rounds append to `results`. -/
def selectLoop : List Element → List (List selector) → List (List selector) → List Element
  | [], _, _ => []
  | elem :: rest, baseQuery, adjacent =>
    let r := selectRound elem (baseQuery ++ adjacent) baseQuery
    r.1 ++ selectLoop rest r.2.1 r.2.2
/-- Source: one round of the loop over `source` of `selectElements`, with `local` and
`baseQuery` at its start: the elements it appends to `results`, and `baseQuery` and `adjacent`
at its end.  The recursive call `selectElements(elem.Children, inner)` is written out with its
guard. -/
def selectRound : Element → List (List selector) → List (List selector) →
    List Element × List (List selector) × List (List selector)
  | .mk type attrs children, locals, baseQuery =>
    let st := locals.foldl (groupStep type) ⟨false, [], [], baseQuery⟩
    ((if st.matched then [Element.mk type attrs children] else [])
        ++ (if children.isEmpty || st.inner.isEmpty then [] else selectLoop children st.inner []),
      st.baseQuery, st.adjacent)
end

/-- Source: `selectElements`. -/
def selectElements (source : List Element) (query : List (List selector)) : List Element :=
  if source.isEmpty || query.isEmpty then [] else selectLoop source query []

/-- The argument `source` of `Select`, by its dynamic type: nil, a string, a `[]*Element` of
non-nil pointers, a `[]Element`, or a value of another type. -/
inductive SelectSource where
  | nil
  | text (s : Str)
  | pointers (es : List Element)
  | values (es : List Element)
  | other

/-- The argument `query` of `Select`, by its dynamic type: nil, a string, a `[][]selector`, or
a value of another type. -/
inductive SelectQuery where
  | nil
  | text (s : Str)
  | groups (q : List (List selector))
  | other

/-- Source: `Select`.  A source text is parsed with the nil context, so `ev` is never
called. -/
def Select (ev : Evaluator) (source : SelectSource) (query : SelectQuery) : List Element :=
  match source, query with
  | .nil, _ => []
  | _, .nil => []
  | .other, _ => []
  | _, .other => []
  | source, query =>
    let sourceElements :=
      match source with
      | .text s => Parse ev s none
      | .pointers es => es
      | .values es => es
      | _ => []
    let selectors :=
      match query with
      | .text s => parseSelector s
      | .groups q => q
      | _ => []
    if selectors.isEmpty then [] else selectElements sourceElements selectors

/-! ## Attribute binder: types and values

The package `attr` works on Go types and values through `reflect`.  The model has the
predeclared scalar types, `any`, named interface types, pointers, slices, maps and struct
types; a struct type is its name and its fields (so a struct type does not contain itself),
and there are no other defined types.  An `int`, a `uint` and a `uintptr` are 64 bits wide.
The visible fields of a struct type are its direct fields: fields promoted from an embedded
struct are not modelled. -/

/-- The signed integer kinds. -/
inductive IntKind where
  | int | int8 | int16 | int32 | int64
deriving DecidableEq

/-- The unsigned integer kinds. -/
inductive UintKind where
  | uint | uint8 | uint16 | uint32 | uint64 | uintptr
deriving DecidableEq

/-- The floating-point kinds. -/
inductive FloatKind where
  | float32 | float64
deriving DecidableEq

/-- The width in bits of a signed integer kind. -/
def IntKind.bits : IntKind → Nat
  | .int => 64
  | .int8 => 8
  | .int16 => 16
  | .int32 => 32
  | .int64 => 64

/-- The width in bits of an unsigned integer kind. -/
def UintKind.bits : UintKind → Nat
  | .uint => 64
  | .uint8 => 8
  | .uint16 => 16
  | .uint32 => 32
  | .uint64 => 64
  | .uintptr => 64

mutual
/-- Go `reflect.Type`.  `other` is a type of a kind that `convertValue` has no case for
(array, channel, function, complex number, unsafe pointer). -/
inductive GoType where
  | bool
  | int (k : IntKind)
  | uint (k : UintKind)
  | float (k : FloatKind)
  | string
  | any
  | iface (name : Str)
  | ptr (elem : GoType)
  | slice (elem : GoType)
  | map (key elem : GoType)
  | struct (name : Str) (fields : List StructField)
  | other (name : Str)
/-- Go `reflect.StructField`: the name, the type, the values of the tag keys `attr` and `json`
(`Tag.Get`, empty when the key is absent), the package path (empty for an exported field) and
the flag of an embedded field.  The index of a field is its position in the struct. -/
inductive StructField where
  | mk (name : Str) (type : GoType) (attrTag jsonTag : Str) (pkgPath : Str) (anonymous : Bool)
end

/-- The field `Name`. -/
def StructField.name : StructField → Str
  | .mk n _ _ _ _ _ => n

/-- The field `Type`. -/
def StructField.type : StructField → GoType
  | .mk _ t _ _ _ _ => t

/-- The tag value `Tag.Get("attr")`. -/
def StructField.attrTag : StructField → Str
  | .mk _ _ a _ _ _ => a

/-- The tag value `Tag.Get("json")`. -/
def StructField.jsonTag : StructField → Str
  | .mk _ _ _ j _ _ => j

/-- The field `PkgPath`. -/
def StructField.pkgPath : StructField → Str
  | .mk _ _ _ _ p _ => p

/-- The field `Anonymous`. -/
def StructField.anonymous : StructField → Bool
  | .mk _ _ _ _ _ a => a

mutual
/-- Identity of two types. -/
def GoType.same : GoType → GoType → Bool
  | .bool, .bool => true
  | .int a, .int b => a == b
  | .uint a, .uint b => a == b
  | .float a, .float b => a == b
  | .string, .string => true
  | .any, .any => true
  | .iface a, .iface b => a == b
  | .ptr a, .ptr b => a.same b
  | .slice a, .slice b => a.same b
  | .map k v, .map k2 v2 => k.same k2 && v.same v2
  | .struct n fs, .struct n2 fs2 => n == n2 && sameFields fs fs2
  | .other a, .other b => a == b
  | _, _ => false
/-- Identity of two lists of fields. -/
def sameFields : List StructField → List StructField → Bool
  | [], [] => true
  | f :: fs, g :: gs => f.same g && sameFields fs gs
  | _, _ => false
/-- Identity of two fields. -/
def StructField.same : StructField → StructField → Bool
  | .mk n t a j p e, .mk n2 t2 a2 j2 p2 e2 =>
    n == n2 && t.same t2 && a == a2 && j == j2 && p == p2 && e == e2
end

/-- Whether the kind of a type is `reflect.Interface`. -/
def GoType.isInterface : GoType → Bool
  | .any => true
  | .iface _ => true
  | _ => false

/-- A Go value as `reflect` sees it.  `nil` is the nil interface value; a pointer is its
element type and what it points to (`none` for the nil pointer); a struct value is its type
and the values of its fields in order; an array is the name of its type, which is a type of
kind `other`, and its elements in order; `other` is a value of any other type of kind
`other`.  A nil slice and an empty slice are one value, and a nil map and an empty map. -/
inductive GoValue where
  | nil
  | bool (b : Bool)
  | int (k : IntKind) (v : Int)
  | uint (k : UintKind) (v : Nat)
  | float (k : FloatKind) (f : F64)
  | str (s : Str)
  | slice (elem : GoType) (vs : List GoValue)
  | map (key elem : GoType) (kvs : List (GoValue × GoValue))
  | ptr (elem : GoType) (target : Option GoValue)
  | struct (name : Str) (fields : List StructField) (vals : List GoValue)
  | other (type : Str)
  | array (type : Str) (vs : List GoValue)

/-- Test `value == nil` on an `any`. -/
def GoValue.isNil : GoValue → Bool
  | .nil => true
  | _ => false

/-- Go `reflect.TypeOf(v)`; `none` for the nil interface value. -/
def GoValue.typeOf : GoValue → Option GoType
  | .nil => none
  | .bool _ => some .bool
  | .int k _ => some (.int k)
  | .uint k _ => some (.uint k)
  | .float k _ => some (.float k)
  | .str _ => some .string
  | .slice e _ => some (.slice e)
  | .map k e _ => some (.map k e)
  | .ptr e _ => some (.ptr e)
  | .struct n fs _ => some (.struct n fs)
  | .other t => some (.other t)
  | .array t _ => some (.other t)

mutual
/-- Go `reflect.Zero(t)`.  The zero value of a type of kind `other` is kept as `other`, also
for an array type, whose length and element type its name stands for. -/
def GoType.zero : GoType → GoValue
  | .bool => .bool false
  | .int k => .int k 0
  | .uint k => .uint k 0
  | .float k => .float k (.fin 0)
  | .string => .str []
  | .any => .nil
  | .iface _ => .nil
  | .ptr e => .ptr e none
  | .slice e => .slice e []
  | .map k e => .map k e []
  | .struct n fs => .struct n fs (zeroFields fs)
  | .other t => .other t
/-- The zero values of the fields of a struct. -/
def zeroFields : List StructField → List GoValue
  | [] => []
  | f :: fs => f.zero :: zeroFields fs
/-- The zero value of a field. -/
def StructField.zero : StructField → GoValue
  | .mk _ t _ _ _ _ => t.zero
end

/-- The library functions that the binder calls and that are not modelled here: the method
sets of the types (`implements t i`: the type `t` implements the interface named `i`),
`fmt.Sprint` of a value that is not a boolean, an integer or a string, `strconv.ParseFloat(s,
64)`, the conversions `int64(f)`, `uint64(f)` and `float32(f)` of a `float64`, and the
`reflect` conversion to a type of kind `other` (`none`: not convertible). -/
structure AttrLib where
  implements : GoType → Str → Bool
  sprint : GoValue → Str
  parseFloat : Str → Option F64
  floatToInt64 : F64 → Int
  floatToUint64 : F64 → Nat
  toFloat32 : F64 → F64
  convertOther : GoValue → Str → Option GoValue

/-- Go `Type.AssignableTo` for the type of a value and a target type, which is also the
condition under which `reflect.Value.Set` does not panic: identical types, or an interface
target that the type implements.  The nil interface value is the zero value of an interface
type. -/
def canAssign (lib : AttrLib) (v : GoValue) (target : GoType) : Bool :=
  match v.typeOf with
  | none => target.isInterface
  | some t =>
    t.same target ||
      (match target with
        | .any => true
        | .iface i => lib.implements t i
        | _ => false)

/-! ## Attribute binder: field metadata -/

/-- A Go string used as a lookup key.  The strings of the model are sequences of code points;
`garbled name` is the string that `strings.ToLower(name[:1]) + name[1:]` builds when the first
character of `name` takes more than one byte: the replacement character followed by the
remaining bytes of `name`, which is not valid UTF-8 and so differs from every `text`. -/
inductive Key where
  | text (s : Str)
  | garbled (name : Str)
deriving DecidableEq

/-- Source: `fieldMeta`; the index is the position of the field in the struct. -/
structure fieldMeta where
  index : Nat
  keys : List Key
  typ : GoType
  name : Str
  required : Bool

/-- Source: `parseTag`: the name, the options, the flag `set` and the flag `ignored`. -/
def parseTag (tag : Str) : Str × List Str × Bool × Bool :=
  if tag = [] then ([], [], false, false)
  else
    let parts := stringsSplit ',' tag
    let name := trimSpace (parts.headD [])
    if name = "-".toList then ([], [], true, true)
    else (name, ((parts.drop 1).map trimSpace).filter (fun opt => opt ≠ []), true, false)

/-- Source: `containsOption`. -/
def containsOption (options : List Str) (target : Str) : Bool :=
  options.any fun opt => opt = target

/-- Go `strings.ToLower` on a string of one ASCII character. -/
def asciiLower (c : Char) : Char := if isUpper c then Char.ofNat (c.toNat + 32) else c

/-- Source: `fieldFallbackKeys`.  The slice `name[:1]` is the first byte of the name. -/
def fieldFallbackKeys (name : Str) : List Key :=
  match name with
  | [] => []
  | c :: cs =>
    if c.toNat < 128 then
      if asciiLower c :: cs = name then [.text name] else [.text (asciiLower c :: cs), .text name]
    else [.garbled name, .text name]

/-- Source: `appendUnique`. -/
def appendUnique (slice : List Key) (value : Key) : List Key :=
  if value = .text [] then slice
  else if value ∈ slice then slice
  else slice ++ [value]

/-- Source: `isFieldBindable`. -/
def isFieldBindable (sf : StructField) : Bool :=
  if sf.pkgPath ≠ [] then false
  else if sf.anonymous ∧ sf.attrTag = [] ∧ sf.jsonTag = [] then false
  else true

/-- Source: `parseFieldMeta`, for the field at position `index`; `none` is the result
`(fieldMeta{}, false)`. -/
def parseFieldMeta (sf : StructField) (index : Nat) : Option fieldMeta :=
  let attr := parseTag sf.attrTag
  if attr.2.2.2 then none
  else
    let json := parseTag sf.jsonTag
    let attrName := attr.1
    let jsonName := if json.2.2.2 then [] else json.1
    let keys : List Key := []
    let keys := if attrName ≠ [] then appendUnique keys (.text attrName) else keys
    let keys := if jsonName ≠ [] then appendUnique keys (.text jsonName) else keys
    let keys := (fieldFallbackKeys sf.name).foldl appendUnique keys
    if keys.isEmpty then none
    else
      let required :=
        if containsOption attr.2.1 "omitempty".toList ∨ containsOption json.2.1 "omitempty".toList
        then false else true
      some ⟨index, keys, sf.type, sf.name, required⟩

/-- Source: the loop of `buildTypeMeta` over the visible fields, from position `index` on. -/
def buildFields : List StructField → Nat → List fieldMeta
  | [], _ => []
  | sf :: rest, index =>
    if isFieldBindable sf then
      match parseFieldMeta sf index with
      | some meta => meta :: buildFields rest (index + 1)
      | none => buildFields rest (index + 1)
    else buildFields rest (index + 1)

/-- Source: `buildTypeMeta`, and `getTypeMeta`: the cache returns the plan that
`buildTypeMeta` computes for the type. -/
def buildTypeMeta (fields : List StructField) : List fieldMeta := buildFields fields 0

/-! ## Attribute binder: conversion -/

/-- The errors of the binder, by the place that returns them. -/
inductive BindError where
  /-- `dst is nil`. -/
  | dstNil
  /-- `dst must be a non-nil pointer`. -/
  | dstNotPointer
  /-- `dst must point to struct`. -/
  | dstNotStruct
  /-- `missing required attr for field`. -/
  | missingRequired (field : Str) (keys : List Key)
  /-- An error of `convertValue`, wrapped with the name of the field. -/
  | field (name : Str) (cause : BindError)
  /-- An error of `strconv.ParseBool`, `ParseInt`, `ParseUint` or `ParseFloat`. -/
  | strconv (text : Str)
  /-- `cannot parse ... from %T`. -/
  | cannotParse
  /-- `uint64 overflow for int64`. -/
  | uint64Overflow
  /-- `negative ... for uint`. -/
  | negative
  /-- `expected slice/array`, `expected map`, `expected map[string]any for struct`. -/
  | expected
  /-- `unsupported conversion`. -/
  | unsupported

/-- The result of a call: a value, an error, or a run-time panic. -/
inductive Outcome (α : Type) where
  | ok (a : α)
  | error (e : BindError)
  | panic

/-- Go `strconv.ParseBool`. -/
def parseBool (s : Str) : Option Bool :=
  if s ∈ ["1".toList, "t".toList, "T".toList, "TRUE".toList, "true".toList, "True".toList] then
    some true
  else if s ∈ ["0".toList, "f".toList, "F".toList, "FALSE".toList, "false".toList,
      "False".toList] then some false
  else none

/-- Go `strconv.ParseUint(s, 10, 64)`; `none` is an error (syntax or range). -/
def parseUint10 (s : Str) : Option Nat :=
  if s ≠ [] ∧ s.all isDigit = true ∧ decValue s < 2 ^ 64 then some (decValue s) else none

/-- The value that a signed integer variable of `bits` bits holds after the conversion of `x`
to its type: `x` modulo `2 ^ bits`, in two's complement. -/
def wrapInt (bits : Nat) (x : Int) : Int :=
  (x + 2 ^ (bits - 1)) % 2 ^ bits - 2 ^ (bits - 1)

/-- The value that an unsigned integer variable of `bits` bits holds after the conversion of
`x` to its type. -/
def wrapUint (bits : Nat) (x : Nat) : Nat := x % 2 ^ bits

/-- The decimal digits of a number, most significant first, in front of `acc`. -/
def decimalDigits : Nat → Nat → Str → Str
  | 0, _, acc => acc
  | fuel + 1, n, acc =>
    if n / 10 = 0 then Char.ofNat (48 + n % 10) :: acc
    else decimalDigits fuel (n / 10) (Char.ofNat (48 + n % 10) :: acc)

/-- Decimal text of a natural number, as `fmt.Sprint` prints it. -/
def natDecimal (n : Nat) : Str := decimalDigits (n + 1) n []

/-- Decimal text of an integer, as `fmt.Sprint` prints it. -/
def intDecimal (i : Int) : Str :=
  if i < 0 then '-' :: natDecimal (-i).toNat else natDecimal i.toNat

/-- Go `fmt.Sprint(v)`. -/
def sprintValue (lib : AttrLib) : GoValue → Str
  | .nil => "<nil>".toList
  | .bool b => boolText b
  | .int _ v => intDecimal v
  | .uint _ v => natDecimal v
  | .str s => s
  | v => lib.sprint v

/-- Source: `toInt64`. -/
def toInt64 (lib : AttrLib) : GoValue → Outcome Int
  | .int _ v => .ok v
  | .uint .uint64 v => if v > 2 ^ 63 - 1 then .error .uint64Overflow else .ok v
  | .uint .uintptr _ => .error .cannotParse
  | .uint _ v => .ok (wrapInt 64 v)
  | .float _ f => .ok (lib.floatToInt64 f)
  | .str s =>
    match parseInt10 s with
    | some i => .ok i
    | none => .error (.strconv s)
  | _ => .error .cannotParse

/-- Source: `toUint64`. -/
def toUint64 (lib : AttrLib) : GoValue → Outcome Nat
  | .int _ v => if v < 0 then .error .negative else .ok v.toNat
  | .uint .uintptr _ => .error .cannotParse
  | .uint _ v => .ok v
  | .float _ f => if f.lt (.fin 0) then .error .negative else .ok (lib.floatToUint64 f)
  | .str s =>
    match parseUint10 s with
    | some n => .ok n
    | none => .error (.strconv s)
  | _ => .error .cannotParse

/-- Source: `toFloat64`. -/
def toFloat64 (lib : AttrLib) : GoValue → Outcome F64
  | .int _ v => .ok (float64OfInt v)
  | .uint .uintptr _ => .error .cannotParse
  | .uint _ v => .ok (float64OfInt v)
  | .float _ f => .ok f
  | .str s =>
    match lib.parseFloat s with
    | some f => .ok f
    | none => .error (.strconv s)
  | _ => .error .cannotParse

/-- Source: `convertBool`. -/
def convertBool : GoValue → Outcome GoValue
  | .bool b => .ok (.bool b)
  | .str s =>
    match parseBool s with
    | some b => .ok (.bool b)
    | none => .error (.strconv s)
  | _ => .error .cannotParse

/-- Source: `convertInt`; `SetInt` stores the `int64` converted to the type of the target. -/
def convertInt (lib : AttrLib) (k : IntKind) (value : GoValue) : Outcome GoValue :=
  match toInt64 lib value with
  | .ok i => .ok (.int k (wrapInt k.bits i))
  | .error e => .error e
  | .panic => .panic

/-- Source: `convertUint`; `SetUint` stores the `uint64` converted to the type of the
target. -/
def convertUint (lib : AttrLib) (k : UintKind) (value : GoValue) : Outcome GoValue :=
  match toUint64 lib value with
  | .ok n => .ok (.uint k (wrapUint k.bits n))
  | .error e => .error e
  | .panic => .panic

/-- Source: `convertFloat`; `SetFloat` stores the `float64` converted to the type of the
target. -/
def convertFloat (lib : AttrLib) (k : FloatKind) (value : GoValue) : Outcome GoValue :=
  match toFloat64 lib value with
  | .ok f =>
    match k with
    | .float32 => .ok (.float k (lib.toFloat32 f))
    | .float64 => .ok (.float k f)
  | .error e => .error e
  | .panic => .panic

/-- The lookup `attrs[key]`. -/
def attrsGet (attrs : List (Str × GoValue)) : Key → Option GoValue
  | .text k => attrs.lookup k
  | .garbled _ => none

/-- Source: the loop over `f.keys` in `UnmarshalAttrs`: the value under the first key that is
present in `attrs`; `none` when `found` stays false. -/
def findRaw (attrs : List (Str × GoValue)) : List Key → Option GoValue
  | [] => none
  | key :: rest =>
    match attrsGet attrs key with
    | some raw => some raw
    | none => findRaw attrs rest

/-- The type assertion `value.(map[string]any)`. -/
def asAttrs : GoValue → Option (List (Str × GoValue))
  | .map .string .any kvs =>
    some (kvs.filterMap fun kv =>
      match kv.1 with
      | .str k => some (k, kv.2)
      | _ => none)
  | _ => none

/-- Equality of two map keys of a scalar type; keys of other types are taken to differ. -/
def sameKey : GoValue → GoValue → Bool
  | .bool a, .bool b => a == b
  | .int k a, .int k2 b => k == k2 && a == b
  | .uint k a, .uint k2 b => k == k2 && a == b
  | .float k a, .float k2 b => k == k2 && a.eq b
  | .str a, .str b => a == b
  | _, _ => false

/-- Go `reflect.Value.SetMapIndex` on a non-nil map. -/
def setMapIndex : List (GoValue × GoValue) → GoValue → GoValue → List (GoValue × GoValue)
  | [], k, v => [(k, v)]
  | (k0, v0) :: rest, k, v =>
    if sameKey k0 k then (k0, v) :: rest else (k0, v0) :: setMapIndex rest k v

/-- Source: the loop of `convertSlice`; `conv` is the conversion to the element type `elem`,
and `out.Index(i).Set` panics on a value that is not assignable to it. -/
def convertElems (lib : AttrLib) (elem : GoType) (conv : GoValue → Outcome GoValue) :
    List GoValue → Outcome (List GoValue)
  | [] => .ok []
  | v :: vs =>
    match conv v with
    | .error e => .error e
    | .panic => .panic
    | .ok c =>
      if canAssign lib c elem then
        match convertElems lib elem conv vs with
        | .ok cs => .ok (c :: cs)
        | .error e => .error e
        | .panic => .panic
      else .panic

/-- Source: the loop of `convertMap`, over the entries in the order of the list; `out` is the
map built so far, and `SetMapIndex` panics on a key or a value that is not assignable. -/
def convertEntries (lib : AttrLib) (key elem : GoType) (convKey convVal : GoValue → Outcome GoValue) :
    List (GoValue × GoValue) → List (GoValue × GoValue) → Outcome (List (GoValue × GoValue))
  | [], out => .ok out
  | (k, v) :: rest, out =>
    match convKey k with
    | .error e => .error e
    | .panic => .panic
    | .ok ck =>
      match convVal v with
      | .error e => .error e
      | .panic => .panic
      | .ok cv =>
        if canAssign lib ck key && canAssign lib cv elem then
          convertEntries lib key elem convKey convVal rest (setMapIndex out ck cv)
        else .panic

/-- The first steps of `convertValue`: the zero value for nil, the value itself when its type
is assignable to the target, and the conversion `conv` otherwise. -/
def convertGuard (lib : AttrLib) (target : GoType) (value : GoValue)
    (conv : Outcome GoValue) : Outcome GoValue :=
  if value.isNil then .ok target.zero
  else if canAssign lib value target then .ok value
  else conv

mutual
/-- Source: `convertValue`, with `convertSlice`, `convertMap` and `convertStruct` in their
places. -/
def convertValue (lib : AttrLib) : GoType → GoValue → Outcome GoValue
  | .ptr elem, value =>
    convertGuard lib (.ptr elem) value
      (match convertValue lib elem value with
        | .ok e => if canAssign lib e elem then .ok (.ptr elem (some e)) else .panic
        | .error e => .error e
        | .panic => .panic)
  | .any, value => convertGuard lib .any value (.ok value)
  | .iface i, value => convertGuard lib (.iface i) value (.ok value)
  | .string, value => convertGuard lib .string value (.ok (.str (sprintValue lib value)))
  | .bool, value => convertGuard lib .bool value (convertBool value)
  | .int k, value => convertGuard lib (.int k) value (convertInt lib k value)
  | .uint k, value => convertGuard lib (.uint k) value (convertUint lib k value)
  | .float k, value => convertGuard lib (.float k) value (convertFloat lib k value)
  | .slice elem, value =>
    convertGuard lib (.slice elem) value
      (match value with
        | .slice _ vs =>
          match convertElems lib elem (fun v => convertValue lib elem v) vs with
          | .ok cs => .ok (.slice elem cs)
          | .error e => .error e
          | .panic => .panic
        | .array _ vs =>
          match convertElems lib elem (fun v => convertValue lib elem v) vs with
          | .ok cs => .ok (.slice elem cs)
          | .error e => .error e
          | .panic => .panic
        | _ => .error .expected)
  | .map key elem, value =>
    convertGuard lib (.map key elem) value
      (match value with
        | .map _ _ kvs =>
          match convertEntries lib key elem (fun v => convertValue lib key v)
              (fun v => convertValue lib elem v) kvs [] with
          | .ok out => .ok (.map key elem out)
          | .error e => .error e
          | .panic => .panic
        | _ => .error .expected)
  | .struct name fields, value =>
    convertGuard lib (.struct name fields) value
      (match asAttrs value with
        | none => .error .expected
        | some attrs =>
          match bindFields lib attrs fields 0 (zeroFields fields) with
          | (.ok _, vals) => .ok (.struct name fields vals)
          | (.error e, _) => .error e
          | (.panic, _) => .panic)
  | .other t, value =>
    convertGuard lib (.other t) value
      (match lib.convertOther value t with
        | some c => .ok c
        | none => .error .unsupported)
/-- Source: the loop of `UnmarshalAttrs` over the fields of the plan, run on the fields of
the struct from position `index` on; `vals` are the values of the fields of the struct that
`dst` points to.  The result is the error (or the panic) that ends the loop, if any, and the
values of the fields at that moment. -/
def bindFields (lib : AttrLib) (attrs : List (Str × GoValue)) :
    List StructField → Nat → List GoValue → Outcome Unit × List GoValue
  | [], _, vals => (.ok (), vals)
  | sf :: rest, index, vals =>
    match bindField lib attrs sf index vals with
    | (.ok _, vals1) => bindFields lib attrs rest (index + 1) vals1
    | r => r
/-- Source: one round of the loop of `UnmarshalAttrs`, for the field at position `index` if
the plan has it.  `field.CanSet()` holds for every field of the plan: it is exported and the
struct is reached through a pointer. -/
def bindField (lib : AttrLib) (attrs : List (Str × GoValue)) :
    StructField → Nat → List GoValue → Outcome Unit × List GoValue
  | .mk name type attrTag jsonTag pkgPath anonymous, index, vals =>
    if isFieldBindable (.mk name type attrTag jsonTag pkgPath anonymous) then
      match parseFieldMeta (.mk name type attrTag jsonTag pkgPath anonymous) index with
      | none => (.ok (), vals)
      | some f =>
        match findRaw attrs f.keys with
        | none =>
          if f.required then (.error (.missingRequired f.name f.keys), vals) else (.ok (), vals)
        | some raw =>
          match convertValue lib type raw with
          | .error e => (.error (.field f.name e), vals)
          | .panic => (.panic, vals)
          | .ok cv =>
            if canAssign lib cv type then (.ok (), vals.set f.index cv) else (.panic, vals)
    else (.ok (), vals)
end

/-- Source: the body of the loop of `UnmarshalAttrs` for a field `f` of the plan. -/
def bindMeta (lib : AttrLib) (attrs : List (Str × GoValue)) (f : fieldMeta)
    (vals : List GoValue) : Outcome Unit × List GoValue :=
  match findRaw attrs f.keys with
  | none =>
    if f.required then (.error (.missingRequired f.name f.keys), vals) else (.ok (), vals)
  | some raw =>
    match convertValue lib f.typ raw with
    | .error e => (.error (.field f.name e), vals)
    | .panic => (.panic, vals)
    | .ok cv =>
      if canAssign lib cv f.typ then (.ok (), vals.set f.index cv) else (.panic, vals)

/-- Source: the loop of `UnmarshalAttrs` over `meta.fields`. -/
def bindPlan (lib : AttrLib) (attrs : List (Str × GoValue)) :
    List fieldMeta → List GoValue → Outcome Unit × List GoValue
  | [], vals => (.ok (), vals)
  | f :: rest, vals =>
    match bindMeta lib attrs f vals with
    | (.ok _, vals1) => bindPlan lib attrs rest vals1
    | r => r

/-- Source: `UnmarshalAttrs`.  The result is the error returned (`ok` for nil), or the panic,
and the value of `dst` after the call, which shows what the call has written through the
pointer.  `attrs` is `none` for the nil map. -/
def UnmarshalAttrs (lib : AttrLib) (dst : GoValue) (attrs : Option (List (Str × GoValue))) :
    Outcome Unit × GoValue :=
  let attrs := attrs.getD []
  match dst with
  | .nil => (.error .dstNil, dst)
  | .ptr _ none => (.error .dstNotPointer, dst)
  | .ptr (.struct name fields) (some (.struct n fs vals)) =>
    let r := bindPlan lib attrs (buildTypeMeta fields) vals
    (r.1, .ptr (.struct name fields) (some (.struct n fs r.2)))
  | .ptr _ (some _) => (.error .dstNotStruct, dst)
  | _ => (.error .dstNotPointer, dst)

/-! ## Auxiliary definitions of the proofs -/

/-- Escape of one character, as the composition of the passes of `Escape`. -/
def escapeChar (inLine : Bool) (c : Char) : Str :=
  if c = '&' then "&amp;".toList
  else if c = '<' then "&lt;".toList
  else if c = '>' then "&gt;".toList
  else if c = '"' ∧ inLine = true then "&quot;".toList
  else [c]

/-- Escape of one character once `unescape` has decoded `&lt;`. -/
def escapeChar1 (inLine : Bool) (c : Char) : Str :=
  if c = '&' then "&amp;".toList
  else if c = '>' then "&gt;".toList
  else if c = '"' ∧ inLine = true then "&quot;".toList
  else [c]

/-- Escape of one character once `unescape` has decoded `&lt;` and `&gt;`. -/
def escapeChar2 (inLine : Bool) (c : Char) : Str :=
  if c = '&' then "&amp;".toList
  else if c = '"' ∧ inLine = true then "&quot;".toList
  else [c]

/-- Escape of one character once `unescape` has decoded `&lt;`, `&gt;` and `&quot;`. -/
def escapeChar3 (c : Char) : Str :=
  if c = '&' then "&amp;".toList else [c]

/-- The character before the position reached after reading `ds`. -/
def advPrev (prev : Option Char) (ds : Str) : Option Char := ds.foldl (fun _ c => some c) prev

/-- Hexadecimal digits in the sense of the specification: `0-9`, `a-f`, `A-F`. -/
def isHexDigit (c : Char) : Bool :=
  isDigit c || isLowerHexLetter c || (decide ('A' ≤ c) && decide (c ≤ 'F'))

/-- A capitalised word: an ASCII upper-case letter followed by one or more lower-case
letters. -/
def isCapWord (w : Str) : Bool :=
  match w with
  | u :: m :: ms => isUpper u && isLower m && ms.all isLower
  | _ => false

/-- A word of ASCII lower-case letters. -/
def isLowerWord (w : Str) : Bool := w.all isLower

/-- The text of a text node in strip mode, in the words of the specification: its stringified
`text` attribute, nothing when the attribute is absent or nil. -/
def textAttribute (tbl : Char → Char) (attrs : List (Str × Value)) : Str :=
  match mapGet attrs "text".toList with
  | none => []
  | some v => if v.isNil then [] else Sprint tbl v

mutual
/-- The texts of the text nodes of a tree that are reachable through non-text nodes, in
document order. -/
def textLeaves (tbl : Char → Char) : Element → List Str
  | .mk type attrs children =>
    if type = "text".toList then [textAttribute tbl attrs] else textLeavesList tbl children
/-- The texts of the reachable text nodes of a forest, in document order. -/
def textLeavesList (tbl : Char → Char) : List Element → List Str
  | [] => []
  | c :: cs => textLeaves tbl c ++ textLeavesList tbl cs
end

/-- The rendering of one attribute in the words of the specification: nothing for an absent
or nil value, the bare key for `true`, `no-key` for `false`, `key="escaped value"` otherwise,
the key being rewritten by `ParamCase`. -/
def attributeSpec (tbl : Char → Char) (key : Str) : Option Value → Str
  | none => []
  | some .nil => []
  | some (.bool true) => " ".toList ++ ParamCase tbl key
  | some (.bool false) => " no-".toList ++ ParamCase tbl key
  | some v => " ".toList ++ ParamCase tbl key ++ "=\"".toList ++ Escape (Sprint tbl v) true ++ "\"".toList

/-- The position `st'` lies after `st` in the same text: `st` has the characters `xs` more to
read, and `st'` counts them. -/
def Reach (st st' : Pos) : Prop := ∃ xs, st.rest = xs ++ st'.rest ∧ st'.pos = st.pos + xs.length

/-- A pattern that cannot match the empty text, by its shape. -/
def Re.consumes : Re → Bool
  | .chr _ => true
  | .eps => false
  | .seq a b => a.consumes || b.consumes
  | .alt a b => a.consumes && b.consumes
  | .star _ _ => false
  | .group _ a => a.consumes
  | .bol => false
  | .eol => false
  | .bot => false
  | .eot => false

/-- The attribute pattern that `parseTokens` selects: `attrPat2` with a context, `attrPat1`
without. -/
def attrPatOf (context : Option (List (Str × Value))) : Re :=
  if context.isSome then attrPat2 else attrPat1

/-- The attribute loop of `parseTokens` run on the attribute text `extra` from the map `attrs`;
`parseAttrs` is this with the empty map. -/
def parseAttrsFrom (ev : Evaluator) (context : Option (List (Str × Value))) (extra : Str)
    (attrs : List (Str × Value)) : List (Str × Value) :=
  parseAttrsLoop ev context (extra.length + 1) extra attrs

/-- An evaluator for closed examples: every expression evaluates to the empty string, which is
what `evaluate` and `interpolate` return for an expression that fails. -/
def nullEvaluator : Evaluator := ⟨fun _ _ => .str [], fun _ _ => .str []⟩

/-- Class `[A-Za-z]`: an ASCII letter. -/
def isLetter (c : Char) : Bool := isUpper c || isLower c

/-- A tag name that serialises to a tag `Parse` reads back: a non-empty word of ASCII letters
other than the reserved names `text` and `component`. -/
def goodTag (t : Str) : Bool :=
  t ≠ [] && t.all isLetter && t ≠ "text".toList && t ≠ "component".toList

/-- A serialised key that the attribute pattern reads back as the same key: non-empty, without
whitespace, `=`, `>` or `/`, not starting with `no-` and not the reserved `children`. -/
def goodKeyText (pk : Str) : Bool :=
  pk ≠ [] && pk.all (fun c => !isSpace c && c != '=' && c != '>' && c != '/')
    && !hasPrefix pk "no-".toList && pk ≠ "children".toList

/-- An attribute key that survives serialisation and parsing: `ParamCase` of it is read back
as a key, and `camelCase`, which `NewElement` applies to a parsed key, restores it. -/
def goodKey (tbl : Char → Char) (key : Str) : Bool :=
  goodKeyText (ParamCase tbl key) && camelCase (ParamCase tbl key) == key

/-- A string or boolean attribute value. -/
def goodValue : Value → Bool
  | .str _ => true
  | .bool _ => true
  | _ => false

/-- A text that whitespace trimming leaves alone: non-empty, without a line feed. -/
def goodText (s : Str) : Bool := s ≠ [] && !s.contains '\n'

/-- A text child as `NewElement` builds it from a string: type `text`, the one attribute
`text`, no children; the text is non-empty and has no line feed. -/
def goodTextElement : Element → Bool
  | .mk t [(k, .str s)] [] => t == "text".toList && k == "text".toList && goodText s
  | _ => false

mutual
/-- The elements of the amended round trip: a good tag name, attributes with distinct good keys
and string or boolean values, children that are good text children or elements of the same
kind. -/
def goodElement (tbl : Char → Char) : Element → Bool
  | .mk type attrs children =>
    goodTag type && decide (attrs.map Prod.fst).Nodup
      && attrs.all (fun kv => goodKey tbl kv.1 && goodValue kv.2) && goodChildren tbl children
/-- Good children, see `goodElement`. -/
def goodChildren (tbl : Char → Char) : List Element → Bool
  | [] => true
  | c :: cs => (goodTextElement c || goodElement tbl c) && goodChildren tbl cs
end

/-- The texts a pattern can match, anchors aside: the language of the expression. -/
def Re.lang : Re → Str → Prop
  | .chr p, xs => ∃ c, xs = [c] ∧ p c = true
  | .eps, xs => xs = []
  | .seq a b, xs => ∃ ys zs, xs = ys ++ zs ∧ a.lang ys ∧ b.lang zs
  | .alt a b, xs => a.lang xs ∨ b.lang xs
  | .star a _, xs => ∃ parts : List Str, xs = parts.flatten ∧ ∀ y ∈ parts, a.lang y
  | .group _ a, xs => a.lang xs
  | .bol, xs => xs = []
  | .eol, xs => xs = []
  | .bot, xs => xs = []
  | .eot, xs => xs = []

/-- The end `\s*(/?)>` of the tag alternative of the tag patterns. -/
def tagEndPat : Re :=
  .seq (.star (.chr isSpace) true) (.seq (.group 6 (Re.opt (Re.lit '/'))) (Re.lit '>'))

/-- The loop of `Parse` run on a source with the fuel `Parse` gives it. -/
def tokensFrom (tagPat : Re) (source : Str) (stripStart : Bool) : List Item :=
  tokenLoop tagPat (source.length + 1) source stripStart

/-- The token list of a text run: one text item, none for the empty text. -/
def textItem (p : Str) : List Item := if p ≠ [] then [.text p] else []

/-- The text of a text child `{text: s}`. -/
def leafText : Element → Str
  | .mk _ [(_, .str s)] _ => s
  | _ => []

mutual
/-- The tokens that the loop of `Parse` reads from the serialisation of an element with a tag:
a self-closing tag token without children, an opening tag token, the tokens of the children
and a closing tag token otherwise. -/
def elemToks (tbl : Char → Char) : Element → List Item
  | .mk t attrs cs =>
    let a := (Element.mk t attrs cs).attributes tbl
    if cs.length = 0 then
      [.tok (.mk "angle".toList t .Empty ('<' :: (t ++ (a ++ "/>".toList))) a [])]
    else
      .tok (.mk "angle".toList t .Open ('<' :: (t ++ (a ++ ">".toList))) a [])
        :: (kidsToks tbl [] cs
            ++ [.tok (.mk "angle".toList t .Close ('<' :: '/' :: (t ++ ">".toList)) [] [])])
/-- The tokens read from the serialisation of a list of children after the pending text `p`:
adjacent text children run together into one text item. -/
def kidsToks (tbl : Char → Char) : Str → List Element → List Item
  | p, [] => textItem p
  | p, c :: cs =>
    if c.type = "text".toList then kidsToks tbl (p ++ leafText c) cs
    else textItem p ++ (elemToks tbl c ++ kidsToks tbl [] cs)
end

mutual
/-- The token tree that `foldToken` builds from `elemToks`: the tag token with the items of
its children in the slot `default`. -/
def elemTree (tbl : Char → Char) : Element → Token
  | .mk t attrs cs =>
    let a := (Element.mk t attrs cs).attributes tbl
    if cs.length = 0 then .mk "angle".toList t .Empty ('<' :: (t ++ (a ++ "/>".toList))) a []
    else
      .mk "angle".toList t .Open ('<' :: (t ++ (a ++ ">".toList))) a
        [("default".toList, kidsTree tbl [] cs)]
/-- The items that `foldToken` builds from `kidsToks`. -/
def kidsTree (tbl : Char → Char) : Str → List Element → List Item
  | p, [] => textItem p
  | p, c :: cs =>
    if c.type = "text".toList then kidsTree tbl (p ++ leafText c) cs
    else textItem p ++ (.tok (elemTree tbl c) :: kidsTree tbl [] cs)
end

/-- The entries of an attribute map in ascending order of their keys, the order in which
`Element.attributes` writes them. -/
def sortedBindings (attrs : List (Str × Value)) : List (Str × Value) :=
  (sortStrings (attrs.map Prod.fst)).map fun k => (k, (mapGet attrs k).getD .nil)

/-- An attribute text that the tag pattern reads as submatch 5: no `>`, not ending in
whitespace or `/`, not starting with a character of a tag name. -/
def TagAttrText (a : Str) : Prop :=
  '>' ∉ a ∧ (a = [] ∨ ∃ a0 b, a = a0 ++ [b] ∧ isSpace b = false ∧ b ≠ '/')
    ∧ ∀ c ∈ a.head?, isNameChar c = false

/-- Pushing items one by one on the top frame of `foldToken`. -/
def pushAll (top : StackItem) (items : List Item) : StackItem :=
  items.foldl (fun t i => t.push [i]) top

/-- The element of the round-trip test of `Parse`, built by `NewElement`: tag `x`, the
attributes `a="1"`, `b="2"`, `c` and `no-d`, and the text child `<t>`. -/
def sampleElement : Element :=
  NewElement (.str "x".toList)
    [("a".toList, .str "1".toList), ("b".toList, .str "2".toList), ("c".toList, .bool true),
      ("d".toList, .bool false)]
    [.str "<t>".toList]

/-- An element built by `NewElement` whose text child starts with a line feed. -/
def lineFeedElement : Element := NewElement (.str "x".toList) [] [.str "\nhi".toList]

/-- The synthetic root frame of `foldToken`: the token `template` with the empty slot
`default`. -/
def rootFrame : StackItem :=
  ⟨.mk "angle".toList "template".toList .Open [] [] [("default".toList, [])], "default".toList⟩

/-- The capture groups of a pattern. -/
def Re.groups : Re → List Nat
  | .seq a b => a.groups ++ b.groups
  | .alt a b => a.groups ++ b.groups
  | .star a _ => a.groups
  | .group i a => i :: a.groups
  | _ => []

/-- The position `st'` lies after `st` and holds the same submatches as `st` outside the
groups `G`. -/
def Track (G : List Nat) (st st' : Pos) : Prop :=
  Reach st st' ∧ ∀ i, i ∉ G → st'.caps.lookup i = st.caps.lookup i

/-- The text of a text item. -/
def Item.text? : Item → Option Str
  | .text s => some s
  | .tok _ => none

/-- The syntax trees that `go/parser.ParseExpr` returns for the expression texts of the
examples. -/
def sampleParseExpr (s : Str) : Option Expr :=
  if s = "ok".toList then some (.ident "ok".toList)
  else if s = "x".toList then some (.ident "x".toList)
  else if s = "item".toList then some (.ident "item".toList)
  else if s = "\"\"".toList then some (.basicLit .STRING "\"\"".toList)
  else if s = "false && x".toList then
    some (.binary (.ident "false".toList) .LAND (.ident "x".toList))
  else if s = "true || x".toList then
    some (.binary (.ident "true".toList) .LOR (.ident "x".toList))
  else if s = "x / 0".toList then
    some (.binary (.ident "x".toList) .QUO (.basicLit .INT "0".toList))
  else if s = "arr[1] + a.b".toList then
    some (.binary (.index (.ident "arr".toList) (.basicLit .INT "1".toList)) .ADD
      (.selector (.ident "a".toList) "b".toList))
  else if s = "unknown(1)".toList then some .other
  else if s = "true".toList then some (.ident "true".toList)
  else if s = "12".toList then some (.basicLit .INT "12".toList)
  else if s = "a.b".toList then some (.selector (.ident "a".toList) "b".toList)
  else if s = "\"\x7d\" != \"\"".toList then
    some (.binary (.basicLit .STRING "\"\x7d\"".toList) .NEQ (.basicLit .STRING "\"\"".toList))
  else none

/-- A library for closed examples.  It stands for the Go library on the inputs of the examples
only: the expression texts of `sampleParseExpr` (surrounding blanks aside; every other text is
taken for a syntax error, as `bad +` is), decimal integer literals, decimal integer texts of
at most 15 digits as floats (every other text is taken not to be a float, as a text without a
digit is not), string literals without escapes, integral floats below a million printed in
decimal digits, exact arithmetic on finite floats, the identity as lower-case table. -/
def sampleLib : GoLib where
  parseExpr := fun s => sampleParseExpr (trimSpace s)
  parseIntLit := fun s =>
    if s ≠ [] ∧ s.all isDigit = true ∧ (s.head? ≠ some '0' ∨ s.length = 1) ∧ decValue s < 2 ^ 63
    then some (decValue s : Int) else none
  parseFloat := fun s =>
    match parseInt10 s with
    | some i =>
      if s.length ≤ 15 then
        (if i = 0 ∧ s.head? = some '-' then some .negZero else some (.fin i))
      else none
    | none => none
  unquote := fun s =>
    match s with
    | '"' :: rest =>
      if rest.getLast? = some '"' ∧ rest.dropLast.all (fun c => c != '"' && c != '\\' && c != '\n')
      then some rest.dropLast else none
    | _ => none
  formatFloat := fun f =>
    match f with
    | .fin q => if q.den = 1 ∧ q.num.natAbs < 1000000 then intText q.num else "?".toList
    | _ => "?".toList
  fadd := fun a b =>
    match a, b with
    | .fin x, .fin y => .fin (x + y)
    | _, _ => .nan
  fsub := fun a b =>
    match a, b with
    | .fin x, .fin y => .fin (x - y)
    | _, _ => .nan
  fmul := fun a b =>
    match a, b with
    | .fin x, .fin y => .fin (x * y)
    | _, _ => .nan
  fdiv := fun a b =>
    match a, b with
    | .fin x, .fin y => .fin (x / y)
    | _, _ => .nan
  lower := id

/-- The position that the mark of a directive stands for: `#` opens, `/` closes, `:`
continues, `@` is empty. -/
def markPosition (mark : Char) : Position :=
  match mark with
  | '#' => .Open
  | '/' => .Close
  | ':' => .Continue
  | _ => .Empty

/-- The elements that `parseTokens` builds from the text `s`: one text element, none for the
empty text. -/
def textElements (s : Str) : List Element :=
  if s ≠ [] then [.mk "text".toList [("text".toList, .str s)] []] else []

/-- A heap with one map, which binds `x` to the string `outer` and `xs` to the list of the
strings `a` and `b`. -/
def sampleHeap : Heap :=
  [[("x".toList, .str "outer".toList), ("xs".toList, .list [.str "a".toList, .str "b".toList])]]

/-- The template `{#each xs as x}{x}{/each}{x}`, whose loop variable shadows a name of the
context. -/
def shadowSource : Str :=
  "\x7b#each xs as x\x7d".toList ++ "\x7bx\x7d".toList ++ "\x7b/each\x7d".toList
    ++ "\x7bx\x7d".toList

/-- The syntax tree of a chain `head.p1.p2...` of identifiers: selectors applied from left to
right. -/
def chainExpr (head : Str) (parts : List Str) : Expr :=
  parts.foldl (fun e p => .selector e p) (.ident head)

/-- The text of a chain of identifiers: the names joined by dots. -/
def dotted (head : Str) (parts : List Str) : Str :=
  head ++ parts.flatMap fun p => '.' :: p

/-- The element `<a id="n"/>` of the examples. -/
def anchor (n : Str) : Element := .mk "a".toList [("id".toList, .str n)] []

/-- The fixture of the selector examples: `root` with the children `a` (1), `b` holding `a`
(2), `c` and `a` (3). -/
def selectFixture : List Element :=
  [.mk "root".toList []
    [anchor "1".toList, .mk "b".toList [] [anchor "2".toList], .mk "c".toList [] [],
      anchor "3".toList]]

/-- The `id` attributes of a list of elements, as texts. -/
def attrIDs (es : List Element) : List Str :=
  es.map fun e => (e.attrs.lookup "id".toList).elim [] (Sprint id)

/-- An element of a forest with its place in the document: the types of its proper
ancestors, nearest first, and the types of its earlier siblings, nearest first.  The roots of
the forest are siblings of each other. -/
structure Located where
  elem : Element
  ancestors : List Str
  before : List Str

mutual
/-- The elements of a list of siblings and all their descendants in document pre-order, each
with its place; `ancestors` are the ancestors of the siblings and `before` the siblings
before the list. -/
def locateList (ancestors : List Str) : List Element → List Str → List Located
  | [], _ => []
  | e :: rest, before =>
    locateElem ancestors before e ++ locateList ancestors rest (e.type :: before)
/-- An element, then its descendants in document pre-order, each with its place. -/
def locateElem (ancestors before : List Str) : Element → List Located
  | .mk type attrs children =>
    ⟨.mk type attrs children, ancestors, before⟩ :: locateList (type :: ancestors) children []
end

/-- The elements of a forest, in document pre-order, that satisfy a condition on their type,
their ancestors and their earlier siblings. -/
def selectWhere (sel : Str → List Str → List Str → Bool) (forest : List Element) :
    List Element :=
  ((locateList [] forest []).filter fun l => sel l.elem.type l.ancestors l.before).map
    fun l => l.elem

/-- The loop over `local` of `selectElements` for an element of type `type`, from the values
of `baseQuery` and `adjacent` at the start of the round. -/
def groupRound (type : Str) (base adj : List (List selector)) : GroupState :=
  (base ++ adj).foldl (groupStep type) ⟨false, [], [], base⟩

/-- The test `typ == elem.Type || typ == "*"` of `selectElements`. -/
def hits (s : selector) (type : Str) : Bool := decide (s.type = type ∨ s.type = "*".toList)

/-- A library for the closed examples of the binder: no type implements a named interface,
decimal integer texts are the only floats, and no value converts to a type of kind
`other`. -/
def sampleAttrLib : AttrLib where
  implements := fun _ _ => false
  sprint := fun _ => "?".toList
  parseFloat := fun s => (parseInt10 s).map fun i => F64.fin i
  floatToInt64 := fun f => Int.tdiv f.val.num f.val.den
  floatToUint64 := fun f => (Int.tdiv f.val.num f.val.den).toNat
  toFloat32 := fun f => f
  convertOther := fun _ _ => none

/-- An exported field that is not embedded. -/
def plainField (name : Str) (type : GoType) (attrTag jsonTag : Str) : StructField :=
  .mk name type attrTag jsonTag [] false

/-- The struct type `bindNested` of the tests. -/
def bindNested : GoType :=
  .struct "bindNested".toList [plainField "Name".toList .string "name".toList []]

/-- The fields of the struct type `bindTarget` of the tests. -/
def bindTargetFields : List StructField :=
  [plainField "ID".toList (.int .int) "id".toList [],
   plainField "Title".toList .string [] "title".toList,
   plainField "Enabled".toList .bool "enabled".toList [],
   plainField "Rate".toList (.float .float64) "rate".toList [],
   plainField "Count".toList (.ptr (.int .int)) "count".toList [],
   plainField "Tags".toList (.slice .string) "tags".toList [],
   plainField "Meta".toList (.map .string .string) "meta".toList [],
   plainField "Nested".toList bindNested "nested".toList [],
   plainField "Default".toList .string [] []]

/-- A pointer to a zero value of the struct type with the given name and fields. -/
def newStruct (name : Str) (fields : List StructField) : GoValue :=
  .ptr (.struct name fields) (some (.struct name fields (zeroFields fields)))

/-- The values of the fields of the struct that a pointer points to. -/
def fieldValues : GoValue → List GoValue
  | .ptr _ (some (.struct _ _ vals)) => vals
  | _ => []

/-- Whether a call returned nil, an error, or went into a panic. -/
def Outcome.tag {α : Type} : Outcome α → Nat
  | .ok _ => 0
  | .error _ => 1
  | .panic => 2

mutual
/-- A text that shows a value of the examples: scalars as `fmt.Sprint` prints them, a pointer
through what it points to, slices, maps and structs through their items. -/
def showValue : GoValue → Str
  | .nil => "<nil>".toList
  | .bool b => boolText b
  | .int _ v => intDecimal v
  | .uint _ v => natDecimal v
  | .float _ f => intDecimal (Int.tdiv f.val.num f.val.den)
  | .str s => s
  | .slice _ vs => "[".toList ++ showValues vs ++ "]".toList
  | .map _ _ kvs => "map[".toList ++ showEntries kvs ++ "]".toList
  | .ptr _ none => "nil".toList
  | .ptr _ (some v) => '&' :: showValue v
  | .struct _ _ vals => "\x7b".toList ++ showValues vals ++ "\x7d".toList
  | .other t => t
  | .array _ vs => "[".toList ++ showValues vs ++ "]".toList
/-- The texts of the items of a list, each followed by a blank. -/
def showValues : List GoValue → Str
  | [] => []
  | v :: vs => showValue v ++ ' ' :: showValues vs
/-- The texts of the entries of a map, each followed by a blank. -/
def showEntries : List (GoValue × GoValue) → Str
  | [] => []
  | (k, v) :: kvs => showValue k ++ ':' :: showValue v ++ ' ' :: showEntries kvs
end

/-- The name of a tag value: its first comma-separated item, blanks around it aside. -/
def tagName (tag : Str) : Str := trimSpace ((stringsSplit ',' tag).headD [])

/-- A tag value carries an option when the option is one of the comma-separated items after
the name, blanks around an item aside. -/
def tagCarries (tag option : Str) : Bool :=
  (((stringsSplit ',' tag).drop 1).map trimSpace).contains option

/-- The candidate keys that `parseFieldMeta` computes for a field. -/
def fieldKeys (sf : StructField) : List Key :=
  let attrName := (parseTag sf.attrTag).1
  let jsonName := if (parseTag sf.jsonTag).2.2.2 then [] else (parseTag sf.jsonTag).1
  let keys : List Key := if attrName ≠ [] then appendUnique [] (.text attrName) else []
  let keys := if jsonName ≠ [] then appendUnique keys (.text jsonName) else keys
  (fieldFallbackKeys sf.name).foldl appendUnique keys

/-- The flag `required` that `parseFieldMeta` computes for a field. -/
def fieldRequired (sf : StructField) : Bool :=
  if containsOption (parseTag sf.attrTag).2.1 "omitempty".toList
      ∨ containsOption (parseTag sf.jsonTag).2.1 "omitempty".toList
  then false else true

/-- A list of keys without its duplicates: every key stays at its first place. -/
def firstOccurrences : List Key → List Key
  | [] => []
  | k :: ks => k :: (firstOccurrences ks).filter fun x => x ≠ k

/-- The name of a json tag as a candidate key: none (the empty name) for the ignore mark
`-`. -/
def jsonKeyName (tag : Str) : Str := if tagName tag = "-".toList then [] else tagName tag

/-- A decimal integer text: an optional sign and one or more decimal digits. -/
def decimalInteger (s : Str) : Bool :=
  let ds := if s.head? = some '+' ∨ s.head? = some '-' then s.drop 1 else s
  decide (ds ≠ []) && ds.all isDigit

/-- A string, a boolean or an integer. -/
def Value.isPlain : Value → Bool
  | .str _ => true
  | .bool _ => true
  | .int _ => true
  | .int64 _ => true
  | _ => false

/-- A word with its first letter in upper case. -/
def capWord : Str → Str
  | [] => []
  | c :: cs => c.toUpper :: cs

/-- A first word followed by words that each come after a separator character. -/
def sepJoin (w0 : Str) (ws : List (Char × Str)) : Str := w0 ++ ws.flatMap fun p => p.1 :: p.2

/-- A Close token of a name, with nothing else in it. -/
def closing (name : Str) : Token := .mk [] name .Close [] [] []

mutual
/-- The flattening of a list of folded items: every item in order, an Open token expanded into
the token itself (without its children), the flattening of its slot `default` and a Close
token of its name. -/
def flattenItems : List Item → List Item
  | [] => []
  | .text s :: rest => .text s :: flattenItems rest
  | .tok t :: rest => flattenToken t ++ flattenItems rest
/-- The flattening of a folded token. -/
def flattenToken : Token → List Item
  | .mk k n p s e c =>
    match p with
    | .Open => .tok (.mk k n .Open s e []) :: (flattenSlot c ++ [.tok (closing n)])
    | _ => [.tok (.mk k n p s e c)]
/-- The flattening of the slot `default` of a children map. -/
def flattenSlot : List (Str × List Item) → List Item
  | [] => []
  | (k, items) :: rest => if k = "default".toList then flattenItems items else flattenSlot rest
end

/-- An item of a token list as the flattening writes it: an Open token without children (the
fold fills the children of the token in), a Close token as the Close token of its name, every
other item as it is. -/
def canonItem : Item → Item
  | .text s => .text s
  | .tok t =>
    match t.position with
    | .Open => .tok (t.withChildren [])
    | .Close => .tok (closing t.name)
    | _ => .tok t

/-- A token list is well nested, without Continue tokens, above the open names `stack`
(innermost first): every Close token closes the innermost open name, and nothing stays open
at the end. -/
def wellNested : List Item → List Str → Bool
  | [], stack => stack.isEmpty
  | .text _ :: rest, stack => wellNested rest stack
  | .tok t :: rest, stack =>
    match t.position with
    | .Open => wellNested rest (t.name :: stack)
    | .Close =>
      match stack with
      | n :: below => decide (n = t.name) && wellNested rest below
      | [] => false
    | .Continue => false
    | .Empty => wellNested rest stack

/-- The names of the frames of a stack above its lowest frame, the top first. -/
def namesAbove : StackItem → List StackItem → List Str
  | _, [] => []
  | top, parent :: below => top.token.name :: namesAbove parent below

/-- The flattening of what a stack of frames holds: the slot of the lowest frame, then for
every frame above it the token of the frame and the slot collected so far. -/
def pending : StackItem → List StackItem → List Item
  | top, [] => flattenSlot top.token.children
  | top, parent :: below =>
    pending parent below ++ .tok (top.token.withChildren []) :: flattenSlot top.token.children

/-- A frame as the fold without Continue tokens builds it: an Open token with the one slot
`default`, which is the active slot. -/
def StackItem.simple (st : StackItem) : Prop :=
  st.slot = "default".toList
    ∧ ∃ k n s e xs, st.token = .mk k n .Open s e [("default".toList, xs)]

/-- A well-nested token list: a text, an `if` block that holds a text and an empty tag, and
the closing token of the block. -/
def nestedSample : List Item :=
  [.text "a".toList,
    .tok (.mk "curly".toList "if".toList .Open "\x7b#if x\x7d".toList "x".toList []),
    .text "b".toList,
    .tok (.mk "angle".toList "br".toList .Empty "<br/>".toList [] []),
    .tok (.mk "curly".toList "if".toList .Close "\x7b/if\x7d".toList [] [])]

/-! ## Typed elements

The package `element` builds typed elements from the generic elements of the parser: every
type binds its fields from the attributes with `attr.UnmarshalAttrs`. -/

/-- The types of package `element` that implement its interface `Element`. -/
inductive ElementKind where
  | Text | At | Sharp | A | Img | Audio | Video | File | Author | Button | Message | Quote
  | Br | P | Strong | Em | Ins | Del | Spl | Code | Sup | Sub | Extension
deriving DecidableEq

/-- A value of the interface `Element` of package `element`: a non-nil pointer to a struct of
one of its types, with the values of the visible fields of the struct (`fields`), the map
`BaseElement.attrs`, the slice `BaseElement.children` and, for an `Extension`, its field
`tag`. -/
inductive TypedElement where
  | mk (kind : ElementKind) (tag : Str) (fields : List GoValue) (attrs : List (Str × Value))
      (children : List TypedElement)

/-- The type of a typed element. -/
def TypedElement.kind : TypedElement → ElementKind
  | .mk k _ _ _ _ => k

/-- The slice `BaseElement.children`. -/
def TypedElement.children : TypedElement → List TypedElement
  | .mk _ _ _ _ c => c

/-- Source: the methods `Tag` of the types. -/
def TypedElement.Tag : TypedElement → Str
  | .mk kind tag _ _ _ =>
    match kind with
    | .Text => "text".toList
    | .At => "at".toList
    | .Sharp => "sharp".toList
    | .A => "a".toList
    | .Img => "img".toList
    | .Audio => "audio".toList
    | .Video => "video".toList
    | .File => "file".toList
    | .Author => "author".toList
    | .Button => "button".toList
    | .Message => "message".toList
    | .Quote => "quote".toList
    | .Br => "br".toList
    | .P => "p".toList
    | .Strong => "b".toList
    | .Em => "i".toList
    | .Ins => "u".toList
    | .Del => "s".toList
    | .Spl => "spl".toList
    | .Code => "code".toList
    | .Sup => "sup".toList
    | .Sub => "sub".toList
    | .Extension => tag

/-- Source: the methods `Alias` of the types. -/
def ElementKind.Alias : ElementKind → List Str
  | .A => ["link".toList]
  | .Img => ["image".toList]
  | .Strong => ["strong".toList]
  | .Em => ["em".toList]
  | .Ins => ["ins".toList]
  | .Del => ["del".toList]
  | _ => []

/-- The types that embed `Decorative`. -/
def ElementKind.isDecorative : ElementKind → Bool
  | .Strong | .Em | .Ins | .Del | .Spl | .Code | .Sup | .Sub => true
  | _ => false

/-- The types with a method `UnmarshalAttrs` of their own, which binds the fields of the
struct with `attr.UnmarshalAttrs`; the other types have the method of `BaseElement`. -/
def ElementKind.binds : ElementKind → Bool
  | .Text | .At | .Sharp | .A | .Img | .Audio | .Video | .File | .Author | .Button | .Message
  | .Quote => true
  | _ => false

/-- An embedded struct without tags. -/
def embeddedField (name : Str) : StructField := .mk name (.struct name []) [] [] [] true

/-- An unexported field, promoted from `BaseElement`. -/
def hiddenField (name : Str) (type : GoType) : StructField :=
  .mk name type [] [] "element".toList false

/-- The visible fields that the embedded `BaseElement` contributes. -/
def baseFields : List StructField :=
  [embeddedField "BaseElement".toList, hiddenField "attrs".toList (.map .string .any),
    hiddenField "children".toList (.slice (.iface "Element".toList)),
    hiddenField "owner".toList (.iface "Element".toList)]

/-- The visible fields that the embedded `Resource` contributes. -/
def resourceFields : List StructField :=
  [embeddedField "Resource".toList, plainField "Src".toList .string "src".toList [],
    plainField "Title".toList .string "title,omitempty".toList [],
    plainField "Cache".toList .bool "cache,omitempty".toList [],
    plainField "Timeout".toList (.int .int) "timeout,omitempty".toList []]

/-- Go `reflect.VisibleFields` of the struct types of the typed elements. -/
def ElementKind.fields : ElementKind → List StructField
  | .Text =>
    baseFields ++ [embeddedField "NoAlias".toList, plainField "Text".toList .string "text".toList []]
  | .At =>
    baseFields ++ [embeddedField "NoAlias".toList,
      plainField "Id".toList .string "id,omitempty".toList [],
      plainField "Name".toList .string "name,omitempty".toList [],
      plainField "Role".toList .string "role,omitempty".toList [],
      plainField "Type".toList .string "type,omitempty".toList []]
  | .Sharp =>
    baseFields ++ [embeddedField "NoAlias".toList, plainField "Id".toList .string "id".toList [],
      plainField "Name".toList .string "name,omitempty".toList []]
  | .A => baseFields ++ [plainField "Href".toList .string "href".toList []]
  | .Img =>
    baseFields ++ resourceFields ++
      [plainField "Width".toList (.int .int) "width,omitempty".toList [],
        plainField "Height".toList (.int .int) "height,omitempty".toList []]
  | .Audio =>
    baseFields ++ [embeddedField "NoAlias".toList] ++ resourceFields ++
      [plainField "Duration".toList (.float .float64) "duration,omitempty".toList [],
        plainField "Poster".toList .string "poster,omitempty".toList []]
  | .Video =>
    baseFields ++ [embeddedField "NoAlias".toList] ++ resourceFields ++
      [plainField "Width".toList (.int .int) "width,omitempty".toList [],
        plainField "Height".toList (.int .int) "height,omitempty".toList [],
        plainField "Duration".toList (.float .float64) "duration,omitempty".toList [],
        plainField "Poster".toList .string "poster,omitempty".toList []]
  | .File =>
    baseFields ++ [embeddedField "NoAlias".toList] ++ resourceFields ++
      [plainField "Poster".toList .string "poster,omitempty".toList []]
  | .Author =>
    baseFields ++ [embeddedField "NoAlias".toList,
      plainField "Id".toList .string "id,omitempty".toList [],
      plainField "Name".toList .string "name,omitempty".toList [],
      plainField "Avatar".toList .string "avatar,omitempty".toList []]
  | .Button =>
    baseFields ++ [embeddedField "NoAlias".toList,
      plainField "Id".toList .string "id,omitempty".toList [],
      plainField "Type".toList .string "type,omitempty".toList [],
      plainField "Href".toList .string "href,omitempty".toList [],
      plainField "Text".toList .string "text,omitempty".toList [],
      plainField "Theme".toList .string "theme,omitempty".toList []]
  | .Message =>
    baseFields ++ [embeddedField "NoAlias".toList,
      plainField "Id".toList .string "id,omitempty".toList [],
      plainField "Forward".toList .bool "forward,omitempty".toList []]
  | .Quote =>
    baseFields ++ [embeddedField "NoAlias".toList,
      plainField "Id".toList .string "id,omitempty".toList [],
      plainField "Forward".toList .bool "forward,omitempty".toList []]
  | .Br => baseFields ++ [embeddedField "NoAlias".toList]
  | .P => baseFields ++ [embeddedField "NoAlias".toList]
  | .Extension =>
    baseFields ++ [embeddedField "NoAlias".toList, hiddenField "tag".toList .string]
  | .Strong => embeddedField "Decorative".toList :: baseFields
  | .Em => embeddedField "Decorative".toList :: baseFields
  | .Ins => embeddedField "Decorative".toList :: baseFields
  | .Del => embeddedField "Decorative".toList :: baseFields
  | _ => embeddedField "Decorative".toList :: baseFields ++ [embeddedField "NoAlias".toList]

mutual
/-- A dynamic value of the parser as the binder reads it through `reflect`.  An `*Element` is
a pointer to a struct whose fields are left out: the binder reads no field of a source
value. -/
def Value.toGo : Value → GoValue
  | .nil => .nil
  | .bool b => .bool b
  | .str s => .str s
  | .int i => .int .int i
  | .list vs => .slice .any (toGoList vs)
  | .dict kvs => .map .string .any (toGoDict kvs)
  | .elem _ => .ptr (.struct "Element".toList []) (some (.struct "Element".toList [] []))
  | .int64 i => .int .int64 i
  | .float f _ => .float .float64 f
  | .nilPtr => .ptr .string none
/-- The items of a `[]any`. -/
def toGoList : List Value → List GoValue
  | [] => []
  | v :: vs => v.toGo :: toGoList vs
/-- The entries of a `map[string]any`. -/
def toGoDict : List (Str × Value) → List (GoValue × GoValue)
  | [] => []
  | (k, v) :: kvs => (.str k, v.toGo) :: toGoDict kvs
end

/-- The map `elem.Attrs` as the argument `attrs` of the binder. -/
def attrsToGo : List (Str × Value) → List (Str × GoValue)
  | [] => []
  | (k, v) :: kvs => (k, v.toGo) :: attrsToGo kvs

/-- Source: `New[T]` for the type `kind`, with `instantiate`, `bindOwner` and the method
`UnmarshalAttrs` of the type in their places: a new struct of the type, bound to `attrs` when
the type binds its fields, with `attrs` as its map `BaseElement.attrs`. -/
def New (lib : AttrLib) (kind : ElementKind) (attrs : List (Str × Value)) :
    Outcome TypedElement :=
  if kind.binds then
    match UnmarshalAttrs lib (newStruct [] kind.fields) (some (attrsToGo attrs)) with
    | (.ok _, dst) => .ok (.mk kind [] (fieldValues dst) attrs [])
    | (.error e, _) => .error e
    | (.panic, _) => .panic
  else .ok (.mk kind [] (zeroFields kind.fields) attrs [])

/-- Source: `NewExtension`. -/
def NewExtension (tag : Str) (attrs : List (Str × Value)) : Outcome TypedElement :=
  .ok (.mk .Extension tag (zeroFields ElementKind.Extension.fields) attrs [])

/-- Source: the methods `AddChild`: `BaseElement.AddChild` appends every element, a
decorative element keeps texts and decorative elements only, and `Text` and `Br` take no
children. -/
def TypedElement.AddChild : TypedElement → List TypedElement → TypedElement
  | .mk kind tag fields attrs children, content =>
    match kind with
    | .Text => .mk kind tag fields attrs children
    | .Br => .mk kind tag fields attrs children
    | _ =>
      if kind.isDecorative then
        .mk kind tag fields attrs
          (children ++ content.filter fun c => decide (c.kind = .Text) || c.kind.isDecorative)
      else .mk kind tag fields attrs (children ++ content)

/-- Source: `ErrTransformFailed`: the tag and the error of the factory, or the error of the
transformation of the children. -/
inductive ErrTransformFailed where
  | bind (tag : Str) (err : BindError)
  | nested (tag : Str) (err : ErrTransformFailed)

/-- The result of `Transform`: the list `message`, an error, or a run-time panic. -/
inductive TransformResult where
  | ok (message : List TypedElement)
  | failed (err : ErrTransformFailed)
  | panic

/-- The maps `elementFactoryMap` and `styleFactoryMap`: a tag is bound to `Factory[*T]()`,
given by its type `T`. -/
structure Registry where
  elementFactoryMap : List (Str × ElementKind)
  styleFactoryMap : List (Str × ElementKind)

/-- Source: `init`: the registry after the registrations of the package. -/
def initRegistry : Registry where
  elementFactoryMap :=
    [("text".toList, .Text), ("at".toList, .At), ("sharp".toList, .Sharp), ("a".toList, .A),
      ("link".toList, .A), ("img".toList, .Img), ("image".toList, .Img),
      ("audio".toList, .Audio), ("video".toList, .Video), ("file".toList, .File),
      ("author".toList, .Author), ("button".toList, .Button), ("message".toList, .Message),
      ("quote".toList, .Quote)]
  styleFactoryMap :=
    [("b".toList, .Strong), ("strong".toList, .Strong), ("i".toList, .Em), ("em".toList, .Em),
      ("u".toList, .Ins), ("ins".toList, .Ins), ("s".toList, .Del), ("del".toList, .Del),
      ("spl".toList, .Spl), ("code".toList, .Code), ("sup".toList, .Sup), ("sub".toList, .Sub),
      ("p".toList, .P), ("br".toList, .Br)]

/-- Source: the part that the branches of `Transform` share: the error of the factory ends the
call, the children are transformed when there are any (`kids`) and added to the new element.
The result is the new element with its children. -/
def attach (tag : Str) (made : Outcome TypedElement) (kids : Option TransformResult) :
    TransformResult :=
  match made with
  | .error e => .failed (.bind tag e)
  | .panic => .panic
  | .ok element =>
    match kids with
    | none => .ok [element]
    | some (.ok children) => .ok [element.AddChild children]
    | some (.failed err) => .failed (.nested tag err)
    | some .panic => .panic

mutual
/-- Source: `Transform`: the loop over `elements`; the result of a round is what the round
appends to `message`. -/
def Transform (lib : AttrLib) (reg : Registry) : List Element → TransformResult
  | [] => .ok []
  | elem :: rest =>
    match transformRound lib reg elem with
    | .ok added =>
      match Transform lib reg rest with
      | .ok message => .ok (added ++ message)
      | r => r
    | r => r
/-- Source: one round of the loop of `Transform`.  The first branch, for a tag of
`elementFactoryMap`, builds the element and its children and appends nothing to `message`. -/
def transformRound (lib : AttrLib) (reg : Registry) : Element → TransformResult
  | .mk type attrs children =>
    let tag := Element.Tag (.mk type attrs children)
    let kids : Option TransformResult :=
      if children.length > 0 then some (Transform lib reg children) else none
    match reg.elementFactoryMap.lookup tag with
    | some kind =>
      match attach tag (New lib kind attrs) kids with
      | .ok _ => .ok []
      | r => r
    | none =>
      if tag = "a".toList ∨ tag = "link".toList then attach tag (New lib .A attrs) kids
      else if tag = "button".toList then attach tag (New lib .Button attrs) kids
      else
        match reg.styleFactoryMap.lookup tag with
        | some kind => attach tag (New lib kind attrs) kids
        | none =>
          if tag = "br".toList ∨ tag = "newline".toList then attach tag (New lib .Br attrs) none
          else if tag = "message".toList then attach tag (New lib .Message attrs) kids
          else if tag = "quote".toList then attach tag (New lib .Quote attrs) kids
          else attach tag (NewExtension tag attrs) kids
end

/-- The tags of the elements that `Transform` returned; `none` for an error or a panic. -/
def TransformResult.tags : TransformResult → Option (List Str)
  | .ok message => some (message.map TypedElement.Tag)
  | _ => none

/-- The items of a list-like value, a slice or an array; `none` for every other value. -/
def GoValue.items : GoValue → Option (List GoValue)
  | .slice _ vs => some vs
  | .array _ vs => some vs
  | _ => none



/-! ## Round trip of the entity utilities -/

theorem replaceAllAux_flatMap (old new : Str) (e e' : Char → Str)
    (h : ∀ c rest, replaceAllAux old new 0 (e c ++ rest) = e' c ++ replaceAllAux old new 0 rest)
    (t : Str) : replaceAllAux old new 0 (t.flatMap e) = t.flatMap e' := by
  induction t with
  | nil => rfl
  | cons c cs ih => simp only [List.flatMap_cons, h, ih]

theorem replaceAux_flatMap (re : Re) (f : Str → Str) (e e' : Char → Str)
    (h : ∀ c prev rest, ∃ prev', re.replaceAux f 0 prev (e c ++ rest)
      = e' c ++ re.replaceAux f 0 prev' rest)
    (t : Str) (prev : Option Char) : re.replaceAux f 0 prev (t.flatMap e) = t.flatMap e' := by
  induction t generalizing prev with
  | nil => rfl
  | cons c cs ih =>
    obtain ⟨prev', hp⟩ := h c prev (cs.flatMap e)
    simp only [List.flatMap_cons, hp, ih]

theorem replaceAll_single (s : Str) (c : Char) (new : Str) :
    replaceAll s [c] new = s.flatMap (fun x => if x = c then new else [x]) := by
  unfold replaceAll
  induction s with
  | nil => rfl
  | cons x xs ih =>
    by_cases hx : x = c
    · subst hx
      simp [replaceAllAux, List.isPrefixOf, ih]
    · have hx' : ¬ c = x := fun h => hx h.symm
      simp [replaceAllAux, List.isPrefixOf, ih, hx, hx']

theorem Escape_eq_flatMap (t : Str) (inLine : Bool) :
    Escape t inLine = t.flatMap (escapeChar inLine) := by
  unfold Escape
  simp only [String.toList, replaceAll_single, List.flatMap_assoc]
  cases inLine
  · simp only [Bool.false_eq_true, if_false, List.flatMap_assoc]
    congr 1
    funext c
    unfold escapeChar
    by_cases h1 : c = '&'
    · subst h1; decide
    by_cases h2 : c = '<'
    · subst h2; decide
    by_cases h3 : c = '>'
    · subst h3; decide
    simp [h1, h2, h3]
  · simp only [if_true, List.flatMap_assoc]
    congr 1
    funext c
    unfold escapeChar
    by_cases h1 : c = '&'
    · subst h1; decide
    by_cases h2 : c = '<'
    · subst h2; decide
    by_cases h3 : c = '>'
    · subst h3; decide
    by_cases h4 : c = '"'
    · subst h4; decide
    simp [h1, h2, h3, h4]

theorem replaceAllAux_amp_ne (p new : Str) (c : Char) (rest : Str) (h : c ≠ '&') :
    replaceAllAux ('&' :: p) new 0 (c :: rest) = c :: replaceAllAux ('&' :: p) new 0 rest := by
  have h' : ¬ '&' = c := fun e => h e.symm
  simp [replaceAllAux, List.isPrefixOf, h']

theorem unescape_pass1 (inLine : Bool) (t : Str) :
    replaceAll (t.flatMap (escapeChar inLine)) "&lt;".toList "<".toList
      = t.flatMap (escapeChar1 inLine) := by
  apply replaceAllAux_flatMap
  intro c rest
  unfold escapeChar escapeChar1
  by_cases h1 : c = '&'
  · subst h1; simp [replaceAllAux, List.isPrefixOf]
  by_cases h2 : c = '<'
  · subst h2; simp [replaceAllAux, List.isPrefixOf]
  by_cases h3 : c = '>'
  · subst h3; simp [replaceAllAux, List.isPrefixOf]
  by_cases h4 : c = '"' ∧ inLine = true
  · obtain ⟨h4, h5⟩ := h4
    subst h4; subst h5; simp [replaceAllAux, List.isPrefixOf]
  · simp only [h1, h2, h3, h4, if_false, String.toList, List.singleton_append]
    exact replaceAllAux_amp_ne _ _ _ _ h1

theorem unescape_pass2 (inLine : Bool) (t : Str) :
    replaceAll (t.flatMap (escapeChar1 inLine)) "&gt;".toList ">".toList
      = t.flatMap (escapeChar2 inLine) := by
  apply replaceAllAux_flatMap
  intro c rest
  unfold escapeChar1 escapeChar2
  by_cases h1 : c = '&'
  · subst h1; simp [replaceAllAux, List.isPrefixOf]
  by_cases h3 : c = '>'
  · subst h3; simp [replaceAllAux, List.isPrefixOf]
  by_cases h4 : c = '"' ∧ inLine = true
  · obtain ⟨h4, h5⟩ := h4
    subst h4; subst h5; simp [replaceAllAux, List.isPrefixOf]
  · simp only [h1, h3, h4, if_false, String.toList, List.singleton_append]
    exact replaceAllAux_amp_ne _ _ _ _ h1

theorem unescape_pass3 (inLine : Bool) (t : Str) :
    replaceAll (t.flatMap (escapeChar2 inLine)) "&quot;".toList "\"".toList
      = t.flatMap escapeChar3 := by
  apply replaceAllAux_flatMap
  intro c rest
  unfold escapeChar2 escapeChar3
  by_cases h1 : c = '&'
  · subst h1; simp [replaceAllAux, List.isPrefixOf]
  by_cases h4 : c = '"' ∧ inLine = true
  · obtain ⟨h4, h5⟩ := h4
    subst h4; subst h5; simp [replaceAllAux, List.isPrefixOf]
  · simp only [h1, h4, if_false, String.toList, List.singleton_append]
    exact replaceAllAux_amp_ne _ _ _ _ h1

theorem matchAt_seq_lit_ne (c x : Char) (r : Re) (prev : Option Char) (rest : Str) (h : x ≠ c) :
    (Re.seq (Re.lit c) r).matchAt prev (x :: rest) = none := by
  simp [Re.matchAt, Re.run, Re.lit, h]

theorem replaceAux_of_matchAt_none (re : Re) (f : Str → Str) (prev : Option Char) (x : Char)
    (rest : Str) (h : re.matchAt prev (x :: rest) = none) :
    re.replaceAux f 0 prev (x :: rest) = x :: re.replaceAux f 0 (some x) rest := by
  simp [Re.replaceAux, h]

theorem decEntityPat_ne (prev : Option Char) (x : Char) (rest : Str) (h : x ≠ '&') :
    decEntityPat.matchAt prev (x :: rest) = none := by
  simp [Re.matchAt, decEntityPat, Re.run, Re.str, Re.lit, h]

theorem hexEntityPat_ne (prev : Option Char) (x : Char) (rest : Str) (h : x ≠ '&') :
    hexEntityPat.matchAt prev (x :: rest) = none := by
  simp [Re.matchAt, hexEntityPat, Re.run, Re.str, Re.lit, h]

theorem ampEntityPat_ne (prev : Option Char) (x : Char) (rest : Str) (h : x ≠ '&') :
    ampEntityPat.matchAt prev (x :: rest) = none := by
  simp [Re.matchAt, ampEntityPat, Re.run, Re.str, Re.lit, h]

theorem unescape_pass4 (t : Str) :
    decEntityPat.replaceAllFunc (t.flatMap escapeChar3) unescapeDec = t.flatMap escapeChar3 := by
  apply replaceAux_flatMap
  intro c prev rest
  unfold escapeChar3
  by_cases h1 : c = '&'
  · subst h1
    refine ⟨some ';', ?_⟩
    simp [Re.replaceAux, Re.matchAt, decEntityPat, Re.run, Re.str, Re.lit]
  · refine ⟨some c, ?_⟩
    simp only [h1, if_false, List.singleton_append]
    exact replaceAux_of_matchAt_none _ _ _ _ _ (decEntityPat_ne _ _ _ h1)

theorem unescape_pass5 (t : Str) :
    hexEntityPat.replaceAllFunc (t.flatMap escapeChar3) unescapeHex = t.flatMap escapeChar3 := by
  apply replaceAux_flatMap
  intro c prev rest
  unfold escapeChar3
  by_cases h1 : c = '&'
  · subst h1
    refine ⟨some ';', ?_⟩
    simp [Re.replaceAux, Re.matchAt, hexEntityPat, Re.run, Re.str, Re.lit]
  · refine ⟨some c, ?_⟩
    simp only [h1, if_false, List.singleton_append]
    exact replaceAux_of_matchAt_none _ _ _ _ _ (hexEntityPat_ne _ _ _ h1)

theorem unescape_pass6 (t : Str) :
    ampEntityPat.replaceAllString (t.flatMap escapeChar3) "&".toList = t := by
  have key : ∀ (t : Str) (prev : Option Char),
      ampEntityPat.replaceAux (fun _ => "&".toList) 0 prev (t.flatMap escapeChar3)
        = t.flatMap (fun c => [c]) := by
    intro t prev
    apply replaceAux_flatMap
    intro c prev rest
    unfold escapeChar3
    by_cases h1 : c = '&'
    · subst h1
      refine ⟨some ';', ?_⟩
      simp [Re.replaceAux, Re.matchAt, ampEntityPat, Re.run, Re.str, Re.lit]
    · refine ⟨some c, ?_⟩
      simp only [h1, if_false, List.singleton_append]
      exact replaceAux_of_matchAt_none _ _ _ _ _ (ampEntityPat_ne _ _ _ h1)
  unfold Re.replaceAllString Re.replaceAllFunc
  rw [key]
  induction t with
  | nil => rfl
  | cons c cs ih => simp

theorem unescape_Escape (t : Str) (inLine : Bool) : unescape (Escape t inLine) = t := by
  unfold unescape
  simp only [Escape_eq_flatMap, unescape_pass1, unescape_pass2, unescape_pass3, unescape_pass4,
    unescape_pass5, unescape_pass6]

/-! ### Texts without an ampersand -/

theorem replaceAllAux_amp_id (p new : Str) (u : Str) (h : '&' ∉ u) :
    replaceAllAux ('&' :: p) new 0 u = u := by
  induction u with
  | nil => rfl
  | cons c cs ih =>
    have hc : c ≠ '&' := fun e => h (by simp [e])
    have hcs : '&' ∉ cs := fun e => h (by simp [e])
    rw [replaceAllAux_amp_ne _ _ _ _ hc, ih hcs]

theorem replaceAux_amp_id (re : Re) (f : Str → Str)
    (hre : ∀ prev x rest, x ≠ '&' → re.matchAt prev (x :: rest) = none)
    (u : Str) (h : '&' ∉ u) (prev : Option Char) : re.replaceAux f 0 prev u = u := by
  induction u generalizing prev with
  | nil => rfl
  | cons c cs ih =>
    have hc : c ≠ '&' := fun e => h (by simp [e])
    have hcs : '&' ∉ cs := fun e => h (by simp [e])
    rw [replaceAux_of_matchAt_none _ _ _ _ _ (hre _ _ _ hc), ih hcs]

theorem unescape_no_amp (u : Str) (h : '&' ∉ u) : unescape u = u := by
  unfold unescape replaceAll Re.replaceAllString Re.replaceAllFunc
  simp only [String.toList]
  rw [replaceAllAux_amp_id _ _ _ h, replaceAllAux_amp_id _ _ _ h, replaceAllAux_amp_id _ _ _ h,
    replaceAux_amp_id _ _ decEntityPat_ne _ h, replaceAux_amp_id _ _ hexEntityPat_ne _ h,
    replaceAux_amp_id _ _ ampEntityPat_ne _ h]

theorem unescapeDec_38 : unescapeDec "&#38;".toList = "&#38;".toList := by decide

theorem unescapeHex_26 : unescapeHex "&#x26;".toList = "&#x26;".toList := by decide

theorem unescape_amp_named (u : Str) (h : '&' ∉ u) :
    unescape ("&amp;".toList ++ u) = '&' :: u := by
  unfold unescape replaceAll Re.replaceAllString Re.replaceAllFunc
  simp only [String.toList, List.cons_append, List.nil_append]
  have e1 : ∀ (x : Char) (xs new : Str), x ≠ 'a' →
      replaceAllAux ('&' :: x :: xs) new 0 ('&' :: 'a' :: 'm' :: 'p' :: ';' :: u)
        = '&' :: 'a' :: 'm' :: 'p' :: ';' :: u := by
    intro x xs new hx
    simp [replaceAllAux, List.isPrefixOf, replaceAllAux_amp_id _ _ _ h, hx]
  rw [e1 _ _ _ (by decide), e1 _ _ _ (by decide), e1 _ _ _ (by decide)]
  have e2 : decEntityPat.replaceAux unescapeDec 0 none ('&' :: 'a' :: 'm' :: 'p' :: ';' :: u)
      = '&' :: 'a' :: 'm' :: 'p' :: ';' :: u := by
    simp [Re.replaceAux, Re.matchAt, decEntityPat, Re.run, Re.str, Re.lit]
    exact replaceAux_amp_id _ _ decEntityPat_ne _ h _
  have e3 : hexEntityPat.replaceAux unescapeHex 0 none ('&' :: 'a' :: 'm' :: 'p' :: ';' :: u)
      = '&' :: 'a' :: 'm' :: 'p' :: ';' :: u := by
    simp [Re.replaceAux, Re.matchAt, hexEntityPat, Re.run, Re.str, Re.lit]
    exact replaceAux_amp_id _ _ hexEntityPat_ne _ h _
  rw [e2, e3]
  simp [Re.replaceAux, Re.matchAt, ampEntityPat, Re.run, Re.str, Re.lit]
  exact replaceAux_amp_id _ _ ampEntityPat_ne _ h _

theorem unescape_amp_dec (u : Str) (h : '&' ∉ u) :
    unescape ("&#38;".toList ++ u) = '&' :: u := by
  unfold unescape replaceAll Re.replaceAllString Re.replaceAllFunc
  simp only [String.toList, List.cons_append, List.nil_append]
  have e1 : ∀ (x : Char) (xs new : Str), x ≠ '#' →
      replaceAllAux ('&' :: x :: xs) new 0 ('&' :: '#' :: '3' :: '8' :: ';' :: u)
        = '&' :: '#' :: '3' :: '8' :: ';' :: u := by
    intro x xs new hx
    simp [replaceAllAux, List.isPrefixOf, replaceAllAux_amp_id _ _ _ h, hx]
  rw [e1 _ _ _ (by decide), e1 _ _ _ (by decide), e1 _ _ _ (by decide)]
  have e2 : decEntityPat.replaceAux unescapeDec 0 none ('&' :: '#' :: '3' :: '8' :: ';' :: u)
      = '&' :: '#' :: '3' :: '8' :: ';' :: u := by
    have hm : decEntityPat.matchAt none ('&' :: '#' :: '3' :: '8' :: ';' :: u)
        = some ⟨"&#38;".toList, u, [(1, "38".toList)]⟩ := by
      simp [Re.matchAt, decEntityPat, Re.run, Re.str, Re.lit, Re.plus, starLoop, isDigit]
    simp only [Re.replaceAux, hm]
    simp only [String.toList, List.length_cons, List.length_nil]
    have := unescapeDec_38
    simp only [String.toList] at this
    simp [this, Re.replaceAux]
    exact replaceAux_amp_id _ _ decEntityPat_ne _ h _
  have e3 : hexEntityPat.replaceAux unescapeHex 0 none ('&' :: '#' :: '3' :: '8' :: ';' :: u)
      = '&' :: '#' :: '3' :: '8' :: ';' :: u := by
    simp [Re.replaceAux, Re.matchAt, hexEntityPat, Re.run, Re.str, Re.lit]
    exact replaceAux_amp_id _ _ hexEntityPat_ne _ h _
  rw [e2, e3]
  simp [Re.replaceAux, Re.matchAt, ampEntityPat, Re.run, Re.str, Re.lit]
  exact replaceAux_amp_id _ _ ampEntityPat_ne _ h _

theorem unescape_amp_hex (u : Str) (h : '&' ∉ u) :
    unescape ("&#x26;".toList ++ u) = '&' :: u := by
  unfold unescape replaceAll Re.replaceAllString Re.replaceAllFunc
  simp only [String.toList, List.cons_append, List.nil_append]
  have e1 : ∀ (x : Char) (xs new : Str), x ≠ '#' →
      replaceAllAux ('&' :: x :: xs) new 0 ('&' :: '#' :: 'x' :: '2' :: '6' :: ';' :: u)
        = '&' :: '#' :: 'x' :: '2' :: '6' :: ';' :: u := by
    intro x xs new hx
    simp [replaceAllAux, List.isPrefixOf, replaceAllAux_amp_id _ _ _ h, hx]
  rw [e1 _ _ _ (by decide), e1 _ _ _ (by decide), e1 _ _ _ (by decide)]
  have e2 : decEntityPat.replaceAux unescapeDec 0 none
      ('&' :: '#' :: 'x' :: '2' :: '6' :: ';' :: u)
      = '&' :: '#' :: 'x' :: '2' :: '6' :: ';' :: u := by
    simp [Re.replaceAux, Re.matchAt, decEntityPat, Re.run, Re.str, Re.lit, Re.plus, isDigit]
    exact replaceAux_amp_id _ _ decEntityPat_ne _ h _
  have e3 : hexEntityPat.replaceAux unescapeHex 0 none
      ('&' :: '#' :: 'x' :: '2' :: '6' :: ';' :: u)
      = '&' :: '#' :: 'x' :: '2' :: '6' :: ';' :: u := by
    have hm : hexEntityPat.matchAt none ('&' :: '#' :: 'x' :: '2' :: '6' :: ';' :: u)
        = some ⟨"&#x26;".toList, u, [(1, "26".toList)]⟩ := by
      simp [Re.matchAt, hexEntityPat, Re.run, Re.str, Re.lit, Re.plus, starLoop, isDigit,
        isLowerHexLetter]
    simp only [Re.replaceAux, hm]
    simp only [String.toList, List.length_cons, List.length_nil]
    have := unescapeHex_26
    simp only [String.toList] at this
    simp [this, Re.replaceAux]
    exact replaceAux_amp_id _ _ hexEntityPat_ne _ h _
  rw [e2, e3]
  simp [Re.replaceAux, Re.matchAt, ampEntityPat, Re.run, Re.str, Re.lit]
  exact replaceAux_amp_id _ _ ampEntityPat_ne _ h _

/-! ### The matcher on runs of one character class -/

theorem run_chr_cons {α : Type} (p : Char → Bool) (k : Pos → Option α) (prev : Option Char)
    (pos : Nat) (c : Char) (cs : Str) (caps : List (Nat × Str)) :
    (Re.chr p).run k ⟨prev, pos, c :: cs, caps⟩
      = if p c then k ⟨some c, pos + 1, cs, caps⟩ else none := rfl

theorem run_chr_nil {α : Type} (p : Char → Bool) (k : Pos → Option α) (prev : Option Char)
    (pos : Nat) (caps : List (Nat × Str)) :
    (Re.chr p).run k ⟨prev, pos, [], caps⟩ = none := rfl

theorem run_seq {α : Type} (a b : Re) (k : Pos → Option α) (st : Pos) :
    (Re.seq a b).run k st = a.run (fun st' => b.run k st') st := rfl

theorem run_star {α : Type} (a : Re) (g : Bool) (k : Pos → Option α) (st : Pos) :
    (Re.star a g).run k st = starLoop (fun k' st' => a.run k' st') g k st.rest.length st := rfl

theorem run_group {α : Type} (i : Nat) (a : Re) (k : Pos → Option α) (st : Pos) :
    (Re.group i a).run k st
      = a.run (fun st' => k { st' with caps := (i, st.rest.take (st'.pos - st.pos)) :: st'.caps })
          st := rfl

theorem starLoop_greedy_run {α : Type} (p : Char → Bool) (k : Pos → Option α) (ds rest : Str)
    (hds : ∀ d ∈ ds, p d = true) (hrest : ∀ c ∈ rest.head?, p c = false) (n : Nat)
    (hn : ds.length ≤ n) (prev : Option Char) (pos : Nat) (caps : List (Nat × Str))
    (hk : (k ⟨advPrev prev ds, pos + ds.length, rest, caps⟩).isSome = true) :
    starLoop (fun k' st' => (Re.chr p).run k' st') true k n ⟨prev, pos, ds ++ rest, caps⟩
      = k ⟨advPrev prev ds, pos + ds.length, rest, caps⟩ := by
  induction ds generalizing n prev pos with
  | nil =>
    cases n with
    | zero => rfl
    | succ m =>
      cases rest with
      | nil => simp [starLoop, run_chr_nil, advPrev]
      | cons c cs =>
        have hc : p c = false := hrest c (by simp)
        simp [starLoop, run_chr_cons, hc, advPrev]
  | cons d ds ih =>
    cases n with
    | zero => simp at hn
    | succ m =>
      have hd : p d = true := hds d (by simp)
      have hds' : ∀ x ∈ ds, p x = true := fun x hx => hds x (by simp [hx])
      have hm : ds.length ≤ m := by simpa using hn
      have e : pos + (d :: ds).length = pos + 1 + ds.length := by
        simp only [List.length_cons]; omega
      rw [e] at hk ⊢
      have hk' : (k ⟨advPrev (some d) ds, pos + 1 + ds.length, rest, caps⟩).isSome = true := hk
      have := ih hds' m hm (some d) (pos + 1) hk'
      simp only [starLoop, List.cons_append, run_chr_cons, hd, if_true, Nat.lt_succ_self, this]
      have e2 : advPrev prev (d :: ds) = advPrev (some d) ds := rfl
      rw [e2]
      cases hr : k ⟨advPrev (some d) ds, pos + 1 + ds.length, rest, caps⟩ with
      | none => simp [hr] at hk'
      | some r => rfl

theorem run_star_greedy_run {α : Type} (p : Char → Bool) (k : Pos → Option α) (ds rest : Str)
    (hds : ∀ d ∈ ds, p d = true) (hrest : ∀ c ∈ rest.head?, p c = false)
    (prev : Option Char) (pos : Nat) (caps : List (Nat × Str))
    (hk : (k ⟨advPrev prev ds, pos + ds.length, rest, caps⟩).isSome = true) :
    (Re.star (.chr p) true).run k ⟨prev, pos, ds ++ rest, caps⟩
      = k ⟨advPrev prev ds, pos + ds.length, rest, caps⟩ := by
  rw [run_star]
  exact starLoop_greedy_run p k ds rest hds hrest _ (by simp) prev pos caps hk

theorem take_length_append (xs ys : Str) : (xs ++ ys).take xs.length = xs := by
  simp

theorem decEntityPat_matchAt (prev : Option Char) (ds rest : Str) (hne : ds ≠ [])
    (hds : ∀ d ∈ ds, isDigit d = true) :
    decEntityPat.matchAt prev ('&' :: '#' :: (ds ++ ';' :: rest))
      = some ⟨'&' :: '#' :: (ds ++ [';']), rest, [(1, ds)]⟩ := by
  cases ds with
  | nil => exact absurd rfl hne
  | cons d ds =>
    have hd : isDigit d = true := hds d (by simp)
    have hds' : ∀ x ∈ ds, isDigit x = true := fun x hx => hds x (by simp [hx])
    have hrest : ∀ c ∈ (';' :: rest).head?, isDigit c = false := by
      intro c hc
      simp at hc
      subst hc
      decide
    simp only [Re.matchAt, decEntityPat, String.toList, Re.str, Re.lit, Re.plus, run_seq,
      run_group, run_chr_cons, List.cons_append, hd, beq_self_eq_true, if_true]
    rw [run_star_greedy_run isDigit _ ds (';' :: rest) hds' hrest]
    · have e1 : 3 + ds.length = ds.length + 1 + 1 + 1 := by omega
      have e2 : ds.length + 1 + 1 + 1 - 2 = ds.length + 0 + 1 := by omega
      simp only [run_chr_cons, beq_self_eq_true, if_true, Option.map_some', Nat.sub_zero,
        Nat.reduceAdd, e1, e2, List.take_succ_cons, List.take_append, List.take_zero,
        List.append_nil, List.take_nil, take_length_append]
    · simp [run_chr_cons]

theorem hexEntityPat_matchAt (prev : Option Char) (ds rest : Str) (hne : ds ≠ [])
    (hds : ∀ d ∈ ds, (isDigit d || isLowerHexLetter d) = true) :
    hexEntityPat.matchAt prev ('&' :: '#' :: 'x' :: (ds ++ ';' :: rest))
      = some ⟨'&' :: '#' :: 'x' :: (ds ++ [';']), rest, [(1, ds)]⟩ := by
  cases ds with
  | nil => exact absurd rfl hne
  | cons d ds =>
    have hd : (isDigit d || isLowerHexLetter d) = true := hds d (by simp)
    have hds' : ∀ x ∈ ds, (fun c => isDigit c || isLowerHexLetter c) x = true :=
      fun x hx => hds x (by simp [hx])
    have hrest : ∀ c ∈ (';' :: rest).head?, (fun c => isDigit c || isLowerHexLetter c) c = false := by
      intro c hc
      simp at hc
      subst hc
      decide
    simp only [Re.matchAt, hexEntityPat, String.toList, Re.str, Re.lit, Re.plus, run_seq,
      run_group, run_chr_cons, List.cons_append, hd, beq_self_eq_true, if_true]
    rw [run_star_greedy_run _ _ ds (';' :: rest) hds' hrest]
    · have e1 : 4 + ds.length = ds.length + 1 + 1 + 1 + 1 := by omega
      have e2 : ds.length + 1 + 1 + 1 + 1 - 3 = ds.length + 0 + 1 := by omega
      simp only [run_chr_cons, beq_self_eq_true, if_true, Option.map_some', Nat.sub_zero,
        Nat.reduceAdd, e1, e2, List.take_succ_cons, List.take_append, List.take_zero,
        List.append_nil, List.take_nil, take_length_append]
    · simp [run_chr_cons]

theorem replaceAux_skip (re : Re) (f : Str → Str) (xs rest : Str) (prev : Option Char) :
    re.replaceAux f xs.length prev (xs ++ rest) = re.replaceAux f 0 (advPrev prev xs) rest := by
  induction xs generalizing prev with
  | nil => rfl
  | cons x xs ih => simpa [Re.replaceAux, advPrev] using ih (some x)

theorem submatch1_dec (ds : Str) (hne : ds ≠ []) (hds : ∀ d ∈ ds, isDigit d = true) :
    submatch1 decEntityPat ('&' :: '#' :: (ds ++ [';'])) = ds := by
  simp [submatch1, Re.find, Re.findFrom, decEntityPat_matchAt none ds [] hne hds, Match.group]

theorem submatch1_hex (ds : Str) (hne : ds ≠ [])
    (hds : ∀ d ∈ ds, (isDigit d || isLowerHexLetter d) = true) :
    submatch1 hexEntityPat ('&' :: '#' :: 'x' :: (ds ++ [';'])) = ds := by
  simp [submatch1, Re.find, Re.findFrom, hexEntityPat_matchAt none ds [] hne hds, Match.group]

theorem runeString_toNat (c : Char) : runeString (c.toNat : Int) = [c] := by
  have hv := c.valid
  have hlt : c.toNat < 0x110000 := by
    rcases hv with h | ⟨_, h⟩
    · exact Nat.lt_trans h (by decide)
    · exact h
  have hr : toRune (c.toNat : Int) = (c.toNat : Int) := by
    unfold toRune
    have h1 : ((c.toNat : Int) % 2 ^ 32) = (c.toNat : Int) := by
      apply Int.emod_eq_of_lt
      · exact Int.ofNat_nonneg _
      · have : (c.toNat : Int) < 0x110000 := by exact_mod_cast hlt
        omega
    rw [h1]
    have : (c.toNat : Int) < 2 ^ 31 := by
      have : (c.toNat : Int) < 0x110000 := by exact_mod_cast hlt
      omega
    rw [if_pos this]
  unfold runeString
  rw [hr]
  have hv' : (c.toNat < 0xd800 ∨ (0xdfff < c.toNat ∧ c.toNat < 0x110000)) := hv
  simp only [Int.toNat_ofNat]
  rw [if_pos ⟨Int.ofNat_nonneg _, hv'⟩]
  simp [Char.ofNat_toNat]

theorem digits_no_amp (ds : Str) (hds : ∀ d ∈ ds, (isDigit d || isLowerHexLetter d) = true) :
    '&' ∉ ds ++ [';'] := by
  intro h
  rcases List.mem_append.1 h with h | h
  · have := hds _ h
    revert this
    decide
  · revert h
    decide

theorem unescapeDec_entity (c : Char) (hc : c ≠ '&') (ds : Str) (hne : ds ≠ [])
    (hds : ∀ d ∈ ds, isDigit d = true) (hval : decValue ds = c.toNat) :
    unescapeDec ('&' :: '#' :: (ds ++ [';'])) = [c] := by
  unfold unescapeDec
  rw [submatch1_dec ds hne hds]
  have h38 : ds ≠ "38".toList := by
    intro e
    rw [e] at hval
    apply hc
    rw [← Char.ofNat_toNat c, ← hval]
    decide
  rw [if_neg h38]
  have hlt : c.toNat < 0x110000 := by
    rcases c.valid with h | ⟨_, h⟩
    · exact Nat.lt_trans h (by decide)
    · exact h
  have : Atoi ds = (c.toNat : Int) := by
    unfold Atoi
    rw [hval]
    have : c.toNat ≤ 2 ^ 63 - 1 := by omega
    rw [if_pos this]
  rw [this, runeString_toNat]

theorem unescapeHex_entity (c : Char) (hc : c ≠ '&') (ds : Str) (hne : ds ≠ [])
    (hds : ∀ d ∈ ds, (isDigit d || isLowerHexLetter d) = true) (hval : hexValue ds = c.toNat) :
    unescapeHex ('&' :: '#' :: 'x' :: (ds ++ [';'])) = [c] := by
  unfold unescapeHex
  rw [submatch1_hex ds hne hds]
  have h26 : ds ≠ "26".toList := by
    intro e
    rw [e] at hval
    apply hc
    rw [← Char.ofNat_toNat c, ← hval]
    decide
  rw [if_neg h26]
  have hlt : c.toNat < 0x110000 := by
    rcases c.valid with h | ⟨_, h⟩
    · exact Nat.lt_trans h (by decide)
    · exact h
  have : ParseIntHex32 ds = (c.toNat : Int) := by
    unfold ParseIntHex32
    rw [hval]
    have : c.toNat ≤ 2 ^ 31 - 1 := by omega
    rw [if_pos this]
  rw [this, runeString_toNat]

theorem unescape_single (c : Char) (hc : c ≠ '&') (re : Re) (f : Str → Str)
    (hre : ∀ prev x rest, x ≠ '&' → re.matchAt prev (x :: rest) = none) (prev : Option Char) :
    re.replaceAux f 0 prev [c] = [c] :=
  replaceAux_amp_id re f hre [c] (by simpa using fun e => hc e.symm) prev

theorem unescape_dec_entity (c : Char) (hc : c ≠ '&') (ds : Str) (hne : ds ≠ [])
    (hds : ∀ d ∈ ds, isDigit d = true) (hval : decValue ds = c.toNat) :
    unescape ("&#".toList ++ ds ++ ";".toList) = [c] := by
  have hds2 : ∀ d ∈ ds, (isDigit d || isLowerHexLetter d) = true := by
    intro d hd; simp [hds d hd]
  have hno : '&' ∉ '#' :: (ds ++ [';']) := by
    intro h
    rcases List.mem_cons.1 h with h | h
    · revert h; decide
    · exact digits_no_amp ds hds2 h
  unfold unescape replaceAll Re.replaceAllString Re.replaceAllFunc
  simp only [String.toList, List.cons_append, List.nil_append, List.append_assoc]
  have e1 : ∀ (x : Char) (xs new : Str), x ≠ '#' →
      replaceAllAux ('&' :: x :: xs) new 0 ('&' :: '#' :: (ds ++ [';']))
        = '&' :: '#' :: (ds ++ [';']) := by
    intro x xs new hx
    have hx' : ¬ x = '#' := hx
    simp only [replaceAllAux, List.isPrefixOf, beq_self_eq_true, Bool.true_and]
    simp [hx', replaceAllAux_amp_id _ _ _ (digits_no_amp ds hds2)]
  rw [e1 _ _ _ (by decide), e1 _ _ _ (by decide), e1 _ _ _ (by decide)]
  have e2 : decEntityPat.replaceAux unescapeDec 0 none ('&' :: '#' :: (ds ++ [';'])) = [c] := by
    have hm := decEntityPat_matchAt none ds [] hne hds
    have hlen : ('&' :: '#' :: (ds ++ [';'])).length - 1 = ('#' :: (ds ++ [';'])).length := by
      simp
    have hskip := replaceAux_skip decEntityPat unescapeDec ('#' :: (ds ++ [';'])) [] (some '&')
    rw [List.append_nil] at hskip
    rw [Re.replaceAux, hm]
    simp only []
    rw [if_neg (by simp), hlen, hskip, unescapeDec_entity c hc ds hne hds hval]
    rfl
  rw [e2, unescape_single c hc _ _ hexEntityPat_ne, unescape_single c hc _ _ ampEntityPat_ne]

theorem unescape_hex_entity (c : Char) (hc : c ≠ '&') (ds : Str) (hne : ds ≠ [])
    (hds : ∀ d ∈ ds, (isDigit d || isLowerHexLetter d) = true) (hval : hexValue ds = c.toNat) :
    unescape ("&#x".toList ++ ds ++ ";".toList) = [c] := by
  have hno : '&' ∉ '#' :: 'x' :: (ds ++ [';']) := by
    intro h
    rcases List.mem_cons.1 h with h | h
    · revert h; decide
    rcases List.mem_cons.1 h with h | h
    · revert h; decide
    · exact digits_no_amp ds hds h
  unfold unescape replaceAll Re.replaceAllString Re.replaceAllFunc
  simp only [String.toList, List.cons_append, List.nil_append, List.append_assoc]
  have e1 : ∀ (x : Char) (xs new : Str), x ≠ '#' →
      replaceAllAux ('&' :: x :: xs) new 0 ('&' :: '#' :: 'x' :: (ds ++ [';']))
        = '&' :: '#' :: 'x' :: (ds ++ [';']) := by
    intro x xs new hx
    have hx' : ¬ x = '#' := hx
    simp only [replaceAllAux, List.isPrefixOf, beq_self_eq_true, Bool.true_and]
    simp [hx', replaceAllAux_amp_id _ _ _ (digits_no_amp ds hds)]
  rw [e1 _ _ _ (by decide), e1 _ _ _ (by decide), e1 _ _ _ (by decide)]
  have e2 : decEntityPat.replaceAux unescapeDec 0 none ('&' :: '#' :: 'x' :: (ds ++ [';']))
      = '&' :: '#' :: 'x' :: (ds ++ [';']) := by
    have hm : decEntityPat.matchAt none ('&' :: '#' :: 'x' :: (ds ++ [';'])) = none := by
      simp [Re.matchAt, decEntityPat, Re.run, Re.str, Re.lit, Re.plus, isDigit]
    rw [replaceAux_of_matchAt_none _ _ _ _ _ hm, replaceAux_amp_id _ _ decEntityPat_ne _ hno]
  rw [e2]
  have e3 : hexEntityPat.replaceAux unescapeHex 0 none ('&' :: '#' :: 'x' :: (ds ++ [';']))
      = [c] := by
    have hm := hexEntityPat_matchAt none ds [] hne hds
    have hlen : ('&' :: '#' :: 'x' :: (ds ++ [';'])).length - 1
        = ('#' :: 'x' :: (ds ++ [';'])).length := by
      simp
    have hskip :=
      replaceAux_skip hexEntityPat unescapeHex ('#' :: 'x' :: (ds ++ [';'])) [] (some '&')
    rw [List.append_nil] at hskip
    rw [Re.replaceAux, hm]
    simp only []
    rw [if_neg (by simp), hlen, hskip, unescapeHex_entity c hc ds hne hds hval]
    rfl
  rw [e3, unescape_single c hc _ _ ampEntityPat_ne]

/-! ### Claims on the entity utilities -/

/-- C1. Escape/unescape round trip: for every text `t` (with or without pre-existing
entities, so in particular for every text that contains none) and for both values of
`inLine`, `unescape (Escape t inLine) = t`. -/
theorem C1_unescape_Escape_roundtrip (t : Str) (inLine : Bool) :
    unescape (Escape t inLine) = t :=
  unescape_Escape t inLine

/-- C2. An entity-encoded ampersand decodes to a literal `&` without re-triggering entity
decoding: when `u` contains no `&`, `unescape` of `&amp;u`, of `&#38;u` and of `&#x26;u` is
`&` followed by `unescape u`; in particular `&amp;lt;` decodes to `&lt;` and `&#38;#65;` to
`&#65;`. -/
theorem C2_encoded_ampersand (u : Str) (h : '&' ∉ u) :
    (unescape ("&amp;".toList ++ u) = "&".toList ++ unescape u
      ∧ unescape ("&#38;".toList ++ u) = "&".toList ++ unescape u
      ∧ unescape ("&#x26;".toList ++ u) = "&".toList ++ unescape u)
    ∧ unescape "&amp;lt;".toList = "&lt;".toList
    ∧ unescape "&#38;#65;".toList = "&#65;".toList := by
  rw [unescape_amp_named u h, unescape_amp_dec u h, unescape_amp_hex u h, unescape_no_amp u h]
  exact ⟨⟨rfl, rfl, rfl⟩, by decide, by decide⟩

/-- Witness of C2 at `u = "lt;"`. -/
theorem C2_encoded_ampersand_witness :
    '&' ∉ "lt;".toList
    ∧ (unescape ("&amp;".toList ++ "lt;".toList) = "&".toList ++ unescape "lt;".toList
      ∧ unescape ("&#38;".toList ++ "lt;".toList) = "&".toList ++ unescape "lt;".toList
      ∧ unescape ("&#x26;".toList ++ "lt;".toList) = "&".toList ++ unescape "lt;".toList) :=
  ⟨by decide, (C2_encoded_ampersand "lt;".toList (by decide)).1⟩

/-- C3, counterexample. `4A` is a hexadecimal spelling of the code point `J`, written with
the digits `0-9`, `A-F`, and `J` is not `&`; yet `&#x4A;` is left as it is and does not
decode to `J`. -/
theorem C3_counterexample :
    ("4A".toList.all isHexDigit = true ∧ hexValue "4A".toList = 'J'.toNat ∧ 'J' ≠ '&')
    ∧ unescape "&#x4A;".toList = "&#x4A;".toList
    ∧ unescape "&#x4A;".toList ≠ ['J'] := by
  decide

/-- C3, amended. For every code point `c` other than `&`, every decimal entity `&#NNN;`
whose digits `0-9` (leading zeros allowed) denote `c`, and every hexadecimal entity
`&#xHHH;` whose digits `0-9`, `a-f` (lower case only, leading zeros allowed) denote `c`,
decodes to the one-character string `c`. -/
theorem C3_unescape_numeric_entity (c : Char) (hc : c ≠ '&') (ds hs : Str)
    (hds : ds ≠ [] ∧ ∀ d ∈ ds, isDigit d = true) (hdv : decValue ds = c.toNat)
    (hhs : hs ≠ [] ∧ ∀ d ∈ hs, (isDigit d || isLowerHexLetter d) = true)
    (hhv : hexValue hs = c.toNat) :
    unescape ("&#".toList ++ ds ++ ";".toList) = [c]
    ∧ unescape ("&#x".toList ++ hs ++ ";".toList) = [c] :=
  ⟨unescape_dec_entity c hc ds hds.1 hds.2 hdv, unescape_hex_entity c hc hs hhs.1 hhs.2 hhv⟩

/-- Witness of C3 (amended) at `c = 'J'`, spelled `&#074;` and `&#x4a;`. -/
theorem C3_unescape_numeric_entity_witness :
    unescape ("&#".toList ++ "074".toList ++ ";".toList) = ['J']
    ∧ unescape ("&#x".toList ++ "4a".toList ++ ";".toList) = ['J'] :=
  C3_unescape_numeric_entity 'J' (by decide) "074".toList "4a".toList
    ⟨by decide, by decide⟩ (by decide) ⟨by decide, by decide⟩ (by decide)

/-! ## Case utilities -/

theorem char_le_iff (a b : Char) : a ≤ b ↔ a.toNat ≤ b.toNat := by
  rw [Char.le_def]
  exact Iff.rfl

theorem isLower_iff (c : Char) : isLower c = true ↔ 97 ≤ c.toNat ∧ c.toNat ≤ 122 := by
  unfold isLower
  simp only [Bool.and_eq_true, decide_eq_true_eq, char_le_iff]
  exact Iff.rfl

theorem isUpper_iff (c : Char) : isUpper c = true ↔ 65 ≤ c.toNat ∧ c.toNat ≤ 90 := by
  unfold isUpper
  simp only [Bool.and_eq_true, decide_eq_true_eq, char_le_iff]
  exact Iff.rfl

theorem isDigit_iff (c : Char) : isDigit c = true ↔ 48 ≤ c.toNat ∧ c.toNat ≤ 57 := by
  unfold isDigit
  simp only [Bool.and_eq_true, decide_eq_true_eq, char_le_iff]
  exact Iff.rfl

theorem ne_of_toNat_ne (c d : Char) (h : c.toNat ≠ d.toNat) : c ≠ d := fun e => h (by rw [e])

theorem utf8Size_ascii (c : Char) (h : c.toNat < 128) : c.utf8Size = 1 := by
  have : c.val ≤ UInt32.ofNatCore 127 (by decide) := by
    rw [UInt32.le_def]
    show c.val.toNat ≤ 127
    have : c.val.toNat = c.toNat := rfl
    omega
  simp only [Char.utf8Size]
  rw [if_pos this]

theorem isUpper_not_isLower (c : Char) (h : isLower c = true) : isUpper c = false := by
  rw [isLower_iff] at h
  cases hu : isUpper c with
  | false => rfl
  | true => rw [isUpper_iff] at hu; omega

theorem isDot_of_isLower (c : Char) (h : isLower c = true) : isDot c = true := by
  rw [isLower_iff] at h
  have : c ≠ '\n' := ne_of_toNat_ne _ _ (by
    have : ('\n' : Char).toNat = 10 := rfl
    omega)
  simp [isDot, this]

theorem toLowerRune_lower (tbl : Char → Char) (c : Char) (h : isLower c = true) :
    toLowerRune tbl c = c := by
  have hu := isUpper_not_isLower c h
  rw [isLower_iff] at h
  unfold toLowerRune
  rw [if_pos (by omega), hu]
  rfl

theorem toLowerRune_upper (tbl : Char → Char) (c : Char) (h : isUpper c = true) :
    toLowerRune tbl c = c.toLower := by
  have h' := (isUpper_iff c).1 h
  unfold toLowerRune Char.toLower
  rw [if_pos (by omega), h]
  simp only [if_true]
  rw [if_pos (by omega)]

theorem toNat_ofNat_small (n : Nat) (h : n < 0xd800) : (Char.ofNat n).toNat = n := by
  unfold Char.ofNat
  rw [dif_pos (Or.inl h)]
  rfl

theorem isLower_toLower (c : Char) (h : isUpper c = true) : isLower c.toLower = true := by
  have h' := (isUpper_iff c).1 h
  rw [isLower_iff]
  unfold Char.toLower
  simp only []
  rw [if_pos (by omega)]
  have : (Char.ofNat (c.toNat + 32)).toNat = c.toNat + 32 :=
    toNat_ofNat_small _ (by omega)
  omega

theorem paramCasePat_none (prev : Option Char) (c : Char) (cs : Str)
    (h : ∀ d ∈ cs.head?, isUpper d = false) : paramCasePat.matchAt prev (c :: cs) = none := by
  cases cs with
  | nil => simp [Re.matchAt, paramCasePat, Re.plus, run_seq, run_chr_cons, run_chr_nil]
  | cons d ds =>
    have hd : isUpper d = false := h d (by simp)
    simp [Re.matchAt, paramCasePat, Re.plus, run_seq, run_chr_cons, hd]

theorem snakeCasePat_none (prev : Option Char) (c : Char) (cs : Str)
    (h : ∀ d ∈ cs.head?, isUpper d = false) : snakeCasePat.matchAt prev (c :: cs) = none := by
  cases cs with
  | nil => simp [Re.matchAt, snakeCasePat, run_seq, run_chr_cons, run_chr_nil]
  | cons d ds =>
    have hd : isUpper d = false := h d (by simp)
    simp [Re.matchAt, snakeCasePat, run_seq, run_chr_cons, hd]

theorem replaceAux_no_upper (re : Re) (f : Str → Str)
    (hre : ∀ prev c cs, (∀ d ∈ cs.head?, isUpper d = false) → re.matchAt prev (c :: cs) = none)
    (s : Str) (hs : ∀ c ∈ s, isUpper c = false) (prev : Option Char) :
    re.replaceAux f 0 prev s = s := by
  induction s generalizing prev with
  | nil => rfl
  | cons c cs ih =>
    have hcs : ∀ x ∈ cs, isUpper x = false := fun x hx => hs x (by simp [hx])
    have hh : ∀ d ∈ cs.head?, isUpper d = false := by
      intro d hd
      cases cs with
      | nil => simp at hd
      | cons y ys =>
        simp at hd
        subst hd
        exact hcs _ (by simp)
    rw [replaceAux_of_matchAt_none _ _ _ _ _ (hre prev c cs hh), ih hcs]

theorem paramCasePat_match (prev : Option Char) (l u : Char) (t : Str) (hl : isDot l = true)
    (hu : isUpper u = true) (ht : ∀ d ∈ t.head?, isUpper d = false) :
    paramCasePat.matchAt prev (l :: u :: t) = some ⟨[l, u], t, []⟩ := by
  simp only [Re.matchAt, paramCasePat, Re.plus, run_seq, run_chr_cons, hl, hu, if_true]
  have := run_star_greedy_run (α := Pos) isUpper some [] t (by simp) ht (some u) 2 []
  simp only [List.nil_append, advPrev, List.foldl_nil, List.length_nil, Nat.add_zero] at this
  rw [this (by simp)]
  simp

theorem snakeCasePat_match (prev : Option Char) (l u : Char) (t : Str) (hl : isDot l = true)
    (hu : isUpper u = true) :
    snakeCasePat.matchAt prev (l :: u :: t) = some ⟨[l, u], t, []⟩ := by
  simp [Re.matchAt, snakeCasePat, run_seq, run_chr_cons, hl, hu]

theorem replaceAux_lower_upper (re : Re) (f : Str → Str)
    (hnone : ∀ prev c cs, (∀ d ∈ cs.head?, isUpper d = false) → re.matchAt prev (c :: cs) = none)
    (hmatch : ∀ prev l u t, isDot l = true → isUpper u = true →
      (∀ d ∈ t.head?, isUpper d = false) → re.matchAt prev (l :: u :: t) = some ⟨[l, u], t, []⟩)
    (ls : Str) (hls : ∀ x ∈ ls, isLower x = true) (l u : Char) (hl : isLower l = true)
    (hu : isUpper u = true) (t : Str) (ht : ∀ d ∈ t.head?, isUpper d = false)
    (prev : Option Char) :
    re.replaceAux f 0 prev (ls ++ l :: u :: t) = ls ++ f [l, u] ++ re.replaceAux f 0 (some u) t := by
  induction ls generalizing prev with
  | nil =>
    simp only [List.nil_append, Re.replaceAux,
      hmatch prev l u t (isDot_of_isLower l hl) hu ht]
    simp [Re.replaceAux]
  | cons x xs ih =>
    have hxs : ∀ y ∈ xs, isLower y = true := fun y hy => hls y (by simp [hy])
    have hh : ∀ d ∈ (xs ++ l :: u :: t).head?, isUpper d = false := by
      intro d hd
      cases xs with
      | nil =>
        simp at hd
        subst hd
        exact isUpper_not_isLower _ hl
      | cons y ys =>
        simp at hd
        subst hd
        exact isUpper_not_isLower _ (hxs _ (by simp))
    rw [List.cons_append, replaceAux_of_matchAt_none _ _ _ _ _ (hnone prev x _ hh), ih hxs]
    simp

theorem isCapWord_iff (w : Str) : isCapWord w = true ↔
    ∃ u m ms, w = u :: m :: ms ∧ isUpper u = true ∧ isLower m = true
      ∧ ∀ x ∈ ms, isLower x = true := by
  constructor
  · intro h
    match w, h with
    | u :: m :: ms, h =>
      simp only [isCapWord, Bool.and_eq_true, List.all_eq_true] at h
      exact ⟨u, m, ms, rfl, h.1.1, h.1.2, h.2⟩
  · rintro ⟨u, m, ms, rfl, hu, hm, hms⟩
    simp only [isCapWord, Bool.and_eq_true, List.all_eq_true]
    exact ⟨⟨hu, hm⟩, hms⟩

theorem toLower_lower (c : Char) (h : isLower c = true) : c.toLower = c := by
  rw [isLower_iff] at h
  unfold Char.toLower
  simp only []
  rw [if_neg (by omega)]

theorem map_toLower_lower (s : Str) (h : ∀ x ∈ s, isLower x = true) : s.map Char.toLower = s := by
  induction s with
  | nil => rfl
  | cons c cs ih =>
    rw [List.map_cons, toLower_lower c (h c (by simp)), ih (fun x hx => h x (by simp [hx]))]

theorem replaceAux_capWords (re : Re) (f : Str → Str) (sep : Char)
    (hnone : ∀ prev c cs, (∀ d ∈ cs.head?, isUpper d = false) → re.matchAt prev (c :: cs) = none)
    (hmatch : ∀ prev l u t, isDot l = true → isUpper u = true →
      (∀ d ∈ t.head?, isUpper d = false) → re.matchAt prev (l :: u :: t) = some ⟨[l, u], t, []⟩)
    (hf : ∀ l u, isLower l = true → isUpper u = true → f [l, u] = [l, sep, u.toLower])
    (ws : List Str) (hws : ∀ w ∈ ws, isCapWord w = true) (ls : Str) (hne : ls ≠ [])
    (hls : ∀ x ∈ ls, isLower x = true) (prev : Option Char) :
    re.replaceAux f 0 prev (ls ++ ws.flatten)
      = ls ++ ws.flatMap (fun w => sep :: w.map Char.toLower) := by
  induction ws generalizing ls prev with
  | nil =>
    simp only [List.flatten_nil, List.append_nil, List.flatMap_nil]
    exact replaceAux_no_upper re f hnone ls (fun c hc => isUpper_not_isLower c (hls c hc)) prev
  | cons w ws ih =>
    obtain ⟨u, m, ms, rfl, hu, hm, hms⟩ := (isCapWord_iff w).1 (hws w (by simp))
    have hws' : ∀ x ∈ ws, isCapWord x = true := fun x hx => hws x (by simp [hx])
    obtain ⟨ls', l, rfl⟩ : ∃ ls' l, ls = ls' ++ [l] := by
      rcases List.eq_nil_or_concat ls with h | ⟨ls', l, h⟩
      · exact absurd h hne
      · exact ⟨ls', l, by simpa using h⟩
    have hl : isLower l = true := hls l (by simp)
    have hls' : ∀ x ∈ ls', isLower x = true := fun x hx => hls x (by simp [hx])
    have hmms : ∀ x ∈ m :: ms, isLower x = true := by
      intro x hx
      rcases List.mem_cons.1 hx with h | h
      · rw [h]; exact hm
      · exact hms x h
    have ht : ∀ d ∈ ((m :: ms) ++ ws.flatten).head?, isUpper d = false := by
      intro d hd
      simp at hd
      subst hd
      exact isUpper_not_isLower _ hm
    have e : ls' ++ [l] ++ ((u :: m :: ms) :: ws).flatten
        = ls' ++ l :: u :: ((m :: ms) ++ ws.flatten) := by simp
    rw [e, replaceAux_lower_upper re f hnone hmatch ls' hls' l u hl hu _ ht prev,
      ih hws' (m :: ms) (by simp) hmms (some u), hf l u hl hu]
    simp [toLower_lower m hm, map_toLower_lower ms hms]

theorem stringsJoin_cons (sep : Str) (w : Str) (ws : List Str) :
    stringsJoin sep (w :: ws) = w ++ ws.flatMap (fun x => sep ++ x) := by
  induction ws generalizing w with
  | nil => simp [stringsJoin]
  | cons x xs ih => simp [stringsJoin, ih]

theorem replaceAll_single_id (s : Str) (c : Char) (new : Str) (h : c ∉ s) :
    replaceAll s [c] new = s := by
  rw [replaceAll_single]
  induction s with
  | nil => rfl
  | cons x xs ih =>
    have hx : x ≠ c := fun e => h (by simp [e])
    have hxs : c ∉ xs := fun e => h (by simp [e])
    simp [hx, ih hxs]

theorem caseCallback_lower_upper (tbl : Char → Char) (sep : Str) (l u : Char)
    (hl : isLower l = true) (hu : isUpper u = true) :
    (if byteLen [l, u] < 2 then [l, u]
      else firstByte [l, u] ++ sep ++ lowerAfterFirstByte tbl [l, u])
      = [l] ++ sep ++ [u.toLower] := by
  have hl' := (isLower_iff l).1 hl
  have hu' := (isUpper_iff u).1 hu
  have h1 : l.utf8Size = 1 := utf8Size_ascii l (by omega)
  have h2 : u.utf8Size = 1 := utf8Size_ascii u (by omega)
  have hb : byteLen [l, u] = 2 := by simp [byteLen, h1, h2]
  rw [hb, if_neg (by decide)]
  simp only [firstByte, lowerAfterFirstByte, h1, stringsToLower, List.map_cons, List.map_nil,
    toLowerRune_upper tbl u hu]
  rw [if_pos (by omega)]
  rfl

theorem letters_no_sep (s : Str) (h : ∀ x ∈ s, isLower x = true ∨ isUpper x = true) :
    '_' ∉ s ∧ '-' ∉ s := by
  constructor
  · intro hm
    rcases h _ hm with h | h
    · exact absurd h (by decide)
    · exact absurd h (by decide)
  · intro hm
    rcases h _ hm with h | h
    · exact absurd h (by decide)
    · exact absurd h (by decide)

theorem capWords_letters (ws : List Str) (hws : ∀ w ∈ ws, isCapWord w = true) :
    ∀ x ∈ ws.flatten, isLower x = true ∨ isUpper x = true := by
  intro x hx
  obtain ⟨w, hw, hxw⟩ := List.mem_flatten.1 hx
  obtain ⟨u, m, ms, rfl, hu, hm, hms⟩ := (isCapWord_iff w).1 (hws w hw)
  rcases List.mem_cons.1 hxw with h | h
  · right; rw [h]; exact hu
  rcases List.mem_cons.1 h with h | h
  · left; rw [h]; exact hm
  · left; exact hms x h

theorem uncapitalize_capWords (tbl : Char → Char) (w : Str) (ws : List Str)
    (hw : isCapWord w = true) :
    uncapitalize tbl ((w :: ws).flatten) = w.map Char.toLower ++ ws.flatten := by
  obtain ⟨u, m, ms, rfl, hu, hm, hms⟩ := (isCapWord_iff w).1 hw
  simp [uncapitalize, toLowerRune_upper tbl u hu, toLower_lower m hm, map_toLower_lower ms hms]

theorem lowered_capWord (w : Str) (hw : isCapWord w = true) :
    w.map Char.toLower ≠ [] ∧ ∀ x ∈ w.map Char.toLower, isLower x = true := by
  obtain ⟨u, m, ms, rfl, hu, hm, hms⟩ := (isCapWord_iff w).1 hw
  refine ⟨by simp, ?_⟩
  intro x hx
  simp only [List.map_cons, toLower_lower m hm, map_toLower_lower ms hms] at hx
  rcases List.mem_cons.1 hx with h | h
  · rw [h]; exact isLower_toLower u hu
  rcases List.mem_cons.1 h with h | h
  · rw [h]; exact hm
  · exact hms x h

theorem ParamCase_capWords (tbl : Char → Char) (w : Str) (ws : List Str)
    (hws : ∀ x ∈ w :: ws, isCapWord x = true) :
    ParamCase tbl ((w :: ws).flatten)
      = stringsJoin "-".toList ((w :: ws).map fun x => x.map Char.toLower) := by
  have hw := hws w (by simp)
  have hws' : ∀ x ∈ ws, isCapWord x = true := fun x hx => hws x (by simp [hx])
  obtain ⟨hne, hlow⟩ := lowered_capWord w hw
  have hno : '_' ∉ w.map Char.toLower ++ ws.flatten := by
    apply (letters_no_sep _ _).1
    intro x hx
    rcases List.mem_append.1 hx with h | h
    · exact Or.inl (hlow x h)
    · exact capWords_letters ws hws' x h
  unfold ParamCase
  simp only [uncapitalize_capWords tbl w ws hw, String.toList]
  rw [replaceAll_single_id _ _ _ hno]
  unfold Re.replaceAllFunc
  rw [replaceAux_capWords paramCasePat _ '-' paramCasePat_none paramCasePat_match
    (fun l u hl hu => caseCallback_lower_upper tbl ['-'] l u hl hu) ws hws' _ hne hlow none]
  rw [List.map_cons, stringsJoin_cons]
  simp [List.flatMap_map]

theorem SnakeCase_capWords (tbl : Char → Char) (w : Str) (ws : List Str)
    (hws : ∀ x ∈ w :: ws, isCapWord x = true) :
    SnakeCase tbl ((w :: ws).flatten)
      = stringsJoin "_".toList ((w :: ws).map fun x => x.map Char.toLower) := by
  have hw := hws w (by simp)
  have hws' : ∀ x ∈ ws, isCapWord x = true := fun x hx => hws x (by simp [hx])
  obtain ⟨hne, hlow⟩ := lowered_capWord w hw
  have hno : '-' ∉ w.map Char.toLower ++ ws.flatten := by
    apply (letters_no_sep _ _).2
    intro x hx
    rcases List.mem_append.1 hx with h | h
    · exact Or.inl (hlow x h)
    · exact capWords_letters ws hws' x h
  unfold SnakeCase
  simp only [uncapitalize_capWords tbl w ws hw, String.toList]
  rw [replaceAll_single_id _ _ _ hno]
  unfold Re.replaceAllFunc
  rw [replaceAux_capWords snakeCasePat _ '_' snakeCasePat_none
    (fun prev l u t hl hu _ => snakeCasePat_match prev l u t hl hu)
    (fun l u hl hu => caseCallback_lower_upper tbl ['_'] l u hl hu) ws hws' _ hne hlow none]
  rw [List.map_cons, stringsJoin_cons]
  simp [List.flatMap_map]

theorem flatMap_replace_id (s s' : Char) (w : Str) (h : s ∉ w) :
    w.flatMap (fun x => if x = s then [s'] else [x]) = w := by
  induction w with
  | nil => rfl
  | cons x xs ih =>
    have hx : x ≠ s := fun e => h (by simp [e])
    have hxs : s ∉ xs := fun e => h (by simp [e])
    simp [hx, ih hxs]

theorem replaceAll_join (s s' : Char) (ls : List Str) (h : ∀ w ∈ ls, s ∉ w) :
    replaceAll (stringsJoin [s] ls) [s] [s'] = stringsJoin [s'] ls := by
  rw [replaceAll_single]
  induction ls with
  | nil => rfl
  | cons w ws ih =>
    have hw : s ∉ w := h w (by simp)
    have hws : ∀ x ∈ ws, s ∉ x := fun x hx => h x (by simp [hx])
    cases ws with
    | nil => simpa [stringsJoin] using flatMap_replace_id s s' w hw
    | cons v vs =>
      have := ih hws
      simp only [stringsJoin, List.flatMap_append, flatMap_replace_id s s' w hw, this]
      simp

theorem join_chars (sep : Char) (ls : List Str) (p : Char → Prop) (hsep : p sep)
    (h : ∀ w ∈ ls, ∀ x ∈ w, p x) : ∀ x ∈ stringsJoin [sep] ls, p x := by
  induction ls with
  | nil => intro x hx; simp [stringsJoin] at hx
  | cons w ws ih =>
    have hw : ∀ x ∈ w, p x := h w (by simp)
    have hws : ∀ v ∈ ws, ∀ x ∈ v, p x := fun v hv => h v (by simp [hv])
    cases ws with
    | nil => simpa [stringsJoin] using hw
    | cons v vs =>
      intro x hx
      simp only [stringsJoin, List.mem_append, List.mem_singleton] at hx
      rcases hx with (hx | hx) | hx
      · exact hw x hx
      · rw [hx]; exact hsep
      · exact ih hws x hx

theorem toLowerRune_not_upper (tbl : Char → Char) (c : Char) (h : c.toNat < 128)
    (hu : isUpper c = false) : toLowerRune tbl c = c := by
  unfold toLowerRune
  rw [if_pos h, hu]
  rfl

theorem uncapitalize_id (tbl : Char → Char) (s : Str)
    (h : ∀ x ∈ s, x.toNat < 128 ∧ isUpper x = false) : uncapitalize tbl s = s := by
  cases s with
  | nil => rfl
  | cons c cs =>
    have := h c (by simp)
    simp [uncapitalize, toLowerRune_not_upper tbl c this.1 this.2]

theorem lowerWords_sep (sep : Char) (hsep : sep.toNat < 128 ∧ isUpper sep = false)
    (ls : List Str) (hls : ∀ w ∈ ls, isLowerWord w = true) :
    ∀ x ∈ stringsJoin [sep] ls, x.toNat < 128 ∧ isUpper x = false := by
  refine join_chars sep ls (fun x => x.toNat < 128 ∧ isUpper x = false) hsep ?_
  intro w hw x hx
  have hl : isLower x = true := by
    have := hls w hw
    simp only [isLowerWord, List.all_eq_true] at this
    exact this x hx
  have := (isLower_iff x).1 hl
  exact ⟨by omega, isUpper_not_isLower x hl⟩

theorem lowerWords_no (sep : Char) (hsep : isLower sep = false) (ls : List Str)
    (hls : ∀ w ∈ ls, isLowerWord w = true) : ∀ w ∈ ls, sep ∉ w := by
  intro w hw hm
  have := hls w hw
  simp only [isLowerWord, List.all_eq_true] at this
  rw [this sep hm] at hsep
  exact absurd hsep (by decide)

theorem ParamCase_lowerWords (tbl : Char → Char) (ls : List Str)
    (hls : ∀ w ∈ ls, isLowerWord w = true) :
    ParamCase tbl (stringsJoin "_".toList ls) = stringsJoin "-".toList ls := by
  unfold ParamCase Re.replaceAllFunc
  simp only [String.toList]
  rw [uncapitalize_id tbl _ (lowerWords_sep '_' (by decide) ls hls),
    replaceAll_join '_' '-' ls (lowerWords_no '_' (by decide) ls hls)]
  exact replaceAux_no_upper paramCasePat _ paramCasePat_none _
    (fun c hc => (lowerWords_sep '-' (by decide) ls hls c hc).2) none

theorem SnakeCase_lowerWords (tbl : Char → Char) (ls : List Str)
    (hls : ∀ w ∈ ls, isLowerWord w = true) :
    SnakeCase tbl (stringsJoin "-".toList ls) = stringsJoin "_".toList ls := by
  unfold SnakeCase Re.replaceAllFunc
  simp only [String.toList]
  rw [uncapitalize_id tbl _ (lowerWords_sep '-' (by decide) ls hls),
    replaceAll_join '-' '_' ls (lowerWords_no '-' (by decide) ls hls)]
  exact replaceAux_no_upper snakeCasePat _ snakeCasePat_none _
    (fun c hc => (lowerWords_sep '_' (by decide) ls hls c hc).2) none

/-- C4. For every non-empty list `ws` of words, each an ASCII upper-case letter followed by
one or more lower-case letters, `ParamCase` of their concatenation is the lower-cased words
joined by `-` and `SnakeCase` of it is the lower-cased words joined by `_`; and for
lower-case words `ls` joined by `_` (resp. `-`), `ParamCase` (resp. `SnakeCase`) only
replaces the separator.  This holds whatever the Unicode table `tbl` is. -/
theorem C4_case_helpers (tbl : Char → Char) (ws : List Str) (hne : ws ≠ [])
    (hws : ∀ w ∈ ws, isCapWord w = true) (ls : List Str)
    (hls : ∀ w ∈ ls, isLowerWord w = true) :
    ParamCase tbl ws.flatten = stringsJoin "-".toList (ws.map fun w => w.map Char.toLower)
    ∧ SnakeCase tbl ws.flatten = stringsJoin "_".toList (ws.map fun w => w.map Char.toLower)
    ∧ ParamCase tbl (stringsJoin "_".toList ls) = stringsJoin "-".toList ls
    ∧ SnakeCase tbl (stringsJoin "-".toList ls) = stringsJoin "_".toList ls := by
  cases ws with
  | nil => exact absurd rfl hne
  | cons w ws =>
    exact ⟨ParamCase_capWords tbl w ws hws, SnakeCase_capWords tbl w ws hws,
      ParamCase_lowerWords tbl ls hls, SnakeCase_lowerWords tbl ls hls⟩

/-- Witness of C4 at the words `Foo`, `Bar` and `foo`, `bar`: the four cases of the test
`TestCaseHelpers`. -/
theorem C4_case_helpers_witness :
    ParamCase id "FooBar".toList = "foo-bar".toList
    ∧ SnakeCase id "FooBar".toList = "foo_bar".toList
    ∧ ParamCase id "foo_bar".toList = "foo-bar".toList
    ∧ SnakeCase id "foo-bar".toList = "foo_bar".toList :=
  C4_case_helpers id ["Foo".toList, "Bar".toList] (by decide) (by decide)
    ["foo".toList, "bar".toList] (by decide)

/-- C5, the code at the failing input `aBC`: `SnakeCase` gives `a_bC`, while `ParamCase`
gives `a-bc`, which is `a_bc` once `-` is replaced by `_`. -/
theorem C5_SnakeCase_aBC :
    (∀ c ∈ "aBC".toList, isLower c = true ∨ isUpper c = true)
    ∧ SnakeCase id "aBC".toList = "a_bC".toList
    ∧ replaceAll (ParamCase id "aBC".toList) "-".toList "_".toList = "a_bc".toList
    ∧ SnakeCase id "aBC".toList ≠ replaceAll (ParamCase id "aBC".toList) "-".toList "_".toList := by
  decide

/-! ## The order of keys -/

theorem char_lt_iff (a b : Char) : a < b ↔ a.toNat < b.toNat := by
  rw [Char.lt_def]
  exact Iff.rfl

theorem char_eq_of_toNat (a b : Char) (h : a.toNat = b.toNat) : a = b := by
  rw [← Char.ofNat_toNat a, ← Char.ofNat_toNat b, h]

theorem strLt_irrefl (a : Str) : strLt a a = false := by
  induction a with
  | nil => rfl
  | cons x xs ih => simp [strLt, ih]

theorem strLt_trans (a b c : Str) (h1 : strLt a b = true) (h2 : strLt b c = true) :
    strLt a c = true := by
  induction a generalizing b c with
  | nil =>
    cases b with
    | nil => simp [strLt] at h1
    | cons y ys =>
      cases c with
      | nil => simp [strLt] at h2
      | cons z zs => rfl
  | cons x xs ih =>
    cases b with
    | nil => simp [strLt] at h1
    | cons y ys =>
      cases c with
      | nil => simp [strLt] at h2
      | cons z zs =>
        simp only [strLt, Bool.or_eq_true, decide_eq_true_eq, Bool.and_eq_true, beq_iff_eq,
          char_lt_iff] at h1 h2 ⊢
        rcases h1 with h1 | ⟨e1, h1⟩
        · rcases h2 with h2 | ⟨e2, _⟩
          · left; omega
          · left; rw [← e2]; exact h1
        · rcases h2 with h2 | ⟨e2, h2⟩
          · left; rw [e1]; exact h2
          · right; exact ⟨e1.trans e2, ih ys zs h1 h2⟩

theorem strLt_total (a b : Str) : strLt a b = true ∨ a = b ∨ strLt b a = true := by
  induction a generalizing b with
  | nil =>
    cases b with
    | nil => right; left; rfl
    | cons y ys => left; rfl
  | cons x xs ih =>
    cases b with
    | nil => right; right; rfl
    | cons y ys =>
      simp only [strLt, Bool.or_eq_true, decide_eq_true_eq, Bool.and_eq_true, beq_iff_eq,
        char_lt_iff, List.cons.injEq]
      rcases Nat.lt_trichotomy x.toNat y.toNat with h | h | h
      · left; left; exact h
      · have e := char_eq_of_toNat x y h
        rcases ih ys with h' | h' | h'
        · left; right; exact ⟨e, h'⟩
        · right; left; exact ⟨e, h'⟩
        · right; right; right; exact ⟨e.symm, h'⟩
      · right; right; left; exact h

theorem strLt_asymm (a b : Str) (h : strLt a b = true) : strLt b a = false := by
  cases hba : strLt b a with
  | false => rfl
  | true =>
    have := strLt_trans a b a h hba
    rw [strLt_irrefl] at this
    exact absurd this (by decide)

instance strLe_total : IsTotal Str (fun a b => strLe a b = true) :=
  ⟨fun a b => by
    unfold strLe
    cases hba : strLt b a with
    | false => left; rfl
    | true => right; rw [strLt_asymm b a hba]; rfl⟩

instance strLe_trans : IsTrans Str (fun a b => strLe a b = true) :=
  ⟨fun a b c hab hbc => by
    unfold strLe at *
    cases hca : strLt c a with
    | false => rfl
    | true =>
      exfalso
      rcases strLt_total a b with h | h | h
      · have := strLt_trans c a b hca h
        rw [this] at hbc
        exact absurd hbc (by decide)
      · rw [← h, hca] at hbc
        exact absurd hbc (by decide)
      · rw [h] at hab
        exact absurd hab (by decide)⟩

instance strLe_antisymm : IsAntisymm Str (fun a b => strLe a b = true) :=
  ⟨fun a b hab hba => by
    unfold strLe at *
    rcases strLt_total a b with h | h | h
    · rw [h] at hba; exact absurd hba (by decide)
    · exact h
    · rw [h] at hab; exact absurd hab (by decide)⟩

theorem sortStrings_eq (l : List Str) :
    sortStrings l = l.insertionSort (fun a b => strLe a b = true) := by
  induction l with
  | nil => rfl
  | cons k ks ih =>
    have hins : ∀ (x : Str) (xs : List Str),
        insertString x xs = xs.orderedInsert (fun a b => strLe a b = true) x := by
      intro x xs
      induction xs with
      | nil => rfl
      | cons y ys ihy => simp only [insertString, List.orderedInsert, ihy]
    simp only [sortStrings, List.insertionSort, ih, hins]

theorem sortStrings_perm (l : List Str) : (sortStrings l).Perm l := by
  rw [sortStrings_eq]
  exact List.perm_insertionSort _ l

theorem sortStrings_sorted (l : List Str) :
    (sortStrings l).Pairwise (fun a b => strLe a b = true) := by
  rw [sortStrings_eq]
  exact List.sorted_insertionSort _ l

theorem sortStrings_of_perm (l l' : List Str) (h : l'.Perm l) : sortStrings l' = sortStrings l :=
  List.eq_of_perm_of_sorted ((sortStrings_perm l').trans (h.trans (sortStrings_perm l).symm))
    (sortStrings_sorted l') (sortStrings_sorted l)

theorem sortStrings_strict (l : List Str) (h : l.Nodup) :
    (sortStrings l).Pairwise (fun a b => strLt a b = true) := by
  have hs := sortStrings_sorted l
  have hn : (sortStrings l).Nodup := (sortStrings_perm l).nodup_iff.2 h
  have := hs.and hn
  refine this.imp ?_
  intro a b hab
  obtain ⟨hle, hne⟩ := hab
  unfold strLe at hle
  rcases strLt_total a b with h | h | h
  · exact h
  · exact absurd h hne
  · rw [h] at hle; exact absurd hle (by decide)

/-! ## Serialisation of elements -/

theorem textOf_sprintDict (tbl : Char → Char) (attrs : List (Str × Value)) (k : Str) (v : Value)
    (h : mapGet attrs k = some v) : textOf (sprintDict tbl attrs) k = Sprint tbl v := by
  induction attrs with
  | nil => simp [mapGet] at h
  | cons kv rest ih =>
    obtain ⟨k', v'⟩ := kv
    unfold mapGet at h ih
    by_cases hk : k = k'
    · subst hk
      simp only [List.lookup, beq_self_eq_true] at h
      simp only [sprintDict, textOf, List.lookup, beq_self_eq_true, Option.getD_some]
      injection h with h
      rw [h]
    · have hk' : (k == k') = false := by simpa using hk
      simp only [List.lookup, hk'] at h
      have := ih h
      simpa only [sprintDict, textOf, List.lookup, hk'] using this

theorem mapGet_mem (attrs : List (Str × Value)) (k : Str) (v : Value)
    (h : mapGet attrs k = some v) : (k, v) ∈ attrs := by
  induction attrs with
  | nil => simp [mapGet] at h
  | cons kv rest ih =>
    obtain ⟨k', v'⟩ := kv
    unfold mapGet at h ih
    by_cases hk : k = k'
    · subst hk
      simp only [List.lookup, beq_self_eq_true] at h
      injection h with h
      simp [h]
    · have hk' : (k == k') = false := by simpa using hk
      simp only [List.lookup, hk'] at h
      exact List.mem_cons_of_mem _ (ih h)

theorem mapGet_of_mem (attrs : List (Str × Value)) (hn : (attrs.map Prod.fst).Nodup) (k : Str)
    (v : Value) (h : (k, v) ∈ attrs) : mapGet attrs k = some v := by
  induction attrs with
  | nil => simp at h
  | cons kv rest ih =>
    obtain ⟨k', v'⟩ := kv
    simp only [List.map_cons, List.nodup_cons] at hn
    unfold mapGet at ih ⊢
    rcases List.mem_cons.1 h with h1 | h2
    · injection h1 with h1 h2
      subst h1; subst h2
      simp [List.lookup]
    · have hk : k ≠ k' := by
        intro e
        apply hn.1
        rw [← e]
        exact List.mem_map.2 ⟨(k, v), h2, rfl⟩
      have hk' : (k == k') = false := by simpa using hk
      simp only [List.lookup, hk']
      exact ih hn.2 h2

theorem mapGet_none_iff (attrs : List (Str × Value)) (k : Str) :
    mapGet attrs k = none ↔ k ∉ attrs.map Prod.fst := by
  induction attrs with
  | nil => simp [mapGet]
  | cons kv rest ih =>
    obtain ⟨k', v'⟩ := kv
    unfold mapGet at ih ⊢
    by_cases hk : k = k'
    · subst hk
      simp only [List.lookup, beq_self_eq_true, List.map_cons, List.mem_cons, true_or,
        not_true_eq_false, iff_false]
      exact fun h => Option.noConfusion h
    · have hk' : (k == k') = false := by simpa using hk
      simp only [List.lookup, hk', ih, List.map_cons, List.mem_cons, hk, false_or]

theorem mapGet_perm (attrs attrs' : List (Str × Value)) (hn : (attrs.map Prod.fst).Nodup)
    (hp : attrs'.Perm attrs) (k : Str) : mapGet attrs' k = mapGet attrs k := by
  have hn' : (attrs'.map Prod.fst).Nodup := (hp.map Prod.fst).nodup_iff.2 hn
  cases h : mapGet attrs k with
  | none =>
    rw [mapGet_none_iff] at h ⊢
    exact fun hm => h ((hp.map Prod.fst).mem_iff.1 hm)
  | some v =>
    exact mapGet_of_mem attrs' hn' k v (hp.mem_iff.2 (mapGet_mem attrs k v h))

theorem attributeText_eq_spec (tbl : Char → Char) (k : Str) (v : Value) :
    attributeText tbl k v (Sprint tbl v) = attributeSpec tbl k (some v) := by
  cases v with
  | bool b => cases b <;> rfl
  | _ => rfl

theorem attributes_eq (tbl : Char → Char) (e : Element) :
    e.attributes tbl
      = (sortStrings (e.attrs.map Prod.fst)).flatMap fun k =>
          attributeSpec tbl k (mapGet e.attrs k) := by
  unfold Element.attributes
  by_cases h0 : e.attrs.length = 0
  · have : e.attrs = [] := List.length_eq_zero.1 h0
    simp [this, sortStrings]
  · rw [if_neg h0]
    congr 1
    funext k
    cases h : mapGet e.attrs k with
    | none => rfl
    | some v => exact attributeText_eq_spec tbl k v

theorem dumps_nontext (tbl : Char → Char) (type : Str) (attrs : List (Str × Value))
    (children : List Element) (h : type ≠ "text".toList) :
    dumps tbl false (.mk type attrs children)
      = tagText (Element.mk type attrs children).Tag
          ((Element.mk type attrs children).attributes tbl) (children.length = 0)
          (dumpsList tbl false children) := by
  rw [dumps]
  simp only [if_neg h, Bool.false_eq_true, if_false]
  congr 1
  unfold Element.attributes
  simp only [Element.attrs]
  by_cases h0 : attrs.length = 0
  · simp [h0]
  · simp only [if_neg h0]
    congr 1
    funext k
    cases hk : mapGet attrs k with
    | none => rfl
    | some v => simp only [textOf_sprintDict tbl attrs k v hk]

theorem attributes_perm (tbl : Char → Char) (type type' : Str) (attrs attrs' : List (Str × Value))
    (children children' : List Element) (hn : (attrs.map Prod.fst).Nodup)
    (hp : attrs'.Perm attrs) :
    (Element.mk type' attrs' children').attributes tbl
      = (Element.mk type attrs children).attributes tbl := by
  rw [attributes_eq, attributes_eq]
  simp only [Element.attrs]
  rw [sortStrings_of_perm _ _ (hp.map Prod.fst)]
  congr 1
  funext k
  rw [mapGet_perm attrs attrs' hn hp]

theorem Tag_perm (type : Str) (attrs attrs' : List (Str × Value))
    (children children' : List Element) (hn : (attrs.map Prod.fst).Nodup)
    (hp : attrs'.Perm attrs) :
    (Element.mk type attrs' children').Tag = (Element.mk type attrs children).Tag := by
  unfold Element.Tag
  simp only [Element.type, Element.attrs, mapGet_perm attrs attrs' hn hp]

/-- C6. `Element.String` renders the attributes of a non-text element in ascending order of
their keys: with `ks` the keys of the attribute map sorted by `sort.Strings`, `ks` is strictly
ascending and a rearrangement of the keys, the attribute text is the concatenation over `ks`
of the rendering of each key (key rewritten by `ParamCase`; `true` as ` key`, `false` as
` no-key`, nil as nothing, any other value `v` as ` key="Escape(Sprint v, true)"`), and it
stands between the tag name and the end of the opening tag.  The output depends on the map
alone: another iteration order `attrs'` of the same map gives the same attribute text and the
same serialisation. -/
theorem C6_attributes_sorted (tbl : Char → Char) (type : Str) (attrs attrs' : List (Str × Value))
    (children : List Element) (htype : type ≠ "text".toList)
    (hn : (attrs.map Prod.fst).Nodup) (hp : attrs'.Perm attrs) :
    (sortStrings (attrs.map Prod.fst)).Pairwise (fun a b => strLt a b = true)
    ∧ (sortStrings (attrs.map Prod.fst)).Perm (attrs.map Prod.fst)
    ∧ (Element.mk type attrs children).attributes tbl
        = (sortStrings (attrs.map Prod.fst)).flatMap
            (fun k => attributeSpec tbl k (mapGet attrs k))
    ∧ (Element.mk type attrs children).String tbl
        = tagText (Element.mk type attrs children).Tag
            ((Element.mk type attrs children).attributes tbl) (children.length = 0)
            (dumpsList tbl false children)
    ∧ (Element.mk type attrs' children).attributes tbl
        = (Element.mk type attrs children).attributes tbl
    ∧ (Element.mk type attrs' children).String tbl
        = (Element.mk type attrs children).String tbl := by
  refine ⟨sortStrings_strict _ hn, sortStrings_perm _, attributes_eq tbl _,
    dumps_nontext tbl type attrs children htype,
    attributes_perm tbl type type attrs attrs' children children hn hp, ?_⟩
  unfold Element.String
  rw [dumps_nontext tbl type attrs children htype, dumps_nontext tbl type attrs' children htype,
    attributes_perm tbl type type attrs attrs' children children hn hp,
    Tag_perm type attrs attrs' children children hn hp]

/-- Witness of C6 on the element of the test `TestNewElementAndStringify`, with two iteration
orders of its attribute map. -/
theorem C6_attributes_sorted_witness :
    (Element.mk "div".toList
        [("enabled".toList, .bool true), ("title".toList, .str "a&b".toList),
          ("visible".toList, .bool false)]
        [textElement (.str "hello".toList)]).String id
      = (Element.mk "div".toList
        [("title".toList, .str "a&b".toList), ("enabled".toList, .bool true),
          ("visible".toList, .bool false)]
        [textElement (.str "hello".toList)]).String id :=
  (C6_attributes_sorted id "div".toList
    [("title".toList, .str "a&b".toList), ("enabled".toList, .bool true),
      ("visible".toList, .bool false)]
    [("enabled".toList, .bool true), ("title".toList, .str "a&b".toList),
      ("visible".toList, .bool false)]
    [textElement (.str "hello".toList)] (by decide) (by decide)
    (List.Perm.swap _ _ _)).2.2.2.2.2

theorem dumps_text_strip (tbl : Char → Char) (type : Str) (attrs : List (Str × Value))
    (children : List Element) (h : type = "text".toList) :
    dumps tbl true (.mk type attrs children) = textAttribute tbl attrs := by
  rw [dumps]
  simp only [if_pos h, if_true]
  unfold textAttribute
  cases hk : mapGet attrs "text".toList with
  | none => rfl
  | some v => simp only [textOf_sprintDict tbl attrs _ v hk]

mutual
theorem dumps_strip (tbl : Char → Char) :
    ∀ e : Element, dumps tbl true e = (textLeaves tbl e).flatten
  | .mk type attrs children => by
    by_cases h : type = "text".toList
    · rw [dumps_text_strip tbl type attrs children h, textLeaves, if_pos h]
      simp
    · rw [dumps, textLeaves]
      simp only [if_neg h, if_true]
      exact dumpsList_strip tbl children
theorem dumpsList_strip (tbl : Char → Char) :
    ∀ cs : List Element, dumpsList tbl true cs = (textLeavesList tbl cs).flatten
  | [] => by rw [dumpsList, textLeavesList]; rfl
  | c :: cs => by
    rw [dumpsList, textLeavesList, dumps_strip tbl c, dumpsList_strip tbl cs]
    simp
end

/-- C7. In strip mode, `dumps(true)` of any element tree is the concatenation, in document
(pre-)order, of the stringified `text` attribute of every text node reachable through
non-text nodes: no tag, no attribute and no entity escaping enters the output. -/
theorem C7_dumps_strip (tbl : Char → Char) (e : Element) :
    dumps tbl true e = (textLeaves tbl e).flatten :=
  dumps_strip tbl e

/-! ## General facts on the matcher -/

theorem Reach.refl (st : Pos) : Reach st st := ⟨[], by simp, by simp⟩

theorem Reach.trans {a b c : Pos} (h1 : Reach a b) (h2 : Reach b c) : Reach a c := by
  obtain ⟨xs, hx, px⟩ := h1
  obtain ⟨ys, hy, py⟩ := h2
  exact ⟨xs ++ ys, by rw [hx, hy, List.append_assoc], by rw [py, px, List.length_append]; omega⟩

theorem Reach.pos_le {a b : Pos} (h : Reach a b) : a.pos ≤ b.pos := by
  obtain ⟨xs, _, px⟩ := h
  omega

theorem starLoop_reach {α : Type} (body : (Pos → Option α) → Pos → Option α)
    (hbody : ∀ (k : Pos → Option α) st r, body k st = some r → ∃ st', Reach st st' ∧ k st' = some r)
    (g : Bool) (k : Pos → Option α) (n : Nat) (st : Pos) (r : α)
    (h : starLoop body g k n st = some r) : ∃ st', Reach st st' ∧ k st' = some r := by
  induction n generalizing st r with
  | zero => exact ⟨st, Reach.refl st, h⟩
  | succ n ih =>
    have hmore : ∀ r', body (fun st' => if st.pos < st'.pos then starLoop body g k n st' else none) st
        = some r' → ∃ st', Reach st st' ∧ k st' = some r' := by
      intro r' hb
      obtain ⟨st1, hr1, h1⟩ := hbody _ st r' hb
      by_cases hlt : st.pos < st1.pos
      · simp only [hlt, if_true] at h1
        obtain ⟨st2, hr2, h2⟩ := ih st1 r' h1
        exact ⟨st2, hr1.trans hr2, h2⟩
      · simp only [hlt, if_false] at h1
        exact absurd h1 (by simp)
    cases g with
    | true =>
      simp only [starLoop, if_true] at h
      cases hb : body (fun st' => if st.pos < st'.pos then starLoop body true k n st' else none) st with
      | some r' =>
        rw [hb] at h
        simp only [Option.some.injEq] at h
        subst h
        exact hmore r' hb
      | none =>
        rw [hb] at h
        exact ⟨st, Reach.refl st, h⟩
    | false =>
      simp only [starLoop, Bool.false_eq_true, if_false] at h
      cases hk : k st with
      | some r' =>
        rw [hk] at h
        simp only [Option.some.injEq] at h
        subst h
        exact ⟨st, Reach.refl st, hk⟩
      | none =>
        rw [hk] at h
        exact hmore r h

theorem run_reach {α : Type} (re : Re) (k : Pos → Option α) (st : Pos) (r : α)
    (h : re.run k st = some r) :
    ∃ st', Reach st st' ∧ (re.consumes = true → st.pos < st'.pos) ∧ k st' = some r := by
  induction re generalizing k st r with
  | chr p =>
    obtain ⟨prev, pos, rest, caps⟩ := st
    cases rest with
    | nil => simp [Re.run] at h
    | cons c cs =>
      simp only [Re.run] at h
      by_cases hp : p c = true
      · simp only [hp, if_true] at h
        exact ⟨_, ⟨[c], by simp, by simp⟩, fun _ => by simp, h⟩
      · simp only [hp, if_false] at h
        exact absurd h (by simp)
  | eps => exact ⟨st, Reach.refl st, fun hc => by simp [Re.consumes] at hc, h⟩
  | seq a b iha ihb =>
    rw [run_seq] at h
    obtain ⟨st1, hr1, hc1, h1⟩ := iha _ st r h
    obtain ⟨st2, hr2, hc2, h2⟩ := ihb k st1 r h1
    refine ⟨st2, hr1.trans hr2, ?_, h2⟩
    intro hc
    simp only [Re.consumes, Bool.or_eq_true] at hc
    have := hr1.pos_le
    have := hr2.pos_le
    rcases hc with hc | hc
    · have := hc1 hc; omega
    · have := hc2 hc; omega
  | alt a b iha ihb =>
    simp only [Re.run] at h
    cases ha : a.run k st with
    | some r' =>
      rw [ha] at h
      simp only [Option.some.injEq] at h
      subst h
      obtain ⟨st1, hr1, hc1, h1⟩ := iha k st r' ha
      exact ⟨st1, hr1, fun hc => hc1 (by simp only [Re.consumes, Bool.and_eq_true] at hc; exact hc.1),
        h1⟩
    | none =>
      rw [ha] at h
      obtain ⟨st1, hr1, hc1, h1⟩ := ihb k st r h
      exact ⟨st1, hr1, fun hc => hc1 (by simp only [Re.consumes, Bool.and_eq_true] at hc; exact hc.2),
        h1⟩
  | star a g iha =>
    rw [run_star] at h
    obtain ⟨st', hr, hk⟩ := starLoop_reach (fun k' st' => a.run k' st')
      (fun k' st1 r1 h1 => by
        obtain ⟨st2, hr2, _, h2⟩ := iha k' st1 r1 h1
        exact ⟨st2, hr2, h2⟩) g k _ st r h
    exact ⟨st', hr, fun hc => by simp [Re.consumes] at hc, hk⟩
  | group i a iha =>
    rw [run_group] at h
    obtain ⟨st1, hr1, hc1, h1⟩ := iha _ st r h
    refine ⟨{ st1 with caps := (i, st.rest.take (st1.pos - st.pos)) :: st1.caps }, ?_, ?_, h1⟩
    · exact hr1
    · exact fun hc => hc1 hc
  | bol =>
    simp only [Re.run] at h
    by_cases hp : st.prev = none ∨ st.prev = some '\n'
    · rw [if_pos hp] at h
      exact ⟨st, Reach.refl st, fun hc => by simp [Re.consumes] at hc, h⟩
    · rw [if_neg hp] at h
      exact absurd h (by simp)
  | eol =>
    obtain ⟨prev, pos, rest, caps⟩ := st
    cases rest with
    | nil => exact ⟨_, Reach.refl _, fun hc => by simp [Re.consumes] at hc, h⟩
    | cons c cs =>
      simp only [Re.run] at h
      by_cases hp : c = '\n'
      · rw [if_pos hp] at h
        exact ⟨_, Reach.refl _, fun hc => by simp [Re.consumes] at hc, h⟩
      · rw [if_neg hp] at h
        exact absurd h (by simp)
  | bot =>
    simp only [Re.run] at h
    by_cases hp : st.prev = none
    · rw [if_pos hp] at h
      exact ⟨st, Reach.refl st, fun hc => by simp [Re.consumes] at hc, h⟩
    · rw [if_neg hp] at h
      exact absurd h (by simp)
  | eot =>
    obtain ⟨prev, pos, rest, caps⟩ := st
    cases rest with
    | nil => exact ⟨_, Reach.refl _, fun hc => by simp [Re.consumes] at hc, h⟩
    | cons c cs => simp [Re.run] at h

theorem matchAt_split (re : Re) (prev : Option Char) (s : Str) (m : Match)
    (h : re.matchAt prev s = some m) :
    s = m.text ++ m.after ∧ (re.consumes = true → m.text ≠ []) := by
  unfold Re.matchAt at h
  cases hr : re.run some ⟨prev, 0, s, []⟩ with
  | none => rw [hr] at h; simp at h
  | some st =>
    rw [hr] at h
    simp only [Option.map_some', Option.some.injEq] at h
    obtain ⟨st', ⟨xs, hx, px⟩, hc, hk⟩ := run_reach re some _ st hr
    simp only [Option.some.injEq] at hk
    subst hk
    simp only at hx px hc
    subst h
    simp only [zero_add] at px
    simp only [hx, px, take_length_append, true_and]
    intro hcons
    have := hc hcons
    intro hnil
    rw [hnil] at px
    simp at px
    omega

theorem findFrom_split (re : Re) (prev : Option Char) (s before : Str) (m : Match)
    (h : re.findFrom prev s = some (before, m)) :
    s = before ++ m.text ++ m.after ∧ (re.consumes = true → m.text ≠ []) := by
  induction s generalizing prev before with
  | nil =>
    simp only [Re.findFrom] at h
    cases hm : re.matchAt prev [] with
    | none => rw [hm] at h; simp at h
    | some m' =>
      rw [hm] at h
      simp only [Option.map_some', Option.some.injEq, Prod.mk.injEq] at h
      obtain ⟨h1, h2⟩ := h
      subst h1; subst h2
      simpa using matchAt_split re prev [] m' hm
  | cons c cs ih =>
    simp only [Re.findFrom] at h
    cases hm : re.matchAt prev (c :: cs) with
    | some m' =>
      rw [hm] at h
      simp only [Option.some.injEq, Prod.mk.injEq] at h
      obtain ⟨h1, h2⟩ := h
      subst h1; subst h2
      simpa using matchAt_split re prev (c :: cs) m' hm
    | none =>
      rw [hm] at h
      cases hf : re.findFrom (some c) cs with
      | none => rw [hf] at h; simp at h
      | some r =>
        rw [hf] at h
        simp only [Option.map_some', Option.some.injEq, Prod.mk.injEq] at h
        obtain ⟨h1, h2⟩ := h
        subst h1; subst h2
        obtain ⟨e, hc⟩ := ih (some c) r.1 (by rw [hf])
        exact ⟨by rw [e]; simp, hc⟩

theorem find_after_length (re : Re) (hc : re.consumes = true) (s before : Str) (m : Match)
    (h : re.find s = some (before, m)) : m.after.length < s.length := by
  obtain ⟨e, hne⟩ := findFrom_split re none s before m h
  have := hne hc
  have hl : 0 < m.text.length := List.length_pos.2 this
  rw [e]
  simp only [List.length_append]
  omega

theorem run_group_star_greedy {α : Type} (i : Nat) (p : Char → Bool) (k : Pos → Option α)
    (ds rest : Str) (hds : ∀ d ∈ ds, p d = true) (hrest : ∀ c ∈ rest.head?, p c = false)
    (prev : Option Char) (pos : Nat) (caps : List (Nat × Str))
    (hk : (k ⟨advPrev prev ds, pos + ds.length, rest, (i, ds) :: caps⟩).isSome = true) :
    (Re.group i (.star (.chr p) true)).run k ⟨prev, pos, ds ++ rest, caps⟩
      = k ⟨advPrev prev ds, pos + ds.length, rest, (i, ds) :: caps⟩ := by
  rw [run_group]
  have e : (ds ++ rest).take (pos + ds.length - pos) = ds := by
    rw [Nat.add_sub_cancel_left, take_length_append]
  rw [run_star_greedy_run p _ ds rest hds hrest prev pos caps]
  · simp only [e]
  · simp only [e]
    exact hk

theorem run_group_plus_greedy {α : Type} (i : Nat) (p : Char → Bool) (k : Pos → Option α)
    (d : Char) (ds rest : Str) (hd : p d = true) (hds : ∀ x ∈ ds, p x = true)
    (hrest : ∀ c ∈ rest.head?, p c = false)
    (prev : Option Char) (pos : Nat) (caps : List (Nat × Str))
    (hk : (k ⟨advPrev (some d) ds, pos + 1 + ds.length, rest, (i, d :: ds) :: caps⟩).isSome = true) :
    (Re.group i (Re.plus (.chr p) true)).run k ⟨prev, pos, d :: (ds ++ rest), caps⟩
      = k ⟨advPrev (some d) ds, pos + 1 + ds.length, rest, (i, d :: ds) :: caps⟩ := by
  rw [run_group]
  have e : (d :: (ds ++ rest)).take (pos + 1 + ds.length - pos) = d :: ds := by
    have : pos + 1 + ds.length - pos = ds.length + 1 := by omega
    rw [this, List.take_succ_cons, take_length_append]
  simp only [Re.plus, run_seq, run_chr_cons, hd, if_true]
  rw [run_star_greedy_run p _ ds rest hds hrest (some d) (pos + 1) caps]
  · simp only [e]
  · simp only [e]
    exact hk

theorem matchAt_of_run (re : Re) (prev : Option Char) (s text rest : Str) (st : Pos)
    (hs : s = text ++ rest) (hrun : re.run some ⟨prev, 0, s, []⟩ = some st)
    (hrest : st.rest = rest) : re.matchAt prev s = some ⟨text, rest, st.caps⟩ := by
  obtain ⟨st', ⟨xs, hx, px⟩, _, hk⟩ := run_reach re some _ st hrun
  simp only [Option.some.injEq] at hk
  subst hk
  simp only [zero_add] at hx px
  rw [hrest, hs] at hx
  have hxs : text = xs := List.append_cancel_right hx
  unfold Re.matchAt
  rw [hrun]
  simp only [Option.map_some', hrest, px, hs, hxs, take_length_append]

theorem findFrom_skip (re : Re) (ws : Str)
    (hws : ∀ c ∈ ws, ∀ prev rest, re.matchAt prev (c :: rest) = none) (s : Str)
    (prev : Option Char) :
    re.findFrom prev (ws ++ s)
      = (re.findFrom (advPrev prev ws) s).map fun r => (ws ++ r.1, r.2) := by
  induction ws generalizing prev with
  | nil => simp [advPrev]
  | cons w ws ih =>
    have hw := hws w (by simp) prev (ws ++ s)
    have hws' : ∀ c ∈ ws, ∀ prev rest, re.matchAt prev (c :: rest) = none :=
      fun c hc => hws c (by simp [hc])
    have e : advPrev prev (w :: ws) = advPrev (some w) ws := rfl
    rw [List.cons_append, Re.findFrom, hw, e]
    simp only []
    rw [ih hws' (some w)]
    cases re.findFrom (advPrev (some w) ws) s with
    | none => rfl
    | some r => rfl

/-! ## Attribute parsing -/

theorem isKeyChar_eq : isKeyChar '=' = false := by decide

theorem dquoted_run (prev : Option Char) (pos : Nat) (v rest : Str) (caps : List (Nat × Str))
    (hv : ∀ c ∈ v, isNotDQuote c = true) :
    dquotedPat.run some ⟨prev, pos, '=' :: '"' :: (v ++ '"' :: rest), caps⟩
      = some ⟨some '"', pos + 1 + 1 + v.length + 1, rest, (2, v) :: caps⟩ := by
  have hrest : ∀ c ∈ ('"' :: rest).head?, isNotDQuote c = false := by
    intro c hc
    simp at hc
    subst hc
    decide
  simp only [dquotedPat, Re.str, Re.lit, run_seq, run_chr_cons, beq_self_eq_true, if_true]
  rw [run_group_star_greedy 2 isNotDQuote _ v ('"' :: rest) hv hrest]
  · simp only [run_chr_cons, beq_self_eq_true, if_true]
  · simp only [run_chr_cons, beq_self_eq_true, if_true, Option.isSome_some]

theorem squoted_run (prev : Option Char) (pos : Nat) (v rest : Str) (caps : List (Nat × Str))
    (hv : ∀ c ∈ v, isNotSQuote c = true) :
    squotedPat.run some ⟨prev, pos, '=' :: Char.ofNat 39 :: (v ++ Char.ofNat 39 :: rest), caps⟩
      = some ⟨some (Char.ofNat 39), pos + 1 + 1 + v.length + 1, rest, (3, v) :: caps⟩ := by
  have hrest : ∀ c ∈ (Char.ofNat 39 :: rest).head?, isNotSQuote c = false := by
    intro c hc
    simp at hc
    subst hc
    decide
  simp only [squotedPat, Re.str, Re.lit, run_seq, run_chr_cons, beq_self_eq_true, if_true]
  rw [run_group_star_greedy 3 isNotSQuote _ v (Char.ofNat 39 :: rest) hv hrest]
  · simp only [run_chr_cons, beq_self_eq_true, if_true]
  · simp only [run_chr_cons, beq_self_eq_true, if_true, Option.isSome_some]

theorem braced_run (prev : Option Char) (pos : Nat) (x : Char) (xs rest : Str)
    (caps : List (Nat × Str)) (hx : isNotBrace x = true) (hxs : ∀ c ∈ xs, isNotBrace c = true) :
    bracedPat.run some
        ⟨prev, pos, '=' :: Char.ofNat 123 :: x :: (xs ++ Char.ofNat 125 :: rest), caps⟩
      = some ⟨some (Char.ofNat 125), pos + 1 + 1 + 1 + xs.length + 1, rest, (4, x :: xs) :: caps⟩ := by
  have hrest : ∀ c ∈ (Char.ofNat 125 :: rest).head?, isNotBrace c = false := by
    intro c hc
    simp at hc
    subst hc
    decide
  simp only [bracedPat, Re.str, Re.lit, run_seq, run_chr_cons, beq_self_eq_true, if_true]
  rw [run_group_plus_greedy 4 isNotBrace _ x xs (Char.ofNat 125 :: rest) hx hxs hrest]
  · simp only [run_chr_cons, beq_self_eq_true, if_true]
  · simp only [run_chr_cons, beq_self_eq_true, if_true, Option.isSome_some]

theorem run_alt {α : Type} (a b : Re) (k : Pos → Option α) (st : Pos) :
    (Re.alt a b).run k st
      = match a.run k st with
        | some r => some r
        | none => b.run k st := rfl

theorem run_eps {α : Type} (k : Pos → Option α) (st : Pos) : Re.eps.run k st = k st := rfl

theorem attrTail_dquoted (context : Option (List (Str × Value))) (prev : Option Char) (pos : Nat)
    (v rest : Str) (caps : List (Nat × Str)) (hv : ∀ c ∈ v, isNotDQuote c = true) :
    (Re.opt (if context.isSome then .alt dquotedPat (.alt squotedPat bracedPat)
        else .alt dquotedPat squotedPat)).run some
        ⟨prev, pos, '=' :: '"' :: (v ++ '"' :: rest), caps⟩
      = some ⟨some '"', pos + 1 + 1 + v.length + 1, rest, (2, v) :: caps⟩ := by
  cases context <;>
    simp only [Re.opt, run_alt, Option.isSome_none, Option.isSome_some, Bool.false_eq_true,
      if_false, if_true, dquoted_run prev pos v rest caps hv]

theorem attrTail_squoted (context : Option (List (Str × Value))) (prev : Option Char) (pos : Nat)
    (v rest : Str) (caps : List (Nat × Str)) (hv : ∀ c ∈ v, isNotSQuote c = true) :
    (Re.opt (if context.isSome then .alt dquotedPat (.alt squotedPat bracedPat)
        else .alt dquotedPat squotedPat)).run some
        ⟨prev, pos, '=' :: Char.ofNat 39 :: (v ++ Char.ofNat 39 :: rest), caps⟩
      = some ⟨some (Char.ofNat 39), pos + 1 + 1 + v.length + 1, rest, (3, v) :: caps⟩ := by
  have hd : dquotedPat.run some
      ⟨prev, pos, '=' :: Char.ofNat 39 :: (v ++ Char.ofNat 39 :: rest), caps⟩ = none := by
    simp [dquotedPat, Re.str, Re.lit, run_seq, run_chr_cons]
  cases context <;>
    simp only [Re.opt, run_alt, Option.isSome_none, Option.isSome_some, Bool.false_eq_true,
      if_false, if_true, hd, squoted_run prev pos v rest caps hv]

theorem attrTail_braced (ctx : List (Str × Value)) (prev : Option Char) (pos : Nat)
    (x : Char) (xs rest : Str) (caps : List (Nat × Str)) (hx : isNotBrace x = true)
    (hxs : ∀ c ∈ xs, isNotBrace c = true) :
    (Re.opt (if (some ctx).isSome then .alt dquotedPat (.alt squotedPat bracedPat)
        else .alt dquotedPat squotedPat)).run some
        ⟨prev, pos, '=' :: Char.ofNat 123 :: x :: (xs ++ Char.ofNat 125 :: rest), caps⟩
      = some ⟨some (Char.ofNat 125), pos + 1 + 1 + 1 + xs.length + 1, rest,
          (4, x :: xs) :: caps⟩ := by
  have hd : dquotedPat.run some
      ⟨prev, pos, '=' :: Char.ofNat 123 :: x :: (xs ++ Char.ofNat 125 :: rest), caps⟩ = none := by
    simp [dquotedPat, Re.str, Re.lit, run_seq, run_chr_cons]
  have hs : squotedPat.run some
      ⟨prev, pos, '=' :: Char.ofNat 123 :: x :: (xs ++ Char.ofNat 125 :: rest), caps⟩ = none := by
    simp [squotedPat, Re.str, Re.lit, run_seq, run_chr_cons]
  simp only [Re.opt, run_alt, Option.isSome_some, if_true, hd, hs,
    braced_run prev pos x xs rest caps hx hxs]

theorem attrTail_bare (context : Option (List (Str × Value))) (prev : Option Char) (pos : Nat)
    (rest : Str) (caps : List (Nat × Str)) (hrest : ∀ c ∈ rest.head?, c ≠ '=') :
    (Re.opt (if context.isSome then .alt dquotedPat (.alt squotedPat bracedPat)
        else .alt dquotedPat squotedPat)).run some ⟨prev, pos, rest, caps⟩
      = some ⟨prev, pos, rest, caps⟩ := by
  have hd : dquotedPat.run some ⟨prev, pos, rest, caps⟩ = none := by
    cases rest with
    | nil => simp [dquotedPat, Re.str, Re.lit, run_seq, run_chr_nil]
    | cons c cs =>
      have : c ≠ '=' := hrest c (by simp)
      simp [dquotedPat, Re.str, Re.lit, run_seq, run_chr_cons, this]
  have hs : squotedPat.run some ⟨prev, pos, rest, caps⟩ = none := by
    cases rest with
    | nil => simp [squotedPat, Re.str, Re.lit, run_seq, run_chr_nil]
    | cons c cs =>
      have : c ≠ '=' := hrest c (by simp)
      simp [squotedPat, Re.str, Re.lit, run_seq, run_chr_cons, this]
  have hb : bracedPat.run some ⟨prev, pos, rest, caps⟩ = none := by
    cases rest with
    | nil => simp [bracedPat, Re.str, Re.lit, run_seq, run_chr_nil]
    | cons c cs =>
      have : c ≠ '=' := hrest c (by simp)
      simp [bracedPat, Re.str, Re.lit, run_seq, run_chr_cons, this]
  cases context <;>
    simp only [Re.opt, run_alt, run_eps, Option.isSome_none, Option.isSome_some,
      Bool.false_eq_true, if_false, if_true, hd, hs, hb]

theorem attrPatOf_eq (context : Option (List (Str × Value))) :
    attrPatOf context
      = .seq (.group 1 (Re.plus (.chr isKeyChar) true))
          (Re.opt (if context.isSome then .alt dquotedPat (.alt squotedPat bracedPat)
            else .alt dquotedPat squotedPat)) := by
  cases context <;> rfl

theorem attr_matchAt (context : Option (List (Str × Value))) (prev : Option Char) (k0 : Char)
    (ks tail rest : Str) (st : Pos) (hk0 : isKeyChar k0 = true)
    (hks : ∀ c ∈ ks, isKeyChar c = true) (hhead : ∀ c ∈ (tail ++ rest).head?, isKeyChar c = false)
    (htail : (Re.opt (if context.isSome then .alt dquotedPat (.alt squotedPat bracedPat)
        else .alt dquotedPat squotedPat)).run some
          ⟨advPrev (some k0) ks, 0 + 1 + ks.length, tail ++ rest, [(1, k0 :: ks)]⟩ = some st)
    (hst : st.rest = rest) :
    (attrPatOf context).matchAt prev (k0 :: ks ++ tail ++ rest)
      = some ⟨k0 :: ks ++ tail, rest, st.caps⟩ := by
  apply matchAt_of_run _ _ _ _ _ st (by simp) _ hst
  rw [attrPatOf_eq, run_seq]
  have e : k0 :: ks ++ tail ++ rest = k0 :: (ks ++ (tail ++ rest)) := by simp
  rw [e, run_group_plus_greedy 1 isKeyChar _ k0 ks (tail ++ rest) hk0 hks hhead]
  · exact htail
  · rw [htail]
    rfl

theorem attr_matchAt_dquoted (context : Option (List (Str × Value))) (prev : Option Char)
    (k0 : Char) (ks v rest : Str) (hk0 : isKeyChar k0 = true)
    (hks : ∀ c ∈ ks, isKeyChar c = true) (hv : ∀ c ∈ v, isNotDQuote c = true) :
    (attrPatOf context).matchAt prev (k0 :: ks ++ ('=' :: '"' :: (v ++ ['"'])) ++ rest)
      = some ⟨k0 :: ks ++ ('=' :: '"' :: (v ++ ['"'])), rest, [(2, v), (1, k0 :: ks)]⟩ := by
  have e : ('=' :: '"' :: (v ++ ['"'])) ++ rest = '=' :: '"' :: (v ++ '"' :: rest) := by simp
  have := attr_matchAt context prev k0 ks ('=' :: '"' :: (v ++ ['"'])) rest _ hk0 hks
    (by rw [e]; intro c hc; simp at hc; subst hc; decide)
    (by rw [e]; exact attrTail_dquoted context _ _ v rest _ hv) rfl
  exact this

theorem attr_matchAt_squoted (context : Option (List (Str × Value))) (prev : Option Char)
    (k0 : Char) (ks v rest : Str) (hk0 : isKeyChar k0 = true)
    (hks : ∀ c ∈ ks, isKeyChar c = true) (hv : ∀ c ∈ v, isNotSQuote c = true) :
    (attrPatOf context).matchAt prev
        (k0 :: ks ++ ('=' :: Char.ofNat 39 :: (v ++ [Char.ofNat 39])) ++ rest)
      = some ⟨k0 :: ks ++ ('=' :: Char.ofNat 39 :: (v ++ [Char.ofNat 39])), rest,
          [(3, v), (1, k0 :: ks)]⟩ := by
  have e : ('=' :: Char.ofNat 39 :: (v ++ [Char.ofNat 39])) ++ rest
      = '=' :: Char.ofNat 39 :: (v ++ Char.ofNat 39 :: rest) := by simp
  have := attr_matchAt context prev k0 ks ('=' :: Char.ofNat 39 :: (v ++ [Char.ofNat 39])) rest _
    hk0 hks (by rw [e]; intro c hc; simp at hc; subst hc; decide)
    (by rw [e]; exact attrTail_squoted context _ _ v rest _ hv) rfl
  exact this

theorem attr_matchAt_braced (ctx : List (Str × Value)) (prev : Option Char)
    (k0 : Char) (ks : Str) (x : Char) (xs rest : Str) (hk0 : isKeyChar k0 = true)
    (hks : ∀ c ∈ ks, isKeyChar c = true) (hx : isNotBrace x = true)
    (hxs : ∀ c ∈ xs, isNotBrace c = true) :
    (attrPatOf (some ctx)).matchAt prev
        (k0 :: ks ++ ('=' :: Char.ofNat 123 :: x :: (xs ++ [Char.ofNat 125])) ++ rest)
      = some ⟨k0 :: ks ++ ('=' :: Char.ofNat 123 :: x :: (xs ++ [Char.ofNat 125])), rest,
          [(4, x :: xs), (1, k0 :: ks)]⟩ := by
  have e : ('=' :: Char.ofNat 123 :: x :: (xs ++ [Char.ofNat 125])) ++ rest
      = '=' :: Char.ofNat 123 :: x :: (xs ++ Char.ofNat 125 :: rest) := by simp
  have := attr_matchAt (some ctx) prev k0 ks
    ('=' :: Char.ofNat 123 :: x :: (xs ++ [Char.ofNat 125])) rest _
    hk0 hks (by rw [e]; intro c hc; simp at hc; subst hc; decide)
    (by rw [e]; exact attrTail_braced ctx _ _ x xs rest _ hx hxs) rfl
  exact this

theorem attr_matchAt_bare (context : Option (List (Str × Value))) (prev : Option Char)
    (k0 : Char) (ks rest : Str) (hk0 : isKeyChar k0 = true)
    (hks : ∀ c ∈ ks, isKeyChar c = true) (hrest : ∀ c ∈ rest.head?, isSpace c = true) :
    (attrPatOf context).matchAt prev (k0 :: ks ++ rest) = some ⟨k0 :: ks, rest, [(1, k0 :: ks)]⟩ := by
  have hne : ∀ c ∈ rest.head?, c ≠ '=' := by
    intro c hc e
    have := hrest c hc
    rw [e] at this
    exact absurd this (by decide)
  have hkey : ∀ c ∈ ([] ++ rest).head?, isKeyChar c = false := by
    intro c hc
    have := hrest c (by simpa using hc)
    simp [isKeyChar, this]
  have := attr_matchAt context prev k0 ks [] rest _ hk0 hks hkey
    (by simpa using attrTail_bare context _ _ rest _ hne) rfl
  simpa using this

theorem attrPatOf_consumes (context : Option (List (Str × Value))) :
    (attrPatOf context).consumes = true := by
  cases context <;> rfl

theorem attrPatOf_space (context : Option (List (Str × Value))) (c : Char)
    (hc : isSpace c = true) (prev : Option Char) (rest : Str) :
    (attrPatOf context).matchAt prev (c :: rest) = none := by
  have : isKeyChar c = false := by simp [isKeyChar, hc]
  rw [attrPatOf_eq]
  simp [Re.matchAt, Re.plus, run_seq, run_group, run_chr_cons, this]

theorem attr_find (context : Option (List (Str × Value))) (ws : Str)
    (hws : ∀ c ∈ ws, isSpace c = true) (x : Char) (xs : Str) (m : Match)
    (hm : (attrPatOf context).matchAt (advPrev none ws) (x :: xs) = some m) :
    (attrPatOf context).find (ws ++ x :: xs) = some (ws, m) := by
  unfold Re.find
  rw [findFrom_skip _ ws (fun c hc => attrPatOf_space context c (hws c hc))]
  simp [Re.findFrom, hm]

theorem parseAttrsLoop_step (ev : Evaluator) (context : Option (List (Str × Value)))
    (fuel : Nat) (extra : Str) (attrs : List (Str × Value)) (before : Str) (m : Match)
    (hfind : (attrPatOf context).find extra = some (before, m)) :
    parseAttrsLoop ev context (fuel + 1) extra attrs
      = parseAttrsLoop ev context fuel m.after
          (mapSet attrs (attrBinding ev context m).1 (attrBinding ev context m).2) := by
  unfold attrPatOf at hfind
  rw [parseAttrsLoop, hfind]

theorem parseAttrsLoop_none (ev : Evaluator) (context : Option (List (Str × Value)))
    (fuel : Nat) (extra : Str) (attrs : List (Str × Value))
    (hfind : (attrPatOf context).find extra = none) :
    parseAttrsLoop ev context fuel extra attrs = attrs := by
  cases fuel with
  | zero => rfl
  | succ n =>
    unfold attrPatOf at hfind
    rw [parseAttrsLoop, hfind]

theorem parseAttrsLoop_fuel (ev : Evaluator) (context : Option (List (Str × Value)))
    (n m : Nat) (extra : Str) (attrs : List (Str × Value)) (hn : extra.length < n)
    (hm : extra.length < m) :
    parseAttrsLoop ev context n extra attrs = parseAttrsLoop ev context m extra attrs := by
  induction n generalizing m extra attrs with
  | zero => omega
  | succ n ih =>
    cases m with
    | zero => omega
    | succ m =>
      cases hfind : (attrPatOf context).find extra with
      | none => rw [parseAttrsLoop_none _ _ _ _ _ hfind, parseAttrsLoop_none _ _ _ _ _ hfind]
      | some r =>
        obtain ⟨before, mt⟩ := r
        have hlen := find_after_length _ (attrPatOf_consumes context) extra before mt hfind
        have key : ∀ attrs', parseAttrsLoop ev context n mt.after attrs'
            = parseAttrsLoop ev context m mt.after attrs' :=
          fun attrs' => ih m mt.after attrs' (by omega) (by omega)
        rw [parseAttrsLoop_step ev context n extra attrs before mt hfind,
          parseAttrsLoop_step ev context m extra attrs before mt hfind]
        simp only [key]

theorem parseAttrsFrom_step (ev : Evaluator) (context : Option (List (Str × Value)))
    (extra : Str) (attrs : List (Str × Value)) (before : Str) (m : Match)
    (hfind : (attrPatOf context).find extra = some (before, m)) :
    parseAttrsFrom ev context extra attrs
      = parseAttrsFrom ev context m.after
          (mapSet attrs (attrBinding ev context m).1 (attrBinding ev context m).2) := by
  have hlen := find_after_length _ (attrPatOf_consumes context) extra before m hfind
  unfold parseAttrsFrom
  rw [parseAttrsLoop_step ev context _ extra attrs before m hfind,
    parseAttrsLoop_fuel ev context extra.length (m.after.length + 1) m.after _ hlen (by omega)]

theorem parseAttrsFrom_space (ev : Evaluator) (context : Option (List (Str × Value)))
    (ws : Str) (hws : ∀ c ∈ ws, isSpace c = true) (attrs : List (Str × Value)) :
    parseAttrsFrom ev context ws attrs = attrs := by
  apply parseAttrsLoop_none
  unfold Re.find
  have := findFrom_skip (attrPatOf context) ws
    (fun c hc => attrPatOf_space context c (hws c hc)) [] none
  rw [List.append_nil] at this
  rw [this]
  have hnil : (attrPatOf context).matchAt (advPrev none ws) [] = none := by
    rw [attrPatOf_eq]
    simp [Re.matchAt, Re.plus, run_seq, run_group, run_chr_nil]
  simp [Re.findFrom, hnil]

theorem attrBinding_dquoted (ev : Evaluator) (context : Option (List (Str × Value)))
    (text after k v : Str) :
    attrBinding ev context ⟨text, after, [(2, v), (1, k)]⟩ = (k, .str (unescape v)) := by
  cases context <;> rfl

theorem attrBinding_squoted (ev : Evaluator) (context : Option (List (Str × Value)))
    (text after k v : Str) :
    attrBinding ev context ⟨text, after, [(3, v), (1, k)]⟩ = (k, .str (unescape v)) := by
  cases context <;> rfl

theorem attrBinding_braced (ev : Evaluator) (ctx : List (Str × Value))
    (text after k : Str) (x : Char) (xs : Str) :
    attrBinding ev (some ctx) ⟨text, after, [(4, x :: xs), (1, k)]⟩
      = (k, ev.interpolate (x :: xs) ctx) := rfl

theorem attrBinding_bare (ev : Evaluator) (context : Option (List (Str × Value)))
    (text after k : Str) :
    attrBinding ev context ⟨text, after, [(1, k)]⟩
      = if hasPrefix k "no-".toList then (k.drop 3, .bool false) else (k, .bool true) := by
  cases context <;> rfl

theorem keyChars_of (k : Str) (hk : ∀ c ∈ k, isSpace c = false ∧ c ≠ '=') :
    ∀ c ∈ k, isKeyChar c = true := by
  intro c hc
  obtain ⟨h1, h2⟩ := hk c hc
  simp [isKeyChar, h1, h2]

theorem parseAttrsFrom_attr (ev : Evaluator) (context : Option (List (Str × Value)))
    (ws : Str) (hws : ∀ c ∈ ws, isSpace c = true) (x : Char) (xs : Str) (m : Match)
    (attrs : List (Str × Value))
    (hm : (attrPatOf context).matchAt (advPrev none ws) (x :: xs) = some m) :
    parseAttrsFrom ev context (ws ++ x :: xs) attrs
      = parseAttrsFrom ev context m.after
          (mapSet attrs (attrBinding ev context m).1 (attrBinding ev context m).2) :=
  parseAttrsFrom_step ev context _ attrs ws m (attr_find context ws hws x xs m hm)

/-- The five attribute forms, as `parseTokens` reads them. -/
theorem parseAttrs_forms (ev : Evaluator) (context : Option (List (Str × Value)))
    (ws k : Str) (attrs : List (Str × Value)) (hws : ∀ c ∈ ws, isSpace c = true)
    (hk : ∀ c ∈ k, isSpace c = false ∧ c ≠ '=') :
    (∀ v rest, k ≠ [] → '"' ∉ v →
      parseAttrsFrom ev context (ws ++ k ++ "=\"".toList ++ v ++ "\"".toList ++ rest) attrs
        = parseAttrsFrom ev context rest (mapSet attrs k (.str (unescape v))))
    ∧ (∀ v rest, k ≠ [] → Char.ofNat 39 ∉ v →
      parseAttrsFrom ev context (ws ++ k ++ [Char.ofNat 61, Char.ofNat 39] ++ v ++ [Char.ofNat 39] ++ rest) attrs
        = parseAttrsFrom ev context rest (mapSet attrs k (.str (unescape v))))
    ∧ (∀ rest, k ≠ [] → hasPrefix k "no-".toList = false → (∀ c ∈ rest.head?, isSpace c = true) →
      parseAttrsFrom ev context (ws ++ k ++ rest) attrs
        = parseAttrsFrom ev context rest (mapSet attrs k (.bool true)))
    ∧ (∀ rest, (∀ c ∈ rest.head?, isSpace c = true) →
      parseAttrsFrom ev context (ws ++ "no-".toList ++ k ++ rest) attrs
        = parseAttrsFrom ev context rest (mapSet attrs k (.bool false)))
    ∧ (∀ ctx expr rest, context = some ctx → k ≠ [] → expr ≠ [] → Char.ofNat 125 ∉ expr →
      parseAttrsFrom ev context
          (ws ++ k ++ [Char.ofNat 61, Char.ofNat 123] ++ expr ++ [Char.ofNat 125] ++ rest) attrs
        = parseAttrsFrom ev context rest (mapSet attrs k (ev.interpolate expr ctx))) := by
  have hkc := keyChars_of k hk
  refine ⟨?_, ?_, ?_, ?_, ?_⟩
  · intro v rest hne hv
    obtain ⟨k0, ks, rfl⟩ := List.exists_cons_of_ne_nil hne
    have hv' : ∀ c ∈ v, isNotDQuote c = true := by
      intro c hc
      have : c ≠ '"' := fun e => hv (e ▸ hc)
      simpa [isNotDQuote] using this
    have hm := attr_matchAt_dquoted context (advPrev none ws) k0 ks v rest
      (hkc k0 (by simp)) (fun c hc => hkc c (by simp [hc])) hv'
    have e : ws ++ (k0 :: ks) ++ "=\"".toList ++ v ++ "\"".toList ++ rest
        = ws ++ k0 :: (ks ++ ('=' :: '"' :: (v ++ ['"'])) ++ rest) := by simp
    have e2 : k0 :: ks ++ ('=' :: '"' :: (v ++ ['"'])) ++ rest
        = k0 :: (ks ++ ('=' :: '"' :: (v ++ ['"'])) ++ rest) := by simp
    rw [e2] at hm
    rw [e, parseAttrsFrom_attr ev context ws hws _ _ _ attrs hm, attrBinding_dquoted]
  · intro v rest hne hv
    obtain ⟨k0, ks, rfl⟩ := List.exists_cons_of_ne_nil hne
    have hv' : ∀ c ∈ v, isNotSQuote c = true := by
      intro c hc
      have : c ≠ Char.ofNat 39 := fun e => hv (e ▸ hc)
      simpa [isNotSQuote] using this
    have hm := attr_matchAt_squoted context (advPrev none ws) k0 ks v rest
      (hkc k0 (by simp)) (fun c hc => hkc c (by simp [hc])) hv'
    have e : ws ++ (k0 :: ks) ++ [Char.ofNat 61, Char.ofNat 39] ++ v ++ [Char.ofNat 39] ++ rest
        = ws ++ k0 :: (ks ++ ('=' :: Char.ofNat 39 :: (v ++ [Char.ofNat 39])) ++ rest) := by simp
    have e2 : k0 :: ks ++ ('=' :: Char.ofNat 39 :: (v ++ [Char.ofNat 39])) ++ rest
        = k0 :: (ks ++ ('=' :: Char.ofNat 39 :: (v ++ [Char.ofNat 39])) ++ rest) := by simp
    rw [e2] at hm
    rw [e, parseAttrsFrom_attr ev context ws hws _ _ _ attrs hm, attrBinding_squoted]
  · intro rest hne hno hrest
    obtain ⟨k0, ks, rfl⟩ := List.exists_cons_of_ne_nil hne
    have hm := attr_matchAt_bare context (advPrev none ws) k0 ks rest
      (hkc k0 (by simp)) (fun c hc => hkc c (by simp [hc])) hrest
    have e : ws ++ (k0 :: ks) ++ rest = ws ++ k0 :: (ks ++ rest) := by simp
    have e2 : k0 :: ks ++ rest = k0 :: (ks ++ rest) := by simp
    rw [e2] at hm
    rw [e, parseAttrsFrom_attr ev context ws hws _ _ _ attrs hm, attrBinding_bare, hno]
    rfl
  · intro rest hrest
    have hm := attr_matchAt_bare context (advPrev none ws) 'n' ('o' :: '-' :: k) rest
      (by decide) (by
        intro c hc
        rcases List.mem_cons.1 hc with h | h
        · rw [h]; decide
        rcases List.mem_cons.1 h with h | h
        · rw [h]; decide
        · exact hkc c h) hrest
    have e : ws ++ "no-".toList ++ k ++ rest = ws ++ 'n' :: ('o' :: '-' :: k ++ rest) := by simp
    have e2 : 'n' :: 'o' :: '-' :: k ++ rest = 'n' :: ('o' :: '-' :: k ++ rest) := by simp
    rw [e2] at hm
    rw [e, parseAttrsFrom_attr ev context ws hws _ _ _ attrs hm, attrBinding_bare]
    have hp : hasPrefix ('n' :: 'o' :: '-' :: k) "no-".toList = true := by
      simp [hasPrefix, List.isPrefixOf]
    rw [if_pos hp]
    rfl
  · intro ctx expr rest hctx hne hene hexpr
    subst hctx
    obtain ⟨k0, ks, rfl⟩ := List.exists_cons_of_ne_nil hne
    obtain ⟨x, xs, rfl⟩ := List.exists_cons_of_ne_nil hene
    have hx' : ∀ c ∈ x :: xs, isNotBrace c = true := by
      intro c hc
      have : c ≠ Char.ofNat 125 := fun e => hexpr (e ▸ hc)
      simpa [isNotBrace] using this
    have hm := attr_matchAt_braced ctx (advPrev none ws) k0 ks x xs rest
      (hkc k0 (by simp)) (fun c hc => hkc c (by simp [hc])) (hx' x (by simp))
      (fun c hc => hx' c (by simp [hc]))
    have e : ws ++ (k0 :: ks) ++ [Char.ofNat 61, Char.ofNat 123] ++ (x :: xs)
          ++ [Char.ofNat 125] ++ rest
        = ws ++ k0 :: (ks ++ ('=' :: Char.ofNat 123 :: x :: (xs ++ [Char.ofNat 125])) ++ rest) := by
      simp
    have e2 : k0 :: ks ++ ('=' :: Char.ofNat 123 :: x :: (xs ++ [Char.ofNat 125])) ++ rest
        = k0 :: (ks ++ ('=' :: Char.ofNat 123 :: x :: (xs ++ [Char.ofNat 125])) ++ rest) := by simp
    rw [e2] at hm
    rw [e, parseAttrsFrom_attr ev (some ctx) ws hws _ _ _ attrs hm, attrBinding_braced]

/-- C9, counterexample. The empty key contains no whitespace and no `=`, but the attribute
text `="v"` does not bind the empty key to `v`: the pattern needs a key of at least one
character, so it reads the quoted text itself as a bare key and binds `"v"` to `true`. -/
theorem C9_counterexample :
    (mapGet (parseAttrs nullEvaluator none ([] ++ "=\"".toList ++ "v".toList ++ "\"".toList))
        []).isNone = true
    ∧ (parseAttrs nullEvaluator none ([] ++ "=\"".toList ++ "v".toList ++ "\"".toList)).map
        Prod.fst = ["\"v\"".toList] := by
  decide

/-- C9, amended. In the attribute text of a tag, read from the map `attrs` of the attributes
to its left and after any whitespace `ws`, for every key `k` without whitespace or `=`:
`k="v"` and `k='v'` with a non-empty `k` and a `v` without the enclosing quote bind `k` to
`unescape v`; a bare non-empty `k` not starting with `no-` and followed by whitespace or the
end binds `k` to `true`; a bare `no-k` binds `k` to `false`; and with a non-nil context
`k={expr}`, for a non-empty `k` and a non-empty `expr` without a closing brace, binds `k`
to `interpolate(expr, context)`.  In each case the loop goes on with the rest of the text;
whitespace alone binds nothing, and `parseAttrs` is the loop run from the empty map, so
a lone attribute `a` gives the one-entry map. -/
theorem C9_attribute_forms (ev : Evaluator) (context : Option (List (Str × Value)))
    (ws k : Str) (attrs : List (Str × Value)) (hws : ∀ c ∈ ws, isSpace c = true)
    (hk : ∀ c ∈ k, isSpace c = false ∧ c ≠ '=') :
    (∀ v rest, k ≠ [] → '"' ∉ v →
      parseAttrsFrom ev context (ws ++ k ++ "=\"".toList ++ v ++ "\"".toList ++ rest) attrs
        = parseAttrsFrom ev context rest (mapSet attrs k (.str (unescape v))))
    ∧ (∀ v rest, k ≠ [] → Char.ofNat 39 ∉ v →
      parseAttrsFrom ev context (ws ++ k ++ [Char.ofNat 61, Char.ofNat 39] ++ v ++ [Char.ofNat 39] ++ rest) attrs
        = parseAttrsFrom ev context rest (mapSet attrs k (.str (unescape v))))
    ∧ (∀ rest, k ≠ [] → hasPrefix k "no-".toList = false → (∀ c ∈ rest.head?, isSpace c = true) →
      parseAttrsFrom ev context (ws ++ k ++ rest) attrs
        = parseAttrsFrom ev context rest (mapSet attrs k (.bool true)))
    ∧ (∀ rest, (∀ c ∈ rest.head?, isSpace c = true) →
      parseAttrsFrom ev context (ws ++ "no-".toList ++ k ++ rest) attrs
        = parseAttrsFrom ev context rest (mapSet attrs k (.bool false)))
    ∧ (∀ ctx expr rest, context = some ctx → k ≠ [] → expr ≠ [] → Char.ofNat 125 ∉ expr →
      parseAttrsFrom ev context
          (ws ++ k ++ [Char.ofNat 61, Char.ofNat 123] ++ expr ++ [Char.ofNat 125] ++ rest) attrs
        = parseAttrsFrom ev context rest (mapSet attrs k (ev.interpolate expr ctx)))
    ∧ parseAttrsFrom ev context ws attrs = attrs
    ∧ (∀ extra, parseAttrs ev context extra = parseAttrsFrom ev context extra []) := by
  obtain ⟨h1, h2, h3, h4, h5⟩ := parseAttrs_forms ev context ws k attrs hws hk
  exact ⟨h1, h2, h3, h4, h5, parseAttrsFrom_space ev context ws hws attrs, fun _ => rfl⟩

/-- Witness of C9 (amended): the attribute text ` a="1"` after one blank, from the empty
map. -/
theorem C9_attribute_forms_witness :
    parseAttrsFrom nullEvaluator none
        (" ".toList ++ "a".toList ++ "=\"".toList ++ "1".toList ++ "\"".toList ++ []) []
      = parseAttrsFrom nullEvaluator none []
          (mapSet [] "a".toList (.str (unescape "1".toList))) :=
  (C9_attribute_forms nullEvaluator none " ".toList "a".toList [] (by decide) (by decide)).1
    "1".toList [] (by decide) (by decide)

/-- C10, the code at the failing input: the source `a`, line feed, line feed, `b` has no `<`,
no brace and no `&`, and no whitespace at either end, yet `Parse` yields one text element
whose text has lost the interior blank line. -/
theorem C10_interior_blank_line :
    ('<' ∉ "a\n\nb".toList ∧ Char.ofNat 123 ∉ "a\n\nb".toList ∧ '&' ∉ "a\n\nb".toList)
    ∧ (Parse nullEvaluator "a\n\nb".toList none).map Element.type = ["text".toList]
    ∧ (Parse nullEvaluator "a\n\nb".toList none).map (dumps id true) = ["a\nb".toList] := by
  decide!

/-! ## Soundness of the matcher for the language of a pattern -/

theorem starLoop_lang {α : Type} (a : Re) (body : (Pos → Option α) → Pos → Option α)
    (hbody : ∀ (k : Pos → Option α) st r, body k st = some r →
      ∃ st' xs, st.rest = xs ++ st'.rest ∧ st'.pos = st.pos + xs.length ∧ a.lang xs
        ∧ k st' = some r)
    (g : Bool) (k : Pos → Option α) (n : Nat) (st : Pos) (r : α)
    (h : starLoop body g k n st = some r) :
    ∃ st' xs, st.rest = xs ++ st'.rest ∧ st'.pos = st.pos + xs.length ∧ (Re.star a g).lang xs
      ∧ k st' = some r := by
  induction n generalizing st r with
  | zero => exact ⟨st, [], by simp, by simp, ⟨[], by simp, by simp⟩, h⟩
  | succ n ih =>
    have hmore : ∀ r', body (fun st' => if st.pos < st'.pos then starLoop body g k n st' else none) st
        = some r' → ∃ st' xs, st.rest = xs ++ st'.rest ∧ st'.pos = st.pos + xs.length
          ∧ (Re.star a g).lang xs ∧ k st' = some r' := by
      intro r' hb
      obtain ⟨st1, xs1, hx1, hp1, hl1, h1⟩ := hbody _ st r' hb
      by_cases hlt : st.pos < st1.pos
      · simp only [hlt, if_true] at h1
        obtain ⟨st2, xs2, hx2, hp2, ⟨parts, hparts, hall⟩, h2⟩ := ih st1 r' h1
        refine ⟨st2, xs1 ++ xs2, by rw [hx1, hx2, List.append_assoc],
          by rw [hp2, hp1, List.length_append]; omega, ⟨xs1 :: parts, by simp [hparts], ?_⟩, h2⟩
        intro y hy
        rcases List.mem_cons.1 hy with e | hy
        · rw [e]; exact hl1
        · exact hall y hy
      · simp only [hlt, if_false] at h1
        exact absurd h1 (by simp)
    have hstop : ∀ r', k st = some r' → ∃ st' xs, st.rest = xs ++ st'.rest
        ∧ st'.pos = st.pos + xs.length ∧ (Re.star a g).lang xs ∧ k st' = some r' :=
      fun r' hk => ⟨st, [], by simp, by simp, ⟨[], by simp, by simp⟩, hk⟩
    cases g with
    | true =>
      simp only [starLoop, if_true] at h
      cases hb : body (fun st' => if st.pos < st'.pos then starLoop body true k n st' else none) st with
      | some r' =>
        rw [hb] at h
        simp only [Option.some.injEq] at h
        subst h
        exact hmore r' hb
      | none =>
        rw [hb] at h
        exact hstop r h
    | false =>
      simp only [starLoop, Bool.false_eq_true, if_false] at h
      cases hk : k st with
      | some r' =>
        rw [hk] at h
        simp only [Option.some.injEq] at h
        subst h
        exact hstop r' hk
      | none =>
        rw [hk] at h
        exact hmore r h

theorem run_lang {α : Type} (re : Re) (k : Pos → Option α) (st : Pos) (r : α)
    (h : re.run k st = some r) :
    ∃ st' xs, st.rest = xs ++ st'.rest ∧ st'.pos = st.pos + xs.length ∧ re.lang xs
      ∧ k st' = some r := by
  induction re generalizing k st r with
  | chr p =>
    obtain ⟨prev, pos, rest, caps⟩ := st
    cases rest with
    | nil => simp [Re.run] at h
    | cons c cs =>
      simp only [Re.run] at h
      by_cases hp : p c = true
      · simp only [hp, if_true] at h
        exact ⟨_, [c], by simp, by simp, ⟨c, rfl, hp⟩, h⟩
      · simp only [hp, if_false] at h
        exact absurd h (by simp)
  | eps => exact ⟨st, [], by simp, by simp, rfl, h⟩
  | seq a b iha ihb =>
    rw [run_seq] at h
    obtain ⟨st1, xs1, hx1, hp1, hl1, h1⟩ := iha _ st r h
    obtain ⟨st2, xs2, hx2, hp2, hl2, h2⟩ := ihb k st1 r h1
    exact ⟨st2, xs1 ++ xs2, by rw [hx1, hx2, List.append_assoc],
      by rw [hp2, hp1, List.length_append]; omega, ⟨xs1, xs2, rfl, hl1, hl2⟩, h2⟩
  | alt a b iha ihb =>
    simp only [Re.run] at h
    cases ha : a.run k st with
    | some r' =>
      rw [ha] at h
      simp only [Option.some.injEq] at h
      subst h
      obtain ⟨st1, xs1, hx1, hp1, hl1, h1⟩ := iha k st r' ha
      exact ⟨st1, xs1, hx1, hp1, Or.inl hl1, h1⟩
    | none =>
      rw [ha] at h
      obtain ⟨st1, xs1, hx1, hp1, hl1, h1⟩ := ihb k st r h
      exact ⟨st1, xs1, hx1, hp1, Or.inr hl1, h1⟩
  | star a g iha =>
    rw [run_star] at h
    exact starLoop_lang a (fun k' st' => a.run k' st') (fun k' st1 r1 h1 => iha k' st1 r1 h1)
      g k _ st r h
  | group i a iha =>
    rw [run_group] at h
    obtain ⟨st1, xs1, hx1, hp1, hl1, h1⟩ := iha _ st r h
    exact ⟨{ st1 with caps := (i, st.rest.take (st1.pos - st.pos)) :: st1.caps }, xs1, hx1, hp1,
      hl1, h1⟩
  | bol =>
    simp only [Re.run] at h
    by_cases hp : st.prev = none ∨ st.prev = some '\n'
    · rw [if_pos hp] at h
      exact ⟨st, [], by simp, by simp, rfl, h⟩
    · rw [if_neg hp] at h
      exact absurd h (by simp)
  | eol =>
    obtain ⟨prev, pos, rest, caps⟩ := st
    cases rest with
    | nil => exact ⟨_, [], by simp, by simp, rfl, h⟩
    | cons c cs =>
      simp only [Re.run] at h
      by_cases hp : c = '\n'
      · rw [if_pos hp] at h
        exact ⟨_, [], by simp, by simp, rfl, h⟩
      · rw [if_neg hp] at h
        exact absurd h (by simp)
  | bot =>
    simp only [Re.run] at h
    by_cases hp : st.prev = none
    · rw [if_pos hp] at h
      exact ⟨st, [], by simp, by simp, rfl, h⟩
    · rw [if_neg hp] at h
      exact absurd h (by simp)
  | eot =>
    obtain ⟨prev, pos, rest, caps⟩ := st
    cases rest with
    | nil => exact ⟨_, [], by simp, by simp, rfl, h⟩
    | cons c cs => simp [Re.run] at h

theorem matchAt_lang (re : Re) (prev : Option Char) (s : Str) (m : Match)
    (h : re.matchAt prev s = some m) : s = m.text ++ m.after ∧ re.lang m.text := by
  have hsplit := (matchAt_split re prev s m h).1
  unfold Re.matchAt at h
  cases hr : re.run some ⟨prev, 0, s, []⟩ with
  | none => rw [hr] at h; simp at h
  | some st =>
    rw [hr] at h
    simp only [Option.map_some', Option.some.injEq] at h
    obtain ⟨st', xs, hx, hp, hl, hk⟩ := run_lang re some _ st hr
    simp only [Option.some.injEq] at hk
    subst hk
    simp only [zero_add] at hx hp
    subst h
    refine ⟨hsplit, ?_⟩
    simp only [hx, hp, take_length_append]
    exact hl

/-! ## The tag pattern on serialised tags -/

theorem starLoop_lazy_run {α : Type} (p : Char → Bool) (k : Pos → Option α) (xs rest : Str)
    (hxs : ∀ x ∈ xs, p x = true) (n : Nat) (hn : xs.length ≤ n) (prev : Option Char) (pos : Nat)
    (caps : List (Nat × Str))
    (hfail : ∀ j, j < xs.length →
      k ⟨advPrev prev (xs.take j), pos + j, xs.drop j ++ rest, caps⟩ = none)
    (hk : (k ⟨advPrev prev xs, pos + xs.length, rest, caps⟩).isSome = true) :
    starLoop (fun k' st' => (Re.chr p).run k' st') false k n ⟨prev, pos, xs ++ rest, caps⟩
      = k ⟨advPrev prev xs, pos + xs.length, rest, caps⟩ := by
  induction xs generalizing n prev pos with
  | nil =>
    cases n with
    | zero => rfl
    | succ m =>
      simp only [starLoop, Bool.false_eq_true, if_false, List.nil_append, advPrev, List.foldl_nil,
        List.length_nil, Nat.add_zero] at hk ⊢
      cases hr : k ⟨prev, pos, rest, caps⟩ with
      | none => rw [hr] at hk; simp at hk
      | some r => rfl
  | cons x xs ih =>
    cases n with
    | zero => simp at hn
    | succ m =>
      have hx : p x = true := hxs x (by simp)
      have hxs' : ∀ y ∈ xs, p y = true := fun y hy => hxs y (by simp [hy])
      have h0 := hfail 0 (by simp)
      simp only [List.take_zero, advPrev, List.foldl_nil, Nat.add_zero, List.drop_zero,
        List.cons_append] at h0
      have e : pos + (x :: xs).length = pos + 1 + xs.length := by
        simp only [List.length_cons]; omega
      have e2 : advPrev prev (x :: xs) = advPrev (some x) xs := rfl
      rw [e, e2] at hk ⊢
      have hfail' : ∀ j, j < xs.length →
          k ⟨advPrev (some x) (xs.take j), pos + 1 + j, xs.drop j ++ rest, caps⟩ = none := by
        intro j hj
        have := hfail (j + 1) (by simp only [List.length_cons]; omega)
        have e3 : pos + (j + 1) = pos + 1 + j := by omega
        rw [e3] at this
        exact this
      have := ih hxs' m (by simpa using hn) (some x) (pos + 1) hfail' hk
      simp only [starLoop, Bool.false_eq_true, if_false, List.cons_append, h0, run_chr_cons, hx,
        if_true, Nat.lt_succ_self, this]

theorem run_group_star_lazy {α : Type} (i : Nat) (p : Char → Bool) (k : Pos → Option α)
    (xs rest : Str) (hxs : ∀ x ∈ xs, p x = true) (prev : Option Char) (pos : Nat)
    (caps : List (Nat × Str))
    (hfail : ∀ j, j < xs.length → ∀ caps',
      k ⟨advPrev prev (xs.take j), pos + j, xs.drop j ++ rest, caps'⟩ = none)
    (hk : (k ⟨advPrev prev xs, pos + xs.length, rest, (i, xs) :: caps⟩).isSome = true) :
    (Re.group i (.star (.chr p) false)).run k ⟨prev, pos, xs ++ rest, caps⟩
      = k ⟨advPrev prev xs, pos + xs.length, rest, (i, xs) :: caps⟩ := by
  rw [run_group, run_star]
  have e : (xs ++ rest).take (pos + xs.length - pos) = xs := by
    rw [Nat.add_sub_cancel_left, take_length_append]
  rw [starLoop_lazy_run p _ xs rest hxs _ (by simp) prev pos caps]
  · simp only [e]
  · intro j hj
    exact hfail j hj _
  · simp only [e]
    exact hk

theorem tagEndPat_lang (xs : Str) (h : tagEndPat.lang xs) :
    ∃ ws, (∀ c ∈ ws, isSpace c = true ∨ c = '/') ∧ xs = ws ++ ['>'] := by
  obtain ⟨ys, zs, rfl, ⟨parts, rfl, hparts⟩, sl, gt, rfl, hsl, hgt⟩ := h
  obtain ⟨c, rfl, hc⟩ := hgt
  have hc' : c = '>' := by simpa [Re.lit] using hc
  subst hc'
  refine ⟨parts.flatten ++ sl, ?_, by simp⟩
  intro c hc
  rcases List.mem_append.1 hc with h | h
  · obtain ⟨y, hy, hcy⟩ := List.mem_flatten.1 h
    obtain ⟨d, rfl, hd⟩ := hparts y hy
    simp only [List.mem_singleton] at hcy
    left; rw [hcy]; exact hd
  · rcases hsl with hsl | hsl
    · obtain ⟨d, rfl, hd⟩ := hsl
      simp only [List.mem_singleton] at h
      right
      rw [h]
      simpa [Re.lit] using hd
    · have : sl = [] := hsl
      rw [this] at h
      simp at h

theorem tagEndPat_none {α : Type} (k : Pos → Option α) (prev : Option Char) (pos : Nat)
    (b0 : Str) (b : Char) (t : Str) (caps : List (Nat × Str)) (hgt : '>' ∉ b0 ++ [b])
    (hb : isSpace b = false ∧ b ≠ '/') :
    tagEndPat.run k ⟨prev, pos, b0 ++ [b] ++ t, caps⟩ = none := by
  cases h : tagEndPat.run k ⟨prev, pos, b0 ++ [b] ++ t, caps⟩ with
  | none => rfl
  | some r =>
    exfalso
    obtain ⟨st', xs, hx, _, hl, _⟩ := run_lang tagEndPat k _ r h
    obtain ⟨ws, hws, rfl⟩ := tagEndPat_lang xs hl
    simp only at hx
    have hx' : (b0 ++ [b]) ++ t = ws ++ ('>' :: st'.rest) := by rw [hx]; simp
    rcases List.append_eq_append_iff.1 hx' with ⟨a, ha, _⟩ | ⟨c, hc, hc2⟩
    · have : b ∈ ws := by rw [ha]; simp
      rcases hws b this with h1 | h1
      · rw [hb.1] at h1; exact absurd h1 (by decide)
      · exact hb.2 h1
    · cases c with
      | nil =>
        rw [List.append_nil] at hc
        have : b ∈ ws := by rw [← hc]; simp
        rcases hws b this with h1 | h1
        · rw [hb.1] at h1; exact absurd h1 (by decide)
        · exact hb.2 h1
      | cons d ds =>
        simp only [List.cons_append, List.cons.injEq] at hc2
        apply hgt
        rw [hc, hc2.1]
        simp

theorem run_star_greedy_nil {α : Type} (p : Char → Bool) (k : Pos → Option α) (st : Pos)
    (hrest : ∀ c ∈ st.rest.head?, p c = false) :
    (Re.star (.chr p) true).run k st = k st := by
  obtain ⟨prev, pos, rest, caps⟩ := st
  rw [run_star]
  cases rest with
  | nil => rfl
  | cons c cs =>
    have hc : p c = false := hrest c (by simp)
    simp [starLoop, run_chr_cons, hc]

theorem tagEnd_gt {α : Type} (k : Pos → Option α) (prev : Option Char) (pos : Nat) (r : Str)
    (caps : List (Nat × Str)) :
    tagEndPat.run k ⟨prev, pos, '>' :: r, caps⟩ = k ⟨some '>', pos + 1, r, (6, []) :: caps⟩ := by
  rw [tagEndPat, run_seq, run_star_greedy_nil _ _ _
    (by intro c hc; simp at hc; subst hc; decide)]
  simp [run_seq, run_group, Re.opt, run_alt, run_eps, Re.lit, run_chr_cons]

theorem tagEnd_slash_gt {α : Type} (k : Pos → Option α) (prev : Option Char) (pos : Nat)
    (r : Str) (caps : List (Nat × Str)) :
    tagEndPat.run k ⟨prev, pos, '/' :: '>' :: r, caps⟩
      = k ⟨some '>', pos + 1 + 1, r, (6, ['/']) :: caps⟩ := by
  rw [tagEndPat, run_seq, run_star_greedy_nil _ _ _
    (by intro c hc; simp at hc; subst hc; decide)]
  simp only [run_seq, run_group, Re.opt, run_alt, run_eps, Re.lit, run_chr_cons,
    beq_self_eq_true, if_true]
  have e : ('/' :: '>' :: r).take (pos + 1 - pos) = ['/'] := by
    rw [Nat.add_sub_cancel_left]
    rfl
  simp only [e]
  cases k ⟨some '>', pos + 1 + 1, r, (6, ['/']) :: caps⟩ with
  | some x => rfl
  | none => simp

theorem extra_run {α : Type} (k : Pos → Option α) (prev : Option Char) (pos : Nat)
    (a tl : Str) (caps : List (Nat × Str)) (st : Pos) (hgt : '>' ∉ a)
    (hlast : a = [] ∨ ∃ a0 b, a = a0 ++ [b] ∧ isSpace b = false ∧ b ≠ '/')
    (hend : ∀ prev' pos' caps', tagEndPat.run k ⟨prev', pos', tl, caps'⟩
      = k ⟨st.prev, pos' + st.pos, st.rest, st.caps ++ caps'⟩)
    (hk : (k ⟨st.prev, pos + a.length + st.pos, st.rest, st.caps ++ (5, a) :: caps⟩).isSome = true) :
    (Re.seq (.group 5 (.star (.chr isNotGt) false)) tagEndPat).run k ⟨prev, pos, a ++ tl, caps⟩
      = k ⟨st.prev, pos + a.length + st.pos, st.rest, st.caps ++ (5, a) :: caps⟩ := by
  rw [run_seq]
  have hxs : ∀ x ∈ a, isNotGt x = true := by
    intro x hx
    have : x ≠ '>' := fun e => hgt (e ▸ hx)
    simpa [isNotGt] using this
  rw [run_group_star_lazy 5 isNotGt _ a tl hxs prev pos caps]
  · exact hend _ _ _
  · intro j hj caps'
    rcases hlast with h | ⟨a0, b, ha, hb1, hb2⟩
    · rw [h] at hj; simp at hj
    · have hj' : j ≤ a0.length := by
        rw [ha] at hj
        simp at hj
        omega
      have e : a.drop j = a0.drop j ++ [b] := by
        rw [ha, List.drop_append_of_le_length hj']
      rw [e]
      apply tagEndPat_none
      · intro hm
        apply hgt
        rw [ha]
        rcases List.mem_append.1 hm with h | h
        · exact List.mem_append_left _ (List.mem_of_mem_drop h)
        · exact List.mem_append_right _ h
      · exact ⟨hb1, hb2⟩
  · rw [hend]
    exact hk

theorem isNameChar_letter (c : Char) (h : isLetter c = true) :
    isNameChar c = true ∧ c ≠ '/' ∧ c ≠ '!' ∧ c ≠ '<' := by
  simp only [isLetter, Bool.or_eq_true] at h
  have hn : (65 ≤ c.toNat ∧ c.toNat ≤ 90) ∨ (97 ≤ c.toNat ∧ c.toNat ≤ 122) := by
    rcases h with h | h
    · exact Or.inl ((isUpper_iff c).1 h)
    · exact Or.inr ((isLower_iff c).1 h)
  have hne : ∀ d : Char, d.toNat < 65 → c ≠ d := by
    intro d hd e
    rw [e] at hn
    omega
  have h1 : c ≠ '!' := hne _ (by decide)
  have h2 : c ≠ '>' := hne _ (by decide)
  have h3 : c ≠ '/' := hne _ (by decide)
  have h4 : c ≠ '<' := hne _ (by decide)
  have h5 : c ≠ '\t' := hne _ (by decide)
  have h6 : c ≠ '\n' := hne _ (by decide)
  have h7 : c ≠ Char.ofNat 12 := hne _ (by decide)
  have h8 : c ≠ '\r' := hne _ (by decide)
  have h9 : c ≠ ' ' := hne _ (by decide)
  refine ⟨?_, h3, h1, h4⟩
  simp [isNameChar, isSpace, h1, h2, h3, h5, h6, h7, h8, h9]

theorem anglePat_eq :
    anglePat = .group 2 (.seq (Re.lit '<') (.seq (.group 3 (Re.opt (Re.lit '/')))
      (.seq (.group 4 (.star (.chr isNameChar) true))
        (.seq (.group 5 (.star (.chr isNotGt) false)) tagEndPat)))) := rfl

theorem anglePat_run_open (prev : Option Char) (t0 : Char) (ts a tl : Str) (st : Pos)
    (ht0 : isLetter t0 = true) (hts : ∀ c ∈ ts, isLetter c = true) (hgt : '>' ∉ a)
    (hlast : a = [] ∨ ∃ a0 b, a = a0 ++ [b] ∧ isSpace b = false ∧ b ≠ '/')
    (hhead : ∀ c ∈ (a ++ tl).head?, isNameChar c = false)
    (hend : ∀ (k : Pos → Option Pos) prev' pos' caps', tagEndPat.run k ⟨prev', pos', tl, caps'⟩
      = k ⟨st.prev, pos' + st.pos, st.rest, st.caps ++ caps'⟩) :
    ∃ n x, anglePat.run some ⟨prev, 0, '<' :: t0 :: (ts ++ (a ++ tl)), []⟩
      = some ⟨st.prev, n, st.rest, (2, x) :: (st.caps ++ [(5, a), (4, t0 :: ts), (3, [])])⟩ := by
  have h0 := isNameChar_letter t0 ht0
  have htag : ∀ c ∈ t0 :: ts, isNameChar c = true := by
    intro c hc
    rcases List.mem_cons.1 hc with h | h
    · rw [h]; exact h0.1
    · exact (isNameChar_letter c (hts c h)).1
  refine ⟨0 + 1 + (t0 :: ts).length + a.length + st.pos,
    ('<' :: ((t0 :: ts) ++ (a ++ tl))).take (0 + 1 + (t0 :: ts).length + a.length + st.pos - 0), ?_⟩
  rw [anglePat_eq, run_group]
  simp only [run_seq, Re.lit, run_chr_cons, beq_self_eq_true, if_true]
  have h3 : ∀ (k : Pos → Option Pos),
      (Re.group 3 (Re.opt (Re.chr fun x => x == '/'))).run k
          ⟨some '<', 0 + 1, t0 :: (ts ++ (a ++ tl)), []⟩
        = k ⟨some '<', 0 + 1, t0 :: (ts ++ (a ++ tl)), [(3, [])]⟩ := by
    intro k
    simp [run_group, Re.opt, run_alt, run_eps, run_chr_cons, h0.2.1]
  rw [h3]
  have e : t0 :: (ts ++ (a ++ tl)) = (t0 :: ts) ++ (a ++ tl) := rfl
  rw [e, run_group_star_greedy 4 isNameChar _ (t0 :: ts) (a ++ tl) htag hhead]
  · have := extra_run
      (fun st'' => some { st'' with caps := (2, ('<' :: ((t0 :: ts) ++ (a ++ tl))).take (st''.pos - 0)) :: st''.caps })
      (advPrev (some '<') (t0 :: ts)) (0 + 1 + (t0 :: ts).length) a tl
      [(4, t0 :: ts), (3, [])] st hgt hlast (fun _ _ _ => hend _ _ _ _) rfl
    rw [run_seq] at this
    rw [this]
  · have := extra_run
      (fun st'' => some { st'' with caps := (2, ('<' :: ((t0 :: ts) ++ (a ++ tl))).take (st''.pos - 0)) :: st''.caps })
      (advPrev (some '<') (t0 :: ts)) (0 + 1 + (t0 :: ts).length) a tl
      [(4, t0 :: ts), (3, [])] st hgt hlast (fun _ _ _ => hend _ _ _ _) rfl
    rw [run_seq] at this
    rw [this]
    rfl

theorem commentPat_none {α : Type} (k : Pos → Option α) (prev : Option Char) (pos : Nat)
    (c : Char) (rest : Str) (caps : List (Nat × Str)) (hc : c ≠ '!') :
    commentPat.run k ⟨prev, pos, '<' :: c :: rest, caps⟩ = none := by
  simp [commentPat, run_group, run_seq, Re.str, Re.lit, run_chr_cons, hc]

theorem tagPat1_matchAt_ne (prev : Option Char) (c : Char) (rest : Str) (hc : c ≠ '<') :
    tagPat1.matchAt prev (c :: rest) = none := by
  simp [Re.matchAt, tagPat1, run_alt, commentPat, anglePat, run_group, run_seq, Re.str, Re.lit,
    run_chr_cons, hc]

theorem tagPat1_matchAt_nil (prev : Option Char) : tagPat1.matchAt prev [] = none := by
  simp [Re.matchAt, tagPat1, run_alt, commentPat, anglePat, run_group, run_seq, Re.str, Re.lit,
    run_chr_nil]

theorem tagPat1_matchAt_open (prev : Option Char) (t0 : Char) (ts a r : Str)
    (selfClose : Bool) (ht0 : isLetter t0 = true) (hts : ∀ c ∈ ts, isLetter c = true)
    (hgt : '>' ∉ a)
    (hlast : a = [] ∨ ∃ a0 b, a = a0 ++ [b] ∧ isSpace b = false ∧ b ≠ '/')
    (hhead : ∀ c ∈ a.head?, isNameChar c = false) :
    ∃ x, tagPat1.matchAt prev
        ('<' :: t0 :: (ts ++ (a ++ ((if selfClose then "/>".toList else ">".toList) ++ r))))
      = some ⟨'<' :: t0 :: (ts ++ (a ++ (if selfClose then "/>".toList else ">".toList))), r,
          [(2, x), (6, if selfClose then "/".toList else []), (5, a), (4, t0 :: ts), (3, [])]⟩ := by
  have h0 := isNameChar_letter t0 ht0
  cases selfClose with
  | false =>
    simp only [Bool.false_eq_true, if_false, String.toList, List.cons_append, List.nil_append]
    have hhead' : ∀ c ∈ (a ++ '>' :: r).head?, isNameChar c = false := by
      intro c hc
      cases a with
      | nil => simp at hc; subst hc; decide
      | cons y ys => exact hhead c (by simpa using hc)
    obtain ⟨n, x, hrun⟩ := anglePat_run_open prev t0 ts a ('>' :: r) ⟨some '>', 1, r, [(6, [])]⟩
      ht0 hts hgt hlast hhead' (fun k p q c => tagEnd_gt k p q r c)
    refine ⟨x, ?_⟩
    have hrun' : tagPat1.run some ⟨prev, 0, '<' :: t0 :: (ts ++ (a ++ '>' :: r)), []⟩
        = some ⟨some '>', n, r, (2, x) :: ([(6, [])] ++ [(5, a), (4, t0 :: ts), (3, [])])⟩ := by
      rw [tagPat1, run_alt, commentPat_none _ _ _ _ _ _ h0.2.2.1]
      exact hrun
    have := matchAt_of_run tagPat1 prev _ ('<' :: t0 :: (ts ++ (a ++ ['>']))) r _ (by simp)
      hrun' rfl
    simpa using this
  | true =>
    simp only [if_true, String.toList, List.cons_append, List.nil_append]
    have hhead' : ∀ c ∈ (a ++ '/' :: '>' :: r).head?, isNameChar c = false := by
      intro c hc
      cases a with
      | nil => simp at hc; subst hc; decide
      | cons y ys => exact hhead c (by simpa using hc)
    obtain ⟨n, x, hrun⟩ := anglePat_run_open prev t0 ts a ('/' :: '>' :: r)
      ⟨some '>', 1 + 1, r, [(6, ['/'])]⟩ ht0 hts hgt hlast hhead'
      (fun k p q c => by
        have := tagEnd_slash_gt k p q r c
        simpa [Nat.add_assoc] using this)
    refine ⟨x, ?_⟩
    have hrun' : tagPat1.run some ⟨prev, 0, '<' :: t0 :: (ts ++ (a ++ '/' :: '>' :: r)), []⟩
        = some ⟨some '>', n, r, (2, x) :: ([(6, ['/'])] ++ [(5, a), (4, t0 :: ts), (3, [])])⟩ := by
      rw [tagPat1, run_alt, commentPat_none _ _ _ _ _ _ h0.2.2.1]
      exact hrun
    have := matchAt_of_run tagPat1 prev _ ('<' :: t0 :: (ts ++ (a ++ ['/', '>']))) r _ (by simp)
      hrun' rfl
    simpa using this

theorem tagPat1_matchAt_close (prev : Option Char) (t0 : Char) (ts r : Str)
    (ht0 : isLetter t0 = true) (hts : ∀ c ∈ ts, isLetter c = true) :
    ∃ x, tagPat1.matchAt prev ('<' :: '/' :: t0 :: (ts ++ '>' :: r))
      = some ⟨'<' :: '/' :: t0 :: (ts ++ ['>']), r,
          [(2, x), (6, []), (5, []), (4, t0 :: ts), (3, ['/'])]⟩ := by
  have h0 := isNameChar_letter t0 ht0
  have htag : ∀ c ∈ t0 :: ts, isNameChar c = true := by
    intro c hc
    rcases List.mem_cons.1 hc with h | h
    · rw [h]; exact h0.1
    · exact (isNameChar_letter c (hts c h)).1
  have hhead : ∀ c ∈ ('>' :: r).head?, isNameChar c = false := by
    intro c hc; simp at hc; subst hc; decide
  have hinner : ∀ (k : Pos → Option Pos) (caps : List (Nat × Str)),
      (∀ st, (k st).isSome = true) →
      (Re.seq (.group 4 (.star (.chr isNameChar) true))
          (.seq (.group 5 (.star (.chr isNotGt) false)) tagEndPat)).run k
          ⟨some '/', 0 + 1 + 1, t0 :: (ts ++ '>' :: r), caps⟩
        = k ⟨some '>', 0 + 1 + 1 + (t0 :: ts).length + ([] : Str).length + 1, r,
            [(6, [])] ++ (5, []) :: (4, t0 :: ts) :: caps⟩ := by
    intro k caps hk
    have hex := extra_run k (advPrev (some '/') (t0 :: ts)) (0 + 1 + 1 + (t0 :: ts).length) []
      ('>' :: r) ((4, t0 :: ts) :: caps) ⟨some '>', 1, r, [(6, [])]⟩ (by simp) (Or.inl rfl)
      (fun p q c => tagEnd_gt k p q r c) (hk _)
    rw [run_seq]
    have e : t0 :: (ts ++ '>' :: r) = (t0 :: ts) ++ ('>' :: r) := rfl
    rw [e, run_group_star_greedy 4 isNameChar _ (t0 :: ts) ('>' :: r) htag hhead]
    · simpa using hex
    · have := hex
      simp only [List.nil_append] at this
      rw [this]
      exact hk _
  refine ⟨('<' :: '/' :: t0 :: (ts ++ '>' :: r)).take
    (0 + 1 + 1 + (t0 :: ts).length + ([] : Str).length + 1 - 0), ?_⟩
  have hrun : tagPat1.run some ⟨prev, 0, '<' :: '/' :: t0 :: (ts ++ '>' :: r), []⟩
      = some ⟨some '>', 0 + 1 + 1 + (t0 :: ts).length + ([] : Str).length + 1, r,
          (2, ('<' :: '/' :: t0 :: (ts ++ '>' :: r)).take
            (0 + 1 + 1 + (t0 :: ts).length + ([] : Str).length + 1 - 0))
            :: ([(6, [])] ++ [(5, []), (4, t0 :: ts), (3, ['/'])])⟩ := by
    rw [tagPat1, run_alt, commentPat_none _ _ _ _ _ _ (by decide), anglePat_eq, run_group]
    simp only [run_seq, Re.lit, run_chr_cons, beq_self_eq_true, if_true]
    rw [run_group]
    simp only [Re.opt, run_alt, run_chr_cons, beq_self_eq_true, if_true]
    have := hinner
      (fun st'' => some { st'' with caps := (2, ('<' :: '/' :: t0 :: (ts ++ '>' :: r)).take (st''.pos - 0)) :: st''.caps })
      [(3, ('/' :: t0 :: (ts ++ '>' :: r)).take (0 + 1 + 1 - (0 + 1)))] (fun _ => rfl)
    simp only [run_seq] at this
    rw [this]
    rfl
  have := matchAt_of_run tagPat1 prev _ ('<' :: '/' :: t0 :: (ts ++ ['>'])) r _ (by simp)
    hrun rfl
  simpa using this

/-! ## The tokenizer -/

theorem tokenLoop_fuel (re : Re) (hc : re.consumes = true) (n m : Nat) (s : Str) (b : Bool)
    (hn : s.length < n) (hm : s.length < m) : tokenLoop re n s b = tokenLoop re m s b := by
  induction n generalizing m s b with
  | zero => omega
  | succ n ih =>
    cases m with
    | zero => omega
    | succ m =>
      rw [tokenLoop, tokenLoop]
      cases hfind : re.find s with
      | none => rfl
      | some r =>
        obtain ⟨before, mt⟩ := r
        have hlen := find_after_length re hc s before mt hfind
        simp only []
        rw [ih m mt.after _ (by omega) (by omega)]

theorem tokensFrom_step (re : Re) (hc : re.consumes = true) (s : Str) (b : Bool) (before : Str)
    (m : Match) (hfind : re.find s = some (before, m)) :
    tokensFrom re s b
      = parseContent before b (decide (m.group 7 = [])) ++ matchTokens m
          ++ tokensFrom re m.after (decide (m.group 7 = [])) := by
  have hlen := find_after_length re hc s before m hfind
  unfold tokensFrom
  rw [tokenLoop, hfind]
  simp only []
  rw [tokenLoop_fuel re hc s.length (m.after.length + 1) m.after _ hlen (by omega)]

theorem tokensFrom_none (re : Re) (s : Str) (b : Bool) (hfind : re.find s = none) :
    tokensFrom re s b = parseContent s b true := by
  unfold tokensFrom
  rw [tokenLoop, hfind]

theorem tagPat1_consumes : tagPat1.consumes = true := rfl

theorem tagPat1_find_text (t : Str) (ht : '<' ∉ t) (x : Char) (xs : Str) (m : Match)
    (hm : tagPat1.matchAt (advPrev none t) (x :: xs) = some m) :
    tagPat1.find (t ++ x :: xs) = some (t, m) := by
  unfold Re.find
  rw [findFrom_skip tagPat1 t (fun c hc prev rest =>
    tagPat1_matchAt_ne prev c rest (fun e => ht (e ▸ hc)))]
  simp [Re.findFrom, hm]

theorem tagPat1_find_none (t : Str) (ht : '<' ∉ t) : tagPat1.find t = none := by
  unfold Re.find
  have := findFrom_skip tagPat1 t (fun c hc prev rest =>
    tagPat1_matchAt_ne prev c rest (fun e => ht (e ▸ hc))) [] none
  rw [List.append_nil] at this
  rw [this]
  simp [Re.findFrom, tagPat1_matchAt_nil]

theorem replaceAux_no_newline (re : Re) (f : Str → Str)
    (hre : ∀ xs, re.lang xs → '\n' ∈ xs) (s : Str) (hs : '\n' ∉ s) (prev : Option Char) :
    re.replaceAux f 0 prev s = s := by
  induction s generalizing prev with
  | nil => rfl
  | cons c cs ih =>
    have hcs : '\n' ∉ cs := fun h => hs (List.mem_cons_of_mem _ h)
    have hm : re.matchAt prev (c :: cs) = none := by
      cases h : re.matchAt prev (c :: cs) with
      | none => rfl
      | some m =>
        exfalso
        obtain ⟨e, hl⟩ := matchAt_lang re prev _ m h
        apply hs
        rw [e]
        exact List.mem_append_left _ (hre _ hl)
    rw [replaceAux_of_matchAt_none _ _ _ _ _ hm, ih hcs]

theorem trimStartPat_lang (xs : Str) (h : trimStartPat.lang xs) : '\n' ∈ xs := by
  obtain ⟨a, b, rfl, _, c, d, rfl, _, e, g, rfl, ⟨x, rfl, hx⟩, _⟩ := h
  have : x = '\n' := by simpa [Re.lit] using hx
  rw [this]
  simp

theorem trimEndPat_lang (xs : Str) (h : trimEndPat.lang xs) : '\n' ∈ xs := by
  obtain ⟨a, b, rfl, _, c, d, rfl, ⟨x, rfl, hx⟩, _⟩ := h
  have : x = '\n' := by simpa [Re.lit] using hx
  rw [this]
  simp

/-! ## Escaped text -/

theorem Escape_append (a b : Str) (inLine : Bool) :
    Escape (a ++ b) inLine = Escape a inLine ++ Escape b inLine := by
  simp only [Escape_eq_flatMap, List.flatMap_append]

theorem Escape_nil (inLine : Bool) : Escape [] inLine = [] := by
  rw [Escape_eq_flatMap]; rfl

theorem Escape_no_lt (s : Str) (inLine : Bool) : '<' ∉ Escape s inLine := by
  rw [Escape_eq_flatMap]
  intro h
  obtain ⟨x, _, hx⟩ := List.mem_flatMap.1 h
  unfold escapeChar at hx
  split_ifs at hx <;> simp at hx
  subst hx
  simp at *

theorem Escape_no_gt (s : Str) (inLine : Bool) : '>' ∉ Escape s inLine := by
  rw [Escape_eq_flatMap]
  intro h
  obtain ⟨x, _, hx⟩ := List.mem_flatMap.1 h
  unfold escapeChar at hx
  split_ifs at hx <;> simp at hx
  subst hx
  simp at *

theorem Escape_no_dquote (s : Str) : '"' ∉ Escape s true := by
  rw [Escape_eq_flatMap]
  intro h
  obtain ⟨x, _, hx⟩ := List.mem_flatMap.1 h
  unfold escapeChar at hx
  split_ifs at hx <;> simp at hx
  subst hx
  simp at *

theorem Escape_ne_nil (s : Str) (inLine : Bool) (h : s ≠ []) : Escape s inLine ≠ [] := by
  obtain ⟨c, cs, rfl⟩ := List.exists_cons_of_ne_nil h
  rw [Escape_eq_flatMap, List.flatMap_cons]
  have : escapeChar inLine c ≠ [] := by
    unfold escapeChar
    split_ifs <;> simp
  intro e
  exact this (List.append_eq_nil.1 e).1

theorem parseContent_nil (b b' : Bool) : parseContent [] b b' = [] := by
  cases b <;> cases b' <;> rfl

theorem parseContent_text (p : Str) (hp : '\n' ∉ p) (b : Bool) :
    parseContent (Escape p false) b true = textItem p := by
  unfold parseContent textItem
  cases b
  · simp only [unescape_Escape, if_true, Bool.false_eq_true, if_false, Re.replaceAllString,
      Re.replaceAllFunc]
    rw [replaceAux_no_newline trimEndPat _ trimEndPat_lang p hp]
  · simp only [unescape_Escape, if_true, Re.replaceAllString, Re.replaceAllFunc]
    rw [replaceAux_no_newline trimStartPat _ trimStartPat_lang p hp,
      replaceAux_no_newline trimEndPat _ trimEndPat_lang p hp]

/-! ## The attribute text of a serialised tag -/

theorem goodKeyText_facts (pk : Str) (h : goodKeyText pk = true) :
    pk ≠ [] ∧ (∀ c ∈ pk, isSpace c = false ∧ c ≠ '=' ∧ c ≠ '>' ∧ c ≠ '/')
      ∧ hasPrefix pk "no-".toList = false ∧ pk ≠ "children".toList := by
  unfold goodKeyText at h
  simp only [Bool.and_eq_true, decide_eq_true_eq, List.all_eq_true, Bool.not_eq_true',
    bne_iff_ne, ne_eq] at h
  obtain ⟨⟨⟨h1, h2⟩, h3⟩, h4⟩ := h
  exact ⟨h1, fun c hc => by
    obtain ⟨⟨⟨a, b⟩, c'⟩, d⟩ := h2 c hc
    exact ⟨a, b, c', d⟩, h3, h4⟩

theorem spec_shape (tbl : Char → Char) (k : Str) (v : Value) (hk : goodKey tbl k = true)
    (hv : goodValue v = true) :
    ∃ body b, attributeSpec tbl k (some v) = ' ' :: (body ++ [b]) ∧ '>' ∉ body ∧ b ≠ '>'
      ∧ isSpace b = false ∧ b ≠ '/' := by
  unfold goodKey at hk
  simp only [Bool.and_eq_true] at hk
  obtain ⟨hne, hall, _, _⟩ := goodKeyText_facts _ hk.1
  obtain ⟨init, last, e⟩ : ∃ init last, ParamCase tbl k = init ++ [last] :=
    ⟨_, _, (List.dropLast_append_getLast hne).symm⟩
  have hlast := hall last (by rw [e]; simp)
  have hinit : '>' ∉ init := fun hm => (hall '>' (by rw [e]; simp [hm])).2.2.1 rfl
  cases v with
  | bool b =>
    cases b
    · refine ⟨"no-".toList ++ init, last, ?_, ?_, hlast.2.2.1, hlast.1, hlast.2.2.2⟩
      · simp [attributeSpec, e]
      · simp [hinit]
    · refine ⟨init, last, ?_, hinit, hlast.2.2.1, hlast.1, hlast.2.2.2⟩
      simp [attributeSpec, e]
  | str s =>
    refine ⟨ParamCase tbl k ++ "=\"".toList ++ Escape s true, '"', ?_, ?_, by decide, by decide,
      by decide⟩
    · simp [attributeSpec, Sprint]
    · intro hm
      rcases List.mem_append.1 hm with hm | hm
      · rcases List.mem_append.1 hm with hm | hm
        · exact (hall '>' hm).2.2.1 rfl
        · simp at hm
      · exact Escape_no_gt s true hm
  | nil => simp [goodValue] at hv
  | int i => simp [goodValue] at hv
  | list vs => simp [goodValue] at hv
  | dict kvs => simp [goodValue] at hv
  | elem e => simp [goodValue] at hv
  | int64 i => simp [goodValue] at hv
  | float f t => simp [goodValue] at hv
  | nilPtr => simp [goodValue] at hv

theorem TagAttrText_nil : TagAttrText [] := ⟨by simp, Or.inl rfl, by simp⟩

theorem TagAttrText_cons (body : Str) (b : Char) (rest : Str) (h1 : '>' ∉ body) (h2 : b ≠ '>')
    (h3 : isSpace b = false) (h4 : b ≠ '/') (hrest : TagAttrText rest) :
    TagAttrText (' ' :: (body ++ [b]) ++ rest) := by
  obtain ⟨r1, r2, _⟩ := hrest
  refine ⟨?_, Or.inr ?_, ?_⟩
  · intro hm
    simp only [List.cons_append, List.mem_cons, List.mem_append, List.not_mem_nil,
      or_false] at hm
    rcases hm with hm | (hm | hm) | hm
    · exact absurd hm (by decide)
    · exact h1 hm
    · exact h2 hm.symm
    · exact r1 hm
  · rcases r2 with rfl | ⟨a0, b0, rfl, hb1, hb2⟩
    · exact ⟨' ' :: body, b, by simp, h3, h4⟩
    · exact ⟨' ' :: (body ++ [b]) ++ a0, b0, by simp, hb1, hb2⟩
  · intro c hc
    simp only [List.cons_append, List.head?_cons, Option.mem_def, Option.some.injEq] at hc
    subst hc
    decide

theorem TagAttrText_attrs (tbl : Char → Char) (kvs : List (Str × Value))
    (h : ∀ kv ∈ kvs, goodKey tbl kv.1 = true ∧ goodValue kv.2 = true) :
    TagAttrText (kvs.flatMap fun kv => attributeSpec tbl kv.1 (some kv.2)) := by
  induction kvs with
  | nil => exact TagAttrText_nil
  | cons kv rest ih =>
    obtain ⟨body, b, e, h1, h2, h3, h4⟩ :=
      spec_shape tbl kv.1 kv.2 (h kv (by simp)).1 (h kv (by simp)).2
    rw [List.flatMap_cons, e]
    exact TagAttrText_cons body b _ h1 h2 h3 h4
      (ih fun x hx => h x (List.mem_cons_of_mem _ hx))

theorem sortedBindings_perm (attrs : List (Str × Value)) (hn : (attrs.map Prod.fst).Nodup) :
    (sortedBindings attrs).Perm attrs := by
  unfold sortedBindings
  have h1 := (sortStrings_perm (attrs.map Prod.fst)).map
    fun k => (k, (mapGet attrs k).getD Value.nil)
  refine h1.trans ?_
  rw [List.map_map]
  have : attrs.map ((fun k => (k, (mapGet attrs k).getD Value.nil)) ∘ Prod.fst) = attrs.map id := by
    apply List.map_congr_left
    intro kv hkv
    obtain ⟨k, v⟩ := kv
    simp [mapGet_of_mem attrs hn k v hkv]
  rw [this, List.map_id]

theorem attributes_sortedBindings (tbl : Char → Char) (e : Element) :
    e.attributes tbl
      = (sortedBindings e.attrs).flatMap fun kv =>
          if (mapGet e.attrs kv.1).isSome then attributeSpec tbl kv.1 (some kv.2) else [] := by
  rw [attributes_eq]
  unfold sortedBindings
  generalize sortStrings (e.attrs.map Prod.fst) = l
  induction l with
  | nil => rfl
  | cons k ks ih =>
    rw [List.flatMap_cons, List.map_cons, List.flatMap_cons, ih]
    congr 1
    cases h : mapGet e.attrs k with
    | none => rfl
    | some v => rfl

theorem sortedBindings_keys (attrs : List (Str × Value)) :
    ∀ kv ∈ sortedBindings attrs, (mapGet attrs kv.1).isSome = true := by
  intro kv hkv
  unfold sortedBindings at hkv
  obtain ⟨k, hk, rfl⟩ := List.mem_map.1 hkv
  have hk' := (sortStrings_perm _).mem_iff.1 hk
  cases h : mapGet attrs k with
  | none => exact absurd hk' ((mapGet_none_iff attrs k).1 h)
  | some v => rfl

theorem flatMap_congr_mem {α β : Type} (l : List α) (f g : α → List β)
    (h : ∀ x ∈ l, f x = g x) : l.flatMap f = l.flatMap g := by
  induction l with
  | nil => rfl
  | cons x xs ih =>
    rw [List.flatMap_cons, List.flatMap_cons, h x (by simp),
      ih fun y hy => h y (List.mem_cons_of_mem _ hy)]

theorem attributes_serial (tbl : Char → Char) (e : Element) :
    e.attributes tbl
      = (sortedBindings e.attrs).flatMap fun kv => attributeSpec tbl kv.1 (some kv.2) := by
  rw [attributes_sortedBindings]
  apply flatMap_congr_mem
  intro kv hkv
  rw [if_pos (sortedBindings_keys _ kv hkv)]

/-! ## The tokens of a serialised element -/

theorem goodTag_facts (t : Str) (h : goodTag t = true) :
    (∃ t0 ts, t = t0 :: ts ∧ isLetter t0 = true ∧ ∀ c ∈ ts, isLetter c = true)
      ∧ t ≠ "text".toList ∧ t ≠ "component".toList := by
  unfold goodTag at h
  simp only [Bool.and_eq_true, decide_eq_true_eq, List.all_eq_true] at h
  obtain ⟨⟨⟨h1, h2⟩, h3⟩, h4⟩ := h
  obtain ⟨t0, ts, rfl⟩ := List.exists_cons_of_ne_nil h1
  exact ⟨⟨t0, ts, rfl, h2 t0 (by simp), fun c hc => h2 c (by simp [hc])⟩, h3, h4⟩

theorem tokens_tag_open (p t a r : Str) (b selfClose : Bool) (hp : '\n' ∉ p)
    (ht : goodTag t = true) (ha : TagAttrText a) :
    tokensFrom tagPat1
        (Escape p false
          ++ '<' :: (t ++ (a ++ ((if selfClose then "/>".toList else ">".toList) ++ r)))) b
      = textItem p
          ++ (.tok (.mk "angle".toList t (if selfClose then .Empty else .Open)
                ('<' :: (t ++ (a ++ (if selfClose then "/>".toList else ">".toList)))) a [])
              :: tokensFrom tagPat1 r true) := by
  obtain ⟨⟨t0, ts, rfl, ht0, hts⟩, _, _⟩ := goodTag_facts t ht
  obtain ⟨h1, h2, h3⟩ := ha
  obtain ⟨x, hm⟩ := tagPat1_matchAt_open (advPrev none (Escape p false)) t0 ts a r selfClose
    ht0 hts h1 h2 h3
  have hfind := tagPat1_find_text (Escape p false) (Escape_no_lt p false) _ _ _ hm
  rw [List.cons_append, tokensFrom_step tagPat1 tagPat1_consumes _ b _ _ hfind]
  have g7 : ∀ y z : Str, Match.group ⟨y, z,
      [(2, x), (6, if selfClose then "/".toList else []), (5, a), (4, t0 :: ts), (3, [])]⟩ 7
        = [] := fun _ _ => rfl
  rw [g7]
  simp only [decide_True, parseContent_text p hp, List.append_assoc]
  congr 1
  cases selfClose <;> rfl

theorem tokens_tag_close (p t r : Str) (b : Bool) (hp : '\n' ∉ p) (ht : goodTag t = true) :
    tokensFrom tagPat1 (Escape p false ++ '<' :: '/' :: (t ++ '>' :: r)) b
      = textItem p
          ++ (.tok (.mk "angle".toList t .Close ('<' :: '/' :: (t ++ ">".toList)) [] [])
              :: tokensFrom tagPat1 r true) := by
  obtain ⟨⟨t0, ts, rfl, ht0, hts⟩, _, _⟩ := goodTag_facts t ht
  obtain ⟨x, hm⟩ := tagPat1_matchAt_close (advPrev none (Escape p false)) t0 ts r ht0 hts
  have hfind := tagPat1_find_text (Escape p false) (Escape_no_lt p false) _ _ _ hm
  rw [List.cons_append, tokensFrom_step tagPat1 tagPat1_consumes _ b _ _ hfind]
  have g7 : ∀ y z : Str, Match.group ⟨y, z,
      [(2, x), (6, []), (5, []), (4, t0 :: ts), (3, ['/'])]⟩ 7 = [] := fun _ _ => rfl
  rw [g7]
  simp only [decide_True, parseContent_text p hp, List.append_assoc]
  rfl

theorem goodElement_facts (tbl : Char → Char) (t : Str) (attrs : List (Str × Value))
    (cs : List Element) (h : goodElement tbl (.mk t attrs cs) = true) :
    goodTag t = true ∧ (attrs.map Prod.fst).Nodup
      ∧ (∀ kv ∈ attrs, goodKey tbl kv.1 = true ∧ goodValue kv.2 = true)
      ∧ goodChildren tbl cs = true := by
  rw [goodElement] at h
  simp only [Bool.and_eq_true, decide_eq_true_eq, List.all_eq_true] at h
  obtain ⟨⟨⟨h1, h2⟩, h3⟩, h4⟩ := h
  exact ⟨h1, h2, h3, h4⟩

theorem goodTextElement_facts (c : Element) (h : goodTextElement c = true) :
    ∃ s, c = .mk "text".toList [("text".toList, .str s)] [] ∧ s ≠ [] ∧ '\n' ∉ s := by
  unfold goodTextElement at h
  split at h
  · rename_i t k s
    simp only [Bool.and_eq_true, beq_iff_eq, goodText, decide_eq_true_eq,
      Bool.not_eq_true', List.contains_eq_any_beq, List.any_eq_false, beq_iff_eq] at h
    obtain ⟨⟨rfl, rfl⟩, h1, h2⟩ := h
    exact ⟨s, rfl, h1, fun hm => h2 _ hm rfl⟩
  · exact absurd h (by simp)

theorem goodElement_type (tbl : Char → Char) (e : Element) (h : goodElement tbl e = true) :
    e.type ≠ "text".toList := by
  obtain ⟨t, attrs, cs⟩ := e
  exact (goodTag_facts t (goodElement_facts tbl t attrs cs h).1).2.1

theorem sortedBindings_good (tbl : Char → Char) (attrs : List (Str × Value))
    (hn : (attrs.map Prod.fst).Nodup)
    (h : ∀ kv ∈ attrs, goodKey tbl kv.1 = true ∧ goodValue kv.2 = true) :
    ∀ kv ∈ sortedBindings attrs, goodKey tbl kv.1 = true ∧ goodValue kv.2 = true :=
  fun kv hkv => h kv ((sortedBindings_perm attrs hn).mem_iff.1 hkv)

theorem attributes_TagAttrText (tbl : Char → Char) (t : Str) (attrs : List (Str × Value))
    (cs : List Element) (h : goodElement tbl (.mk t attrs cs) = true) :
    TagAttrText ((Element.mk t attrs cs).attributes tbl) := by
  obtain ⟨_, hn, hg, _⟩ := goodElement_facts tbl t attrs cs h
  rw [attributes_serial]
  exact TagAttrText_attrs tbl _ (sortedBindings_good tbl attrs hn hg)

theorem dumps_good (tbl : Char → Char) (t : Str) (attrs : List (Str × Value))
    (cs : List Element) (h : goodTag t = true) :
    dumps tbl false (.mk t attrs cs)
      = '<' :: (t ++ ((Element.mk t attrs cs).attributes tbl
          ++ (if cs.length = 0 then "/>".toList
              else ">".toList ++ (dumpsList tbl false cs ++ '<' :: '/' :: (t ++ ">".toList))))) := by
  obtain ⟨_, h1, h2⟩ := goodTag_facts t h
  rw [dumps_nontext tbl t attrs cs h1]
  have : (Element.mk t attrs cs).Tag = t := by
    unfold Element.Tag
    simp only [Element.type]
    rw [if_pos h2]
  rw [this]
  unfold tagText
  by_cases h0 : cs.length = 0
  · simp [h0]
  · simp [h0]

theorem dumps_textElement (tbl : Char → Char) (s : Str) :
    dumps tbl false (.mk "text".toList [("text".toList, .str s)] []) = Escape s false := by
  rw [dumps]
  rfl

mutual
theorem tokens_elem (tbl : Char → Char) :
    ∀ e : Element, goodElement tbl e = true → ∀ (p r : Str) (b : Bool), '\n' ∉ p →
      tokensFrom tagPat1 (Escape p false ++ (dumps tbl false e ++ r)) b
        = textItem p ++ (elemToks tbl e ++ tokensFrom tagPat1 r true)
  | .mk t attrs cs, h, p, r, b, hp => by
    obtain ⟨ht, _, _, hcs⟩ := goodElement_facts tbl t attrs cs h
    have ha := attributes_TagAttrText tbl t attrs cs h
    rw [dumps_good tbl t attrs cs ht, elemToks]
    by_cases h0 : cs.length = 0
    · simp only [if_pos h0]
      have := tokens_tag_open p t _ r b true hp ht ha
      simp only [if_true] at this
      simp only [List.cons_append, List.append_assoc, List.nil_append]
      exact this
    · simp only [if_neg h0]
      have h1 := tokens_tag_open p t _
        (dumpsList tbl false cs ++ '<' :: '/' :: (t ++ '>' :: r)) b false hp ht ha
      simp only [Bool.false_eq_true, if_false] at h1
      have h2 := tokens_kids tbl cs hcs [] t r true (by simp) ht
      rw [Escape_nil, List.nil_append] at h2
      rw [h2] at h1
      simp only [List.cons_append, List.append_assoc, List.nil_append, List.singleton_append,
        String.toList] at h1 ⊢
      exact h1
theorem tokens_kids (tbl : Char → Char) :
    ∀ cs : List Element, goodChildren tbl cs = true → ∀ (p t r : Str) (b : Bool), '\n' ∉ p →
      goodTag t = true →
      tokensFrom tagPat1
          (Escape p false ++ (dumpsList tbl false cs ++ '<' :: '/' :: (t ++ '>' :: r))) b
        = kidsToks tbl p cs
            ++ (.tok (.mk "angle".toList t .Close ('<' :: '/' :: (t ++ ">".toList)) [] [])
                :: tokensFrom tagPat1 r true)
  | [], _, p, t, r, b, hp, ht => by
    rw [dumpsList, kidsToks, List.nil_append]
    exact tokens_tag_close p t r b hp ht
  | c :: cs, h, p, t, r, b, hp, ht => by
    rw [goodChildren] at h
    simp only [Bool.and_eq_true, Bool.or_eq_true] at h
    obtain ⟨hc, hcs⟩ := h
    rw [dumpsList, kidsToks]
    by_cases htext : goodTextElement c = true
    · obtain ⟨s, rfl, _, hs⟩ := goodTextElement_facts c htext
      have hps : '\n' ∉ p ++ s := by
        intro hm
        rcases List.mem_append.1 hm with hm | hm
        · exact hp hm
        · exact hs hm
      have := tokens_kids tbl cs hcs (p ++ s) t r b hps ht
      rw [Escape_append, List.append_assoc] at this
      simp only [Element.type, if_true, leafText, dumps_textElement, List.append_assoc]
      exact this
    · have hce : goodElement tbl c = true := by
        rcases hc with hc | hc
        · exact absurd hc htext
        · exact hc
      have h1 := tokens_elem tbl c hce p
        (dumpsList tbl false cs ++ '<' :: '/' :: (t ++ '>' :: r)) b hp
      have h2 := tokens_kids tbl cs hcs [] t r true (by simp) ht
      rw [Escape_nil, List.nil_append] at h2
      rw [h2] at h1
      rw [if_neg (goodElement_type tbl c hce)]
      simp only [List.append_assoc] at h1 ⊢
      exact h1
end

theorem tokens_String (tbl : Char → Char) (e : Element) (h : goodElement tbl e = true) :
    tokensFrom tagPat1 (e.String tbl) true = elemToks tbl e := by
  have := tokens_elem tbl e h [] [] true (by simp)
  rw [Escape_nil, List.nil_append, List.append_nil,
    tokensFrom_none tagPat1 [] true (tagPat1_find_none [] (by simp)), parseContent_nil] at this
  simpa [textItem, Element.String] using this

/-! ## Folding the tokens of a serialised element -/

theorem pushAll_append (top : StackItem) (xs ys : List Item) :
    pushAll top (xs ++ ys) = pushAll (pushAll top xs) ys := by
  unfold pushAll
  rw [List.foldl_append]

theorem pushAll_default (k n : Str) (pos : Position) (s e : Str) (xs items : List Item) :
    pushAll ⟨.mk k n pos s e [("default".toList, xs)], "default".toList⟩ items
      = ⟨.mk k n pos s e [("default".toList, xs ++ items)], "default".toList⟩ := by
  induction items generalizing xs with
  | nil => simp [pushAll]
  | cons i rest ih =>
    have : pushAll ⟨.mk k n pos s e [("default".toList, xs)], "default".toList⟩ (i :: rest)
        = pushAll ⟨.mk k n pos s e [("default".toList, xs ++ [i])], "default".toList⟩ rest := rfl
    rw [this, ih]
    simp

theorem foldLoop_textItem (p : Str) (rest : List Item) (top : StackItem)
    (below : List StackItem) :
    foldLoop (textItem p ++ rest) top below = foldLoop rest (pushAll top (textItem p)) below := by
  unfold textItem
  by_cases h : p = []
  · simp [h, pushAll]
  · simp only [ne_eq, h, not_false_eq_true, if_true, List.singleton_append, foldLoop]
    rfl

theorem foldLoop_open (k n s e : Str) (c : List (Str × List Item)) (rest : List Item)
    (top : StackItem) (below : List StackItem) :
    foldLoop (.tok (.mk k n .Open s e c) :: rest) top below
      = foldLoop rest ⟨.mk k n .Open s e [("default".toList, [])], "default".toList⟩
          (top :: below) := by
  simp only [foldLoop, Token.position, Token.withChildren]

theorem foldLoop_empty (k n s e : Str) (c : List (Str × List Item)) (rest : List Item)
    (top : StackItem) (below : List StackItem) :
    foldLoop (.tok (.mk k n .Empty s e c) :: rest) top below
      = foldLoop rest (top.push [.tok (.mk k n .Empty s e c)]) below := by
  simp only [foldLoop, Token.position]

theorem foldLoop_close (k n s e : Str) (c : List (Str × List Item)) (rest : List Item)
    (k' s' e' slot : Str) (pos : Position) (c' : List (Str × List Item)) (parent : StackItem)
    (below : List StackItem) :
    foldLoop (.tok (.mk k n .Close s e c) :: rest) ⟨.mk k' n pos s' e' c', slot⟩
        (parent :: below)
      = foldLoop rest (parent.push [.tok (.mk k' n pos s' e' c')]) below := by
  simp only [foldLoop, Token.position, Token.name, if_true]

mutual
theorem fold_elem (tbl : Char → Char) :
    ∀ (e : Element) (rest : List Item) (top : StackItem) (below : List StackItem),
      foldLoop (elemToks tbl e ++ rest) top below
        = foldLoop rest (top.push [.tok (elemTree tbl e)]) below
  | .mk t attrs cs, rest, top, below => by
    rw [elemToks, elemTree]
    by_cases h0 : cs.length = 0
    · simp only [if_pos h0, List.singleton_append]
      rw [foldLoop_empty]
    · simp only [if_neg h0, List.cons_append, List.append_assoc, List.singleton_append]
      rw [foldLoop_open, fold_kids tbl cs [], pushAll_default, foldLoop_close]
      rfl
theorem fold_kids (tbl : Char → Char) :
    ∀ (cs : List Element) (p : Str) (rest : List Item) (top : StackItem)
      (below : List StackItem),
      foldLoop (kidsToks tbl p cs ++ rest) top below
        = foldLoop rest (pushAll top (kidsTree tbl p cs)) below
  | [], p, rest, top, below => by
    rw [kidsToks, kidsTree]
    exact foldLoop_textItem p rest top below
  | c :: cs, p, rest, top, below => by
    rw [kidsToks, kidsTree]
    by_cases h : c.type = "text".toList
    · rw [if_pos h, if_pos h]
      exact fold_kids tbl cs _ rest top below
    · rw [if_neg h, if_neg h, List.append_assoc, foldLoop_textItem, List.append_assoc,
        fold_elem tbl c, fold_kids tbl cs [], pushAll_append]
      rfl
end

theorem foldToken_elemToks (tbl : Char → Char) (e : Element) :
    foldToken (elemToks tbl e) = [.tok (elemTree tbl e)] := by
  have := fold_elem tbl e []
    ⟨.mk "angle".toList "template".toList .Open [] [] [("default".toList, [])], "default".toList⟩
    []
  rw [List.append_nil] at this
  unfold foldToken
  simp only [this, foldLoop]
  rfl

/-! ## Reading the attributes of a serialised tag -/

theorem mapSet_new (m : List (Str × Value)) (k : Str) (v : Value) (h : k ∉ m.map Prod.fst) :
    mapSet m k v = m ++ [(k, v)] := by
  induction m with
  | nil => rfl
  | cons kv rest ih =>
    obtain ⟨k', v'⟩ := kv
    have h1 : k' ≠ k := fun e => h (e ▸ List.mem_cons_self _ _)
    have h2 : k ∉ rest.map Prod.fst := fun hm => h (List.mem_cons_of_mem _ hm)
    rw [mapSet, if_neg h1, ih h2]
    rfl

theorem spec_head (tbl : Char → Char) (kvs : List (Str × Value))
    (h : ∀ kv ∈ kvs, goodKey tbl kv.1 = true ∧ goodValue kv.2 = true) :
    ∀ c ∈ (kvs.flatMap fun kv => attributeSpec tbl kv.1 (some kv.2)).head?,
      isSpace c = true := by
  cases kvs with
  | nil => simp
  | cons kv rest =>
    obtain ⟨body, b, e, _⟩ := spec_shape tbl kv.1 kv.2 (h kv (by simp)).1 (h kv (by simp)).2
    rw [List.flatMap_cons, e]
    intro c hc
    simp only [List.cons_append, List.head?_cons, Option.mem_def, Option.some.injEq] at hc
    subst hc
    decide

theorem parseAttrs_serial (tbl : Char → Char) (ev : Evaluator) (kvs : List (Str × Value))
    (h : ∀ kv ∈ kvs, goodKey tbl kv.1 = true ∧ goodValue kv.2 = true)
    (acc : List (Str × Value)) :
    parseAttrsFrom ev none (kvs.flatMap fun kv => attributeSpec tbl kv.1 (some kv.2)) acc
      = kvs.foldl (fun a kv => mapSet a (ParamCase tbl kv.1) kv.2) acc := by
  induction kvs generalizing acc with
  | nil => exact parseAttrsFrom_space ev none [] (by simp) acc
  | cons kv rest ih =>
    have hrest : ∀ x ∈ rest, goodKey tbl x.1 = true ∧ goodValue x.2 = true :=
      fun x hx => h x (List.mem_cons_of_mem _ hx)
    obtain ⟨hk, hv⟩ := h kv (by simp)
    obtain ⟨k, v⟩ := kv
    have hk' := hk
    unfold goodKey at hk'
    simp only [Bool.and_eq_true] at hk'
    obtain ⟨hne, hall, hno, _⟩ := goodKeyText_facts _ hk'.1
    have hws : ∀ c ∈ " ".toList, isSpace c = true := by
      intro c hc
      simp only [String.toList, List.mem_singleton] at hc
      subst hc
      decide
    obtain ⟨f1, _, f3, f4, _⟩ := parseAttrs_forms ev none " ".toList (ParamCase tbl k) acc hws
      (fun c hc => ⟨(hall c hc).1, (hall c hc).2.1⟩)
    rw [List.flatMap_cons, List.foldl_cons, ← ih hrest]
    cases v with
    | bool b =>
      cases b
      · have := f4 (rest.flatMap fun kv => attributeSpec tbl kv.1 (some kv.2))
          (spec_head tbl rest hrest)
        rw [← this]
        simp [attributeSpec]
      · have := f3 (rest.flatMap fun kv => attributeSpec tbl kv.1 (some kv.2)) hne hno
          (spec_head tbl rest hrest)
        rw [← this]
        simp [attributeSpec]
    | str s =>
      have := f1 (Escape s true) (rest.flatMap fun kv => attributeSpec tbl kv.1 (some kv.2)) hne
        (Escape_no_dquote s)
      rw [unescape_Escape] at this
      rw [← this]
      simp [attributeSpec, Sprint]
    | nil => simp [goodValue] at hv
    | int i => simp [goodValue] at hv
    | list vs => simp [goodValue] at hv
    | dict kvs => simp [goodValue] at hv
    | elem e => simp [goodValue] at hv
    | int64 i => simp [goodValue] at hv
    | float f t => simp [goodValue] at hv
    | nilPtr => simp [goodValue] at hv

theorem goodKey_camelCase (tbl : Char → Char) (k : Str) (h : goodKey tbl k = true) :
    camelCase (ParamCase tbl k) = k := by
  unfold goodKey at h
  simp only [Bool.and_eq_true, beq_iff_eq] at h
  exact h.2

theorem foldl_mapSet_new (tbl : Char → Char) (kvs : List (Str × Value))
    (acc : List (Str × Value))
    (hn : (acc.map Prod.fst ++ kvs.map fun kv => ParamCase tbl kv.1).Nodup) :
    kvs.foldl (fun a kv => mapSet a (ParamCase tbl kv.1) kv.2) acc
      = acc ++ kvs.map fun kv => (ParamCase tbl kv.1, kv.2) := by
  induction kvs generalizing acc with
  | nil => rw [List.foldl_nil, List.map_nil, List.append_nil]
  | cons kv rest ih =>
    have hnew : ParamCase tbl kv.1 ∉ acc.map Prod.fst := by
      intro hm
      rw [List.map_cons, List.nodup_append] at hn
      exact hn.2.2 hm (List.mem_cons_self _ _)
    rw [List.foldl_cons, mapSet_new acc _ kv.2 hnew, ih, List.map_cons, List.append_assoc]
    · rfl
    · rw [List.map_append, List.append_assoc]
      exact hn

theorem newElementAttrs_serial (tbl : Char → Char) (kvs : List (Str × Value))
    (h : ∀ kv ∈ kvs, goodKey tbl kv.1 = true ∧ goodValue kv.2 = true)
    (acc : List (Str × Value)) (kids : List Element)
    (hn : (acc.map Prod.fst ++ kvs.map Prod.fst).Nodup) :
    newElementAttrs (kvs.map fun kv => (ParamCase tbl kv.1, kv.2)) (acc, kids)
      = (acc ++ kvs, kids) := by
  induction kvs generalizing acc with
  | nil => rw [List.map_nil, newElementAttrs, List.append_nil]
  | cons kv rest ih =>
    obtain ⟨hk, hv⟩ := h kv (List.mem_cons_self _ _)
    have hk' := hk
    unfold goodKey at hk'
    simp only [Bool.and_eq_true] at hk'
    obtain ⟨_, _, _, hch⟩ := goodKeyText_facts _ hk'.1
    have hnil : kv.2.isNil = false := by
      cases hkv : kv.2 with
      | nil => rw [hkv] at hv; exact absurd hv (by decide)
      | _ => rfl
    have hnew : kv.1 ∉ acc.map Prod.fst := by
      intro hm
      rw [List.map_cons, List.nodup_append] at hn
      exact hn.2.2 hm (List.mem_cons_self _ _)
    rw [List.map_cons, newElementAttrs]
    simp only [hnil, Bool.false_eq_true, if_false, if_neg hch, goodKey_camelCase tbl _ hk]
    rw [mapSet_new acc kv.1 kv.2 hnew, ih (fun x hx => h x (List.mem_cons_of_mem _ hx)),
      List.append_assoc]
    · rfl
    · rw [List.map_append, List.append_assoc]
      exact hn

/-! ## The elements read back from a serialised element -/

theorem paramKeys_nodup (tbl : Char → Char) (kvs : List (Str × Value))
    (h : ∀ kv ∈ kvs, goodKey tbl kv.1 = true ∧ goodValue kv.2 = true)
    (hn : (kvs.map Prod.fst).Nodup) : (kvs.map fun kv => ParamCase tbl kv.1).Nodup := by
  have e : (kvs.map fun kv => ParamCase tbl kv.1) = (kvs.map Prod.fst).map (ParamCase tbl) := by
    rw [List.map_map]
    rfl
  rw [e]
  apply List.Nodup.map_on _ hn
  intro x hx y hy hxy
  obtain ⟨kx, hkx, rfl⟩ := List.mem_map.1 hx
  obtain ⟨ky, hky, rfl⟩ := List.mem_map.1 hy
  rw [← goodKey_camelCase tbl _ (h kx hkx).1, ← goodKey_camelCase tbl _ (h ky hky).1, hxy]

theorem parseAttrs_attributes (tbl : Char → Char) (ev : Evaluator) (t : Str)
    (attrs : List (Str × Value)) (cs : List Element)
    (hn : (attrs.map Prod.fst).Nodup)
    (hg : ∀ kv ∈ attrs, goodKey tbl kv.1 = true ∧ goodValue kv.2 = true) :
    parseAttrs ev none ((Element.mk t attrs cs).attributes tbl)
      = (sortedBindings attrs).map fun kv => (ParamCase tbl kv.1, kv.2) := by
  have hgood := sortedBindings_good tbl attrs hn hg
  have hnk : ((sortedBindings attrs).map Prod.fst).Nodup :=
    ((sortedBindings_perm attrs hn).map Prod.fst).nodup_iff.2 hn
  have h1 := parseAttrs_serial tbl ev (sortedBindings attrs) hgood []
  rw [foldl_mapSet_new tbl _ [] (paramKeys_nodup tbl _ hgood hnk), List.nil_append] at h1
  rw [attributes_serial]
  exact h1

theorem filterMap_makeElement (kids : List Element) :
    (kids.map Value.elem).filterMap makeElement = kids := by
  induction kids with
  | nil => rfl
  | cons k ks ih =>
    rw [List.map_cons, List.filterMap_cons]
    simp only [makeElement]
    rw [ih]

theorem NewElement_tag (tbl : Char → Char) (t : Str) (kvs : List (Str × Value))
    (kids : List Element) (ht : goodTag t = true)
    (h : ∀ kv ∈ kvs, goodKey tbl kv.1 = true ∧ goodValue kv.2 = true)
    (hn : (kvs.map Prod.fst).Nodup) :
    NewElement (.str t) (kvs.map fun kv => (ParamCase tbl kv.1, kv.2))
        [.list (kids.map Value.elem)]
      = .mk t kvs kids := by
  obtain ⟨_, h1, h2⟩ := goodTag_facts t ht
  have htag : (Element.mk t kvs kids).Tag = t := by
    unfold Element.Tag
    simp only [Element.type]
    rw [if_pos h2]
  unfold NewElement
  rw [newElementAttrs_serial tbl kvs h [] [] hn]
  simp only [List.nil_append, List.flatMap_cons, List.flatMap_nil, List.append_nil, makeElements,
    ensureList, filterMap_makeElement, htag, if_neg h1]

theorem NewElement_text (s : Str) :
    NewElement (.str "text".toList) [("text".toList, .str s)] []
      = .mk "text".toList [("text".toList, .str s)] [] := rfl

theorem dumpsList_append (tbl : Char → Char) (xs ys : List Element) :
    dumpsList tbl false (xs ++ ys) = dumpsList tbl false xs ++ dumpsList tbl false ys := by
  induction xs with
  | nil => rw [List.nil_append, dumpsList, List.nil_append]
  | cons x xs ih => rw [List.cons_append, dumpsList, dumpsList, ih, List.append_assoc]

theorem parse_textItem (tbl : Char → Char) (ev : Evaluator) (p : Str) (rest : List Item) :
    dumpsList tbl false (parseTokens ev (textItem p ++ rest) none)
      = Escape p false ++ dumpsList tbl false (parseTokens ev rest none) := by
  unfold textItem
  by_cases h : p = []
  · subst h
    rw [Escape_nil]
    rfl
  · simp only [ne_eq, h, not_false_eq_true, if_true, List.singleton_append]
    rw [parseTokens, NewElement_text, dumpsList, dumps_textElement]

theorem dumpsList_ne_nil (tbl : Char → Char) (c : Element) (cs : List Element)
    (h : goodChildren tbl (c :: cs) = true) : dumpsList tbl false (c :: cs) ≠ [] := by
  rw [goodChildren] at h
  simp only [Bool.and_eq_true, Bool.or_eq_true] at h
  rw [dumpsList]
  intro e
  have e1 := (List.append_eq_nil.1 e).1
  rcases h.1 with hc | hc
  · obtain ⟨s, rfl, hs, _⟩ := goodTextElement_facts c hc
    rw [dumps_textElement] at e1
    exact Escape_ne_nil s false hs e1
  · obtain ⟨t, attrs, kids⟩ := c
    rw [dumps_good tbl t attrs kids (goodElement_facts tbl t attrs kids hc).1] at e1
    exact List.cons_ne_nil _ _ e1

theorem parseSlot_default (ev : Evaluator) (items : List Item) :
    parseSlot ev "default".toList [("default".toList, items)] none = parseTokens ev items none := by
  rw [parseSlot, if_pos rfl]

theorem parseToken_angle (ev : Evaluator) (name : Str) (pos : Position) (src extra : Str)
    (children : List (Str × List Item)) :
    parseToken ev (.mk "angle".toList name pos src extra children) none
      = [NewElement (.str name) (parseAttrs ev none extra)
          [.list ((parseSlot ev "default".toList children none).map Value.elem)]] := by
  rw [parseToken, if_pos rfl]

mutual
theorem parse_elem (tbl : Char → Char) (ev : Evaluator) :
    ∀ e : Element, goodElement tbl e = true →
      ∃ e', parseToken ev (elemTree tbl e) none = [e']
        ∧ dumps tbl false e' = dumps tbl false e
  | .mk t attrs cs, h => by
    obtain ⟨ht, hn, hg, hcs⟩ := goodElement_facts tbl t attrs cs h
    have hk := parse_kids tbl ev cs hcs []
    rw [Escape_nil, List.nil_append] at hk
    have hperm := sortedBindings_perm attrs hn
    have hgood := sortedBindings_good tbl attrs hn hg
    have hnk : ((sortedBindings attrs).map Prod.fst).Nodup :=
      (hperm.map Prod.fst).nodup_iff.2 hn
    rw [elemTree]
    by_cases h0 : cs.length = 0
    · refine ⟨.mk t (sortedBindings attrs) [], ?_, ?_⟩
      · simp only [if_pos h0]
        rw [parseToken_angle, parseAttrs_attributes tbl ev t attrs cs hn hg, parseSlot]
        exact congrArg (fun x => [x]) (NewElement_tag tbl t _ [] ht hgood hnk)
      · rw [dumps_good tbl t _ _ ht, dumps_good tbl t _ _ ht,
          attributes_perm tbl t t attrs _ cs [] hn hperm, if_pos h0]
        rfl
    · refine ⟨.mk t (sortedBindings attrs) (parseTokens ev (kidsTree tbl [] cs) none), ?_, ?_⟩
      · simp only [if_neg h0]
        rw [parseToken_angle, parseAttrs_attributes tbl ev t attrs cs hn hg, parseSlot_default]
        exact congrArg (fun x => [x]) (NewElement_tag tbl t _ _ ht hgood hnk)
      · have hne : (parseTokens ev (kidsTree tbl [] cs) none).length ≠ 0 := by
          intro hl
          have hnil := List.length_eq_zero.1 hl
          rw [hnil, dumpsList] at hk
          cases cs with
          | nil => exact h0 rfl
          | cons c cs => exact dumpsList_ne_nil tbl c cs hcs hk.symm
        rw [dumps_good tbl t _ _ ht, dumps_good tbl t _ _ ht,
          attributes_perm tbl t t attrs _ cs _ hn hperm, if_neg h0, if_neg hne, hk]
theorem parse_kids (tbl : Char → Char) (ev : Evaluator) :
    ∀ cs : List Element, goodChildren tbl cs = true → ∀ p : Str,
      dumpsList tbl false (parseTokens ev (kidsTree tbl p cs) none)
        = Escape p false ++ dumpsList tbl false cs
  | [], _, p => by
    have := parse_textItem tbl ev p []
    rw [List.append_nil] at this
    rw [kidsTree, this, parseTokens]
  | c :: cs, h, p => by
    rw [goodChildren] at h
    simp only [Bool.and_eq_true, Bool.or_eq_true] at h
    obtain ⟨hc, hcs⟩ := h
    rw [kidsTree, dumpsList]
    by_cases htext : goodTextElement c = true
    · obtain ⟨s, rfl, _, _⟩ := goodTextElement_facts c htext
      simp only [Element.type, if_true, leafText, dumps_textElement]
      rw [parse_kids tbl ev cs hcs (p ++ s), Escape_append, List.append_assoc]
    · have hce : goodElement tbl c = true := by
        rcases hc with hc | hc
        · exact absurd hc htext
        · exact hc
      obtain ⟨e', he1, he2⟩ := parse_elem tbl ev c hce
      have hk := parse_kids tbl ev cs hcs []
      rw [Escape_nil, List.nil_append] at hk
      rw [if_neg (goodElement_type tbl c hce), parse_textItem, parseTokens, he1,
        dumpsList_append, hk, dumpsList, dumpsList, List.append_nil, he2]
end

theorem Parse_String (tbl : Char → Char) (ev : Evaluator) (e : Element)
    (h : goodElement tbl e = true) :
    ∃ e', Parse ev (e.String tbl) none = [e'] ∧ e'.String tbl = e.String tbl := by
  obtain ⟨e', h1, h2⟩ := parse_elem tbl ev e h
  refine ⟨e', ?_, h2⟩
  have ht := tokens_String tbl e h
  unfold tokensFrom at ht
  unfold Parse
  simp only [Option.isSome_none, Bool.false_eq_true, if_false]
  rw [ht, foldToken_elemToks, parseTokens, parseTokens, h1, List.append_nil]

/-! ## A comment after the serialised element -/

theorem run_str {α : Type} (w : Str) (k : Pos → Option α) (prev : Option Char) (pos : Nat)
    (s : Str) (caps : List (Nat × Str)) :
    (Re.str w).run k ⟨prev, pos, s, caps⟩
      = if w.isPrefixOf s then k ⟨advPrev prev w, pos + w.length, s.drop w.length, caps⟩
        else none := by
  induction w generalizing prev pos s with
  | nil => simp [Re.str, run_eps, advPrev]
  | cons c cs ih =>
    cases s with
    | nil =>
      cases cs with
      | nil => simp [Re.str, Re.lit, run_chr_nil]
      | cons d ds => simp [Re.str, Re.lit, run_seq, run_chr_nil]
    | cons x xs =>
      have e : pos + (c :: cs).length = pos + 1 + cs.length := by
        simp only [List.length_cons]; omega
      have e2 : advPrev prev (c :: cs) = advPrev (some c) cs := rfl
      rw [e, e2]
      cases cs with
      | nil =>
        by_cases hx : x = c
        · subst hx
          simp [Re.str, Re.lit, run_chr_cons, advPrev]
        · simp [Re.str, Re.lit, run_chr_cons, hx, Ne.symm hx]
      | cons d ds =>
        have ih' := ih (some x) (pos + 1) xs
        by_cases hx : x = c
        · subst hx
          simp only [Re.str, run_seq, Re.lit, run_chr_cons, beq_self_eq_true, if_true] at ih' ⊢
          rw [ih']
          simp
        · simp [Re.str, Re.lit, run_seq, run_chr_cons, hx, Ne.symm hx]

theorem isPrefixOf_append_right (w a r : Str) (h : w.length ≤ a.length) :
    w.isPrefixOf (a ++ r) = w.isPrefixOf a := by
  induction w generalizing a with
  | nil => simp
  | cons c cs ih =>
    cases a with
    | nil => simp at h
    | cons x xs =>
      simp only [List.cons_append, List.isPrefixOf_cons₂]
      rw [ih xs (by simpa using h)]

theorem comment_matchAt (prev : Option Char) (c rest : Str)
    (hc : ∀ j, j < c.length → hasPrefix (c.drop j ++ "-->".toList) "-->".toList = false) :
    ∃ m, tagPat1.matchAt prev ('<' :: '!' :: '-' :: '-' :: (c ++ ("-->".toList ++ rest))) = some m
      ∧ m.after = rest ∧ m.group 1 ≠ [] ∧ m.group 7 = [] := by
  have hk2 : ∀ (k : Pos → Option Pos) (p : Option Char) (n : Nat),
      (Re.str "-->".toList).run k ⟨p, n, "-->".toList ++ rest, []⟩
        = k ⟨advPrev p "-->".toList, n + 3, rest, []⟩ := by
    intro k p n
    rw [run_str]
    simp
  have hfail : ∀ (k : Pos → Option Pos) j, j < c.length →
      (Re.str "-->".toList).run k
        ⟨advPrev (some '-') (c.take j), 0 + 1 + 1 + 1 + 1 + j, c.drop j ++ ("-->".toList ++ rest),
          []⟩ = none := by
    intro k j hj
    rw [run_str, ← List.append_assoc, isPrefixOf_append_right]
    · have := hc j hj
      unfold hasPrefix at this
      rw [this]
      simp
    · simp
  have hrun : tagPat1.run some
        ⟨prev, 0, '<' :: '!' :: '-' :: '-' :: (c ++ ("-->".toList ++ rest)), []⟩
      = some ⟨advPrev (advPrev (some '-') c) "-->".toList, 0 + 1 + 1 + 1 + 1 + c.length + 3, rest,
          [(1, ('<' :: '!' :: '-' :: '-' :: (c ++ ("-->".toList ++ rest))).take
            (0 + 1 + 1 + 1 + 1 + c.length + 3 - 0))]⟩ := by
    simp only [tagPat1, run_alt, commentPat, run_group, run_seq, Re.str, Re.lit, String.toList,
      run_chr_cons, beq_self_eq_true, if_true, run_star]
    have := starLoop_lazy_run isAny
      (fun st' => (Re.str "-->".toList).run
        (fun st'' => some ({ st'' with caps := (1,
          ('<' :: '!' :: '-' :: '-' :: (c ++ ("-->".toList ++ rest))).take (st''.pos - 0))
            :: st''.caps } : Pos)) st')
      c ("-->".toList ++ rest) (fun _ _ => rfl) (c ++ ("-->".toList ++ rest)).length (by simp)
      (some '-') (0 + 1 + 1 + 1 + 1) []
      (fun j hj => hfail _ j hj) (by simp only [hk2, Option.isSome_some])
    simp only [Re.str, Re.lit, String.toList, run_seq] at this
    rw [this]
    have h2 := hk2 (fun st'' => some ({ st'' with caps := (1,
          ('<' :: '!' :: '-' :: '-' :: (c ++ ("-->".toList ++ rest))).take (st''.pos - 0))
            :: st''.caps } : Pos)) (advPrev (some '-') c) (0 + 1 + 1 + 1 + 1 + c.length)
    simp only [Re.str, Re.lit, String.toList, run_seq] at h2
    rw [h2]
  refine ⟨⟨('<' :: '!' :: '-' :: '-' :: (c ++ ("-->".toList ++ rest))).take
      (0 + 1 + 1 + 1 + 1 + c.length + 3), rest,
      [(1, ('<' :: '!' :: '-' :: '-' :: (c ++ ("-->".toList ++ rest))).take
        (0 + 1 + 1 + 1 + 1 + c.length + 3 - 0))]⟩, ?_, rfl, ?_, rfl⟩
  · unfold Re.matchAt
    rw [hrun]
    rfl
  · have e : 0 + 1 + 1 + 1 + 1 + c.length + 3 - 0 = (c.length + 6) + 1 := by omega
    simp only [Match.group, e, List.take_succ_cons]
    simp [List.lookup]

theorem tokens_comment (c : Str) (b : Bool)
    (hc : ∀ j, j < c.length → hasPrefix (c.drop j ++ "-->".toList) "-->".toList = false) :
    tokensFrom tagPat1 ("<!--".toList ++ c ++ "-->".toList) b = [] := by
  obtain ⟨m, hm, ha, h1, h7⟩ := comment_matchAt none c [] hc
  rw [List.append_nil] at hm
  have hfind := tagPat1_find_text [] (by simp) _ _ m hm
  have e : "<!--".toList ++ c ++ "-->".toList
      = [] ++ '<' :: '!' :: '-' :: '-' :: (c ++ "-->".toList) := by simp
  rw [e, tokensFrom_step tagPat1 tagPat1_consumes _ b _ _ hfind, h7, ha, parseContent_nil,
    tokensFrom_none tagPat1 [] _ (tagPat1_find_none [] (by simp)), parseContent_nil]
  unfold matchTokens
  rw [if_pos h1]
  rfl

theorem Parse_String_comment (tbl : Char → Char) (ev : Evaluator) (e : Element) (c : Str)
    (h : goodElement tbl e = true)
    (hc : ∀ j, j < c.length → hasPrefix (c.drop j ++ "-->".toList) "-->".toList = false) :
    Parse ev (e.String tbl ++ ("<!--".toList ++ c ++ "-->".toList)) none
      = Parse ev (e.String tbl) none := by
  have h1 := tokens_elem tbl e h [] ("<!--".toList ++ c ++ "-->".toList) true (by simp)
  rw [Escape_nil, List.nil_append, tokens_comment c true hc, List.append_nil] at h1
  have h2 := tokens_String tbl e h
  unfold tokensFrom at h1 h2
  unfold Parse
  simp only [Option.isSome_none, Bool.false_eq_true, if_false]
  rw [h2]
  unfold Element.String
  rw [h1]
  rfl

/-- C8, counterexample. The element `NewElement("x", nil, "\nhi")` has a tag name of letters,
no attributes and one text child.  It serialises to `<x>`, line feed, `hi</x>`; `Parse` of
that text without context removes the line feed after the tag and yields one element that
serialises to `<x>hi</x>`, so no element of the result serialises back to the source. -/
theorem C8_counterexample :
    lineFeedElement.String id = "<x>\nhi</x>".toList
    ∧ (Parse nullEvaluator (lineFeedElement.String id) none).map (Element.String id)
        = ["<x>hi</x>".toList]
    ∧ ¬ ∃ e', Parse nullEvaluator (lineFeedElement.String id) none = [e']
        ∧ e'.String id = lineFeedElement.String id := by
  have h1 : lineFeedElement.String id = "<x>\nhi</x>".toList := by decide!
  have h2 : (Parse nullEvaluator (lineFeedElement.String id) none).map (Element.String id)
      = ["<x>hi</x>".toList] := by decide!
  refine ⟨h1, h2, ?_⟩
  rintro ⟨e', h3, h4⟩
  rw [h3, List.map_cons, List.map_nil, h4, h1] at h2
  exact absurd h2 (by decide)

/-- C8, amended. Serialising, parsing without context and serialising again is the identity
on the serialised text for every element `e` of the following kind: the tag name is a
non-empty word of ASCII letters other than `text` and `component`; the attribute keys are
distinct, and each key `k` has a `ParamCase` text that is non-empty, free of whitespace, `=`,
`>` and `/`, does not start with `no-`, is not `children`, and is turned back into `k` by
`camelCase`; the attribute values are strings or booleans; the children are text elements
with a non-empty text without a line feed, or elements of the same kind.  For such an `e`,
`Parse(e.String(), nil)` is a one-element list whose element's `String()` equals
`e.String()`, entities included, and a comment `<!--c-->` added after the source (`c` not
closing the comment before its end) is dropped: the result is the same list. -/
theorem C8_roundtrip_good (tbl : Char → Char) (ev : Evaluator) (e : Element) (c : Str)
    (h : goodElement tbl e = true)
    (hc : ∀ j, j < c.length → hasPrefix (c.drop j ++ "-->".toList) "-->".toList = false) :
    ∃ e', Parse ev (e.String tbl) none = [e']
      ∧ Parse ev (e.String tbl ++ ("<!--".toList ++ c ++ "-->".toList)) none = [e']
      ∧ e'.String tbl = e.String tbl := by
  obtain ⟨e', h1, h2⟩ := Parse_String tbl ev e h
  exact ⟨e', h1, (Parse_String_comment tbl ev e c h hc).trans h1, h2⟩

/-- Witness of C8 (amended): the element of the round-trip test, `<x a="1" b="2" c no-d>` with
the text child `<t>`, followed by the comment `<!--ignored-->`. -/
theorem C8_roundtrip_good_witness :
    goodElement id sampleElement = true
    ∧ sampleElement.String id = "<x a=\"1\" b=\"2\" c no-d>&lt;t&gt;</x>".toList
    ∧ ∃ e', Parse nullEvaluator (sampleElement.String id) none = [e']
      ∧ Parse nullEvaluator
          (sampleElement.String id ++ ("<!--".toList ++ "ignored".toList ++ "-->".toList)) none
        = [e']
      ∧ e'.String id = sampleElement.String id :=
  ⟨by decide!, by decide!,
    C8_roundtrip_good id nullEvaluator sampleElement "ignored".toList (by decide!) (by decide)⟩

/-! ## Mismatched closing tokens -/

theorem foldToken_eq (tokens : List Item) :
    foldToken tokens
      = slotGet (foldClose (foldLoop tokens rootFrame []).1 (foldLoop tokens rootFrame []).2).children
          "default".toList := rfl

theorem foldLoop_append (xs ys : List Item) (top : StackItem) (below : List StackItem) :
    foldLoop (xs ++ ys) top below
      = foldLoop ys (foldLoop xs top below).1 (foldLoop xs top below).2 := by
  induction xs generalizing top below with
  | nil => rfl
  | cons x xs ih =>
    cases x with
    | text s =>
      simp only [List.cons_append, foldLoop]
      exact ih _ _
    | tok t =>
      obtain ⟨k, n, pos, src, e, c⟩ := t
      cases pos with
      | Open =>
        simp only [List.cons_append, foldLoop, Token.position]
        exact ih _ _
      | Empty =>
        simp only [List.cons_append, foldLoop, Token.position]
        exact ih _ _
      | Continue =>
        simp only [List.cons_append, foldLoop, Token.position]
        exact ih _ _
      | Close =>
        cases below with
        | nil =>
          simp only [List.cons_append, foldLoop, Token.position]
          exact ih _ _
        | cons parent below' =>
          simp only [List.cons_append, foldLoop, Token.position]
          split
          · exact ih _ _
          · exact ih _ _

theorem foldLoop_close_ignored (c : Token) (rest : List Item) (top : StackItem)
    (below : List StackItem) (hc : c.position = .Close)
    (h : below = [] ∨ top.token.name ≠ c.name) :
    foldLoop (.tok c :: rest) top below = foldLoop rest top below := by
  cases below with
  | nil => simp only [foldLoop, hc]
  | cons parent below' =>
    have hne : top.token.name ≠ c.name := by
      rcases h with h | h
      · exact absurd h (List.cons_ne_nil _ _)
      · exact h
    simp only [foldLoop, hc, if_neg hne]

theorem foldStack_cons (tokens : List Item) (top : StackItem) (below : List StackItem) :
    foldStack tokens (top :: below)
      = some ((foldLoop tokens top below).1 :: (foldLoop tokens top below).2) := by
  induction tokens generalizing top below with
  | nil => rfl
  | cons x xs ih =>
    cases x with
    | text s => simp only [foldStack, foldLoop, ih]
    | tok t =>
      obtain ⟨k, n, pos, src, e, c⟩ := t
      cases pos with
      | Open => simp only [foldStack, foldLoop, Token.position, ih]
      | Empty => simp only [foldStack, foldLoop, Token.position, ih]
      | Continue => simp only [foldStack, foldLoop, Token.position, ih]
      | Close =>
        cases below with
        | nil => simp only [foldStack, foldLoop, Token.position, ih]
        | cons parent below' =>
          simp only [foldStack, foldLoop, Token.position]
          split
          · exact ih _ _
          · exact ih _ _

/-- C12. `foldToken` ignores mismatched closes.  When the tokens `pre` have been read from the
root frame, a Close token `c` whose name differs from the name of the frame on top of the
stack, or that arrives when only the root frame is on the stack, changes nothing: the folded
result of `pre ++ c :: post` is the folded result of `pre ++ post`.  For every token list the
loop of `foldToken`, run on a stack that may be empty, ends without an index panic on a
non-empty stack, and the result of `foldToken` is read from the bottom frame of that
stack. -/
theorem C12_mismatched_close (pre post : List Item) (c : Token) (hc : c.position = .Close)
    (h : (foldLoop pre rootFrame []).2 = []
      ∨ (foldLoop pre rootFrame []).1.token.name ≠ c.name) :
    foldToken (pre ++ .tok c :: post) = foldToken (pre ++ post)
    ∧ ∀ tokens : List Item, ∃ top below,
        foldStack tokens [rootFrame] = some (top :: below)
        ∧ foldToken tokens = slotGet (foldClose top below).children "default".toList := by
  refine ⟨?_, fun tokens => ⟨_, _, foldStack_cons tokens rootFrame [], foldToken_eq tokens⟩⟩
  rw [foldToken_eq, foldToken_eq, foldLoop_append, foldLoop_append,
    foldLoop_close_ignored c post _ _ hc h]

/-- Witness of C12: the closing tag `x` between the texts `a` and `b`, with only the root
frame on the stack. -/
theorem C12_mismatched_close_witness :
    foldToken ([.text "a".toList]
        ++ .tok (.mk "angle".toList "x".toList .Close "</x>".toList [] []) :: [.text "b".toList])
      = foldToken ([.text "a".toList] ++ [.text "b".toList]) :=
  (C12_mismatched_close [.text "a".toList] [.text "b".toList]
    (.mk "angle".toList "x".toList .Close "</x>".toList [] []) rfl (Or.inl rfl)).1

/-! ## The submatches of a match -/

theorem track_refl (G : List Nat) (st : Pos) : Track G st st := ⟨Reach.refl st, fun _ _ => rfl⟩

theorem track_trans {G : List Nat} {a b c : Pos} (h1 : Track G a b) (h2 : Track G b c) :
    Track G a c :=
  ⟨h1.1.trans h2.1, fun i hi => (h2.2 i hi).trans (h1.2 i hi)⟩

theorem track_mono {G G' : List Nat} {a b : Pos} (h : Track G a b) (hs : ∀ i ∈ G, i ∈ G') :
    Track G' a b :=
  ⟨h.1, fun i hi => h.2 i fun hm => hi (hs i hm)⟩

theorem starLoop_rel {α : Type} (R : Pos → Pos → Prop) (hrefl : ∀ st, R st st)
    (htrans : ∀ a b c, R a b → R b c → R a c)
    (body : (Pos → Option α) → Pos → Option α)
    (hbody : ∀ (k : Pos → Option α) st r, body k st = some r → ∃ st', R st st' ∧ k st' = some r)
    (g : Bool) (k : Pos → Option α) (n : Nat) (st : Pos) (r : α)
    (h : starLoop body g k n st = some r) : ∃ st', R st st' ∧ k st' = some r := by
  induction n generalizing st r with
  | zero => exact ⟨st, hrefl st, h⟩
  | succ n ih =>
    have hmore : ∀ r', body (fun st' => if st.pos < st'.pos then starLoop body g k n st' else none) st
        = some r' → ∃ st', R st st' ∧ k st' = some r' := by
      intro r' hb
      obtain ⟨st1, hr1, h1⟩ := hbody _ st r' hb
      by_cases hlt : st.pos < st1.pos
      · simp only [hlt, if_true] at h1
        obtain ⟨st2, hr2, h2⟩ := ih st1 r' h1
        exact ⟨st2, htrans _ _ _ hr1 hr2, h2⟩
      · simp only [hlt, if_false] at h1
        exact absurd h1 (by simp)
    cases g with
    | true =>
      simp only [starLoop, if_true] at h
      cases hb : body (fun st' => if st.pos < st'.pos then starLoop body true k n st' else none) st with
      | some r' =>
        rw [hb] at h
        simp only [Option.some.injEq] at h
        subst h
        exact hmore r' hb
      | none =>
        rw [hb] at h
        exact ⟨st, hrefl st, h⟩
    | false =>
      simp only [starLoop, Bool.false_eq_true, if_false] at h
      cases hk : k st with
      | some r' =>
        rw [hk] at h
        simp only [Option.some.injEq] at h
        subst h
        exact ⟨st, hrefl st, hk⟩
      | none =>
        rw [hk] at h
        exact hmore r h

theorem run_track {α : Type} (re : Re) (k : Pos → Option α) (st : Pos) (r : α)
    (h : re.run k st = some r) : ∃ st', Track re.groups st st' ∧ k st' = some r := by
  induction re generalizing k st r with
  | chr p =>
    obtain ⟨prev, pos, rest, caps⟩ := st
    cases rest with
    | nil => simp [Re.run] at h
    | cons c cs =>
      simp only [Re.run] at h
      by_cases hp : p c = true
      · simp only [hp, if_true] at h
        exact ⟨⟨some c, pos + 1, cs, caps⟩, ⟨⟨[c], by simp, by simp⟩, fun _ _ => rfl⟩, h⟩
      · simp only [hp, if_false] at h
        exact absurd h (by simp)
  | eps => exact ⟨st, track_refl _ st, h⟩
  | seq a b iha ihb =>
    rw [run_seq] at h
    obtain ⟨st1, hr1, h1⟩ := iha _ st r h
    obtain ⟨st2, hr2, h2⟩ := ihb k st1 r h1
    exact ⟨st2, track_trans (track_mono hr1 fun i hi => List.mem_append_left _ hi)
      (track_mono hr2 fun i hi => List.mem_append_right _ hi), h2⟩
  | alt a b iha ihb =>
    simp only [Re.run] at h
    cases ha : a.run k st with
    | some r' =>
      rw [ha] at h
      simp only [Option.some.injEq] at h
      subst h
      obtain ⟨st1, hr1, h1⟩ := iha k st r' ha
      exact ⟨st1, track_mono hr1 fun i hi => List.mem_append_left _ hi, h1⟩
    | none =>
      rw [ha] at h
      obtain ⟨st1, hr1, h1⟩ := ihb k st r h
      exact ⟨st1, track_mono hr1 fun i hi => List.mem_append_right _ hi, h1⟩
  | star a g iha =>
    rw [run_star] at h
    exact starLoop_rel (Track a.groups) (track_refl _) (fun _ _ _ => track_trans)
      (fun k' st' => a.run k' st') (fun k' st1 r1 h1 => iha k' st1 r1 h1) g k _ st r h
  | group i a iha =>
    rw [run_group] at h
    obtain ⟨st1, hr1, h1⟩ := iha _ st r h
    refine ⟨{ st1 with caps := (i, st.rest.take (st1.pos - st.pos)) :: st1.caps }, ⟨hr1.1, ?_⟩, h1⟩
    intro j hj
    have hji : j ≠ i := fun e => hj (e ▸ List.mem_cons_self _ _)
    have hja : j ∉ a.groups := fun hm => hj (List.mem_cons_of_mem _ hm)
    have hb : (j == i) = false := by simpa using hji
    simp only [List.lookup, hb]
    exact hr1.2 j hja
  | bol =>
    simp only [Re.run] at h
    by_cases hp : st.prev = none ∨ st.prev = some '\n'
    · rw [if_pos hp] at h
      exact ⟨st, track_refl _ st, h⟩
    · rw [if_neg hp] at h
      exact absurd h (by simp)
  | eol =>
    obtain ⟨prev, pos, rest, caps⟩ := st
    cases rest with
    | nil => exact ⟨_, track_refl _ _, h⟩
    | cons c cs =>
      simp only [Re.run] at h
      by_cases hp : c = '\n'
      · rw [if_pos hp] at h
        exact ⟨_, track_refl _ _, h⟩
      · rw [if_neg hp] at h
        exact absurd h (by simp)
  | bot =>
    simp only [Re.run] at h
    by_cases hp : st.prev = none
    · rw [if_pos hp] at h
      exact ⟨st, track_refl _ st, h⟩
    · rw [if_neg hp] at h
      exact absurd h (by simp)
  | eot =>
    obtain ⟨prev, pos, rest, caps⟩ := st
    cases rest with
    | nil => exact ⟨_, track_refl _ _, h⟩
    | cons c cs => simp [Re.run] at h

theorem matchAt_group_none (re : Re) (prev : Option Char) (s : Str) (m : Match)
    (h : re.matchAt prev s = some m) (i : Nat) (hi : i ∉ re.groups) : m.group i = [] := by
  unfold Re.matchAt at h
  cases hr : re.run some ⟨prev, 0, s, []⟩ with
  | none => rw [hr] at h; simp at h
  | some st =>
    rw [hr] at h
    simp only [Option.map_some', Option.some.injEq] at h
    subst h
    obtain ⟨st', ht, hk⟩ := run_track re some _ st hr
    simp only [Option.some.injEq] at hk
    subst hk
    unfold Match.group
    simp only [ht.2 i hi]
    rfl

theorem matchAt_alt (a b : Re) (prev : Option Char) (s : Str) (m : Match)
    (h : (Re.alt a b).matchAt prev s = some m) :
    a.matchAt prev s = some m ∨ b.matchAt prev s = some m := by
  unfold Re.matchAt at h ⊢
  rw [run_alt] at h
  cases ha : a.run some ⟨prev, 0, s, []⟩ with
  | some r =>
    rw [ha] at h
    exact Or.inl h
  | none =>
    rw [ha] at h
    exact Or.inr h

/-! ## Directives and tags in templated mode -/

theorem findFrom_matchAt (re : Re) (prev : Option Char) (s before : Str) (m : Match)
    (h : re.findFrom prev s = some (before, m)) : ∃ p r, re.matchAt p r = some m := by
  induction s generalizing prev before with
  | nil =>
    simp only [Re.findFrom] at h
    cases hm : re.matchAt prev [] with
    | none => rw [hm] at h; simp at h
    | some m' =>
      rw [hm] at h
      simp only [Option.map_some', Option.some.injEq, Prod.mk.injEq] at h
      exact ⟨prev, [], h.2 ▸ hm⟩
  | cons c cs ih =>
    simp only [Re.findFrom] at h
    cases hm : re.matchAt prev (c :: cs) with
    | some m' =>
      rw [hm] at h
      simp only [Option.some.injEq, Prod.mk.injEq] at h
      exact ⟨prev, c :: cs, h.2 ▸ hm⟩
    | none =>
      rw [hm] at h
      cases hf : re.findFrom (some c) cs with
      | none => rw [hf] at h; simp at h
      | some r =>
        rw [hf] at h
        simp only [Option.map_some', Option.some.injEq, Prod.mk.injEq] at h
        exact ih (some c) r.1 (by rw [hf, ← h.2])

theorem commentPat_head (xs : Str) (h : commentPat.lang xs) : xs.head? = some '<' := by
  obtain ⟨ys, zs, rfl, hy, _⟩ := h
  obtain ⟨a, b, rfl, ⟨c, rfl, hc⟩, _⟩ := hy
  have : c = '<' := by simpa using hc
  rw [this]
  rfl

theorem anglePat_head (xs : Str) (h : anglePat.lang xs) : xs.head? = some '<' := by
  obtain ⟨ys, zs, rfl, ⟨c, rfl, hc⟩, _⟩ := h
  have : c = '<' := by simpa [Re.lit] using hc
  rw [this]
  rfl

theorem curlyPat_head (xs : Str) (h : curlyPat.lang xs) : xs.head? = some (Char.ofNat 123) := by
  obtain ⟨ys, zs, rfl, ⟨c, rfl, hc⟩, _⟩ := h
  have : c = Char.ofNat 123 := by simpa [Re.lit] using hc
  rw [this]
  rfl

theorem curlyPat_matchAt (prev : Option Char) (s : Str) (m : Match)
    (h : curlyPat.matchAt prev s = some m) : m.group 7 = m.text ∧ m.group 1 = [] := by
  unfold Re.matchAt at h
  cases hr : curlyPat.run some ⟨prev, 0, s, []⟩ with
  | none => rw [hr] at h; simp at h
  | some st =>
    rw [hr] at h
    simp only [Option.map_some', Option.some.injEq] at h
    subst h
    unfold curlyPat at hr
    rw [run_group] at hr
    obtain ⟨st1, ht, hk⟩ := run_track _ _ _ st hr
    simp only [Option.some.injEq] at hk
    subst hk
    have h1 := ht.2 1 (by decide)
    unfold Match.group
    refine ⟨by simp [List.lookup], ?_⟩
    have hb : (1 == 7) = false := by decide
    simp only [List.lookup, hb, h1]
    rfl

theorem tagPat2_matchAt_cases (prev : Option Char) (s : Str) (m : Match)
    (h : tagPat2.matchAt prev s = some m) :
    (m.text.head? = some '<' ∧ m.group 7 = [])
      ∨ (m.text.head? = some (Char.ofNat 123) ∧ m.group 7 = m.text ∧ m.group 1 = []) := by
  rcases matchAt_alt _ _ prev s m h with h1 | h23
  · exact Or.inl ⟨commentPat_head _ (matchAt_lang _ prev s m h1).2,
      matchAt_group_none _ prev s m h1 7 (by decide)⟩
  · rcases matchAt_alt _ _ prev s m h23 with h2 | h3
    · exact Or.inl ⟨anglePat_head _ (matchAt_lang _ prev s m h2).2,
        matchAt_group_none _ prev s m h2 7 (by decide)⟩
    · exact Or.inr ⟨curlyPat_head _ (matchAt_lang _ prev s m h3).2, curlyPat_matchAt prev s m h3⟩

theorem tagPat2_consumes : tagPat2.consumes = true := rfl

theorem parseContent_keep (t : Str) : parseContent t false false = textItem (unescape t) := rfl

theorem parseContent_trimEnd (t : Str) (b : Bool) :
    parseContent t b true
      = textItem (trimEndPat.replaceAllString
          (if b then trimStartPat.replaceAllString (unescape t) [] else unescape t) []) := by
  cases b <;> rfl

theorem parseContent_trimStart (t : Str) :
    parseContent t true false = textItem (trimStartPat.replaceAllString (unescape t) []) := rfl

/-- C11, counterexample. In templated mode the source line feed, `{x}` has the text run
line feed immediately before a directive.  The run is its own trailing line-break run, yet
the token list of `Parse` holds the directive alone: the run is removed, because a text at
the start of the source is start-trimmed. -/
theorem C11_counterexample :
    (tokensFrom tagPat2 ("\n".toList ++ "\x7bx\x7d".toList) true).map Item.text? = [none] := by
  decide!

/-- C11, amended. In templated mode every token that the loop of `Parse` finds starts with a
brace (a directive) or with `<` (a tag or a comment).  For the text run `before` in front of
the token, read with the flag `b` (`true` at the start of the source and after a tag or a
comment, `false` after a directive): in front of a directive the run is not end-trimmed and
the run after the directive is read with `b = false`, that is not start-trimmed; in front of a
tag or a comment the run is end-trimmed with `trimEndPat` and the run after it is
start-trimmed.  So a run between two directives is kept whole, only unescaped; a run in front
of a directive loses at most what start-trimming removes; a run after a directive loses at
most what end-trimming removes. -/
theorem C11_directive_trim (s before : Str) (m : Match) (b : Bool)
    (hfind : tagPat2.find s = some (before, m)) :
    (m.text.head? = some (Char.ofNat 123) ∨ m.text.head? = some '<')
    ∧ (m.text.head? = some (Char.ofNat 123) →
        tokensFrom tagPat2 s b
          = parseContent before b false
              ++ .tok (curlyToken m.text (m.group 8)) :: tokensFrom tagPat2 m.after false)
    ∧ (m.text.head? = some '<' →
        tokensFrom tagPat2 s b
          = parseContent before b true
              ++ (if m.group 1 ≠ [] then []
                  else [.tok (angleToken m.text (m.group 3) (m.group 4) (m.group 5) (m.group 6))])
              ++ tokensFrom tagPat2 m.after true)
    ∧ parseContent before false false = textItem (unescape before)
    ∧ parseContent before true false
        = textItem (trimStartPat.replaceAllString (unescape before) [])
    ∧ parseContent before b true
        = textItem (trimEndPat.replaceAllString
            (if b then trimStartPat.replaceAllString (unescape before) [] else unescape before)
            []) := by
  obtain ⟨p, r, hm⟩ := findFrom_matchAt tagPat2 none s before m hfind
  have hstep := tokensFrom_step tagPat2 tagPat2_consumes s b before m hfind
  have hne : (Char.ofNat 123) ≠ '<' := by decide
  refine ⟨?_, ?_, ?_, parseContent_keep before, parseContent_trimStart before,
    parseContent_trimEnd before b⟩
  · rcases tagPat2_matchAt_cases p r m hm with ⟨h1, _⟩ | ⟨h1, _⟩
    · exact Or.inr h1
    · exact Or.inl h1
  · intro hhead
    rcases tagPat2_matchAt_cases p r m hm with ⟨h1, _⟩ | ⟨h1, h7, hg1⟩
    · rw [h1] at hhead
      exact absurd (Option.some.inj hhead).symm hne
    · have htext : m.text ≠ [] := by
        intro e
        rw [e] at h1
        exact absurd h1 (by simp)
      have hd : decide (m.group 7 = []) = false := by
        rw [h7]
        exact decide_eq_false htext
      have hmt : matchTokens m = [.tok (curlyToken m.text (m.group 8))] := by
        unfold matchTokens
        rw [if_neg (by rw [hg1]; exact fun h => h rfl), if_pos (by rw [h7]; exact htext), h7]
      rw [hstep, hd, hmt, List.append_assoc]
      rfl
  · intro hhead
    rcases tagPat2_matchAt_cases p r m hm with ⟨_, h7⟩ | ⟨h1, _⟩
    · have hd : decide (m.group 7 = []) = true := decide_eq_true h7
      have hmt : matchTokens m
          = if m.group 1 ≠ [] then []
            else [.tok (angleToken m.text (m.group 3) (m.group 4) (m.group 5) (m.group 6))] := by
        unfold matchTokens
        by_cases hg : m.group 1 ≠ []
        · rw [if_pos hg, if_pos hg]
        · rw [if_neg hg, if_neg hg, if_neg (by rw [h7]; exact fun h => h rfl)]
      rw [hstep, hd, hmt]
    · rw [h1] at hhead
      exact absurd (Option.some.inj hhead) hne

/-- Witness of C11 (amended): the source `a {x} b`, whose first token is the directive `{x}`
after the text `a` and a blank. -/
theorem C11_directive_trim_witness :
    tokensFrom tagPat2 ("a ".toList ++ "\x7bx\x7d".toList ++ " b".toList) true
      = parseContent "a ".toList true false
          ++ .tok (curlyToken "\x7bx\x7d".toList []) :: tokensFrom tagPat2 " b".toList false :=
  (C11_directive_trim ("a ".toList ++ "\x7bx\x7d".toList ++ " b".toList) "a ".toList
    ⟨"\x7bx\x7d".toList, " b".toList, [(7, "\x7bx\x7d".toList)]⟩ true rfl).2.1 rfl

/-! ## Directive tokens -/

theorem curly_tail {α : Type} (k : Pos → Option α) (prev : Option Char) (pos : Nat)
    (caps : List (Nat × Str)) (body rest : Str) (hbody : Char.ofNat 125 ∉ body)
    (hk : (k ⟨some (Char.ofNat 125), pos + body.length + 1, rest, caps⟩).isSome = true) :
    (Re.seq (.star (.chr isAny) false) (Re.lit (Char.ofNat 125))).run k
        ⟨prev, pos, body ++ Char.ofNat 125 :: rest, caps⟩
      = k ⟨some (Char.ofNat 125), pos + body.length + 1, rest, caps⟩ := by
  have hlit : ∀ (p : Option Char) (n : Nat),
      (Re.lit (Char.ofNat 125)).run k ⟨p, n, Char.ofNat 125 :: rest, caps⟩
        = k ⟨some (Char.ofNat 125), n + 1, rest, caps⟩ := by
    intro p n
    simp [Re.lit, run_chr_cons]
  rw [run_seq, run_star]
  rw [starLoop_lazy_run isAny _ body (Char.ofNat 125 :: rest) (fun _ _ => rfl) _ (by simp) prev pos
    caps]
  · exact hlit _ _
  · intro j hj
    rw [List.drop_eq_getElem_cons hj]
    have hx : body[j] ≠ Char.ofNat 125 := fun e => hbody (e ▸ List.getElem_mem _)
    have hb : (body[j] == Char.ofNat 125) = false := by simpa using hx
    simp only [Re.lit, List.cons_append, run_chr_cons, hb, Bool.false_eq_true, if_false]
  · rw [hlit]
    exact hk

theorem curly_derivative {α : Type} (k : Pos → Option α) (prev : Option Char) (pos : Nat)
    (caps : List (Nat × Str)) (mark : Char) (name rest : Str)
    (hmark : isDirectiveMark mark = true) (hname : ∀ c ∈ name, isNotSpaceBrace c = true)
    (hrest : ∀ c ∈ rest.head?, isNotSpaceBrace c = false)
    (hk : (k ⟨advPrev (some mark) name, pos + 1 + name.length, rest,
      (8, mark :: name) :: caps⟩).isSome = true) :
    (Re.opt (.group 8 (.seq (.chr isDirectiveMark) (.star (.chr isNotSpaceBrace) true)))).run k
        ⟨prev, pos, mark :: (name ++ rest), caps⟩
      = k ⟨advPrev (some mark) name, pos + 1 + name.length, rest, (8, mark :: name) :: caps⟩ := by
  have e : (mark :: (name ++ rest)).take (pos + 1 + name.length - pos) = mark :: name := by
    have : pos + 1 + name.length - pos = name.length + 1 := by omega
    rw [this, List.take_succ_cons, take_length_append]
  have h8 : (Re.group 8 (.seq (.chr isDirectiveMark) (.star (.chr isNotSpaceBrace) true))).run k
        ⟨prev, pos, mark :: (name ++ rest), caps⟩
      = k ⟨advPrev (some mark) name, pos + 1 + name.length, rest, (8, mark :: name) :: caps⟩ := by
    rw [run_group]
    simp only [run_seq, run_chr_cons, hmark, if_true]
    rw [run_star_greedy_run isNotSpaceBrace _ name rest hname hrest (some mark) (pos + 1) caps]
    · simp only [e]
    · simp only [e]
      exact hk
  rw [Re.opt, run_alt, h8]
  cases hr : k ⟨advPrev (some mark) name, pos + 1 + name.length, rest, (8, mark :: name) :: caps⟩ with
  | none => rw [hr] at hk; simp at hk
  | some r => rfl

theorem curly_plain {α : Type} (k : Pos → Option α) (st : Pos)
    (hhead : ∀ c ∈ st.rest.head?, isDirectiveMark c = false) :
    (Re.opt (.group 8 (.seq (.chr isDirectiveMark) (.star (.chr isNotSpaceBrace) true)))).run k st
      = k st := by
  obtain ⟨prev, pos, rest, caps⟩ := st
  rw [Re.opt, run_alt, run_group, run_seq]
  cases rest with
  | nil => simp [run_chr_nil, run_eps]
  | cons c cs =>
    have hc : isDirectiveMark c = false := hhead c (by simp)
    simp [run_chr_cons, hc, run_eps]

theorem tagPat2_run_curly {α : Type} (k : Pos → Option α) (prev : Option Char) (pos : Nat)
    (rest : Str) (caps : List (Nat × Str)) :
    tagPat2.run k ⟨prev, pos, Char.ofNat 123 :: rest, caps⟩
      = curlyPat.run k ⟨prev, pos, Char.ofNat 123 :: rest, caps⟩ := by
  have h : (Char.ofNat 123 == '<') = false := by decide
  simp only [tagPat2, run_alt, commentPat, anglePat, run_group, run_seq, Re.str, Re.lit,
    run_chr_cons, h, Bool.false_eq_true, if_false]

theorem curly_matchAt_mark (prev : Option Char) (mark : Char) (name body rest : Str)
    (hmark : isDirectiveMark mark = true) (hname : ∀ c ∈ name, isNotSpaceBrace c = true)
    (hhead : ∀ c ∈ body.head?, isSpace c = true) (hbody : Char.ofNat 125 ∉ body) :
    tagPat2.matchAt prev (Char.ofNat 123 :: mark :: (name ++ (body ++ Char.ofNat 125 :: rest)))
      = some ⟨Char.ofNat 123 :: mark :: (name ++ (body ++ [Char.ofNat 125])), rest,
          [(7, Char.ofNat 123 :: mark :: (name ++ (body ++ [Char.ofNat 125]))),
            (8, mark :: name)]⟩ := by
  have hs : Char.ofNat 123 :: mark :: (name ++ (body ++ Char.ofNat 125 :: rest))
      = (Char.ofNat 123 :: mark :: (name ++ (body ++ [Char.ofNat 125]))) ++ rest := by simp
  have hlen : (Char.ofNat 123 :: mark :: (name ++ (body ++ [Char.ofNat 125]))).length
      = 0 + 1 + 1 + name.length + body.length + 1 - 0 := by
    simp only [List.length_cons, List.length_append, List.length_nil]
    omega
  have htake : (Char.ofNat 123 :: mark :: (name ++ (body ++ Char.ofNat 125 :: rest))).take
      (0 + 1 + 1 + name.length + body.length + 1 - 0)
        = Char.ofNat 123 :: mark :: (name ++ (body ++ [Char.ofNat 125])) := by
    rw [← hlen, hs, take_length_append]
  have hrest : ∀ c ∈ (body ++ Char.ofNat 125 :: rest).head?, isNotSpaceBrace c = false := by
    intro c hc
    cases body with
    | nil =>
      simp only [List.nil_append, List.head?_cons, Option.mem_def, Option.some.injEq] at hc
      subst hc
      decide
    | cons b bs =>
      simp only [List.cons_append, List.head?_cons, Option.mem_def, Option.some.injEq] at hc
      subst hc
      have := hhead b (by simp)
      simp [isNotSpaceBrace, this]
  have hrun : tagPat2.run some
        ⟨prev, 0, Char.ofNat 123 :: mark :: (name ++ (body ++ Char.ofNat 125 :: rest)), []⟩
      = some ⟨some (Char.ofNat 125), 0 + 1 + 1 + name.length + body.length + 1, rest,
          [(7, Char.ofNat 123 :: mark :: (name ++ (body ++ [Char.ofNat 125]))),
            (8, mark :: name)]⟩ := by
    rw [tagPat2_run_curly, curlyPat, run_group, run_seq]
    simp only [Re.lit, run_chr_cons, beq_self_eq_true, if_true]
    have htail := fun (k : Pos → Option Pos) (hk : _) =>
      curly_tail k (advPrev (some mark) name) (0 + 1 + 1 + name.length) [(8, mark :: name)] body
        rest hbody hk
    simp only [Re.lit] at htail
    rw [run_seq, curly_derivative _ _ _ _ mark name _ hmark hname hrest]
    · rw [htail _ (by simp)]
      simp only [htake]
    · rw [htail _ (by simp)]
      simp
  exact matchAt_of_run tagPat2 prev _ _ rest _ hs hrun rfl

theorem curly_matchAt_plain (prev : Option Char) (body rest : Str)
    (hhead : ∀ c ∈ (body ++ [Char.ofNat 125]).head?, isDirectiveMark c = false)
    (hbody : Char.ofNat 125 ∉ body) :
    tagPat2.matchAt prev (Char.ofNat 123 :: (body ++ Char.ofNat 125 :: rest))
      = some ⟨Char.ofNat 123 :: (body ++ [Char.ofNat 125]), rest,
          [(7, Char.ofNat 123 :: (body ++ [Char.ofNat 125]))]⟩ := by
  have hs : Char.ofNat 123 :: (body ++ Char.ofNat 125 :: rest)
      = (Char.ofNat 123 :: (body ++ [Char.ofNat 125])) ++ rest := by simp
  have hlen : (Char.ofNat 123 :: (body ++ [Char.ofNat 125])).length
      = 0 + 1 + body.length + 1 - 0 := by
    simp only [List.length_cons, List.length_append, List.length_nil]
    omega
  have htake : (Char.ofNat 123 :: (body ++ Char.ofNat 125 :: rest)).take
      (0 + 1 + body.length + 1 - 0) = Char.ofNat 123 :: (body ++ [Char.ofNat 125]) := by
    rw [← hlen, hs, take_length_append]
  have hh : ∀ c ∈ (body ++ Char.ofNat 125 :: rest).head?, isDirectiveMark c = false := by
    intro c hc
    apply hhead c
    cases body with
    | nil => simpa using hc
    | cons b bs => simpa using hc
  have hrun : tagPat2.run some ⟨prev, 0, Char.ofNat 123 :: (body ++ Char.ofNat 125 :: rest), []⟩
      = some ⟨some (Char.ofNat 125), 0 + 1 + body.length + 1, rest,
          [(7, Char.ofNat 123 :: (body ++ [Char.ofNat 125]))]⟩ := by
    rw [tagPat2_run_curly, curlyPat, run_group, run_seq]
    simp only [Re.lit, run_chr_cons, beq_self_eq_true, if_true]
    have htail := fun (k : Pos → Option Pos) (hk : _) =>
      curly_tail k (some (Char.ofNat 123)) (0 + 1) [] body rest hbody hk
    simp only [Re.lit] at htail
    rw [run_seq, curly_plain _ _ hh, htail _ (by simp)]
    simp only [htake]
  exact matchAt_of_run tagPat2 prev _ _ rest _ hs hrun rfl

theorem tagPat2_matchAt_ne (prev : Option Char) (c : Char) (rest : Str) (hc : c ≠ '<')
    (hc' : c ≠ Char.ofNat 123) : tagPat2.matchAt prev (c :: rest) = none := by
  simp [Re.matchAt, tagPat2, run_alt, commentPat, anglePat, curlyPat, run_group, run_seq, Re.str,
    Re.lit, run_chr_cons, hc, hc']

theorem tagPat2_matchAt_nil (prev : Option Char) : tagPat2.matchAt prev [] = none := by
  simp [Re.matchAt, tagPat2, run_alt, commentPat, anglePat, curlyPat, run_group, run_seq, Re.str,
    Re.lit, run_chr_nil]

theorem tagPat2_find_text (t : Str) (ht : '<' ∉ t) (ht' : Char.ofNat 123 ∉ t) (x : Char)
    (xs : Str) (m : Match) (hm : tagPat2.matchAt (advPrev none t) (x :: xs) = some m) :
    tagPat2.find (t ++ x :: xs) = some (t, m) := by
  unfold Re.find
  rw [findFrom_skip tagPat2 t (fun c hc prev rest =>
    tagPat2_matchAt_ne prev c rest (fun e => ht (e ▸ hc)) (fun e => ht' (e ▸ hc)))]
  simp [Re.findFrom, hm]

theorem tagPat2_find_none (t : Str) (ht : '<' ∉ t) (ht' : Char.ofNat 123 ∉ t) :
    tagPat2.find t = none := by
  unfold Re.find
  have := findFrom_skip tagPat2 t (fun c hc prev rest =>
    tagPat2_matchAt_ne prev c rest (fun e => ht (e ▸ hc)) (fun e => ht' (e ▸ hc))) [] none
  rw [List.append_nil] at this
  rw [this]
  simp [Re.findFrom, tagPat2_matchAt_nil]

theorem tokens2_nil (b : Bool) : tokensFrom tagPat2 [] b = [] := by
  rw [tokensFrom_none tagPat2 [] b (tagPat2_find_none [] (by simp) (by simp)), parseContent_nil]

theorem curlyToken_mark (mark : Char) (name body : Str) (hmark : isDirectiveMark mark = true) :
    curlyToken (Char.ofNat 123 :: mark :: (name ++ (body ++ [Char.ofNat 125]))) (mark :: name)
      = .mk "curly".toList name (markPosition mark)
          (Char.ofNat 123 :: mark :: (name ++ (body ++ [Char.ofNat 125]))) body [] := by
  have hlen : (Char.ofNat 123 :: mark :: (name ++ (body ++ [Char.ofNat 125]))).length - 1
      = (Char.ofNat 123 :: mark :: (name ++ body)).length := by
    simp only [List.length_cons, List.length_append, List.length_nil]
    omega
  have e1 : Char.ofNat 123 :: mark :: (name ++ (body ++ [Char.ofNat 125]))
      = (Char.ofNat 123 :: mark :: (name ++ body)) ++ [Char.ofNat 125] := by simp
  have e2 : (Char.ofNat 123 :: mark :: (name ++ body)).drop (1 + (mark :: name).length) = body := by
    have : 1 + (mark :: name).length = (Char.ofNat 123 :: mark :: name).length := by
      simp only [List.length_cons]; omega
    rw [this]
    have e3 : Char.ofNat 123 :: mark :: (name ++ body)
        = (Char.ofNat 123 :: mark :: name) ++ body := by simp
    rw [e3, List.drop_left]
  have hge : (Char.ofNat 123 :: mark :: (name ++ (body ++ [Char.ofNat 125]))).length - 1
      ≥ 1 + (mark :: name).length := by
    simp only [List.length_cons, List.length_append, List.length_nil]
    omega
  have htake : (Char.ofNat 123 :: mark :: (name ++ (body ++ [Char.ofNat 125]))).take
      (Char.ofNat 123 :: mark :: (name ++ body)).length
        = Char.ofNat 123 :: mark :: (name ++ body) := by
    rw [e1]
    exact take_length_append _ _
  have hpos : (match (mark :: name).head? with
      | some '#' => Position.Open
      | some '/' => Position.Close
      | some ':' => Position.Continue
      | _ => Position.Empty) = markPosition mark := by
    have h4 : mark = '@' ∨ mark = ':' ∨ mark = '/' ∨ mark = '#' := by
      simpa [isDirectiveMark, or_assoc] using hmark
    rcases h4 with h | h | h | h <;> subst h <;> rfl
  unfold curlyToken
  simp only [if_pos hge]
  rw [hlen, htake, e2, hpos]
  rfl

theorem curlyToken_plain (body : Str) :
    curlyToken (Char.ofNat 123 :: (body ++ [Char.ofNat 125])) []
      = .mk "curly".toList [] .Empty (Char.ofNat 123 :: (body ++ [Char.ofNat 125])) body [] := by
  have hlen : (Char.ofNat 123 :: (body ++ [Char.ofNat 125])).length - 1
      = (Char.ofNat 123 :: body).length := by
    simp only [List.length_cons, List.length_append, List.length_nil]
    omega
  have e1 : Char.ofNat 123 :: (body ++ [Char.ofNat 125])
      = (Char.ofNat 123 :: body) ++ [Char.ofNat 125] := by simp
  have hge : (Char.ofNat 123 :: (body ++ [Char.ofNat 125])).length - 1
      ≥ 1 + ([] : Str).length := by
    simp only [List.length_cons, List.length_append, List.length_nil]
    omega
  have htake : (Char.ofNat 123 :: (body ++ [Char.ofNat 125])).take (Char.ofNat 123 :: body).length
      = Char.ofNat 123 :: body := by
    rw [e1]
    exact take_length_append _ _
  unfold curlyToken
  simp only [if_pos hge]
  rw [hlen, htake]
  rfl

theorem tokens2_mark (p : Str) (hp : '<' ∉ p) (hp' : Char.ofNat 123 ∉ p) (mark : Char)
    (name body rest : Str) (b : Bool)
    (hmark : isDirectiveMark mark = true) (hname : ∀ c ∈ name, isNotSpaceBrace c = true)
    (hhead : ∀ c ∈ body.head?, isSpace c = true) (hbody : Char.ofNat 125 ∉ body) :
    tokensFrom tagPat2 (p ++ Char.ofNat 123 :: mark :: (name ++ (body ++ Char.ofNat 125 :: rest))) b
      = parseContent p b false
          ++ .tok (.mk "curly".toList name (markPosition mark)
                (Char.ofNat 123 :: mark :: (name ++ (body ++ [Char.ofNat 125]))) body [])
              :: tokensFrom tagPat2 rest false := by
  have hm := curly_matchAt_mark (advPrev none p) mark name body rest hmark hname hhead hbody
  have hfind := tagPat2_find_text p hp hp' _ _ _ hm
  rw [tokensFrom_step tagPat2 tagPat2_consumes _ b _ _ hfind]
  have g7 : Match.group ⟨Char.ofNat 123 :: mark :: (name ++ (body ++ [Char.ofNat 125])), rest,
      [(7, Char.ofNat 123 :: mark :: (name ++ (body ++ [Char.ofNat 125]))), (8, mark :: name)]⟩ 7
        = Char.ofNat 123 :: mark :: (name ++ (body ++ [Char.ofNat 125])) := rfl
  have hd : decide (Char.ofNat 123 :: mark :: (name ++ (body ++ [Char.ofNat 125])) = []) = false :=
    decide_eq_false (List.cons_ne_nil _ _)
  rw [g7, hd, List.append_assoc]
  congr 1
  unfold matchTokens
  rw [if_neg (fun h => h rfl), if_pos (by rw [g7]; exact List.cons_ne_nil _ _), g7]
  have g8 : Match.group ⟨Char.ofNat 123 :: mark :: (name ++ (body ++ [Char.ofNat 125])), rest,
      [(7, Char.ofNat 123 :: mark :: (name ++ (body ++ [Char.ofNat 125]))), (8, mark :: name)]⟩ 8
        = mark :: name := rfl
  rw [g8, curlyToken_mark mark name body hmark]
  rfl

theorem tokens2_plain (p : Str) (hp : '<' ∉ p) (hp' : Char.ofNat 123 ∉ p) (body rest : Str)
    (b : Bool) (hhead : ∀ c ∈ (body ++ [Char.ofNat 125]).head?, isDirectiveMark c = false)
    (hbody : Char.ofNat 125 ∉ body) :
    tokensFrom tagPat2 (p ++ Char.ofNat 123 :: (body ++ Char.ofNat 125 :: rest)) b
      = parseContent p b false
          ++ .tok (.mk "curly".toList [] .Empty (Char.ofNat 123 :: (body ++ [Char.ofNat 125])) body
                [])
              :: tokensFrom tagPat2 rest false := by
  have hm := curly_matchAt_plain (advPrev none p) body rest hhead hbody
  have hfind := tagPat2_find_text p hp hp' _ _ _ hm
  rw [tokensFrom_step tagPat2 tagPat2_consumes _ b _ _ hfind]
  have g7 : Match.group ⟨Char.ofNat 123 :: (body ++ [Char.ofNat 125]), rest,
      [(7, Char.ofNat 123 :: (body ++ [Char.ofNat 125]))]⟩ 7
        = Char.ofNat 123 :: (body ++ [Char.ofNat 125]) := rfl
  have hd : decide (Char.ofNat 123 :: (body ++ [Char.ofNat 125]) = []) = false :=
    decide_eq_false (List.cons_ne_nil _ _)
  rw [g7, hd, List.append_assoc]
  congr 1
  unfold matchTokens
  rw [if_neg (fun h => h rfl), if_pos (by rw [g7]; exact List.cons_ne_nil _ _), g7]
  have g8 : Match.group ⟨Char.ofNat 123 :: (body ++ [Char.ofNat 125]), rest,
      [(7, Char.ofNat 123 :: (body ++ [Char.ofNat 125]))]⟩ 8 = [] := rfl
  rw [g8, curlyToken_plain]
  rfl

/-! ## The directive `if` -/

theorem foldLoop_continue (k n s e : Str) (c : List (Str × List Item)) (rest : List Item)
    (top : StackItem) (below : List StackItem) :
    foldLoop (.tok (.mk k n .Continue s e c) :: rest) top below
      = foldLoop rest ⟨top.token.withChildren (slotSet top.token.children n []), n⟩ below := by
  simp only [foldLoop, Token.position, Token.name]

theorem pushAll_else (k n : Str) (pos : Position) (s e : Str) (xs ys items : List Item) :
    pushAll ⟨.mk k n pos s e [("default".toList, xs), ("else".toList, ys)], "else".toList⟩ items
      = ⟨.mk k n pos s e [("default".toList, xs), ("else".toList, ys ++ items)],
          "else".toList⟩ := by
  induction items generalizing ys with
  | nil => simp [pushAll]
  | cons i rest ih =>
    have : pushAll ⟨.mk k n pos s e [("default".toList, xs), ("else".toList, ys)],
          "else".toList⟩ (i :: rest)
        = pushAll ⟨.mk k n pos s e [("default".toList, xs), ("else".toList, ys ++ [i])],
            "else".toList⟩ rest := rfl
    rw [this, ih]
    simp

theorem fold_if_else (k s e k2 s2 e2 k3 s3 e3 : Str) (xs ys : Str) :
    foldToken (.tok (.mk k "if".toList .Open s e [])
        :: (textItem xs ++ .tok (.mk k2 "else".toList .Continue s2 e2 [])
          :: (textItem ys ++ [.tok (.mk k3 "if".toList .Close s3 e3 [])])))
      = [.tok (.mk k "if".toList .Open s e
          [("default".toList, textItem xs), ("else".toList, textItem ys)])] := by
  rw [foldToken_eq, foldLoop_open, foldLoop_textItem, pushAll_default, foldLoop_continue]
  have e1 : (Token.mk k "if".toList .Open s e [("default".toList, [] ++ textItem xs)]).withChildren
      (slotSet (Token.mk k "if".toList .Open s e [("default".toList, [] ++ textItem xs)]).children
        "else".toList [])
      = .mk k "if".toList .Open s e [("default".toList, textItem xs), ("else".toList, [])] := rfl
  simp only [e1]
  rw [foldLoop_textItem, pushAll_else, foldLoop_close]
  rfl

theorem fold_if (k s e k3 s3 e3 : Str) (xs : Str) :
    foldToken (.tok (.mk k "if".toList .Open s e [])
        :: (textItem xs ++ [.tok (.mk k3 "if".toList .Close s3 e3 [])]))
      = [.tok (.mk k "if".toList .Open s e [("default".toList, textItem xs)])] := by
  rw [foldToken_eq, foldLoop_open, foldLoop_textItem, pushAll_default, foldLoop_close]
  rfl

theorem parseTokens_textItem (ev : Evaluator) (s : Str) (context : Option (List (Str × Value))) :
    parseTokens ev (textItem s) context = textElements s := by
  unfold textItem textElements
  by_cases h : s = []
  · simp only [h, ne_eq, not_true_eq_false, if_false, parseTokens]
  · simp only [ne_eq, h, not_false_eq_true, if_true]
    rw [parseTokens, parseTokens, NewElement_text]

theorem parseTokens_if (ev : Evaluator) (s e : Str) (children : List (Str × List Item))
    (pos : Position) (ctx : List (Str × Value)) :
    parseTokens ev [.tok (.mk "curly".toList "if".toList pos s e children)] (some ctx)
      = if truthy (ev.evaluate e ctx) then parseSlot ev "default".toList children (some ctx)
        else parseSlot ev "else".toList children (some ctx) := by
  rw [parseTokens, parseTokens, List.append_nil, parseToken]
  have h1 : ¬ ("curly".toList = "angle".toList) := by decide
  have h2 : ¬ ("if".toList = ([] : Str)) := by decide
  simp only [if_neg h1, if_neg h2, if_true, ensureContext, Option.getD_some]

theorem Parse_some (ev : Evaluator) (source : Str) (ctx : List (Str × Value)) :
    Parse ev source (some ctx)
      = parseTokens ev (foldToken (tokensFrom tagPat2 source true)) (some ctx) := rfl

theorem tokens_if_else (c X Y : Str) (hc : Char.ofNat 125 ∉ c)
    (hX : '<' ∉ X ∧ Char.ofNat 123 ∉ X) (hY : '<' ∉ Y ∧ Char.ofNat 123 ∉ Y) :
    tokensFrom tagPat2
        ("\x7b#if ".toList ++ c ++ "\x7d".toList ++ X ++ "\x7b:else\x7d".toList ++ Y
          ++ "\x7b/if\x7d".toList) true
      = .tok (.mk "curly".toList "if".toList .Open ("\x7b#if ".toList ++ c ++ "\x7d".toList)
            (' ' :: c) [])
          :: (textItem (unescape X)
            ++ .tok (.mk "curly".toList "else".toList .Continue "\x7b:else\x7d".toList [] [])
              :: (textItem (unescape Y)
                ++ [.tok (.mk "curly".toList "if".toList .Close "\x7b/if\x7d".toList [] [])])) := by
  have hif : ∀ x ∈ "if".toList, isNotSpaceBrace x = true := by decide
  have helse : ∀ x ∈ "else".toList, isNotSpaceBrace x = true := by decide
  have h1 := tokens2_mark [] (by simp) (by simp) '#' "if".toList (' ' :: c)
    (X ++ "\x7b:else\x7d".toList ++ Y ++ "\x7b/if\x7d".toList) true (by decide) hif
    (by intro x hx; simp at hx; subst hx; decide)
    (by intro hm; rcases List.mem_cons.1 hm with h | h
        · exact absurd h (by decide)
        · exact hc h)
  have h2 := tokens2_mark X hX.1 hX.2 ':' "else".toList [] (Y ++ "\x7b/if\x7d".toList) false
    (by decide) helse (by simp) (by simp)
  have h3 := tokens2_mark Y hY.1 hY.2 '/' "if".toList [] [] false (by decide) hif (by simp)
    (by simp)
  have e1 : "\x7b#if ".toList ++ c ++ "\x7d".toList ++ X ++ "\x7b:else\x7d".toList ++ Y
        ++ "\x7b/if\x7d".toList
      = [] ++ Char.ofNat 123 :: '#' :: ("if".toList ++ ((' ' :: c) ++ Char.ofNat 125
          :: (X ++ "\x7b:else\x7d".toList ++ Y ++ "\x7b/if\x7d".toList))) := by
    simp [String.toList]
  have e2 : X ++ "\x7b:else\x7d".toList ++ Y ++ "\x7b/if\x7d".toList
      = X ++ Char.ofNat 123 :: ':' :: ("else".toList ++ ([] ++ Char.ofNat 125
          :: (Y ++ "\x7b/if\x7d".toList))) := by
    simp [String.toList]
  have e3 : Y ++ "\x7b/if\x7d".toList
      = Y ++ Char.ofNat 123 :: '/' :: ("if".toList ++ ([] ++ Char.ofNat 125 :: [])) := by
    simp [String.toList]
  rw [e1, h1, e2, h2, e3, h3, tokens2_nil, parseContent_nil, parseContent_keep,
    parseContent_keep, List.nil_append]
  simp [String.toList, markPosition]

theorem tokens_if (c X : Str) (hc : Char.ofNat 125 ∉ c)
    (hX : '<' ∉ X ∧ Char.ofNat 123 ∉ X) :
    tokensFrom tagPat2 ("\x7b#if ".toList ++ c ++ "\x7d".toList ++ X ++ "\x7b/if\x7d".toList) true
      = .tok (.mk "curly".toList "if".toList .Open ("\x7b#if ".toList ++ c ++ "\x7d".toList)
            (' ' :: c) [])
          :: (textItem (unescape X)
            ++ [.tok (.mk "curly".toList "if".toList .Close "\x7b/if\x7d".toList [] [])]) := by
  have hif : ∀ x ∈ "if".toList, isNotSpaceBrace x = true := by decide
  have h1 := tokens2_mark [] (by simp) (by simp) '#' "if".toList (' ' :: c)
    (X ++ "\x7b/if\x7d".toList) true (by decide) hif
    (by intro x hx; simp at hx; subst hx; decide)
    (by intro hm; rcases List.mem_cons.1 hm with h | h
        · exact absurd h (by decide)
        · exact hc h)
  have h3 := tokens2_mark X hX.1 hX.2 '/' "if".toList [] [] false (by decide) hif (by simp)
    (by simp)
  have e1 : "\x7b#if ".toList ++ c ++ "\x7d".toList ++ X ++ "\x7b/if\x7d".toList
      = [] ++ Char.ofNat 123 :: '#' :: ("if".toList ++ ((' ' :: c) ++ Char.ofNat 125
          :: (X ++ "\x7b/if\x7d".toList))) := by
    simp [String.toList]
  have e3 : X ++ "\x7b/if\x7d".toList
      = X ++ Char.ofNat 123 :: '/' :: ("if".toList ++ ([] ++ Char.ofNat 125 :: [])) := by
    simp [String.toList]
  rw [e1, h1, e3, h3, tokens2_nil, parseContent_nil, parseContent_keep, List.nil_append]
  simp [String.toList, markPosition]

theorem evaluate_of_fail (lib : GoLib) (expr : Str) (context : Option (List (Str × Value)))
    (h : evalExpress lib expr context = none) : evaluate lib expr context = .str [] := by
  unfold evaluate
  rw [h]

/-- C13, counterexample. The condition `"}" != ""` is a true expression, but in the template
`{#if "}" != ""}X{:else}Y{/if}` the directive ends at the first closing brace, inside the
string literal: the condition text read is ` "`, which does not parse, and the template
evaluates to `Y`. -/
theorem C13_counterexample :
    truthy (evaluate sampleLib "\"\x7d\" != \"\"".toList (some [])) = true
    ∧ (Parse (codeEvaluator sampleLib)
        ("\x7b#if ".toList ++ "\"\x7d\" != \"\"".toList ++ "\x7d".toList ++ "X".toList
          ++ "\x7b:else\x7d".toList ++ "Y".toList ++ "\x7b/if\x7d".toList)
        (some [])).map (Element.String id)
      = ["Y".toList] := by
  decide!

/-- C13, amended. For every condition text `c` without a closing brace, all texts `X` and `Y` without
`<` and without an opening brace, and every context, the template `{#if c}X{:else}Y{/if}`
evaluates to the evaluation of `X`, its text element (the text unescaped and untrimmed, no
element for the empty text), when `truthy(evaluate(c))` holds and to that of `Y` otherwise;
the condition is evaluated on the text that the directive holds after `#if`, a blank and `c`.
Without the slot `{:else}` a false condition yields no output, and so does, for the
evaluator of parser.go, a condition whose evaluation fails. -/
theorem C13_if_else (ev : Evaluator) (ctx : List (Str × Value)) (c X Y : Str)
    (hc : Char.ofNat 125 ∉ c) (hX : '<' ∉ X ∧ Char.ofNat 123 ∉ X)
    (hY : '<' ∉ Y ∧ Char.ofNat 123 ∉ Y) :
    Parse ev
        ("\x7b#if ".toList ++ c ++ "\x7d".toList ++ X ++ "\x7b:else\x7d".toList ++ Y
          ++ "\x7b/if\x7d".toList) (some ctx)
      = (if truthy (ev.evaluate (' ' :: c) ctx) then textElements (unescape X)
          else textElements (unescape Y))
    ∧ Parse ev ("\x7b#if ".toList ++ c ++ "\x7d".toList ++ X ++ "\x7b/if\x7d".toList) (some ctx)
      = (if truthy (ev.evaluate (' ' :: c) ctx) then textElements (unescape X) else [])
    ∧ ∀ lib : GoLib, evalExpress lib (' ' :: c) (some ctx) = none →
        Parse (codeEvaluator lib)
          ("\x7b#if ".toList ++ c ++ "\x7d".toList ++ X ++ "\x7b/if\x7d".toList) (some ctx)
          = [] := by
  have h2 : ∀ ev' : Evaluator,
      Parse ev' ("\x7b#if ".toList ++ c ++ "\x7d".toList ++ X ++ "\x7b/if\x7d".toList) (some ctx)
        = (if truthy (ev'.evaluate (' ' :: c) ctx) then textElements (unescape X) else []) := by
    intro ev'
    rw [Parse_some, tokens_if c X hc hX, fold_if, parseTokens_if]
    simp only [parseSlot, if_true, parseTokens_textItem]
    rfl
  refine ⟨?_, h2 ev, ?_⟩
  · rw [Parse_some, tokens_if_else c X Y hc hX hY, fold_if_else, parseTokens_if]
    have d1 : ¬ ("default".toList = "else".toList) := by decide
    simp only [parseSlot, if_true, if_neg d1, parseTokens_textItem]
  · intro lib hfail
    rw [h2]
    have : (codeEvaluator lib).evaluate (' ' :: c) ctx = .str [] := evaluate_of_fail lib _ _ hfail
    rw [this]
    rfl

/-- Witness of C13 (amended): the template `{#if ok}YES{:else}NO{/if}` in the context where `ok` is
false, with the sample library; the result serialises to `NO`. -/
theorem C13_if_else_witness :
    (Parse (codeEvaluator sampleLib)
        ("\x7b#if ".toList ++ "ok".toList ++ "\x7d".toList ++ "YES".toList
          ++ "\x7b:else\x7d".toList ++ "NO".toList ++ "\x7b/if\x7d".toList)
        (some [("ok".toList, .bool false)])).map (Element.String id)
      = ["NO".toList] := by
  rw [(C13_if_else (codeEvaluator sampleLib) [("ok".toList, .bool false)] "ok".toList
    "YES".toList "NO".toList (by decide) (by decide) (by decide)).1]
  decide!

/-! ## The directive `each` -/

theorem isWord_toNat (c : Char) (h : isWord c = true) :
    (48 ≤ c.toNat ∧ c.toNat ≤ 57) ∨ (65 ≤ c.toNat ∧ c.toNat ≤ 90)
      ∨ (97 ≤ c.toNat ∧ c.toNat ≤ 122) ∨ c.toNat = 95 := by
  unfold isWord at h
  simp only [Bool.or_eq_true, beq_iff_eq] at h
  rcases h with ((h | h) | h) | h
  · exact Or.inl ((isDigit_iff c).1 h)
  · exact Or.inr (Or.inl ((isUpper_iff c).1 h))
  · exact Or.inr (Or.inr (Or.inl ((isLower_iff c).1 h)))
  · exact Or.inr (Or.inr (Or.inr (by rw [h]; rfl)))

theorem isWord_not_space (c : Char) (h : isWord c = true) :
    isSpace c = false ∧ isUnicodeSpace c = false ∧ c ≠ '.' := by
  have hn := isWord_toNat c h
  refine ⟨?_, ?_, ?_⟩
  · unfold isSpace
    have h1 : c ≠ '\t' := ne_of_toNat_ne _ _ (by simp; omega)
    have h2 : c ≠ '\n' := ne_of_toNat_ne _ _ (by simp; omega)
    have h3 : c ≠ Char.ofNat 12 := ne_of_toNat_ne _ _ (by simp; omega)
    have h4 : c ≠ '\r' := ne_of_toNat_ne _ _ (by simp; omega)
    have h5 : c ≠ ' ' := ne_of_toNat_ne _ _ (by simp; omega)
    simp [h1, h2, h3, h4, h5]
  · unfold isUnicodeSpace
    simp only [Bool.or_eq_false_iff, Bool.and_eq_false_iff, decide_eq_false_iff_not, beq_eq_false_iff_ne,
      ne_eq]
    omega
  · exact ne_of_toNat_ne _ _ (by simp; omega)

theorem dropWhile_head {α : Type} (p : α → Bool) (l : List α) (h : ∀ x ∈ l.head?, p x = false) :
    l.dropWhile p = l := by
  cases l with
  | nil => rfl
  | cons x xs =>
    have := h x (by simp)
    simp [List.dropWhile, this]

theorem trimSpace_id (s : Str) (h : ∀ c ∈ s, isUnicodeSpace c = false) : trimSpace s = s := by
  unfold trimSpace
  rw [dropWhile_head _ s (fun x hx => h x (List.mem_of_mem_head? hx)),
    dropWhile_head _ s.reverse
      (fun x hx => h x (List.mem_reverse.1 (List.mem_of_mem_head? hx))),
    List.reverse_reverse]

theorem trimSpace_blank (s : Str) (h : ∀ c ∈ s, isUnicodeSpace c = false) :
    trimSpace (' ' :: s) = s := by
  have h1 : (' ' :: s).dropWhile isUnicodeSpace = s := by
    have : isUnicodeSpace ' ' = true := by decide
    simp only [List.dropWhile, this]
    exact dropWhile_head _ s (fun x hx => h x (List.mem_of_mem_head? hx))
  unfold trimSpace
  rw [h1, dropWhile_head _ s.reverse
      (fun x hx => h x (List.mem_reverse.1 (List.mem_of_mem_head? hx))),
    List.reverse_reverse]

theorem splitOnDot_word (s : Str) (h : '.' ∉ s) : splitOnDot s = [s] := by
  induction s with
  | nil => rfl
  | cons c cs ih =>
    have hc : c ≠ '.' := fun e => h (e ▸ List.mem_cons_self _ _)
    have hcs : '.' ∉ cs := fun hm => h (List.mem_cons_of_mem _ hm)
    rw [splitOnDot, if_neg hc, ih hcs]

theorem identifierPat_find (x : Char) (xs : Str)
    (h : ∀ c ∈ x :: xs, (isWord c || c == '.') = true) :
    (identifierPat.find (x :: xs)).isNone = false := by
  have hrun : identifierPat.run some ⟨none, 0, x :: xs, []⟩
      = some ⟨advPrev (some x) xs, 0 + 1 + xs.length, [], []⟩ := by
    unfold identifierPat
    rw [run_seq]
    simp only [Re.run, true_or, if_true]
    simp only [Re.plus, run_seq, run_chr_cons, h x (List.mem_cons_self _ _), if_true]
    have := run_star_greedy_run (fun c => isWord c || c == '.')
      (fun st' => Re.eot.run some st') xs []
      (fun d hd => h d (List.mem_cons_of_mem _ hd)) (by simp) (some x) (0 + 1) [] (by simp [Re.run])
    rw [List.append_nil] at this
    exact this.trans (by simp [Re.run])
  have hm : identifierPat.matchAt none (x :: xs) ≠ none := by
    unfold Re.matchAt
    rw [hrun]
    simp
  unfold Re.find
  rw [Re.findFrom]
  cases hmm : identifierPat.matchAt none (x :: xs) with
  | none => exact absurd hmm hm
  | some m => rfl

theorem interpolate_name (lib : GoLib) (ctx : List (Str × Value)) (name : Str) (w : Value)
    (hne : name ≠ []) (hname : ∀ c ∈ name, isWord c = true) (hb : mapGet ctx name = some w) :
    interpolate lib name (some ctx) = if w.isNil then .str [] else w := by
  obtain ⟨x, xs, rfl⟩ := List.exists_cons_of_ne_nil hne
  have htrim := trimSpace_id (x :: xs) (fun c hc => (isWord_not_space c (hname c hc)).2.1)
  have hdot : '.' ∉ x :: xs := fun hm => (isWord_not_space _ (hname _ hm)).2.2 rfl
  have hid := identifierPat_find x xs (fun c hc => by rw [hname c hc]; rfl)
  unfold interpolate
  simp only [htrim, hid, Bool.false_eq_true, if_false, splitOnDot_word _ hdot, ensureContext,
    Option.getD_some, lookupPath, lookupValue, hb]
  cases w <;> rfl

theorem eachSplit_matchAt_ne (prev : Option Char) (c : Char) (rest : Str)
    (hc : isSpace c = false) : eachSplitPat.matchAt prev (c :: rest) = none := by
  simp [Re.matchAt, eachSplitPat, Re.plus, run_seq, run_chr_cons, hc]

theorem eachSplit_matchAt_as (prev : Option Char) (v : Str)
    (hv : ∀ c ∈ v.head?, isSpace c = false) :
    eachSplitPat.matchAt prev (' ' :: 'a' :: 's' :: ' ' :: v)
      = some ⟨" as ".toList, v, []⟩ := by
  have hrun : eachSplitPat.run some ⟨prev, 0, ' ' :: 'a' :: 's' :: ' ' :: v, []⟩
      = some ⟨some ' ', 0 + 1 + 2 + 1, v, []⟩ := by
    have h1 : isSpace ' ' = true := by decide
    unfold eachSplitPat
    simp only [Re.plus, run_seq, run_chr_cons, h1, if_true]
    rw [run_star_greedy_nil _ _ _ (by intro c hc; simp at hc; subst hc; decide), run_str]
    simp only [String.toList, List.isPrefixOf, beq_self_eq_true, Bool.and_self, if_true,
      List.drop, run_chr_cons, h1, List.length_cons, List.length_nil]
    rw [run_star_greedy_nil _ _ _ hv]
  exact matchAt_of_run eachSplitPat prev _ " as ".toList v _ rfl hrun rfl

theorem as_prefix_drop (name rest : Str) (hne : name ≠ [])
    (hname : ∀ c ∈ name, isSpace c = false) (has : name ≠ "as".toList)
    (hp : "as".toList.isPrefixOf (name ++ ' ' :: rest) = true) :
    ∃ x tl, (name ++ ' ' :: rest).drop 2 = x :: tl ∧ isSpace x = false := by
  match name, hne, hname, has with
  | [a], _, _, _ =>
    simp [String.toList, List.isPrefixOf] at hp
  | [a, b], _, _, has =>
    simp only [String.toList, List.cons_append, List.nil_append, List.isPrefixOf, Bool.and_true,
      Bool.and_eq_true, beq_iff_eq] at hp
    exact absurd (by rw [← hp.1, ← hp.2]; rfl) has
  | a :: b :: x :: tl, _, hname, _ =>
    exact ⟨x, tl ++ ' ' :: rest, rfl, hname x (by simp)⟩

theorem eachSplit_matchAt_start (name rest : Str) (hne : name ≠ [])
    (hname : ∀ c ∈ name, isSpace c = false) (has : name ≠ "as".toList) :
    eachSplitPat.matchAt none (' ' :: (name ++ ' ' :: rest)) = none := by
  have h1 : isSpace ' ' = true := by decide
  have hhead : ∀ c ∈ (name ++ ' ' :: rest).head?, isSpace c = false := by
    obtain ⟨x, xs, rfl⟩ := List.exists_cons_of_ne_nil hne
    intro c hc
    simp only [List.cons_append, List.head?_cons, Option.mem_def, Option.some.injEq] at hc
    subst hc
    exact hname _ (List.mem_cons_self _ _)
  have hnone : ∀ (p : Option Char) (n : Nat) (c : Char) (cs : Str), isSpace c = false →
      (Re.chr isSpace).run (fun st' => (Re.star (Re.chr isSpace) true).run some st')
        ⟨p, n, c :: cs, []⟩ = none := by
    intro p n c cs hc
    simp [run_chr_cons, hc]
  unfold Re.matchAt eachSplitPat
  simp only [Re.plus, run_seq, run_chr_cons, h1, if_true]
  rw [run_star_greedy_nil _ _ _ hhead, run_str]
  by_cases hp : "as".toList.isPrefixOf (name ++ ' ' :: rest) = true
  · obtain ⟨x, tl, hd, hx⟩ := as_prefix_drop name rest hne hname has hp
    have hd' : List.drop ("as".toList.length) (name ++ ' ' :: rest) = x :: tl := hd
    rw [if_pos hp, hd', hnone _ _ x tl hx]
    rfl
  · rw [if_neg hp]
    rfl

theorem eachSplit_find (name v : Str) (hne : name ≠ [])
    (hname : ∀ c ∈ name, isSpace c = false) (has : name ≠ "as".toList)
    (hv : ∀ c ∈ v.head?, isSpace c = false) :
    eachSplitPat.find (' ' :: (name ++ " as ".toList ++ v))
      = some (' ' :: name, ⟨" as ".toList, v, []⟩) := by
  have e : ' ' :: (name ++ " as ".toList ++ v) = ' ' :: (name ++ ' ' :: ("as ".toList ++ v)) := by
    simp [String.toList]
  have h0 := eachSplit_matchAt_start name ("as ".toList ++ v) hne hname has
  have hskip := findFrom_skip eachSplitPat name
    (fun c hc prev rest => eachSplit_matchAt_ne prev c rest (hname c hc))
    (' ' :: 'a' :: 's' :: ' ' :: v) (some ' ')
  have hm := eachSplit_matchAt_as (advPrev (some ' ') name) v hv
  have hlast : eachSplitPat.findFrom (advPrev (some ' ') name) (' ' :: 'a' :: 's' :: ' ' :: v)
      = some ([], ⟨" as ".toList, v, []⟩) := by
    rw [Re.findFrom, hm]
  have e2 : name ++ ' ' :: ("as ".toList ++ v) = name ++ ' ' :: 'a' :: 's' :: ' ' :: v := by
    simp [String.toList]
  unfold Re.find
  rw [e, Re.findFrom, h0, e2, hskip, hlast]
  simp

theorem parseTokens_each (ev : Evaluator) (s e : Str) (children : List (Str × List Item))
    (pos : Position) (ctx : List (Str × Value)) :
    parseTokens ev [.tok (.mk "curly".toList "each".toList pos s e children)] (some ctx)
      = match eachSplitPat.find e with
        | none => []
        | some (before, m) =>
          if isIterable (ev.interpolate (trimSpace before) ctx) then
            (iterate (ev.interpolate (trimSpace before) ctx)).flatMap fun item =>
              parseSlot ev "default".toList children (some (mapSet ctx (trimSpace m.after) item))
          else [] := by
  rw [parseTokens, parseTokens, List.append_nil, parseToken]
  have h1 : ¬ ("curly".toList = "angle".toList) := by decide
  have h2 : ¬ ("each".toList = ([] : Str)) := by decide
  have h3 : ¬ ("each".toList = "if".toList) := by decide
  simp only [if_neg h1, if_neg h2, if_neg h3, if_true, ensureContext, Option.getD_some]

theorem parseTokens_each_name (lib : GoLib) (s : Str) (B : List Item) (pos : Position)
    (ctx : List (Str × Value)) (name v : Str) (w : Value) (hne : name ≠ [])
    (hname : ∀ c ∈ name, isWord c = true) (has : name ≠ "as".toList)
    (hv : ∀ c ∈ v.head?, isSpace c = false) (hb : mapGet ctx name = some w) :
    parseTokens (codeEvaluator lib)
        [.tok (.mk "curly".toList "each".toList pos s (' ' :: (name ++ " as ".toList ++ v))
          [("default".toList, B)])] (some ctx)
      = if isIterable w then
          (iterate w).flatMap fun item =>
            parseTokens (codeEvaluator lib) B (some (mapSet ctx (trimSpace v) item))
        else [] := by
  have hfind := eachSplit_find name v hne (fun c hc => (isWord_not_space c (hname c hc)).1) has hv
  have htrim := trimSpace_blank name (fun c hc => (isWord_not_space c (hname c hc)).2.1)
  have hint : (codeEvaluator lib).interpolate name ctx = if w.isNil then .str [] else w :=
    interpolate_name lib ctx name w hne hname hb
  rw [parseTokens_each, hfind]
  simp only [htrim, hint, parseSlot, if_true]
  cases w <;> rfl

/-- C14, counterexample. The context name `as` is bound to a list of two items, yet the
template `{#each as as v}B{/each}` yields no output: the directive text is split at its first
`as` between blanks, which is the name itself, so the collection expression is empty. -/
theorem C14_counterexample :
    (Parse (codeEvaluator sampleLib)
        ("\x7b#each as as v\x7d".toList ++ "B".toList ++ "\x7b/each\x7d".toList)
        (some [("as".toList, .list [.int 1, .int 2])])).length = 0 := by
  decide!

/-- C14, amended. For every context name `name` of word characters other than `as`, every
loop variable text `v` that does not start with whitespace and every body `B` (the folded
tokens between `{#each name as v}` and `{/each}`): when `name` is bound to a list `xs`, the
directive evaluates to the concatenation, in list order, of the evaluations of `B` under the
context extended with the variable (`v` trimmed) bound to each element of `xs`, one
evaluation per element; when `name` is bound to a value that is not a list, a map or a
string, it yields no output. -/
theorem C14_each (lib : GoLib) (s : Str) (B : List Item) (pos : Position)
    (ctx : List (Str × Value)) (name v : Str) (w : Value) (hne : name ≠ [])
    (hname : ∀ c ∈ name, isWord c = true) (has : name ≠ "as".toList)
    (hv : ∀ c ∈ v.head?, isSpace c = false) (hb : mapGet ctx name = some w) :
    (∀ xs, w = .list xs →
      parseTokens (codeEvaluator lib)
          [.tok (.mk "curly".toList "each".toList pos s (' ' :: (name ++ " as ".toList ++ v))
            [("default".toList, B)])] (some ctx)
        = (xs.map fun item =>
            parseTokens (codeEvaluator lib) B (some (mapSet ctx (trimSpace v) item))).flatten
      ∧ (xs.map fun item =>
            parseTokens (codeEvaluator lib) B (some (mapSet ctx (trimSpace v) item))).length
          = xs.length)
    ∧ (isIterable w = false →
      parseTokens (codeEvaluator lib)
          [.tok (.mk "curly".toList "each".toList pos s (' ' :: (name ++ " as ".toList ++ v))
            [("default".toList, B)])] (some ctx) = []) := by
  have h := parseTokens_each_name lib s B pos ctx name v w hne hname has hv hb
  refine ⟨?_, ?_⟩
  · intro xs hw
    subst hw
    refine ⟨?_, List.length_map _ _⟩
    rw [h]
    simp only [isIterable, if_true, iterate]
    rfl
  · intro hni
    rw [h, hni]
    rfl

/-- Witness of C14 (amended): `{#each items as item}{item}{/each}` with `items` bound to the
list 1, 2; the two evaluations of the body serialise to `1` and `2`. -/
theorem C14_each_witness :
    (parseTokens (codeEvaluator sampleLib)
        [.tok (.mk "curly".toList "each".toList .Open "\x7b#each items as item\x7d".toList
          (' ' :: ("items".toList ++ " as ".toList ++ "item".toList))
          [("default".toList,
            [.tok (.mk "curly".toList [] .Empty "\x7bitem\x7d".toList "item".toList [])])])]
        (some [("items".toList, .list [.int 1, .int 2])])).map (Element.String id)
      = ["1".toList, "2".toList]
    ∧ (Parse (codeEvaluator sampleLib)
        ("\x7b#each items as item\x7d".toList ++ "\x7bitem\x7d".toList ++ "\x7b/each\x7d".toList)
        (some [("items".toList, .list [.int 1, .int 2])])).map (Element.String id)
      = ["1".toList, "2".toList] := by
  refine ⟨?_, by decide!⟩
  rw [((C14_each sampleLib "\x7b#each items as item\x7d".toList
    [.tok (.mk "curly".toList [] .Empty "\x7bitem\x7d".toList "item".toList [])] .Open
    [("items".toList, .list [.int 1, .int 2])] "items".toList "item".toList
    (.list [.int 1, .int 2]) (by decide) (by decide) (by decide) (by decide) rfl).1
    [.int 1, .int 2] rfl).1]
  decide!

/-! ## The collection of an `each` directive -/

/-- C15, counterexample. The map with the one entry `a: 1` is iterated over its key: the
loop variable is bound to the string `a`, never to the element 1 of the map, and the template
`{#each m as k}{k}{/each}` prints `a`. -/
theorem C15_counterexample :
    (iterate (.dict [("a".toList, .int 1)])).map (Sprint id) = ["a".toList]
    ∧ ([("a".toList, Value.int 1)].map Prod.snd).map (Sprint id) = ["1".toList]
    ∧ (Parse (codeEvaluator sampleLib)
        ("\x7b#each m as k\x7d".toList ++ "\x7bk\x7d".toList ++ "\x7b/each\x7d".toList)
        (some [("m".toList, .dict [("a".toList, .int 1)])])).map (Element.String id)
      = ["a".toList] := by
  decide!

/-- C15, amended. When the collection of an `each` directive is a map, the loop variable is
bound in turn to every key of the map (not to the values), in ascending order of the keys;
when it is a string, to each code point of the string as a one-character string, in order.
Here `name` is a context name of word characters other than `as`, `v` a loop variable text
that does not start with whitespace and `B` the body of the directive. -/
theorem C15_each_keys (lib : GoLib) (s : Str) (B : List Item) (pos : Position)
    (ctx : List (Str × Value)) (name v : Str) (w : Value) (hne : name ≠ [])
    (hname : ∀ c ∈ name, isWord c = true) (has : name ≠ "as".toList)
    (hv : ∀ c ∈ v.head?, isSpace c = false) (hb : mapGet ctx name = some w) :
    (∀ kvs, w = .dict kvs →
      parseTokens (codeEvaluator lib)
          [.tok (.mk "curly".toList "each".toList pos s (' ' :: (name ++ " as ".toList ++ v))
            [("default".toList, B)])] (some ctx)
        = ((sortStrings (kvs.map Prod.fst)).map fun k =>
            parseTokens (codeEvaluator lib) B
              (some (mapSet ctx (trimSpace v) (.str k)))).flatten
      ∧ (sortStrings (kvs.map Prod.fst)).Perm (kvs.map Prod.fst)
      ∧ (sortStrings (kvs.map Prod.fst)).Pairwise (fun a b => strLe a b = true)
      ∧ ((kvs.map Prod.fst).Nodup →
          (sortStrings (kvs.map Prod.fst)).Pairwise (fun a b => strLt a b = true)))
    ∧ (∀ str, w = .str str →
      parseTokens (codeEvaluator lib)
          [.tok (.mk "curly".toList "each".toList pos s (' ' :: (name ++ " as ".toList ++ v))
            [("default".toList, B)])] (some ctx)
        = (str.map fun r =>
            parseTokens (codeEvaluator lib) B
              (some (mapSet ctx (trimSpace v) (.str [r])))).flatten) := by
  have h := parseTokens_each_name lib s B pos ctx name v w hne hname has hv hb
  refine ⟨?_, ?_⟩
  · intro kvs hw
    subst hw
    refine ⟨?_, sortStrings_perm _, sortStrings_sorted _, sortStrings_strict _⟩
    rw [h]
    simp only [isIterable, if_true, iterate, List.flatMap, List.map_map]
    rfl
  · intro str hw
    subst hw
    rw [h]
    simp only [isIterable, if_true, iterate, List.flatMap, List.map_map]
    rfl

/-- Witness of C15 (amended): `{#each m as k}{k}{/each}` with `m` bound to the map with the
entries `b: 1` and `a: 2`; the body is evaluated for the key `a`, then for the key `b`. -/
theorem C15_each_keys_witness :
    (parseTokens (codeEvaluator sampleLib)
        [.tok (.mk "curly".toList "each".toList .Open "\x7b#each m as k\x7d".toList
          (' ' :: ("m".toList ++ " as ".toList ++ "k".toList))
          [("default".toList,
            [.tok (.mk "curly".toList [] .Empty "\x7bk\x7d".toList "k".toList [])])])]
        (some [("m".toList, .dict [("b".toList, .int 1), ("a".toList, .int 2)])])).map
          (Element.String id)
      = ["a".toList, "b".toList] := by
  rw [((C15_each_keys sampleLib "\x7b#each m as k\x7d".toList
    [.tok (.mk "curly".toList [] .Empty "\x7bk\x7d".toList "k".toList [])] .Open
    [("m".toList, .dict [("b".toList, .int 1), ("a".toList, .int 2)])] "m".toList "k".toList
    (.dict [("b".toList, .int 1), ("a".toList, .int 2)]) (by decide) (by decide) (by decide)
    (by decide) rfl).1 [("b".toList, .int 1), ("a".toList, .int 2)] rfl).1]
  decide!

/-! ## The expression evaluator -/

theorem evaluate_cases (lib : GoLib) (expr : Str) (context : Option (List (Str × Value))) :
    evaluate lib expr context
      = match evalExpress lib expr context with
        | none => .str []
        | some v => if v.isNil then .str [] else v := rfl

theorem evaluate_not_nil (lib : GoLib) (expr : Str) (context : Option (List (Str × Value))) :
    (evaluate lib expr context).isNil = false := by
  rw [evaluate_cases]
  cases evalExpress lib expr context with
  | none => rfl
  | some v =>
    by_cases h : v.isNil = true
    · simp only [h, if_true]
      rfl
    · simp only [h, if_false]
      simpa using h

theorem evalExpress_none_iff (lib : GoLib) (expr : Str)
    (context : Option (List (Str × Value))) :
    evalExpress lib expr context = none
      ↔ lib.parseExpr expr = none
        ∨ ∃ node, lib.parseExpr expr = some node
            ∧ evalAST lib node (ensureContext context) = none := by
  unfold evalExpress
  cases h : lib.parseExpr expr with
  | none => simp
  | some node => simp

/-- C17, counterexample. The expression `""` parses, evaluates without failure and has a
value that is not nil, and `evaluate` returns the empty string for it. -/
theorem C17_counterexample :
    (sampleLib.parseExpr "\"\"".toList).isSome = true
    ∧ (evalExpress sampleLib "\"\"".toList (some [])).map Value.isNil = some false
    ∧ deepEqual (evaluate sampleLib "\"\"".toList (some [])) (.str []) = true := by
  decide!

/-- C17, amended. `evaluate` is total and swallows failures: for every expression text and
context it returns a value that is not nil.  It returns the empty string when parsing fails,
when evaluation fails and when the value is nil; otherwise it returns the value of the
expression, which may itself be the empty string.  Evaluation fails, among other cases, for an
unknown identifier, a division by zero, an expression node without a case in `evalAST`, an
index that `indexValue` rejects, and whenever the evaluation of an operand fails. -/
theorem C17_evaluate_total (lib : GoLib) (expr : Str) (context : Option (List (Str × Value))) :
    (evaluate lib expr context).isNil = false
    ∧ (evalExpress lib expr context = none → evaluate lib expr context = .str [])
    ∧ (evalExpress lib expr context = some .nil → evaluate lib expr context = .str [])
    ∧ (∀ v, evalExpress lib expr context = some v → v.isNil = false →
        evaluate lib expr context = v)
    ∧ (evalExpress lib expr context = none
        ↔ lib.parseExpr expr = none
          ∨ ∃ node, lib.parseExpr expr = some node
              ∧ evalAST lib node (ensureContext context) = none)
    ∧ (∀ (ctx : List (Str × Value)) (name : Str), name ≠ "true".toList → name ≠ "false".toList →
        name ≠ "nil".toList → name ≠ "null".toList → mapGet ctx name = none →
        evalAST lib (.ident name) ctx = none)
    ∧ (∀ (ctx : List (Str × Value)) (x y : Expr) (l r : Value) (f : F64),
        evalAST lib x ctx = some l → evalAST lib y ctx = some r → asFloat lib r = some f →
        f.isZero = true → evalAST lib (.binary x .QUO y) ctx = none)
    ∧ (∀ ctx : List (Str × Value), evalAST lib .other ctx = none)
    ∧ (∀ (ctx : List (Str × Value)) (x i : Expr) (b j : Value),
        evalAST lib x ctx = some b → evalAST lib i ctx = some j → indexValue b j = none →
        evalAST lib (.index x i) ctx = none)
    ∧ (∀ (ctx : List (Str × Value)) (x y : Expr) (op : Op),
        (evalAST lib x ctx = none ∨ evalAST lib y ctx = none) →
        evalAST lib (.binary x op y) ctx = none ∧ evalAST lib (.index x y) ctx = none)
    ∧ (∀ (ctx : List (Str × Value)) (x : Expr) (op : Op) (sel : Str),
        evalAST lib x ctx = none →
        evalAST lib (.unary op x) ctx = none ∧ evalAST lib (.paren x) ctx = none
          ∧ evalAST lib (.selector x sel) ctx = none) := by
  refine ⟨evaluate_not_nil lib expr context, ?_, ?_, ?_, evalExpress_none_iff lib expr context,
    ?_, ?_, ?_, ?_, ?_, ?_⟩
  · intro h
    rw [evaluate_cases, h]
  · intro h
    rw [evaluate_cases, h]
    rfl
  · intro v h hv
    rw [evaluate_cases, h]
    simp only [hv, Bool.false_eq_true, if_false]
  · intro ctx name h1 h2 h3 h4 hg
    rw [evalAST, if_neg h1, if_neg h2, if_neg (by rintro (h | h); exact h3 h; exact h4 h), hg]
  · intro ctx x y l r f hx hy hf hz
    rw [evalAST, hx, hy]
    simp only [applyBinary]
    cases hl : asFloat lib l with
    | none => rfl
    | some lf => simp only [hf, hz, if_true]
  · intro ctx
    rw [evalAST]
  · intro ctx x i b j hx hi hj
    rw [evalAST, hx, hi]
    exact hj
  · intro ctx x y op h
    constructor
    · rw [evalAST]
      rcases h with h | h
      · rw [h]
      · rw [h]
        cases evalAST lib x ctx <;> rfl
    · rw [evalAST]
      rcases h with h | h
      · rw [h]
      · rw [h]
        cases evalAST lib x ctx <;> rfl
  · intro ctx x op sel h
    refine ⟨?_, ?_, ?_⟩
    · rw [evalAST, h]
    · rw [evalAST, h]
    · rw [evalAST, h]

/-! ## The operators `&&` and `||` -/

theorem evalAST_binary (lib : GoLib) (x y : Expr) (op : Op) (ctx : List (Str × Value)) :
    evalAST lib (.binary x op y) ctx
      = match evalAST lib x ctx with
        | none => none
        | some left =>
          match evalAST lib y ctx with
          | none => none
          | some right => applyBinary lib op left right := by
  rw [evalAST]

theorem evalAST_false (lib : GoLib) (ctx : List (Str × Value)) :
    evalAST lib (.ident "false".toList) ctx = some (.bool false) := by
  rw [evalAST, if_neg (by decide), if_pos rfl]

theorem evalAST_true (lib : GoLib) (ctx : List (Str × Value)) :
    evalAST lib (.ident "true".toList) ctx = some (.bool true) := by
  rw [evalAST, if_pos rfl]

/-- C18, counterexample. With `x` unbound, the expressions `false && x` and `true || x` fail
(and `evaluate` returns the empty string for them, not a boolean): the right operand is
evaluated although the left one decides the result. -/
theorem C18_counterexample :
    sampleLib.parseExpr "false && x".toList
        = some (.binary (.ident "false".toList) .LAND (.ident "x".toList))
    ∧ sampleLib.parseExpr "true || x".toList
        = some (.binary (.ident "true".toList) .LOR (.ident "x".toList))
    ∧ (evalAST sampleLib (.ident "x".toList) []).isNone = true
    ∧ (evalAST sampleLib (.binary (.ident "false".toList) .LAND (.ident "x".toList)) []).isNone
        = true
    ∧ (evalAST sampleLib (.binary (.ident "true".toList) .LOR (.ident "x".toList)) []).isNone
        = true
    ∧ (evalExpress sampleLib "false && x".toList (some [])).isNone = true
    ∧ (evalExpress sampleLib "true || x".toList (some [])).isNone = true
    ∧ Sprint id (evaluate sampleLib "false && x".toList (some [])) = []
    ∧ Sprint id (evaluate sampleLib "true || x".toList (some [])) = [] :=
  ⟨rfl, rfl, by decide!⟩

/-- C18, amended. The operators `&&` and `||` evaluate both operands and then combine their
truthiness: for every expression `e` whose evaluation succeeds, `false && e` evaluates
successfully to false and `true || e` evaluates successfully to true; in general the value is
the conjunction (disjunction) of the truthiness of the two operand values. -/
theorem C18_logical_operators (lib : GoLib) (ctx : List (Str × Value)) (e : Expr) (v : Value)
    (he : evalAST lib e ctx = some v) :
    evalAST lib (.binary (.ident "false".toList) .LAND e) ctx = some (.bool false)
    ∧ evalAST lib (.binary (.ident "true".toList) .LOR e) ctx = some (.bool true)
    ∧ ∀ (x : Expr) (l : Value), evalAST lib x ctx = some l →
        evalAST lib (.binary x .LAND e) ctx = some (.bool (truthy l && truthy v))
        ∧ evalAST lib (.binary x .LOR e) ctx = some (.bool (truthy l || truthy v)) := by
  refine ⟨?_, ?_, ?_⟩
  · rw [evalAST_binary, evalAST_false, he]
    rfl
  · rw [evalAST_binary, evalAST_true, he]
    rfl
  · intro x l hx
    constructor
    · rw [evalAST_binary, hx, he]
      rfl
    · rw [evalAST_binary, hx, he]
      rfl

/-- Witness of C18 (amended): the operand `ok`, bound to the string "yes". -/
theorem C18_logical_operators_witness :
    evalAST sampleLib (.binary (.ident "false".toList) .LAND (.ident "ok".toList))
        [("ok".toList, .str "yes".toList)] = some (.bool false)
    ∧ evalAST sampleLib (.binary (.ident "true".toList) .LOR (.ident "ok".toList))
        [("ok".toList, .str "yes".toList)] = some (.bool true) :=
  ⟨(C18_logical_operators sampleLib [("ok".toList, .str "yes".toList)] (.ident "ok".toList)
      (.str "yes".toList) rfl).1,
   (C18_logical_operators sampleLib [("ok".toList, .str "yes".toList)] (.ident "ok".toList)
      (.str "yes".toList) rfl).2.1⟩

/-! ## The function `compare` -/

theorem compare_str_plain (lib : GoLib) (a b : Str) (ha : lib.parseFloat a = none) :
    compare lib (.str a) (.str b)
      = some (if strLt a b then -1 else if strLt b a then 1 else 0) := by
  simp only [compare, asFloat, ha]

theorem compare_str_number (lib : GoLib) (a b : Str) (fa : F64)
    (ha : lib.parseFloat a = some fa) :
    compare lib (.str a) (.str b)
      = (lib.parseFloat b).map fun fb => if fa.lt fb then -1 else if fb.lt fa then 1 else 0 := by
  simp only [compare, asFloat, ha]
  cases lib.parseFloat b <;> rfl

/-- C19, counterexample. The strings "10" and "9" are compared as numbers: "10" is
lexicographically less than "9" and `compare` returns 1; and the comparison of the strings "1"
and "a" fails. -/
theorem C19_counterexample :
    strLt "10".toList "9".toList = true
    ∧ compare sampleLib (.str "10".toList) (.str "9".toList) = some 1
    ∧ compare sampleLib (.str "1".toList) (.str "a".toList) = none := by
  decide!

/-- C19, amended. For every pair of strings `a` and `b` where `a` is not the text of a number
(`strconv.ParseFloat` rejects it), `compare a b` succeeds and returns the sign of their
lexicographic comparison (-1 if a < b, 0 if equal, 1 if a > b); when `a` is the text of a
number, the comparison is numeric if `b` is one too and fails otherwise; for booleans
false < true; for a pair of one boolean and one non-numeric string it fails. -/
theorem C19_compare (lib : GoLib) (a b : Str) (x y : Bool) :
    (lib.parseFloat a = none →
      compare lib (.str a) (.str b)
          = some (if strLt a b then -1 else if strLt b a then 1 else 0)
      ∧ (compare lib (.str a) (.str b) = some (-1) ↔ strLt a b = true)
      ∧ (compare lib (.str a) (.str b) = some 0 ↔ a = b)
      ∧ (compare lib (.str a) (.str b) = some 1 ↔ strLt b a = true))
    ∧ (∀ fa, lib.parseFloat a = some fa →
        compare lib (.str a) (.str b)
          = (lib.parseFloat b).map fun fb =>
              if fa.lt fb then -1 else if fb.lt fa then 1 else 0)
    ∧ compare lib (.bool x) (.bool y)
        = some (if (!x && y) then -1 else if (x && !y) then 1 else 0)
    ∧ compare lib (.bool false) (.bool true) = some (-1)
    ∧ compare lib (.bool true) (.bool false) = some 1
    ∧ compare lib (.bool x) (.str b) = none
    ∧ (lib.parseFloat a = none → compare lib (.str a) (.bool x) = none) := by
  refine ⟨?_, compare_str_number lib a b, ?_, rfl, rfl, rfl, ?_⟩
  · intro ha
    rw [compare_str_plain lib a b ha]
    refine ⟨rfl, ?_, ?_, ?_⟩
    · rcases strLt_total a b with h | h | h
      · simp [h]
      · subst h
        simp [strLt_irrefl]
      · simp [h, strLt_asymm b a h]
    · rcases strLt_total a b with h | h | h
      · have hne : a ≠ b := by
          rintro rfl
          rw [strLt_irrefl] at h
          exact Bool.noConfusion h
        simp [h, hne]
      · subst h
        simp [strLt_irrefl]
      · have hne : a ≠ b := by
          rintro rfl
          rw [strLt_irrefl] at h
          exact Bool.noConfusion h
        simp [h, strLt_asymm b a h, hne]
    · rcases strLt_total a b with h | h | h
      · simp [h, strLt_asymm a b h]
      · subst h
        simp [strLt_irrefl]
      · simp [h, strLt_asymm b a h]
  · cases x <;> cases y <;> rfl
  · intro ha
    simp only [compare, asFloat, ha]

/-! ## The function `indexValue` -/

theorem indexValue_list (xs : List Value) (index : Value) (i : Int) (hi : asInt index = some i) :
    indexValue (.list xs) index
      = if 0 ≤ i ∧ i < (xs.length : Int) then xs.get? i.toNat else none := by
  simp only [indexValue, hi]
  by_cases h : 0 ≤ i ∧ i < (xs.length : Int)
  · rw [if_pos h, if_neg (by omega)]
  · rw [if_neg h, if_pos (by omega)]

theorem indexValue_str (s : Str) (index : Value) (i : Int) (hi : asInt index = some i) :
    indexValue (.str s) index
      = if 0 ≤ i ∧ i < (s.length : Int) then (s.get? i.toNat).map fun r => Value.str [r]
        else none := by
  simp only [indexValue, hi]
  by_cases h : 0 ≤ i ∧ i < (s.length : Int)
  · rw [if_pos h, if_neg (by omega), if_neg (by omega)]
  · rw [if_neg h]
    by_cases h0 : i < 0
    · rw [if_pos h0]
    · rw [if_neg h0, if_pos (by omega)]

theorem get?_toNat_some {α : Type} (l : List α) (i : Int) (h : 0 ≤ i ∧ i < (l.length : Int)) :
    ∃ v, l.get? i.toNat = some v := by
  have hlt : i.toNat < l.length := by omega
  exact ⟨l.get ⟨i.toNat, hlt⟩, List.get?_eq_get hlt⟩

/-- C20. Index access is bounds-checked.  For a list `xs` and an integer `i` (an `int` or an
`int64`), `indexValue xs i` returns the `i`-th element when `0 ≤ i < length xs` and fails
otherwise, so negative indices fail; for a string `s` it returns the `i`-th code point as a
one-character string when `0 ≤ i < number of code points`, and fails otherwise; indexing a
value that is not a list, a string or a map fails, whatever the index. -/
theorem C20_index_bounds (xs : List Value) (s : Str) (i : Int) (index : Value) :
    (0 ≤ i ∧ i < (xs.length : Int) →
      ∃ v, xs.get? i.toNat = some v ∧ indexValue (.list xs) (.int i) = some v
        ∧ indexValue (.list xs) (.int64 i) = some v)
    ∧ (¬ (0 ≤ i ∧ i < (xs.length : Int)) →
      indexValue (.list xs) (.int i) = none ∧ indexValue (.list xs) (.int64 i) = none)
    ∧ (i < 0 → indexValue (.list xs) (.int i) = none ∧ indexValue (.list xs) (.int64 i) = none)
    ∧ (0 ≤ i ∧ i < (s.length : Int) →
      ∃ r, s.get? i.toNat = some r ∧ indexValue (.str s) (.int i) = some (.str [r])
        ∧ indexValue (.str s) (.int64 i) = some (.str [r]))
    ∧ (¬ (0 ≤ i ∧ i < (s.length : Int)) →
      indexValue (.str s) (.int i) = none ∧ indexValue (.str s) (.int64 i) = none)
    ∧ indexValue .nil index = none
    ∧ (∀ b, indexValue (.bool b) index = none)
    ∧ (∀ n, indexValue (.int n) index = none)
    ∧ (∀ n, indexValue (.int64 n) index = none)
    ∧ (∀ f t, indexValue (.float f t) index = none)
    ∧ (∀ e, indexValue (.elem e) index = none)
    ∧ indexValue .nilPtr index = none := by
  refine ⟨?_, ?_, ?_, ?_, ?_, rfl, fun _ => rfl, fun _ => rfl, fun _ => rfl, fun _ _ => rfl,
    fun _ => rfl, rfl⟩
  · intro h
    obtain ⟨v, hv⟩ := get?_toNat_some xs i h
    refine ⟨v, hv, ?_, ?_⟩
    · rw [indexValue_list xs (.int i) i rfl, if_pos h, hv]
    · rw [indexValue_list xs (.int64 i) i rfl, if_pos h, hv]
  · intro h
    constructor
    · rw [indexValue_list xs (.int i) i rfl, if_neg h]
    · rw [indexValue_list xs (.int64 i) i rfl, if_neg h]
  · intro h
    have h' : ¬ (0 ≤ i ∧ i < (xs.length : Int)) := by omega
    constructor
    · rw [indexValue_list xs (.int i) i rfl, if_neg h']
    · rw [indexValue_list xs (.int64 i) i rfl, if_neg h']
  · intro h
    obtain ⟨r, hr⟩ := get?_toNat_some s i h
    refine ⟨r, hr, ?_, ?_⟩
    · rw [indexValue_str s (.int i) i rfl, if_pos h, hr]
      rfl
    · rw [indexValue_str s (.int64 i) i rfl, if_pos h, hr]
      rfl
  · intro h
    constructor
    · rw [indexValue_str s (.int i) i rfl, if_neg h]
    · rw [indexValue_str s (.int64 i) i rfl, if_neg h]

/-! ## Contexts as mutable maps -/

theorem Heap.entries_append (h ext : Heap) (a : Nat) (ha : a < h.length) :
    Heap.entries (h ++ ext) a = Heap.entries h a := by
  unfold Heap.entries
  rw [List.getD_append _ _ _ _ ha]

theorem Heap.entries_fresh (h : Heap) (m : List (Str × Value)) :
    Heap.entries (h ++ [m]) h.length = m := by
  unfold Heap.entries
  rw [List.getD_append_right _ _ _ _ (Nat.le_refl _)]
  simp

theorem Heap.write_fresh (h : Heap) (m : List (Str × Value)) (k : Str) (v : Value) :
    Heap.write (h ++ [m]) h.length k v = h ++ [mapSet m k v] := by
  unfold Heap.write
  rw [Heap.entries_fresh, List.set_append_right _ _ (Nat.le_refl _)]
  simp only [Nat.sub_self, List.set_cons_zero]

theorem Heap.view_append (h ext : Heap) (context : Ref)
    (hctx : ∀ a, context = some a → a < h.length) :
    Heap.view (h ++ ext) context = Heap.view h context := by
  cases context with
  | none => rfl
  | some a =>
    simp only [Heap.view, Option.map_some']
    rw [Heap.entries_append h ext a (hctx a rfl)]

/-- The loop of an `each` directive on the heap: every round allocates one new map, writes the
loop variable into it and parses the body with it. -/
theorem each_loop_frame (ev : Evaluator) (children : List (Str × List Item)) (ident : Str)
    (a : Nat)
    (ih : ∀ (context : Ref) (h : Heap), (∀ a, context = some a → a < h.length) →
      ∃ ext, Stateful.parseSlot ev "default".toList children context h
        = (parseSlot ev "default".toList children (Heap.view h context), h ++ ext)) :
    ∀ (items : List Value) (acc : List Element) (h : Heap), a < h.length →
      ∃ ext, items.foldl
          (Stateful.eachRound (Stateful.parseSlot ev "default".toList children) a ident)
          (acc, h)
        = (acc ++ items.flatMap fun item =>
            parseSlot ev "default".toList children (some (mapSet (Heap.entries h a) ident item)),
           h ++ ext) := by
  intro items
  induction items with
  | nil =>
    intro acc h _
    exact ⟨[], by simp⟩
  | cons item rest ihr =>
    intro acc h ha
    have hw : Heap.write (Stateful.cloneContext a h).2 h.length ident item
        = h ++ [mapSet (Heap.entries h a) ident item] := by
      simp only [Stateful.cloneContext, Heap.alloc, cloneContext]
      exact Heap.write_fresh h _ ident item
    obtain ⟨ext1, h1⟩ := ih (some h.length) (h ++ [mapSet (Heap.entries h a) ident item])
      (by
        intro b hb
        cases hb
        simp)
    have hv : Heap.view (h ++ [mapSet (Heap.entries h a) ident item]) (some h.length)
        = some (mapSet (Heap.entries h a) ident item) := by
      simp only [Heap.view, Option.map_some', Heap.entries_fresh]
    rw [hv] at h1
    have hn : (Stateful.cloneContext a h).1 = h.length := rfl
    obtain ⟨ext2, h2⟩ := ihr
      (acc ++ parseSlot ev "default".toList children
        (some (mapSet (Heap.entries h a) ident item)))
      (h ++ [mapSet (Heap.entries h a) ident item] ++ ext1)
      (by
        simp only [List.length_append]
        omega)
    refine ⟨[mapSet (Heap.entries h a) ident item] ++ ext1 ++ ext2, ?_⟩
    have hstep : Stateful.eachRound (Stateful.parseSlot ev "default".toList children) a ident
        (acc, h) item
        = (acc ++ parseSlot ev "default".toList children
            (some (mapSet (Heap.entries h a) ident item)),
           h ++ [mapSet (Heap.entries h a) ident item] ++ ext1) := by
      simp only [Stateful.eachRound, hn, hw, h1]
    rw [List.foldl_cons, hstep, h2]
    rw [List.append_assoc h, Heap.entries_append h _ a ha]
    simp only [List.flatMap_cons, List.append_assoc]

theorem ensureContext_frame (context : Ref) (h : Heap)
    (hctx : ∀ a, context = some a → a < h.length) :
    ∃ ctx e0, Stateful.ensureContext context h = (ctx, h ++ e0)
      ∧ ctx < (h ++ e0).length
      ∧ Heap.entries (h ++ e0) ctx = ensureContext (Heap.view h context)
      ∧ Heap.view (h ++ e0) (some ctx) = some (ensureContext (Heap.view h context)) := by
  cases context with
  | none =>
    refine ⟨h.length, [[]], rfl, by simp, ?_, ?_⟩
    · rw [Heap.entries_fresh]
      rfl
    · simp only [Heap.view, Option.map_some', Heap.entries_fresh]
      rfl
  | some a =>
    refine ⟨a, [], by simp [Stateful.ensureContext], by simpa using hctx a rfl, ?_, ?_⟩
    · simp only [List.append_nil]
      rfl
    · simp only [List.append_nil]
      rfl

mutual
theorem frame_tokens (ev : Evaluator) :
    ∀ (tokens : List Item) (context : Ref) (h : Heap),
      (∀ a, context = some a → a < h.length) →
      ∃ ext, Stateful.parseTokens ev tokens context h
        = (parseTokens ev tokens (Heap.view h context), h ++ ext)
  | [], context, h, _ => ⟨[], by simp only [Stateful.parseTokens, parseTokens, List.append_nil]⟩
  | .text s :: rest, context, h, hctx => by
    obtain ⟨ext, he⟩ := frame_tokens ev rest context h hctx
    refine ⟨ext, ?_⟩
    simp only [Stateful.parseTokens, parseTokens, he]
  | .tok t :: rest, context, h, hctx => by
    obtain ⟨e1, h1⟩ := frame_token ev t context h hctx
    obtain ⟨e2, h2⟩ := frame_tokens ev rest context (h ++ e1) (by
      intro a ha
      have := hctx a ha
      simp only [List.length_append]
      omega)
    refine ⟨e1 ++ e2, ?_⟩
    simp only [Stateful.parseTokens, parseTokens, h1, h2, Heap.view_append h e1 context hctx,
      List.append_assoc]
theorem frame_token (ev : Evaluator) :
    ∀ (t : Token) (context : Ref) (h : Heap),
      (∀ a, context = some a → a < h.length) →
      ∃ ext, Stateful.parseToken ev t context h
        = (parseToken ev t (Heap.view h context), h ++ ext)
  | .mk kind name pos src extra children, context, h, hctx => by
    by_cases hk : kind = "angle".toList
    · obtain ⟨e, he⟩ := frame_slot ev "default".toList children context h hctx
      refine ⟨e, ?_⟩
      rw [Stateful.parseToken, parseToken]
      simp only [if_pos hk, he]
    · obtain ⟨ctx, e0, hens, hlt, hent, hview⟩ := ensureContext_frame context h hctx
      have hvalid : ∀ a, some ctx = some a → a < (h ++ e0).length := by
        intro a ha
        cases ha
        exact hlt
      rw [Stateful.parseToken, parseToken]
      simp only [if_neg hk, hens, hent]
      by_cases hn : name = []
      · exact ⟨e0, by simp only [if_pos hn]⟩
      · simp only [if_neg hn]
        by_cases hif : name = "if".toList
        · simp only [if_pos hif]
          by_cases ht : truthy (ev.evaluate extra (ensureContext (Heap.view h context))) = true
          · obtain ⟨e, he⟩ := frame_slot ev "default".toList children (some ctx) (h ++ e0) hvalid
            refine ⟨e0 ++ e, ?_⟩
            simp only [if_pos ht, he, hview, List.append_assoc]
          · obtain ⟨e, he⟩ := frame_slot ev "else".toList children (some ctx) (h ++ e0) hvalid
            refine ⟨e0 ++ e, ?_⟩
            simp only [if_neg ht, he, hview, List.append_assoc]
        · simp only [if_neg hif]
          by_cases hea : name = "each".toList
          · simp only [if_pos hea]
            cases hf : eachSplitPat.find extra with
            | none => exact ⟨e0, rfl⟩
            | some bm =>
              obtain ⟨before, m⟩ := bm
              simp only []
              by_cases hit : isIterable
                  (ev.interpolate (trimSpace before) (ensureContext (Heap.view h context))) = true
              · obtain ⟨e, he⟩ := each_loop_frame ev children (trimSpace m.after) ctx
                  (frame_slot ev "default".toList children)
                  (iterate (ev.interpolate (trimSpace before)
                    (ensureContext (Heap.view h context)))) [] (h ++ e0) hlt
                refine ⟨e0 ++ e, ?_⟩
                simp only [if_pos hit, he, hent, List.nil_append, List.append_assoc]
              · exact ⟨e0, by simp only [if_neg hit]⟩
          · exact ⟨e0, by simp only [if_neg hea]⟩
theorem frame_slot (ev : Evaluator) (slot : Str) :
    ∀ (children : List (Str × List Item)) (context : Ref) (h : Heap),
      (∀ a, context = some a → a < h.length) →
      ∃ ext, Stateful.parseSlot ev slot children context h
        = (parseSlot ev slot children (Heap.view h context), h ++ ext)
  | [], context, h, _ => ⟨[], by simp only [Stateful.parseSlot, parseSlot, List.append_nil]⟩
  | (k, items) :: rest, context, h, hctx => by
    by_cases hks : k = slot
    · obtain ⟨e, he⟩ := frame_tokens ev items context h hctx
      exact ⟨e, by simp only [Stateful.parseSlot, parseSlot, if_pos hks, he]⟩
    · obtain ⟨e, he⟩ := frame_slot ev slot rest context h hctx
      exact ⟨e, by simp only [Stateful.parseSlot, parseSlot, if_neg hks, he]⟩
end

theorem Parse_heap_frame (ev : Evaluator) (source : Str) (context : Ref) (h : Heap)
    (hctx : ∀ a, context = some a → a < h.length) :
    ∃ ext, Stateful.Parse ev source context h
      = (Parse ev source (Heap.view h context), h ++ ext) := by
  have hs : (Heap.view h context).isSome = context.isSome := by
    cases context <;> rfl
  obtain ⟨ext, he⟩ := frame_tokens ev
    (foldToken (tokenLoop (if context.isSome then tagPat2 else tagPat1) (source.length + 1)
      source true)) context h hctx
  refine ⟨ext, ?_⟩
  simp only [Stateful.Parse, Parse, hs, he]

/-- C16. Template evaluation never mutates the variable context it is given.  On a heap of
mutable maps, for every source and every context that is nil or a map of the heap, `Parse`
only allocates new maps: the heap after the call is the heap before it followed by new maps,
so that every map that existed before, the context among them, has exactly the entries it
had; and the result is the result of the evaluation on immutable contexts.  The items after a
token are parsed with the entries that the context had before the token, so a loop variable is
not visible after `{/each}`; and every iteration of an `each` body sees the entries of the
context of the directive with only its own item bound to the loop variable, so nothing is
carried from one iteration to the next. -/
theorem C16_context_frame (ev : Evaluator) (source : Str) (context : Ref) (h : Heap)
    (hctx : ∀ a, context = some a → a < h.length) :
    (∃ ext, (Stateful.Parse ev source context h).2 = h ++ ext)
    ∧ (∀ a, a < h.length →
        Heap.entries (Stateful.Parse ev source context h).2 a = Heap.entries h a)
    ∧ Heap.view (Stateful.Parse ev source context h).2 context = Heap.view h context
    ∧ (Stateful.Parse ev source context h).1 = Parse ev source (Heap.view h context)
    ∧ (∀ (t : Token) (rest : List Item),
        (Stateful.parseTokens ev (.tok t :: rest) context h).1
          = (Stateful.parseToken ev t context h).1 ++ parseTokens ev rest (Heap.view h context))
    ∧ (∀ (pos : Position) (s e : Str) (children : List (Str × List Item)) (ctx : Nat),
        context = some ctx →
        (Stateful.parseTokens ev [.tok (.mk "curly".toList "each".toList pos s e children)]
            context h).1
          = match eachSplitPat.find e with
            | none => []
            | some (before, m) =>
              if isIterable (ev.interpolate (trimSpace before) (Heap.entries h ctx)) then
                (iterate (ev.interpolate (trimSpace before) (Heap.entries h ctx))).flatMap
                  fun item => parseSlot ev "default".toList children
                    (some (mapSet (Heap.entries h ctx) (trimSpace m.after) item))
              else []) := by
  obtain ⟨ext, he⟩ := Parse_heap_frame ev source context h hctx
  refine ⟨⟨ext, by rw [he]⟩, ?_, ?_, by rw [he], ?_, ?_⟩
  · intro a ha
    rw [he]
    exact Heap.entries_append h ext a ha
  · rw [he]
    exact Heap.view_append h ext context hctx
  · intro t rest
    obtain ⟨e1, h1⟩ := frame_token ev t context h hctx
    obtain ⟨e2, h2⟩ := frame_tokens ev rest context (h ++ e1) (by
      intro a ha
      have := hctx a ha
      simp only [List.length_append]
      omega)
    simp only [Stateful.parseTokens, h1, h2, Heap.view_append h e1 context hctx]
  · intro pos s e children ctx hc
    obtain ⟨e1, h1⟩ := frame_tokens ev
      [.tok (.mk "curly".toList "each".toList pos s e children)] context h hctx
    rw [h1, hc]
    exact parseTokens_each ev s e children pos (Heap.entries h ctx)

/-- Witness of C16: the template `{#each xs as x}{x}{/each}{x}` on a context that binds `x`
to `outer` and `xs` to the list `a`, `b`.  The output is `a`, `b`, `outer`, and the map of
the context still binds `x` to `outer`. -/
theorem C16_context_frame_witness :
    Heap.view (Stateful.Parse (codeEvaluator sampleLib) shadowSource (some 0) sampleHeap).2
        (some 0) = Heap.view sampleHeap (some 0)
    ∧ (Stateful.Parse (codeEvaluator sampleLib) shadowSource (some 0) sampleHeap).1
        = Parse (codeEvaluator sampleLib) shadowSource (Heap.view sampleHeap (some 0))
    ∧ (Stateful.Parse (codeEvaluator sampleLib) shadowSource (some 0) sampleHeap).1.map
        (Element.String id) = ["a".toList, "b".toList, "outer".toList]
    ∧ (Stateful.Parse (codeEvaluator sampleLib) shadowSource (some 0) sampleHeap).2.map
        (fun m => m.map fun kv => (kv.1, Sprint id kv.2))
      = [[("x".toList, "outer".toList), ("xs".toList, "[a b]".toList)],
         [("x".toList, "a".toList), ("xs".toList, "[a b]".toList)],
         [("x".toList, "b".toList), ("xs".toList, "[a b]".toList)]] :=
  ⟨(C16_context_frame (codeEvaluator sampleLib) shadowSource (some 0) sampleHeap
      (by intro a ha; cases ha; decide)).2.2.1,
   (C16_context_frame (codeEvaluator sampleLib) shadowSource (some 0) sampleHeap
      (by intro a ha; cases ha; decide)).2.2.2.1,
   by decide!, by decide!⟩

/-! ## The fast path of `interpolate` -/

theorem splitOnDot_cons (p : Str) (rest : Str) (h : '.' ∉ p) :
    splitOnDot (p ++ '.' :: rest) = p :: splitOnDot rest := by
  induction p with
  | nil => simp [splitOnDot]
  | cons c cs ih =>
    have hc : c ≠ '.' := fun e => h (e ▸ List.mem_cons_self _ _)
    have hcs : '.' ∉ cs := fun hm => h (List.mem_cons_of_mem _ hm)
    rw [List.cons_append, splitOnDot, if_neg hc, ih hcs]

theorem splitOnDot_dotted (head : Str) (parts : List Str) (hh : '.' ∉ head)
    (hp : ∀ p ∈ parts, '.' ∉ p) : splitOnDot (dotted head parts) = head :: parts := by
  induction parts generalizing head with
  | nil =>
    simp only [dotted, List.flatMap_nil, List.append_nil]
    exact splitOnDot_word head hh
  | cons p ps ih =>
    have := ih p (hp p (List.mem_cons_self _ _)) (fun q hq => hp q (List.mem_cons_of_mem _ hq))
    simp only [dotted, List.flatMap_cons, List.cons_append] at this ⊢
    rw [splitOnDot_cons head _ hh, this]

/-- The value of a chain of selectors, as `evaluate` returns it, is the value that the loop of
`interpolate` finds from the value of the first expression. -/
theorem evalAST_chain (lib : GoLib) (ctx : List (Str × Value)) :
    ∀ (parts : List Str) (e : Expr),
      (match evalAST lib (parts.foldl (fun e p => Expr.selector e p) e) ctx with
        | none => Value.str []
        | some v => if v.isNil then .str [] else v)
      = match evalAST lib e ctx with
        | none => Value.str []
        | some v => if v.isNil then .str [] else lookupPath v parts
  | [], e => by
    simp only [List.foldl_nil, lookupPath]
    cases evalAST lib e ctx with
    | none => rfl
    | some v => by_cases h : v.isNil = true <;> simp [h]
  | p :: ps, e => by
    rw [List.foldl_cons, evalAST_chain lib ctx ps (.selector e p), evalAST]
    cases evalAST lib e ctx with
    | none => rfl
    | some v =>
      simp only [lookupPath]
      by_cases h : v.isNil = true
      · have hv : v = .nil := by
          cases v <;> first | rfl | exact absurd h (by simp [Value.isNil])
        subst hv
        rfl
      · simp only [h, if_false]
        cases lookupValue v p <;> rfl

/-- C21, counterexample. The texts `true` and `12` match `[\w.]+`, so `interpolate` looks them
up as names of the context and returns the empty string for the empty context, while
`evaluate` returns the boolean true and the integer 12. -/
theorem C21_counterexample :
    (identifierPat.find "true".toList).isNone = false
    ∧ Sprint id (interpolate sampleLib "true".toList (some [])) = []
    ∧ Sprint id (evaluate sampleLib "true".toList (some [])) = "true".toList
    ∧ (identifierPat.find "12".toList).isNone = false
    ∧ Sprint id (interpolate sampleLib "12".toList (some [])) = []
    ∧ Sprint id (evaluate sampleLib "12".toList (some [])) = "12".toList := by
  decide!

/-- C21, amended. For every context and every expression text that is a chain of identifiers
joined by dots, which the Go parser reads as a chain of selectors, and whose first identifier
is none of `true`, `false`, `nil` and `null`, `interpolate expr ctx` equals
`evaluate expr ctx`. -/
theorem C21_fast_path (lib : GoLib) (context : Option (List (Str × Value))) (head : Str)
    (parts : List Str) (hne : head ≠ []) (hhead : ∀ c ∈ head, isWord c = true)
    (hparts : ∀ p ∈ parts, ∀ c ∈ p, isWord c = true)
    (hkw : head ≠ "true".toList ∧ head ≠ "false".toList ∧ head ≠ "nil".toList
      ∧ head ≠ "null".toList)
    (hparse : lib.parseExpr (dotted head parts) = some (chainExpr head parts)) :
    interpolate lib (dotted head parts) context = evaluate lib (dotted head parts) context := by
  have hchars : ∀ c ∈ dotted head parts, (isWord c || c == '.') = true := by
    intro c hc
    simp only [dotted, List.mem_append, List.mem_flatMap, List.mem_cons] at hc
    rcases hc with hc | ⟨p, hp, hc | hc⟩
    · rw [hhead c hc]
      rfl
    · rw [hc]
      decide
    · rw [hparts p hp c hc]
      rfl
  have hspace : ∀ c ∈ dotted head parts, isUnicodeSpace c = false := by
    intro c hc
    have := hchars c hc
    simp only [Bool.or_eq_true, beq_iff_eq] at this
    rcases this with h | h
    · exact (isWord_not_space c h).2.1
    · rw [h]
      decide
  have htrim := trimSpace_id _ hspace
  obtain ⟨x, xs, hx⟩ := List.exists_cons_of_ne_nil hne
  have hd : ∃ ys, dotted head parts = x :: ys := ⟨xs ++ _, by rw [dotted, hx]; rfl⟩
  obtain ⟨ys, hys⟩ := hd
  have hid : (identifierPat.find (dotted head parts)).isNone = false := by
    rw [hys]
    exact identifierPat_find x ys (by rw [← hys]; exact hchars)
  have hsplit := splitOnDot_dotted head parts
    (fun hm => (isWord_not_space _ (hhead _ hm)).2.2 rfl)
    (fun p hp hm => (isWord_not_space _ (hparts p hp _ hm)).2.2 rfl)
  have hident : evalAST lib (.ident head) (ensureContext context)
      = mapGet (ensureContext context) head := by
    rw [evalAST, if_neg hkw.1, if_neg hkw.2.1,
      if_neg (by rintro (h | h); exact hkw.2.2.1 h; exact hkw.2.2.2 h)]
  have hchain := evalAST_chain lib (ensureContext context) parts (.ident head)
  rw [hident] at hchain
  have hev : evaluate lib (dotted head parts) context
      = match mapGet (ensureContext context) head with
        | none => Value.str []
        | some v => if v.isNil then .str [] else lookupPath v parts := by
    rw [← hchain, evaluate_cases]
    unfold evalExpress
    rw [hparse]
    rfl
  rw [hev]
  unfold interpolate
  simp only [htrim, hid, Bool.false_eq_true, if_false, hsplit, lookupPath, lookupValue]

/-- Witness of C21 (amended): the chain `a.b` on a context that binds `a` to a map with `b`
bound to 2. -/
theorem C21_fast_path_witness :
    interpolate sampleLib (dotted "a".toList ["b".toList])
        (some [("a".toList, .dict [("b".toList, .int64 2)])])
      = evaluate sampleLib (dotted "a".toList ["b".toList])
        (some [("a".toList, .dict [("b".toList, .int64 2)])]) :=
  C21_fast_path sampleLib (some [("a".toList, .dict [("b".toList, .int64 2)])]) "a".toList
    ["b".toList] (by decide) (by decide) (by decide) (by decide) rfl

/-! ## Selectors -/

mutual
theorem selectLoop_spec (sel : Str → List Str → List Str → Bool)
    (Inv : List Str → List Str → List (List selector) → List (List selector) → Prop)
    (hstep : ∀ type anc before base adj, Inv anc before base adj →
      (groupRound type base adj).matched = sel type anc before
      ∧ Inv anc (type :: before) (groupRound type base adj).baseQuery
          (groupRound type base adj).adjacent
      ∧ (groupRound type base adj).inner ≠ []
      ∧ Inv (type :: anc) [] (groupRound type base adj).inner []) :
    ∀ (forest : List Element) (anc before : List Str) (base adj : List (List selector)),
      Inv anc before base adj →
      selectLoop forest base adj
        = ((locateList anc forest before).filter
            fun l => sel l.elem.type l.ancestors l.before).map fun l => l.elem
  | [], _, _, _, _, _ => by simp [selectLoop, locateList]
  | e :: rest, anc, before, base, adj, hinv => by
    have h1 := selectRound_spec sel Inv hstep e anc before base adj hinv
    have hnext := (hstep e.type anc before base adj hinv).2.1
    have h2 := selectLoop_spec sel Inv hstep rest anc (e.type :: before) _ _ hnext
    rw [selectLoop, locateList]
    simp only [h1, h2, List.filter_append, List.map_append]
theorem selectRound_spec (sel : Str → List Str → List Str → Bool)
    (Inv : List Str → List Str → List (List selector) → List (List selector) → Prop)
    (hstep : ∀ type anc before base adj, Inv anc before base adj →
      (groupRound type base adj).matched = sel type anc before
      ∧ Inv anc (type :: before) (groupRound type base adj).baseQuery
          (groupRound type base adj).adjacent
      ∧ (groupRound type base adj).inner ≠ []
      ∧ Inv (type :: anc) [] (groupRound type base adj).inner []) :
    ∀ (e : Element) (anc before : List Str) (base adj : List (List selector)),
      Inv anc before base adj →
      selectRound e (base ++ adj) base
        = (((locateElem anc before e).filter
              fun l => sel l.elem.type l.ancestors l.before).map fun l => l.elem,
            (groupRound e.type base adj).baseQuery, (groupRound e.type base adj).adjacent)
  | .mk type attrs children, anc, before, base, adj, hinv => by
    obtain ⟨hm, _, hne, hkids⟩ := hstep type anc before base adj hinv
    have hrec := selectLoop_spec sel Inv hstep children (type :: anc) [] _ [] hkids
    have hin : (groupRound type base adj).inner.isEmpty = false := by
      cases h : (groupRound type base adj).inner with
      | nil => exact absurd h hne
      | cons a l => rfl
    have hguard : (if (children.isEmpty || (groupRound type base adj).inner.isEmpty) = true
        then [] else selectLoop children (groupRound type base adj).inner [])
        = selectLoop children (groupRound type base adj).inner [] := by
      rw [hin, Bool.or_false]
      cases children with
      | nil => simp [selectLoop]
      | cons a l => simp
    rw [selectRound, locateElem]
    change (((if (groupRound type base adj).matched = true then [Element.mk type attrs children]
        else []) ++ (if (children.isEmpty || (groupRound type base adj).inner.isEmpty) = true
          then [] else selectLoop children (groupRound type base adj).inner []),
        (groupRound type base adj).baseQuery, (groupRound type base adj).adjacent) : _) = _
    rw [hguard, hm, hrec]
    by_cases hs : sel type anc before = true
    · simp only [hs, if_true, List.filter_cons, Element.type, List.map_cons, List.singleton_append]
    · simp only [hs, if_false, List.filter_cons, Element.type, List.nil_append,
        Bool.false_eq_true]
end

theorem stringsSplit_none (sep : Char) (s : Str) (h : sep ∉ s) : stringsSplit sep s = [s] := by
  induction s with
  | nil => rfl
  | cons c cs ih =>
    have hc : c ≠ sep := fun e => h (e ▸ List.mem_cons_self _ _)
    have hcs : sep ∉ cs := fun hm => h (List.mem_cons_of_mem _ hm)
    rw [stringsSplit, if_neg hc, ih hcs]

theorem isCombinator_space (c : Char) (h : isCombinator c = false) : (c == ' ') = false := by
  unfold isCombinator at h
  simp only [Bool.or_eq_false_iff] at h
  exact h.1.1.1

theorem comb_matchAt_ne (prev : Option Char) (c : Char) (rest : Str)
    (hc : isCombinator c = false) : combPat.matchAt prev (c :: rest) = none := by
  have hs := isCombinator_space c hc
  unfold Re.matchAt combPat
  simp only [Re.lit]
  rw [run_seq, run_star_greedy_nil _ _ _ (by
    intro d hd
    simp only [List.head?_cons, Option.mem_def, Option.some.injEq] at hd
    subst hd
    exact hs)]
  simp [run_seq, run_group, run_chr_cons, hc]

theorem comb_matchAt_nil (prev : Option Char) : combPat.matchAt prev [] = none := by
  simp [Re.matchAt, combPat, run_seq, run_star, starLoop, run_group, run_chr_nil]

theorem comb_find_none (t : Str) (ht : ∀ c ∈ t, isCombinator c = false) :
    combPat.find t = none := by
  unfold Re.find
  have := findFrom_skip combPat t (fun c hc prev rest => comb_matchAt_ne prev c rest (ht c hc))
    [] none
  rw [List.append_nil] at this
  rw [this]
  simp [Re.findFrom, comb_matchAt_nil]

/-- A single blank before a name is the descendant combinator. -/
theorem comb_matchAt_space (prev : Option Char) (c : Str)
    (hc : ∀ x ∈ c.head?, isCombinator x = false) :
    combPat.matchAt prev (' ' :: c) = some ⟨" ".toList, c, [(1, " ".toList)]⟩ := by
  have hsp : ∀ x ∈ c.head?, (x == ' ') = false := fun x hx => isCombinator_space x (hc x hx)
  have hrun : combPat.run some ⟨prev, 0, ' ' :: c, []⟩
      = some ⟨some ' ', 0 + 1, c, [(1, " ".toList)]⟩ := by
    unfold combPat
    rw [run_seq, run_star]
    simp only [List.length_cons, starLoop, if_true, Re.lit, run_chr_cons, beq_self_eq_true,
      Nat.lt_add_one]
    have hinner : starLoop (fun k' st' => (Re.chr fun x => x == ' ').run k' st') true
        (fun st' => ((Re.group 1 (Re.chr isCombinator)).seq
          ((Re.chr fun x => x == ' ').star true)).run some st') c.length
        ⟨some ' ', 0 + 1, c, []⟩ = none := by
      cases c with
      | nil => simp [starLoop, run_seq, run_group, run_chr_nil]
      | cons x xs =>
        have h1 : isCombinator x = false := hc x (by simp)
        have h2 : (x == ' ') = false := hsp x (by simp)
        simp [starLoop, run_seq, run_group, run_chr_cons, h1, h2]
    rw [hinner]
    simp only [run_seq, run_group, run_chr_cons]
    have hcomb : isCombinator ' ' = true := by decide
    simp only [hcomb, if_true]
    rw [run_star_greedy_nil _ _ _ hsp]
    simp
  exact matchAt_of_run combPat prev _ " ".toList c _ rfl hrun rfl

/-- A combinator sign between two single blanks. -/
theorem comb_matchAt_sign (prev : Option Char) (g : Char) (c : Str)
    (hg : isCombinator g = true) (hgs : g ≠ ' ')
    (hc : ∀ x ∈ c.head?, isCombinator x = false) :
    combPat.matchAt prev (' ' :: g :: ' ' :: c) = some ⟨[' ', g, ' '], c, [(1, [g])]⟩ := by
  have hsp : ∀ x ∈ c.head?, (x == ' ') = false := fun x hx => isCombinator_space x (hc x hx)
  have hg2 : (g == ' ') = false := by simpa using hgs
  have hrun : combPat.run some ⟨prev, 0, ' ' :: g :: ' ' :: c, []⟩
      = some ⟨some ' ', 0 + 1 + 1 + 1, c, [(1, [g])]⟩ := by
    unfold combPat
    rw [run_seq]
    have h1 := run_star_greedy_run (fun x => x == ' ')
      (fun st' => ((Re.group 1 (Re.chr isCombinator)).seq
          ((Re.chr fun x => x == ' ').star true)).run some st') [' '] (g :: ' ' :: c)
      (by simp) (by intro x hx; simp at hx; subst hx; exact hg2) prev 0 []
    simp only [List.singleton_append, List.length_singleton, advPrev, List.foldl] at h1
    have h2 := run_star_greedy_run (fun x => x == ' ') (some : Pos → Option Pos) [' '] c
      (by simp) hsp (some g) (0 + 1 + 1) [(1, [g])]
    simp only [List.singleton_append, List.length_singleton, advPrev, List.foldl] at h2
    have hk : ((Re.group 1 (Re.chr isCombinator)).seq
        ((Re.chr fun x => x == ' ').star true)).run some ⟨some ' ', 0 + 1, g :: ' ' :: c, []⟩
        = some ⟨some ' ', 0 + 1 + 1 + 1, c, [(1, [g])]⟩ := by
      simp only [run_seq, run_group, run_chr_cons, hg, if_true]
      have e : (g :: ' ' :: c).take (0 + 1 + 1 - (0 + 1)) = [g] := by simp
      simp only [e]
      rw [h2 rfl]
    simp only [Re.lit]
    rw [h1 (by rw [hk]; rfl), hk]
  exact matchAt_of_run combPat prev _ [' ', g, ' '] c _ rfl hrun rfl

theorem comb_find_space (p c : Str) (hp : ∀ x ∈ p, isCombinator x = false)
    (hc : ∀ x ∈ c, isCombinator x = false) :
    combPat.find (p ++ ' ' :: c) = some (p, ⟨" ".toList, c, [(1, " ".toList)]⟩) := by
  unfold Re.find
  rw [findFrom_skip combPat p (fun x hx prev rest => comb_matchAt_ne prev x rest (hp x hx)),
    Re.findFrom, comb_matchAt_space _ c (fun x hx => hc x (List.mem_of_mem_head? hx))]
  simp

theorem comb_find_sign (p c : Str) (g : Char) (hg : isCombinator g = true) (hgs : g ≠ ' ')
    (hp : ∀ x ∈ p, isCombinator x = false) (hc : ∀ x ∈ c, isCombinator x = false) :
    combPat.find (p ++ ' ' :: g :: ' ' :: c) = some (p, ⟨[' ', g, ' '], c, [(1, [g])]⟩) := by
  unfold Re.find
  rw [findFrom_skip combPat p (fun x hx prev rest => comb_matchAt_ne prev x rest (hp x hx)),
    Re.findFrom, comb_matchAt_sign _ g c hg hgs (fun x hx => hc x (List.mem_of_mem_head? hx))]
  simp

theorem parseQuery_single (t : Str) (ht : ∀ x ∈ t, isCombinator x = false) :
    parseQuery t = [⟨t, " ".toList⟩] := by
  rw [parseQuery, parseQueryLoop, comb_find_none t ht]

theorem parseQuery_space (p c : Str) (hp : ∀ x ∈ p, isCombinator x = false)
    (hc : ∀ x ∈ c, isCombinator x = false) :
    parseQuery (p ++ ' ' :: c) = [⟨p, " ".toList⟩, ⟨c, " ".toList⟩] := by
  rw [parseQuery, parseQueryLoop, comb_find_space p c hp hc]
  simp only [Match.group, List.lookup, beq_self_eq_true, Option.getD_some]
  have hl : (p ++ ' ' :: c).length = c.length + p.length + 1 := by
    simp only [List.length_append, List.length_cons]
    omega
  rw [hl, parseQueryLoop, comb_find_none c hc]

theorem parseQuery_sign (p c : Str) (g : Char) (hg : isCombinator g = true) (hgs : g ≠ ' ')
    (hp : ∀ x ∈ p, isCombinator x = false) (hc : ∀ x ∈ c, isCombinator x = false) :
    parseQuery (p ++ ' ' :: g :: ' ' :: c) = [⟨p, " ".toList⟩, ⟨c, [g]⟩] := by
  rw [parseQuery, parseQueryLoop, comb_find_sign p c g hg hgs hp hc]
  simp only [Match.group, List.lookup, beq_self_eq_true, Option.getD_some]
  have hl : (p ++ ' ' :: g :: ' ' :: c).length = c.length + (p.length + 2) + 1 := by
    simp only [List.length_append, List.length_cons]
    omega
  rw [hl, parseQueryLoop, comb_find_none c hc]

theorem Select_text (ev : Evaluator) (forest : List Element) (q : Str) (group : List selector)
    (hq : parseSelector q = [group]) :
    Select ev (.pointers forest) (.text q) = selectLoop forest [group] [] := by
  simp only [Select, hq, List.isEmpty_cons, Bool.false_eq_true, if_false, selectElements,
    Bool.or_false]
  cases forest with
  | nil => simp [selectLoop]
  | cons e es => simp

theorem groupStep_last (type : Str) (st : GroupState) (s : selector) :
    groupStep type st [s]
      = ⟨st.matched || hits s type,
          st.inner ++ (if s.combinator = " ".toList then [[s]] else []),
          st.adjacent, st.baseQuery⟩ := by
  obtain ⟨m, i, a, b⟩ := st
  by_cases h : s.type = type ∨ s.type = "*".toList
  · by_cases hc : s.combinator = " ".toList
    · simp only [groupStep, hits, if_pos h, if_pos hc, decide_eq_true h, Bool.or_true]
    · simp only [groupStep, hits, if_pos h, if_neg hc, decide_eq_true h, Bool.or_true,
        List.append_nil]
  · by_cases hc : s.combinator = " ".toList
    · simp only [groupStep, hits, if_neg h, if_pos hc, decide_eq_false h, Bool.or_false]
    · simp only [groupStep, hits, if_neg h, if_neg hc, decide_eq_false h, Bool.or_false,
        List.append_nil]

theorem groupStep_pair (type : Str) (st : GroupState) (s1 s2 : selector) (rest : List selector)
    (h1 : s1.combinator = " ".toList) :
    groupStep type st (s1 :: s2 :: rest)
      = if s2.combinator = " ".toList ∨ s2.combinator = ">".toList then
          ⟨st.matched, st.inner ++ (if hits s1 type then [s2 :: rest] else [])
            ++ [s1 :: s2 :: rest], st.adjacent, st.baseQuery⟩
        else if s2.combinator = "+".toList then
          ⟨st.matched, st.inner ++ [s1 :: s2 :: rest],
            st.adjacent ++ (if hits s1 type then [s2 :: rest] else []), st.baseQuery⟩
        else
          ⟨st.matched, st.inner ++ [s1 :: s2 :: rest], st.adjacent,
            st.baseQuery ++ (if hits s1 type then [s2 :: rest] else [])⟩ := by
  obtain ⟨m, i, a, b⟩ := st
  by_cases h : s1.type = type ∨ s1.type = "*".toList
  · by_cases hc : s2.combinator = " ".toList ∨ s2.combinator = ">".toList
    · simp only [groupStep, hits, if_pos h, if_pos hc, if_pos h1, decide_eq_true h, if_true]
    · by_cases hp : s2.combinator = "+".toList
      · simp only [groupStep, hits, if_pos h, if_neg hc, if_pos hp, if_pos h1, decide_eq_true h,
          if_true]
      · simp only [groupStep, hits, if_pos h, if_neg hc, if_neg hp, if_pos h1, decide_eq_true h,
          if_true]
  · by_cases hc : s2.combinator = " ".toList ∨ s2.combinator = ">".toList
    · simp only [groupStep, hits, if_neg h, if_pos hc, if_pos h1, decide_eq_false h,
        Bool.false_eq_true, if_false, List.append_nil]
    · by_cases hp : s2.combinator = "+".toList
      · simp only [groupStep, hits, if_neg h, if_neg hc, if_pos hp, if_pos h1, decide_eq_false h,
          Bool.false_eq_true, if_false, List.append_nil]
      · simp only [groupStep, hits, if_neg h, if_neg hc, if_neg hp, if_pos h1,
          decide_eq_false h, Bool.false_eq_true, if_false, List.append_nil]

theorem groupRound_single (type t : Str) :
    groupRound type [[⟨t, " ".toList⟩]] []
      = ⟨hits ⟨t, " ".toList⟩ type, [[⟨t, " ".toList⟩]], [], [[⟨t, " ".toList⟩]]⟩ := by
  unfold groupRound
  simp only [List.append_nil, List.foldl, groupStep_last, Bool.false_or, if_true,
    List.nil_append]


theorem hits_name (t comb type : Str) (ht : t ≠ "*".toList) :
    hits ⟨t, comb⟩ type = decide (type = t) := by
  unfold hits
  by_cases h : type = t
  · simp [h]
  · have h2 : ¬ (t = type ∨ t = "*".toList) := by
      rintro (e | e)
      · exact h e.symm
      · exact ht e
    rw [decide_eq_false h2, decide_eq_false h]

theorem foldl_groupStep_replicate (type : Str) (s : selector) (k : Nat) (st : GroupState) :
    (List.replicate k [s]).foldl (groupStep type) st
      = ⟨st.matched || (decide (0 < k) && hits s type),
          st.inner ++ (if s.combinator = " ".toList then List.replicate k [s] else []),
          st.adjacent, st.baseQuery⟩ := by
  induction k generalizing st with
  | zero => simp
  | succ n ih =>
    rw [List.replicate_succ, List.foldl_cons, ih, groupStep_last]
    by_cases hc : s.combinator = " ".toList
    · simp only [if_pos hc, Bool.or_assoc, List.append_assoc, List.singleton_append]
      cases n <;> simp
    · simp only [if_neg hc, Bool.or_assoc, List.append_nil]
      cases n <;> simp

theorem selectLoop_single (t : Str) (forest : List Element) :
    selectLoop forest [[⟨t, " ".toList⟩]] []
      = selectWhere (fun type _ _ => hits ⟨t, " ".toList⟩ type) forest := by
  refine selectLoop_spec (fun type _ _ => hits ⟨t, " ".toList⟩ type)
    (fun _ _ base adj => base = [[⟨t, " ".toList⟩]] ∧ adj = []) ?_ forest [] [] _ _ ⟨rfl, rfl⟩
  rintro type anc before base adj ⟨rfl, rfl⟩
  rw [groupRound_single]
  exact ⟨rfl, ⟨rfl, rfl⟩, by simp, rfl, rfl⟩

/-- The query `p c`. -/
theorem selectLoop_descendant (p c : Str) (hp : p ≠ "*".toList) (hc : c ≠ "*".toList)
    (forest : List Element) :
    selectLoop forest [[⟨p, " ".toList⟩, ⟨c, " ".toList⟩]] []
      = selectWhere (fun type anc _ => decide (type = c) && decide (p ∈ anc)) forest := by
  refine selectLoop_spec (fun type anc _ => decide (type = c) && decide (p ∈ anc))
    (fun anc _ base adj => adj = [] ∧ ∃ k, base = List.replicate k [⟨c, " ".toList⟩]
        ++ [[⟨p, " ".toList⟩, ⟨c, " ".toList⟩]] ∧ (0 < k ↔ p ∈ anc))
    ?_ forest [] [] _ _ ⟨rfl, 0, rfl, by simp⟩
  rintro type anc before base adj ⟨rfl, k, rfl, hk⟩
  have hround : groupRound type (List.replicate k [⟨c, " ".toList⟩]
        ++ [[⟨p, " ".toList⟩, ⟨c, " ".toList⟩]]) []
      = ⟨decide (0 < k) && decide (type = c),
          List.replicate (k + if type = p then 1 else 0) [⟨c, " ".toList⟩]
            ++ [[⟨p, " ".toList⟩, ⟨c, " ".toList⟩]], [],
          List.replicate k [⟨c, " ".toList⟩] ++ [[⟨p, " ".toList⟩, ⟨c, " ".toList⟩]]⟩ := by
    unfold groupRound
    rw [List.append_nil, List.foldl_append, foldl_groupStep_replicate, List.foldl_cons,
      List.foldl_nil, groupStep_pair _ _ _ _ _ rfl, if_pos (Or.inl rfl), hits_name _ _ _ hp,
      hits_name _ _ _ hc]
    by_cases h : type = p
    · simp [h, List.replicate_succ']
    · simp [h]
  rw [hround]
  refine ⟨?_, ⟨rfl, k, rfl, hk⟩, by simp, rfl, _, rfl, ?_⟩
  · by_cases h : type = c <;> by_cases h2 : p ∈ anc <;> simp [h, h2, hk]
  · by_cases h : type = p
    · simp [h]
    · have h2 : ¬ p = type := fun e => h e.symm
      simp [h, h2, hk]


/-- The query `p > c`. -/
theorem selectLoop_child (p c : Str) (hp : p ≠ "*".toList) (hc : c ≠ "*".toList)
    (forest : List Element) :
    selectLoop forest [[⟨p, " ".toList⟩, ⟨c, ">".toList⟩]] []
      = selectWhere (fun type anc _ => decide (type = c) && decide (anc.head? = some p))
          forest := by
  refine selectLoop_spec (fun type anc _ => decide (type = c) && decide (anc.head? = some p))
    (fun anc _ base adj => adj = [] ∧ base = (if anc.head? = some p then [[⟨c, ">".toList⟩]]
        else []) ++ [[⟨p, " ".toList⟩, ⟨c, ">".toList⟩]])
    ?_ forest [] [] _ _ ⟨rfl, by simp⟩
  rintro type anc before base adj ⟨rfl, rfl⟩
  have hne : ¬ (">".toList = " ".toList) := by decide
  have hround : groupRound type ((if anc.head? = some p then [[⟨c, ">".toList⟩]] else [])
        ++ [[⟨p, " ".toList⟩, ⟨c, ">".toList⟩]]) []
      = ⟨decide (anc.head? = some p) && decide (type = c),
          (if type = p then [[⟨c, ">".toList⟩]] else [])
            ++ [[⟨p, " ".toList⟩, ⟨c, ">".toList⟩]], [],
          (if anc.head? = some p then [[⟨c, ">".toList⟩]] else [])
            ++ [[⟨p, " ".toList⟩, ⟨c, ">".toList⟩]]⟩ := by
    unfold groupRound
    by_cases ha : anc.head? = some p
    · rw [if_pos ha, List.append_nil, List.singleton_append, List.foldl_cons, List.foldl_cons,
        List.foldl_nil, groupStep_last, groupStep_pair _ _ _ _ _ rfl, if_pos (Or.inr rfl),
        hits_name _ _ _ hp, hits_name _ _ _ hc]
      simp only [if_neg hne, Bool.false_or, List.append_nil, List.nil_append, decide_eq_true ha,
        Bool.true_and, decide_eq_true_eq, List.singleton_append]
    · rw [if_neg ha, List.append_nil, List.nil_append, List.foldl_cons,
        List.foldl_nil, groupStep_pair _ _ _ _ _ rfl, if_pos (Or.inr rfl),
        hits_name _ _ _ hp]
      simp only [List.nil_append, decide_eq_false ha, Bool.false_and, decide_eq_true_eq]
  rw [hround]
  refine ⟨?_, ⟨rfl, rfl⟩, by simp, rfl, ?_⟩
  · rw [Bool.and_comm]
  · by_cases h : type = p
    · simp [h]
    · have h2 : ¬ p = type := fun e => h e.symm
      simp [h, h2]

/-- The query `x + y`. -/
theorem selectLoop_adjacent (x y : Str) (hx : x ≠ "*".toList) (hy : y ≠ "*".toList)
    (forest : List Element) :
    selectLoop forest [[⟨x, " ".toList⟩, ⟨y, "+".toList⟩]] []
      = selectWhere (fun type _ before => decide (type = y) && decide (before.head? = some x))
          forest := by
  refine selectLoop_spec
    (fun type _ before => decide (type = y) && decide (before.head? = some x))
    (fun _ before base adj => base = [[⟨x, " ".toList⟩, ⟨y, "+".toList⟩]]
      ∧ adj = if before.head? = some x then [[⟨y, "+".toList⟩]] else [])
    ?_ forest [] [] _ _ ⟨rfl, by simp⟩
  rintro type anc before base adj ⟨rfl, rfl⟩
  have hne : ¬ ("+".toList = " ".toList) := by decide
  have hne2 : ¬ ("+".toList = " ".toList ∨ "+".toList = ">".toList) := by decide
  have hround : groupRound type [[⟨x, " ".toList⟩, ⟨y, "+".toList⟩]]
        (if before.head? = some x then [[⟨y, "+".toList⟩]] else [])
      = ⟨decide (before.head? = some x) && decide (type = y),
          [[⟨x, " ".toList⟩, ⟨y, "+".toList⟩]],
          (if type = x then [[⟨y, "+".toList⟩]] else []),
          [[⟨x, " ".toList⟩, ⟨y, "+".toList⟩]]⟩ := by
    unfold groupRound
    by_cases hb : before.head? = some x
    · rw [if_pos hb, List.singleton_append, List.foldl_cons, List.foldl_cons,
        List.foldl_nil, groupStep_pair _ _ _ _ _ rfl, if_neg hne2, if_pos rfl,
        groupStep_last, hits_name _ _ _ hx, hits_name _ _ _ hy]
      simp only [if_neg hne, Bool.false_or, List.append_nil, List.nil_append, decide_eq_true hb,
        Bool.true_and, decide_eq_true_eq]
    · rw [if_neg hb, List.append_nil, List.foldl_cons,
        List.foldl_nil, groupStep_pair _ _ _ _ _ rfl, if_neg hne2, if_pos rfl,
        hits_name _ _ _ hx]
      simp only [List.nil_append, decide_eq_false hb, Bool.false_and, decide_eq_true_eq]
  rw [hround]
  refine ⟨?_, ⟨rfl, ?_⟩, by simp, rfl, by simp⟩
  · rw [Bool.and_comm]
  · by_cases h : type = x
    · simp [h]
    · have h2 : ¬ x = type := fun e => h e.symm
      simp [h, h2]

/-- The query `x ~ y`. -/
theorem selectLoop_sibling (x y : Str) (hx : x ≠ "*".toList) (hy : y ≠ "*".toList)
    (forest : List Element) :
    selectLoop forest [[⟨x, " ".toList⟩, ⟨y, "~".toList⟩]] []
      = selectWhere (fun type _ before => decide (type = y) && decide (x ∈ before)) forest := by
  refine selectLoop_spec (fun type _ before => decide (type = y) && decide (x ∈ before))
    (fun _ before base adj => adj = [] ∧ ∃ k, base = [⟨x, " ".toList⟩, ⟨y, "~".toList⟩]
        :: List.replicate k [⟨y, "~".toList⟩] ∧ (0 < k ↔ x ∈ before))
    ?_ forest [] [] _ _ ⟨rfl, 0, rfl, by simp⟩
  rintro type anc before base adj ⟨rfl, k, rfl, hk⟩
  have hne : ¬ ("~".toList = " ".toList) := by decide
  have hne2 : ¬ ("~".toList = " ".toList ∨ "~".toList = ">".toList) := by decide
  have hne3 : ¬ ("~".toList = "+".toList) := by decide
  have hround : groupRound type ([⟨x, " ".toList⟩, ⟨y, "~".toList⟩]
        :: List.replicate k [⟨y, "~".toList⟩]) []
      = ⟨decide (0 < k) && decide (type = y),
          [[⟨x, " ".toList⟩, ⟨y, "~".toList⟩]], [],
          [⟨x, " ".toList⟩, ⟨y, "~".toList⟩]
            :: List.replicate (k + if type = x then 1 else 0) [⟨y, "~".toList⟩]⟩ := by
    unfold groupRound
    rw [List.append_nil, List.foldl_cons, groupStep_pair _ _ _ _ _ rfl, if_neg hne2, if_neg hne3,
      foldl_groupStep_replicate, hits_name _ _ _ hx, hits_name _ _ _ hy]
    by_cases h : type = x
    · simp [h, hne, List.replicate_succ']
    · simp [h, hne]
  rw [hround]
  refine ⟨?_, ⟨rfl, _, rfl, ?_⟩, by simp, rfl, 0, rfl, by simp⟩
  · by_cases h : type = y <;> by_cases h2 : x ∈ before <;> simp [h, h2, hk]
  · by_cases h : type = x
    · simp [h]
    · have h2 : ¬ x = type := fun e => h e.symm
      simp [h, h2, hk]

theorem stringsSplit_query (p c sep : Str) (hp : ',' ∉ p) (hc : ',' ∉ c) (hs : ',' ∉ sep) :
    stringsSplit ',' (p ++ sep ++ c) = [p ++ sep ++ c] :=
  stringsSplit_none _ _ (by
    simp only [List.mem_append, not_or]
    exact ⟨⟨hp, hs⟩, hc⟩)

/-- C22. For every forest of elements and every type name `t` without combinator characters
or commas, other than the wildcard `*`, `Select` with the query `t` returns the elements whose
type is `t`, at any depth, as the document pre-order lists them (each element once, where it
stands in that order); the query `*` returns every element of the forest in pre-order. -/
theorem C22_select_type (ev : Evaluator) (forest : List Element) (t : Str)
    (ht : ∀ x ∈ t, isCombinator x = false) (hcomma : ',' ∉ t) (hstar : t ≠ "*".toList) :
    Select ev (.pointers forest) (.text t)
      = ((locateList [] forest []).filter fun l => decide (l.elem.type = t)).map
          (fun l => l.elem)
    ∧ Select ev (.pointers forest) (.text "*".toList)
      = (locateList [] forest []).map fun l => l.elem := by
  constructor
  · rw [Select_text ev forest t [⟨t, " ".toList⟩]
      (by rw [parseSelector, stringsSplit_none _ _ hcomma, List.map_singleton,
        parseQuery_single t ht]),
      selectLoop_single, selectWhere]
    simp only [hits_name _ _ _ hstar]
  · rw [Select_text ev forest "*".toList [⟨"*".toList, " ".toList⟩] (by decide),
      selectLoop_single, selectWhere]
    have : ∀ type : Str, hits ⟨"*".toList, " ".toList⟩ type = true := by
      intro type
      unfold hits
      exact decide_eq_true (Or.inr rfl)
    simp only [this, List.filter_true]

/-- Witness of C22: the query `a` on the fixture of the tests selects the elements 1, 2, 3. -/
theorem C22_select_type_witness :
    attrIDs (Select nullEvaluator (.pointers selectFixture) (.text "a".toList))
      = ["1".toList, "2".toList, "3".toList] := by
  rw [(C22_select_type nullEvaluator selectFixture "a".toList (by decide) (by decide)
    (by decide)).1]
  decide!

/-- C23. For every forest of elements and type names `p` and `c` (without combinator
characters or commas, other than the wildcard), `Select` with the query `p c` returns the
elements of type `c` that have at least one proper ancestor of type `p`, at any distance, in
document pre-order. -/
theorem C23_select_descendant (ev : Evaluator) (forest : List Element) (p c : Str)
    (hp : ∀ x ∈ p, isCombinator x = false) (hc : ∀ x ∈ c, isCombinator x = false)
    (hpc : ',' ∉ p) (hcc : ',' ∉ c) (hps : p ≠ "*".toList) (hcs : c ≠ "*".toList) :
    Select ev (.pointers forest) (.text (p ++ " ".toList ++ c))
      = ((locateList [] forest []).filter
          fun l => decide (l.elem.type = c ∧ p ∈ l.ancestors)).map fun l => l.elem := by
  rw [Select_text ev forest _ [⟨p, " ".toList⟩, ⟨c, " ".toList⟩]
    (by
      rw [parseSelector, stringsSplit_query p c _ hpc hcc (by decide), List.map_singleton]
      exact congrArg (fun q => [q]) (by
        rw [List.append_assoc]
        exact parseQuery_space p c hp hc)),
    selectLoop_descendant p c hps hcs, selectWhere]
  simp only [Bool.decide_and]

/-- Witness of C23: the query `b a` on the fixture of the tests selects the element 2. -/
theorem C23_select_descendant_witness :
    attrIDs (Select nullEvaluator (.pointers selectFixture) (.text "b a".toList))
      = ["2".toList] := by
  rw [show "b a".toList = "b".toList ++ " ".toList ++ "a".toList from rfl,
    C23_select_descendant nullEvaluator selectFixture "b".toList "a".toList (by decide)
      (by decide) (by decide) (by decide) (by decide) (by decide)]
  decide!

/-- C24. For every forest of elements and type names `p` and `c` (without combinator
characters or commas, other than the wildcard), `Select` with the query `p > c` returns the
elements of type `c` whose direct parent has type `p`, in document pre-order, and so never an
element of type `c` that is only a deeper descendant of a `p`. -/
theorem C24_select_child (ev : Evaluator) (forest : List Element) (p c : Str)
    (hp : ∀ x ∈ p, isCombinator x = false) (hc : ∀ x ∈ c, isCombinator x = false)
    (hpc : ',' ∉ p) (hcc : ',' ∉ c) (hps : p ≠ "*".toList) (hcs : c ≠ "*".toList) :
    Select ev (.pointers forest) (.text (p ++ " > ".toList ++ c))
      = ((locateList [] forest []).filter
          fun l => decide (l.elem.type = c ∧ l.ancestors.head? = some p)).map
            fun l => l.elem := by
  rw [Select_text ev forest _ [⟨p, " ".toList⟩, ⟨c, ">".toList⟩]
    (by
      rw [parseSelector, stringsSplit_query p c _ hpc hcc (by decide), List.map_singleton]
      exact congrArg (fun q => [q]) (by
        rw [List.append_assoc]
        exact parseQuery_sign p c '>' (by decide) (by decide) hp hc)),
    selectLoop_child p c hps hcs, selectWhere]
  simp only [Bool.decide_and]

/-- Witness of C24: the query `root > a` on the fixture of the tests selects the elements 1
and 3, not the element 2 below `b`. -/
theorem C24_select_child_witness :
    attrIDs (Select nullEvaluator (.pointers selectFixture) (.text "root > a".toList))
      = ["1".toList, "3".toList] := by
  rw [show "root > a".toList = "root".toList ++ " > ".toList ++ "a".toList from rfl,
    C24_select_child nullEvaluator selectFixture "root".toList "a".toList (by decide)
      (by decide) (by decide) (by decide) (by decide) (by decide)]
  decide!

/-- C25. For every forest of elements and type names `x` and `y` (without combinator
characters or commas, other than the wildcard), `Select` with the query `x + y` returns the
elements of type `y` whose immediately preceding sibling has type `x`, in document pre-order;
every element of a list of children counts as a sibling, text nodes included, and the roots
of the forest are siblings of each other. -/
theorem C25_select_adjacent (ev : Evaluator) (forest : List Element) (x y : Str)
    (hx : ∀ ch ∈ x, isCombinator ch = false) (hy : ∀ ch ∈ y, isCombinator ch = false)
    (hxc : ',' ∉ x) (hyc : ',' ∉ y) (hxs : x ≠ "*".toList) (hys : y ≠ "*".toList) :
    Select ev (.pointers forest) (.text (x ++ " + ".toList ++ y))
      = ((locateList [] forest []).filter
          fun l => decide (l.elem.type = y ∧ l.before.head? = some x)).map
            fun l => l.elem := by
  rw [Select_text ev forest _ [⟨x, " ".toList⟩, ⟨y, "+".toList⟩]
    (by
      rw [parseSelector, stringsSplit_query x y _ hxc hyc (by decide), List.map_singleton]
      exact congrArg (fun q => [q]) (by
        rw [List.append_assoc]
        exact parseQuery_sign x y '+' (by decide) (by decide) hx hy)),
    selectLoop_adjacent x y hxs hys, selectWhere]
  simp only [Bool.decide_and]

/-- Witness of C25: the query `c + a` on the fixture of the tests selects the element 3. -/
theorem C25_select_adjacent_witness :
    attrIDs (Select nullEvaluator (.pointers selectFixture) (.text "c + a".toList))
      = ["3".toList] := by
  rw [show "c + a".toList = "c".toList ++ " + ".toList ++ "a".toList from rfl,
    C25_select_adjacent nullEvaluator selectFixture "c".toList "a".toList (by decide)
      (by decide) (by decide) (by decide) (by decide) (by decide)]
  decide!

/-- C26. For every forest of elements and type names `x` and `y` (without combinator
characters or commas, other than the wildcard), `Select` with the query `x ~ y` returns the
elements of type `y` that have an earlier sibling of type `x` under the same parent, in
document pre-order, each once however many earlier siblings have type `x`; the roots of the
forest are siblings of each other. -/
theorem C26_select_sibling (ev : Evaluator) (forest : List Element) (x y : Str)
    (hx : ∀ ch ∈ x, isCombinator ch = false) (hy : ∀ ch ∈ y, isCombinator ch = false)
    (hxc : ',' ∉ x) (hyc : ',' ∉ y) (hxs : x ≠ "*".toList) (hys : y ≠ "*".toList) :
    Select ev (.pointers forest) (.text (x ++ " ~ ".toList ++ y))
      = ((locateList [] forest []).filter
          fun l => decide (l.elem.type = y ∧ x ∈ l.before)).map fun l => l.elem := by
  rw [Select_text ev forest _ [⟨x, " ".toList⟩, ⟨y, "~".toList⟩]
    (by
      rw [parseSelector, stringsSplit_query x y _ hxc hyc (by decide), List.map_singleton]
      exact congrArg (fun q => [q]) (by
        rw [List.append_assoc]
        exact parseQuery_sign x y '~' (by decide) (by decide) hx hy)),
    selectLoop_sibling x y hxs hys, selectWhere]
  simp only [Bool.decide_and]

/-- Witness of C26: the query `b ~ a` on a list of siblings `b`, `b`, `a` (1), `c`, `a` (2)
selects each `a` once. -/
theorem C26_select_sibling_witness :
    attrIDs (Select nullEvaluator
        (.pointers [.mk "b".toList [] [], .mk "b".toList [] [], anchor "1".toList,
          .mk "c".toList [] [], anchor "2".toList])
        (.text "b ~ a".toList))
      = ["1".toList, "2".toList] := by
  rw [show "b ~ a".toList = "b".toList ++ " ~ ".toList ++ "a".toList from rfl,
    C26_select_sibling nullEvaluator _ "b".toList "a".toList (by decide)
      (by decide) (by decide) (by decide) (by decide) (by decide)]
  decide!

/-! ## Attribute binder -/

theorem bindField_eq (lib : AttrLib) (attrs : List (Str × GoValue)) (sf : StructField)
    (index : Nat) (vals : List GoValue) :
    bindField lib attrs sf index vals
      = if isFieldBindable sf then
          match parseFieldMeta sf index with
          | none => (.ok (), vals)
          | some f => bindMeta lib attrs f vals
        else (.ok (), vals) := by
  obtain ⟨name, type, attrTag, jsonTag, pkgPath, anonymous⟩ := sf
  rw [bindField]
  by_cases hb : isFieldBindable (.mk name type attrTag jsonTag pkgPath anonymous) = true
  · simp only [hb, if_true]
    cases hp : parseFieldMeta (.mk name type attrTag jsonTag pkgPath anonymous) index with
    | none => rfl
    | some f =>
      have ht : f.typ = type := by
        unfold parseFieldMeta at hp
        simp only [StructField.type] at hp
        split_ifs at hp <;> simp at hp <;> rw [← hp]
      simp only [bindMeta, ht]
  · simp only [hb, Bool.false_eq_true, if_false]

/-- The loop of `UnmarshalAttrs` inside `convertStruct` is the loop over the plan that
`buildTypeMeta` computes for the fields. -/
theorem bindFields_eq_bindPlan (lib : AttrLib) (attrs : List (Str × GoValue)) :
    ∀ (fields : List StructField) (index : Nat) (vals : List GoValue),
      bindFields lib attrs fields index vals
        = bindPlan lib attrs (buildFields fields index) vals
  | [], _, _ => by rw [bindFields, buildFields, bindPlan]
  | sf :: rest, index, vals => by
    rw [bindFields, bindField_eq, buildFields]
    by_cases hb : isFieldBindable sf = true
    · simp only [hb, if_true]
      cases hp : parseFieldMeta sf index with
      | none =>
        simp only []
        exact bindFields_eq_bindPlan lib attrs rest (index + 1) vals
      | some f =>
        simp only [bindPlan]
        cases hm : bindMeta lib attrs f vals with
        | mk st vals1 =>
          cases st with
          | ok u =>
            simp only []
            exact bindFields_eq_bindPlan lib attrs rest (index + 1) vals1
          | error e => rfl
          | panic => rfl
    · simp only [hb, Bool.false_eq_true, if_false]
      exact bindFields_eq_bindPlan lib attrs rest (index + 1) vals

/-- C27. `UnmarshalAttrs` rejects a bad target: for every attrs map it returns an error, does
not panic and writes nothing, when `dst` is nil, when it is not a pointer (a value of any
other kind), when it is a nil pointer, and when it points to a value whose type is not a
struct type. -/
theorem C27_bad_target (lib : AttrLib) (attrs : Option (List (Str × GoValue))) :
    UnmarshalAttrs lib .nil attrs = (.error .dstNil, .nil)
    ∧ (∀ dst : GoValue, dst.isNil = false → (∀ e t, dst ≠ .ptr e t) →
        UnmarshalAttrs lib dst attrs = (.error .dstNotPointer, dst))
    ∧ (∀ e : GoType, UnmarshalAttrs lib (.ptr e none) attrs
        = (.error .dstNotPointer, .ptr e none))
    ∧ (∀ (e : GoType) (v : GoValue), (∀ n fs, e ≠ .struct n fs) →
        UnmarshalAttrs lib (.ptr e (some v)) attrs = (.error .dstNotStruct, .ptr e (some v))) := by
  refine ⟨rfl, ?_, fun e => ?_, ?_⟩
  · intro dst hn hp
    cases dst with
    | nil => simp [GoValue.isNil] at hn
    | ptr e t => exact absurd rfl (hp e t)
    | _ => rfl
  · cases e <;> rfl
  · intro e v he
    cases e with
    | struct n fs => exact absurd rfl (he n fs)
    | _ => rfl

theorem parseTag_name (tag : Str) (h : tagName tag ≠ "-".toList) :
    (parseTag tag).1 = tagName tag ∧ (parseTag tag).2.2.2 = false
    ∧ containsOption (parseTag tag).2.1 "omitempty".toList = tagCarries tag "omitempty".toList := by
  by_cases ht : tag = []
  · subst ht
    exact ⟨by decide, by decide, by decide⟩
  · unfold parseTag
    have h' : ¬ trimSpace ((stringsSplit ',' tag).headD []) = "-".toList := h
    simp only [ht, if_false, h']
    refine ⟨rfl, trivial, ?_⟩
    unfold containsOption tagCarries
    rw [Bool.eq_iff_iff]
    simp only [List.any_eq_true, List.mem_filter, List.contains_iff_exists_mem_beq,
      decide_eq_true_eq, beq_iff_eq]
    constructor
    · rintro ⟨x, ⟨hx, _⟩, hxe⟩
      exact ⟨x, hx, hxe.symm⟩
    · rintro ⟨x, hx, hxe⟩
      exact ⟨x, ⟨hx, by rw [← hxe]; decide⟩, hxe.symm⟩

theorem parseTag_ignored (tag : Str) (h : tagName tag = "-".toList) :
    parseTag tag = ([], [], true, true) := by
  unfold parseTag
  have ht : tag ≠ [] := by
    rintro rfl
    exact absurd h (by decide)
  have h' : trimSpace ((stringsSplit ',' tag).headD []) = "-".toList := h
  simp only [ht, if_false, h', if_true]

theorem parseFieldMeta_eq (sf : StructField) (index : Nat) :
    parseFieldMeta sf index
      = if (parseTag sf.attrTag).2.2.2 = true then none
        else if (fieldKeys sf).isEmpty = true then none
        else some ⟨index, fieldKeys sf, sf.type, sf.name, fieldRequired sf⟩ := rfl

theorem fieldRequired_eq (sf : StructField) :
    fieldRequired sf = !(containsOption (parseTag sf.attrTag).2.1 "omitempty".toList
      || containsOption (parseTag sf.jsonTag).2.1 "omitempty".toList) := by
  unfold fieldRequired
  cases containsOption (parseTag sf.attrTag).2.1 "omitempty".toList <;>
    cases containsOption (parseTag sf.jsonTag).2.1 "omitempty".toList <;> rfl


theorem findRaw_none (attrs : List (Str × GoValue)) (keys : List Key)
    (h : ∀ k ∈ keys, attrsGet attrs k = none) : findRaw attrs keys = none := by
  induction keys with
  | nil => rfl
  | cons k ks ih =>
    rw [findRaw, h k (List.mem_cons_self _ _)]
    exact ih fun k' hk' => h k' (List.mem_cons_of_mem _ hk')

theorem bindPlan_append (lib : AttrLib) (attrs : List (Str × GoValue)) (a b : List fieldMeta)
    (vals : List GoValue) :
    bindPlan lib attrs (a ++ b) vals
      = match bindPlan lib attrs a vals with
        | (.ok _, vals1) => bindPlan lib attrs b vals1
        | r => r := by
  induction a generalizing vals with
  | nil => rfl
  | cons f fs ih =>
    rw [List.cons_append, bindPlan, bindPlan]
    cases hm : bindMeta lib attrs f vals with
    | mk st v1 =>
      cases st with
      | ok u => exact ih v1
      | error e => rfl
      | panic => rfl

theorem buildFields_append (pre post : List StructField) (index : Nat) :
    buildFields (pre ++ post) index
      = buildFields pre index ++ buildFields post (index + pre.length) := by
  induction pre generalizing index with
  | nil => simp [buildFields]
  | cons sf rest ih =>
    have e : index + (sf :: rest).length = index + 1 + rest.length := by
      simp only [List.length_cons]
      omega
    rw [List.cons_append, buildFields, buildFields, e]
    by_cases hb : isFieldBindable sf = true
    · simp only [hb, if_true]
      cases parseFieldMeta sf index with
      | none => exact ih (index + 1)
      | some f =>
        simp only [List.cons_append]
        rw [ih (index + 1)]
    · simp only [hb, Bool.false_eq_true, if_false]
      exact ih (index + 1)

theorem buildTypeMeta_split (pre post : List StructField) (sf : StructField) (f : fieldMeta)
    (hbind : isFieldBindable sf = true) (hmeta : parseFieldMeta sf pre.length = some f) :
    buildTypeMeta (pre ++ sf :: post)
      = buildFields pre 0 ++ f :: buildFields post (pre.length + 1) := by
  rw [buildTypeMeta, buildFields_append, Nat.zero_add, buildFields, hbind, if_pos rfl, hmeta]

theorem UnmarshalAttrs_struct (lib : AttrLib) (name : Str) (fields : List StructField)
    (vals : List GoValue) (attrs : List (Str × GoValue)) :
    UnmarshalAttrs lib (.ptr (.struct name fields) (some (.struct name fields vals)))
        (some attrs)
      = ((bindPlan lib attrs (buildTypeMeta fields) vals).1,
          .ptr (.struct name fields)
            (some (.struct name fields (bindPlan lib attrs (buildTypeMeta fields) vals).2))) :=
  rfl

/-- C28, counterexample. A field with the tag `json:"-,omitempty"` and no attr tag: its json
tag carries the option `omitempty`, the field is bindable and in the plan, and the bind with
the empty map fails. -/
theorem C28_counterexample :
    tagCarries "-,omitempty".toList "omitempty".toList = true
    ∧ isFieldBindable (plainField "X".toList .string [] "-,omitempty".toList) = true
    ∧ (buildTypeMeta [plainField "X".toList .string [] "-,omitempty".toList]).map
        (fun f => (f.keys, f.required)) = [([.text "x".toList, .text "X".toList], true)]
    ∧ (UnmarshalAttrs sampleAttrLib
        (newStruct "T".toList [plainField "X".toList .string [] "-,omitempty".toList])
        (some [])).1.tag = 1 := by
  decide!

/-- C28, amended. A field of the plan is required if and only if neither its attr tag nor its
json tag carries the option `omitempty`, where a json tag whose name is the ignore mark `-`
carries no option: nothing but the mark is read of it.  When none of the candidate keys of the
field is present in attrs: if it is required, its round of the loop returns the error
`missing required attr` and `UnmarshalAttrs` fails on every struct that has the field; if it
is not, its round writes nothing and goes on, so that the bind of a struct with this field
alone succeeds and the field keeps the value it had (the zero value of a new struct), and the
bind of any struct is the bind of its other fields. -/
theorem C28_required_field (lib : AttrLib) (attrs : List (Str × GoValue)) (sf : StructField)
    (f : fieldMeta) (pre post : List StructField) (name : Str) (vals : List GoValue)
    (hbind : isFieldBindable sf = true) (hmeta : parseFieldMeta sf pre.length = some f)
    (habsent : ∀ k ∈ f.keys, attrsGet attrs k = none) :
    (f.required = true ↔ tagCarries sf.attrTag "omitempty".toList = false
        ∧ (tagName sf.jsonTag = "-".toList ∨ tagCarries sf.jsonTag "omitempty".toList = false))
    ∧ (f.required = true →
        bindMeta lib attrs f vals = (.error (.missingRequired f.name f.keys), vals)
        ∧ (UnmarshalAttrs lib
            (.ptr (.struct name (pre ++ sf :: post))
              (some (.struct name (pre ++ sf :: post) vals))) (some attrs)).1.tag ≠ 0)
    ∧ (f.required = false →
        bindMeta lib attrs f vals = (.ok (), vals)
        ∧ (pre = [] → post = [] →
            UnmarshalAttrs lib (.ptr (.struct name [sf]) (some (.struct name [sf] vals)))
                (some attrs)
              = (.ok (), .ptr (.struct name [sf]) (some (.struct name [sf] vals))))
        ∧ bindPlan lib attrs (buildTypeMeta (pre ++ sf :: post)) vals
            = bindPlan lib attrs (buildFields pre 0 ++ buildFields post (pre.length + 1))
                vals) := by
  have hraw := findRaw_none attrs f.keys habsent
  have heq := parseFieldMeta_eq sf pre.length
  rw [hmeta] at heq
  have hattr : tagName sf.attrTag ≠ "-".toList := by
    intro e
    rw [parseTag_ignored _ e] at heq
    simp at heq
  have hreq : f.required = fieldRequired sf := by
    split_ifs at heq
    simp only [Option.some.injEq] at heq
    rw [heq]
  have hsplit := buildTypeMeta_split pre post sf f hbind hmeta
  refine ⟨?_, ?_, ?_⟩
  · rw [hreq, fieldRequired_eq, (parseTag_name _ hattr).2.2]
    by_cases hjson : tagName sf.jsonTag = "-".toList
    · rw [parseTag_ignored _ hjson]
      have hnone : containsOption [] "omitempty".toList = false := rfl
      simp only [hnone, Bool.or_false, hjson, true_or, and_true]
      cases tagCarries sf.attrTag "omitempty".toList <;> simp
    · rw [(parseTag_name _ hjson).2.2]
      simp only [hjson, false_or]
      cases tagCarries sf.attrTag "omitempty".toList <;>
        cases tagCarries sf.jsonTag "omitempty".toList <;> simp
  · intro hr
    have hm : bindMeta lib attrs f vals = (.error (.missingRequired f.name f.keys), vals) := by
      rw [bindMeta, hraw]
      simp only [hr, if_true]
    refine ⟨hm, ?_⟩
    rw [UnmarshalAttrs_struct, hsplit, bindPlan_append]
    cases hp : bindPlan lib attrs (buildFields pre 0) vals with
    | mk st v1 =>
      cases st with
      | ok u =>
        simp only [bindPlan, bindMeta, hraw, hr, if_true]
        simp [Outcome.tag]
      | error e => simp [Outcome.tag]
      | panic => simp [Outcome.tag]
  · intro hr
    have hm : ∀ v, bindMeta lib attrs f v = (.ok (), v) := by
      intro v
      rw [bindMeta, hraw]
      simp only [hr, Bool.false_eq_true, if_false]
    refine ⟨hm vals, ?_, ?_⟩
    · intro hpre hpost
      subst hpre
      have h1 : buildTypeMeta [sf] = [f] := by
        have := buildTypeMeta_split [] [] sf f hbind hmeta
        simpa [buildFields] using this
      rw [UnmarshalAttrs_struct, h1]
      simp only [bindPlan, hm vals]
    · rw [hsplit, bindPlan_append, bindPlan_append]
      cases hp : bindPlan lib attrs (buildFields pre 0) vals with
      | mk st v1 =>
        cases st with
        | ok u => simp only [bindPlan, hm v1]
        | error e => rfl
        | panic => rfl


/-- Witness of C28: the structs `optionalTarget` and `requiredTarget` of the tests and a
struct with a field tagged `json:"-,omitempty"`, bound with the empty map. -/
theorem C28_required_field_witness :
    UnmarshalAttrs sampleAttrLib
        (.ptr (.struct "optionalTarget".toList
            [plainField "Name".toList .string "name,omitempty".toList []])
          (some (.struct "optionalTarget".toList
            [plainField "Name".toList .string "name,omitempty".toList []] [.str []])))
        (some [])
      = (.ok (), .ptr (.struct "optionalTarget".toList
            [plainField "Name".toList .string "name,omitempty".toList []])
          (some (.struct "optionalTarget".toList
            [plainField "Name".toList .string "name,omitempty".toList []] [.str []])))
    ∧ (UnmarshalAttrs sampleAttrLib
        (.ptr (.struct "requiredTarget".toList
            ([] ++ plainField "Name".toList .string "name".toList [] :: []))
          (some (.struct "requiredTarget".toList
            ([] ++ plainField "Name".toList .string "name".toList [] :: []) [.str []])))
        (some [])).1.tag ≠ 0
    ∧ (UnmarshalAttrs sampleAttrLib
        (.ptr (.struct "T".toList
            ([] ++ plainField "X".toList .string [] "-,omitempty".toList :: []))
          (some (.struct "T".toList
            ([] ++ plainField "X".toList .string [] "-,omitempty".toList :: []) [.str []])))
        (some [])).1.tag ≠ 0 :=
  ⟨(C28_required_field sampleAttrLib [] (plainField "Name".toList .string "name,omitempty".toList [])
      ⟨0, [.text "name".toList, .text "Name".toList], .string, "Name".toList, false⟩ [] []
      "optionalTarget".toList [.str []] (by decide) rfl
      (by intro k _; cases k <;> rfl)).2.2 rfl |>.2.1 rfl rfl,
   (C28_required_field sampleAttrLib [] (plainField "Name".toList .string "name".toList [])
      ⟨0, [.text "name".toList, .text "Name".toList], .string, "Name".toList, true⟩ [] []
      "requiredTarget".toList [.str []] (by decide) rfl
      (by intro k _; cases k <;> rfl)).2.1 rfl |>.2,
   (C28_required_field sampleAttrLib [] (plainField "X".toList .string [] "-,omitempty".toList)
      ⟨0, [.text "x".toList, .text "X".toList], .string, "X".toList, true⟩ [] []
      "T".toList [.str []] (by decide) rfl
      (by intro k _; cases k <;> rfl)).2.1 rfl |>.2⟩

theorem foldl_appendUnique (l acc : List Key) :
    l.foldl appendUnique acc
      = acc ++ (firstOccurrences (l.filter fun k => k ≠ .text [])).filter fun x => x ∉ acc := by
  induction l generalizing acc with
  | nil => simp [firstOccurrences]
  | cons k ks ih =>
    rw [List.foldl_cons, ih]
    by_cases h0 : k = .text []
    · subst h0
      simp [appendUnique]
    · have hf : (k :: ks).filter (fun k => k ≠ .text []) = k :: ks.filter fun k => k ≠ .text [] := by
        simp [List.filter_cons, h0]
      rw [hf, firstOccurrences]
      by_cases hm : k ∈ acc
      · simp only [appendUnique, h0, hm, if_true, if_false, List.filter_cons, not_true_eq_false,
          decide_False, Bool.false_eq_true, List.filter_filter]
        congr 1
        apply List.filter_congr
        intro x _
        by_cases hx : x ∈ acc
        · simp [hx]
        · have : x ≠ k := fun e => hx (e ▸ hm)
          simp [hx, this]
      · simp only [appendUnique, h0, hm, if_false, List.filter_cons, not_false_eq_true,
          decide_True, if_true, List.filter_filter, List.append_assoc, List.singleton_append]
        congr 2
        apply List.filter_congr
        intro x _
        simp only [List.mem_append, not_or, List.mem_singleton, ne_eq, decide_not, Bool.decide_and,
          Bool.and_eq_true]

theorem firstOccurrences_nodup (l : List Key) : (firstOccurrences l).Nodup := by
  induction l with
  | nil => simp [firstOccurrences]
  | cons k ks ih =>
    rw [firstOccurrences, List.nodup_cons]
    exact ⟨by simp, ih.filter _⟩

theorem mem_firstOccurrences (l : List Key) (k : Key) : k ∈ firstOccurrences l ↔ k ∈ l := by
  induction l with
  | nil => simp [firstOccurrences]
  | cons a as ih =>
    rw [firstOccurrences]
    by_cases h : k = a
    · simp [h]
    · simp [h, ih]

theorem fieldKeys_eq (sf : StructField) :
    fieldKeys sf
      = firstOccurrences (([Key.text (parseTag sf.attrTag).1,
            Key.text (if (parseTag sf.jsonTag).2.2.2 = true then [] else (parseTag sf.jsonTag).1)]
          ++ fieldFallbackKeys sf.name).filter fun k => k ≠ .text []) := by
  have h := foldl_appendUnique ([Key.text (parseTag sf.attrTag).1,
      Key.text (if (parseTag sf.jsonTag).2.2.2 = true then [] else (parseTag sf.jsonTag).1)]
        ++ fieldFallbackKeys sf.name) []
  simp only [List.nil_append, List.not_mem_nil, not_false_eq_true, decide_True,
    List.filter_true] at h
  rw [← h, List.foldl_append]
  unfold fieldKeys
  by_cases ha : (parseTag sf.attrTag).1 = []
  · by_cases hj : (if (parseTag sf.jsonTag).2.2.2 = true then [] else (parseTag sf.jsonTag).1)
        = []
    · simp [ha, hj, appendUnique]
    · simp [ha, hj, appendUnique]
  · by_cases hj : (if (parseTag sf.jsonTag).2.2.2 = true then [] else (parseTag sf.jsonTag).1)
        = []
    · simp [ha, hj, appendUnique]
    · simp [ha, hj, appendUnique]

theorem fieldFallbackKeys_text (name : Str) : Key.text [] ∉ fieldFallbackKeys name := by
  unfold fieldFallbackKeys
  cases name with
  | nil => simp
  | cons c cs =>
    simp only
    split_ifs <;> simp

theorem findRaw_first (attrs : List (Str × GoValue)) (pre post : List Key) (k : Key)
    (v : GoValue) (hpre : ∀ k' ∈ pre, attrsGet attrs k' = none)
    (hk : attrsGet attrs k = some v) : findRaw attrs (pre ++ k :: post) = some v := by
  induction pre with
  | nil => simp [findRaw, hk]
  | cons a as ih =>
    rw [List.cons_append, findRaw, hpre a (List.mem_cons_self _ _)]
    exact ih fun k' hk' => hpre k' (List.mem_cons_of_mem _ hk')


theorem jsonKeyName_eq (tag : Str) :
    (if (parseTag tag).2.2.2 = true then [] else (parseTag tag).1) = jsonKeyName tag := by
  unfold jsonKeyName
  by_cases h : tagName tag = "-".toList
  · rw [parseTag_ignored tag h, if_pos h]
    rfl
  · rw [if_neg h, (parseTag_name tag h).1, (parseTag_name tag h).2.1]
    rfl

theorem fieldFallbackKeys_ascii (c : Char) (cs : Str) (hc : c.toNat < 128) :
    fieldFallbackKeys (c :: cs)
      = if asciiLower c = c then [.text (c :: cs)]
        else [.text (asciiLower c :: cs), .text (c :: cs)] := by
  unfold fieldFallbackKeys
  simp only [hc, if_true, List.cons.injEq, and_true]

/-- C29, counterexample. An untagged field `Value`: its candidate keys are `value`, then
`Value`, and with attrs that hold `A` under `Value` and `b` under `value` the bind stores `b`,
the value under the lower-cased variant, not the value under the name. -/
theorem C29_counterexample :
    fieldFallbackKeys "Value".toList = [.text "value".toList, .text "Value".toList]
    ∧ (buildTypeMeta [plainField "Value".toList .string [] []]).map (fun f => f.keys)
        = [[.text "value".toList, .text "Value".toList]]
    ∧ (fieldValues (UnmarshalAttrs sampleAttrLib
        (newStruct "T".toList [plainField "Value".toList .string [] []])
        (some [("Value".toList, .str "A".toList), ("value".toList, .str "b".toList)])).2).map
          showValue = ["b".toList] := by
  decide!

/-- C29, amended. The candidate keys of a field of the plan are, in this order and without
duplicates (a key stays at its first place, empty names are left out): the name of the attr
tag, the name of the json tag (none when the json tag is the ignore mark `-`), then the keys
derived from the declared field name: for a name that starts with an ASCII character, the
name with its first letter in lower case if that differs from the name, then the name itself.
The derived keys are candidates whatever the tags are.  The value bound is the value under
the first candidate key that is present in attrs, whatever that value is and whatever later
candidate keys are present. -/
theorem C29_candidate_keys (lib : AttrLib) (attrs : List (Str × GoValue)) (sf : StructField)
    (index : Nat) (f : fieldMeta) (hmeta : parseFieldMeta sf index = some f) :
    f.keys = firstOccurrences
        (([Key.text (tagName sf.attrTag), Key.text (jsonKeyName sf.jsonTag)]
          ++ fieldFallbackKeys sf.name).filter fun k => k ≠ .text [])
    ∧ f.keys.Nodup
    ∧ (∀ (c : Char) (cs : Str), sf.name = c :: cs → c.toNat < 128 →
        fieldFallbackKeys sf.name
          = if asciiLower c = c then [.text sf.name]
            else [.text (asciiLower c :: cs), .text sf.name])
    ∧ (∀ k ∈ fieldFallbackKeys sf.name, k ∈ f.keys)
    ∧ (∀ (pre post : List Key) (k : Key) (v : GoValue), f.keys = pre ++ k :: post →
        (∀ k' ∈ pre, attrsGet attrs k' = none) → attrsGet attrs k = some v →
        findRaw attrs f.keys = some v
        ∧ ∀ vals : List GoValue, bindMeta lib attrs f vals
            = match convertValue lib sf.type v with
              | .error e => (.error (.field sf.name e), vals)
              | .panic => (.panic, vals)
              | .ok cv =>
                if canAssign lib cv sf.type then (.ok (), vals.set index cv)
                else (.panic, vals)) := by
  have heq := parseFieldMeta_eq sf index
  rw [hmeta] at heq
  have hattr : tagName sf.attrTag ≠ "-".toList := by
    intro e
    rw [parseTag_ignored _ e] at heq
    simp at heq
  have hf : f = ⟨index, fieldKeys sf, sf.type, sf.name, fieldRequired sf⟩ := by
    split_ifs at heq
    simp only [Option.some.injEq] at heq
    exact heq
  have hkeys : f.keys = firstOccurrences
      (([Key.text (tagName sf.attrTag), Key.text (jsonKeyName sf.jsonTag)]
        ++ fieldFallbackKeys sf.name).filter fun k => k ≠ .text []) := by
    rw [hf]
    simp only []
    rw [fieldKeys_eq, jsonKeyName_eq, (parseTag_name _ hattr).1]
  refine ⟨hkeys, ?_, ?_, ?_, ?_⟩
  · rw [hkeys]
    exact firstOccurrences_nodup _
  · intro c cs hn hc
    rw [hn]
    exact fieldFallbackKeys_ascii c cs hc
  · intro k hk
    rw [hkeys, mem_firstOccurrences, List.mem_filter]
    refine ⟨List.mem_append_right _ hk, ?_⟩
    have : k ≠ .text [] := fun e => fieldFallbackKeys_text sf.name (e ▸ hk)
    simpa using this
  · intro pre post k v hsplit hpre hk
    have hraw : findRaw attrs f.keys = some v := by
      rw [hsplit]
      exact findRaw_first attrs pre post k v hpre hk
    refine ⟨hraw, ?_⟩
    intro vals
    subst hf
    simp only [bindMeta, hraw]

/-- Witness of C29: the untagged field `Value`.  Its keys are `value`, `Value`; with attrs
that hold `A` under `Value` and the empty string under `value`, the empty string is bound. -/
theorem C29_candidate_keys_witness :
    [Key.text "value".toList, .text "Value".toList]
      = firstOccurrences
        (([Key.text (tagName []), Key.text (jsonKeyName [])]
          ++ fieldFallbackKeys "Value".toList).filter fun k => k ≠ .text [])
    ∧ fieldFallbackKeys "Value".toList
      = (if asciiLower 'V' = 'V' then [.text "Value".toList]
          else [.text (asciiLower 'V' :: "alue".toList), .text "Value".toList])
    ∧ findRaw [("Value".toList, .str "A".toList), ("value".toList, .str [])]
        [Key.text "value".toList, .text "Value".toList] = some (.str []) :=
  ⟨(C29_candidate_keys sampleAttrLib [] (plainField "Value".toList .string [] []) 0
      ⟨0, [.text "value".toList, .text "Value".toList], .string, "Value".toList, true⟩ rfl).1,
   (C29_candidate_keys sampleAttrLib [] (plainField "Value".toList .string [] []) 0
      ⟨0, [.text "value".toList, .text "Value".toList], .string, "Value".toList, true⟩
      rfl).2.2.1 'V' "alue".toList rfl (by decide),
   ((C29_candidate_keys sampleAttrLib
      [("Value".toList, .str "A".toList), ("value".toList, .str [])]
      (plainField "Value".toList .string [] []) 0
      ⟨0, [.text "value".toList, .text "Value".toList], .string, "Value".toList, true⟩
      rfl).2.2.2.2 [] [.text "Value".toList]
      (.text "value".toList) (.str []) rfl (by simp) rfl).1⟩

theorem decValue_append (ds : Str) (c : Char) :
    decValue (ds ++ [c]) = 10 * decValue ds + (c.toNat - 48) := by
  unfold decValue
  rw [List.foldl_append]
  rfl

theorem digitChar_facts (d : Nat) (hd : d < 10) :
    isDigit (Char.ofNat (48 + d)) = true ∧ (Char.ofNat (48 + d)).toNat - 48 = d := by
  have h : (Char.ofNat (48 + d)).toNat = 48 + d := toNat_ofNat_small _ (by omega)
  refine ⟨(isDigit_iff _).2 (by omega), by omega⟩

theorem decimalDigits_spec (fuel : Nat) :
    ∀ (n : Nat) (acc : Str), n < fuel →
      ∃ ds, decimalDigits fuel n acc = ds ++ acc ∧ ds ≠ [] ∧ (∀ d ∈ ds, isDigit d = true)
        ∧ decValue ds = n := by
  induction fuel with
  | zero => intro n acc h; omega
  | succ fuel ih =>
    intro n acc hn
    obtain ⟨hdig, hval⟩ := digitChar_facts (n % 10) (Nat.mod_lt _ (by decide))
    rw [decimalDigits]
    by_cases h0 : n / 10 = 0
    · rw [if_pos h0]
      refine ⟨[Char.ofNat (48 + n % 10)], rfl, by simp, ?_, ?_⟩
      · intro d hd
        simp only [List.mem_singleton] at hd
        rw [hd]
        exact hdig
      · have : decValue [Char.ofNat (48 + n % 10)] = (Char.ofNat (48 + n % 10)).toNat - 48 := by
          simp [decValue]
        rw [this, hval]
        omega
    · rw [if_neg h0]
      have hlt : n / 10 < fuel := by omega
      obtain ⟨ds, he, _, hds, hv⟩ := ih (n / 10) (Char.ofNat (48 + n % 10) :: acc) hlt
      refine ⟨ds ++ [Char.ofNat (48 + n % 10)], by rw [he]; simp, by simp, ?_, ?_⟩
      · intro d hd
        simp only [List.mem_append, List.mem_singleton] at hd
        rcases hd with hd | hd
        · exact hds d hd
        · rw [hd]
          exact hdig
      · rw [decValue_append, hv, hval]
        omega

theorem natDecimal_spec (n : Nat) :
    natDecimal n ≠ [] ∧ (∀ d ∈ natDecimal n, isDigit d = true) ∧ decValue (natDecimal n) = n := by
  obtain ⟨ds, he, hne, hds, hv⟩ := decimalDigits_spec (n + 1) n [] (Nat.lt_succ_self n)
  rw [List.append_nil] at he
  unfold natDecimal
  rw [he]
  exact ⟨hne, hds, hv⟩

theorem natDecimal_head (n : Nat) :
    (natDecimal n).head? ≠ some '+' ∧ (natDecimal n).head? ≠ some '-' := by
  obtain ⟨hne, hds, _⟩ := natDecimal_spec n
  cases h : natDecimal n with
  | nil => exact absurd h hne
  | cons c cs =>
    have hc : isDigit c = true := hds c (by rw [h]; simp)
    have := (isDigit_iff c).1 hc
    constructor
    · intro e
      simp only [List.head?_cons, Option.some.injEq] at e
      rw [e] at this
      simp at this
    · intro e
      simp only [List.head?_cons, Option.some.injEq] at e
      rw [e] at this
      simp at this


theorem parseInt10_natDecimal (n : Nat) (h : n < 2 ^ 63) :
    parseInt10 (natDecimal n) = some (n : Int) := by
  obtain ⟨hne, hds, hv⟩ := natDecimal_spec n
  obtain ⟨h1, h2⟩ := natDecimal_head n
  have hall : (natDecimal n).all isDigit = true := List.all_eq_true.2 hds
  unfold parseInt10
  simp only [h1, h2, or_self, if_false, decide_False, hne, ne_eq, not_false_eq_true, hall,
    and_self, if_true, hv, h, Bool.false_eq_true]

theorem parseInt10_neg (m : Nat) (h : m ≤ 2 ^ 63) :
    parseInt10 ('-' :: natDecimal m) = some (-(m : Int)) := by
  obtain ⟨hne, hds, hv⟩ := natDecimal_spec m
  have hall : (natDecimal m).all isDigit = true := List.all_eq_true.2 hds
  unfold parseInt10
  simp only [List.head?_cons, or_true, if_true, decide_True, List.drop_succ_cons, List.drop_zero,
    hne, ne_eq, not_false_eq_true, hall, and_self, hv, h]

theorem parseInt10_intDecimal (n : Int) (h1 : -(2 ^ 63) ≤ n) (h2 : n < 2 ^ 63) :
    parseInt10 (intDecimal n) = some n := by
  unfold intDecimal
  by_cases hn : n < 0
  · rw [if_pos hn, parseInt10_neg _ (by omega)]
    congr 1
    omega
  · rw [if_neg hn, parseInt10_natDecimal _ (by omega)]
    congr 1
    omega

theorem parseUint10_natDecimal (n : Nat) (h : n < 2 ^ 64) :
    parseUint10 (natDecimal n) = some n := by
  obtain ⟨hne, hds, hv⟩ := natDecimal_spec n
  have hall : (natDecimal n).all isDigit = true := List.all_eq_true.2 hds
  unfold parseUint10
  simp only [hne, ne_eq, not_false_eq_true, hall, hv, h, and_self, if_true]

theorem wrapInt_id (bits : Nat) (hb : 0 < bits) (n : Int) (h1 : -(2 ^ (bits - 1)) ≤ n)
    (h2 : n < 2 ^ (bits - 1)) : wrapInt bits n = n := by
  unfold wrapInt
  have hp : (2 : Int) ^ bits = 2 * 2 ^ (bits - 1) := by
    obtain ⟨b, rfl⟩ : ∃ b, bits = b + 1 := ⟨bits - 1, by omega⟩
    simp [pow_succ, mul_comm]
  have hpos : (0 : Int) < 2 ^ (bits - 1) := by positivity
  rw [Int.emod_eq_of_lt (by omega) (by omega)]
  omega

theorem IntKind.bits_pos (k : IntKind) : 0 < k.bits ∧ k.bits ≤ 64 := by
  cases k <;> decide

theorem pow_bits_le (b : Nat) (hb : 0 < b) (h : b ≤ 64) : (2 : Int) ^ (b - 1) ≤ 2 ^ 63 := by
  exact pow_le_pow_right₀ (by norm_num) (by omega)

theorem decimalInteger_parse (s : Str) (h : decimalInteger s = false) :
    parseInt10 s = none ∧ parseUint10 s = none := by
  unfold decimalInteger at h
  simp only [Bool.and_eq_false_iff, decide_eq_false_iff_not, ne_eq, not_not] at h
  constructor
  · unfold parseInt10
    simp only
    rw [if_neg]
    rintro ⟨h1, h2⟩
    rcases h with h | h
    · exact h1 h
    · rw [h2] at h
      exact Bool.noConfusion h
  · unfold parseUint10
    rw [if_neg]
    rintro ⟨h1, h2, _⟩
    have hhead : ¬ (s.head? = some '+' ∨ s.head? = some '-') := by
      cases s with
      | nil => simp
      | cons c cs =>
        have hc : isDigit c = true := by
          simp only [List.all_cons, Bool.and_eq_true] at h2
          exact h2.1
        have := (isDigit_iff c).1 hc
        simp only [List.head?_cons, Option.some.injEq]
        rintro (e | e) <;> rw [e] at this <;> simp at this
    rw [if_neg hhead] at h
    rcases h with h | h
    · exact h1 h
    · rw [h2] at h
      exact Bool.noConfusion h


theorem convertValue_int_str (lib : AttrLib) (k : IntKind) (s : Str) :
    convertValue lib (.int k) (.str s) = convertInt lib k (.str s) := by
  rw [convertValue]
  rfl

theorem convertValue_uint_str (lib : AttrLib) (k : UintKind) (s : Str) :
    convertValue lib (.uint k) (.str s) = convertUint lib k (.str s) := by
  rw [convertValue]
  rfl

theorem convertValue_bool_str (lib : AttrLib) (s : Str) :
    convertValue lib .bool (.str s) = convertBool (.str s) := by
  rw [convertValue]
  rfl

theorem convertValue_string (lib : AttrLib) (value : GoValue) (h : value.isNil = false) :
    convertValue lib .string value = .ok (.str (sprintValue lib value)) := by
  rw [convertValue]
  cases value with
  | nil => simp [GoValue.isNil] at h
  | str s => rfl
  | _ => rfl

theorem UintKind.bits_le (k : UintKind) : k.bits ≤ 64 := by
  cases k <;> decide

/-- C30, counterexample. The nil value bound to a string field yields the empty string, not
the text `<nil>` that `fmt.Sprint` prints for it. -/
theorem C30_counterexample :
    sprintValue sampleAttrLib .nil = "<nil>".toList
    ∧ (fieldValues (UnmarshalAttrs sampleAttrLib
        (newStruct "T".toList [plainField "S".toList .string [] []])
        (some [("s".toList, .nil)])).2).map showValue = [[]]
    ∧ (UnmarshalAttrs sampleAttrLib (newStruct "T".toList [plainField "S".toList .string [] []])
        (some [("s".toList, .nil)])).1.tag = 0 := by
  decide!

/-- C30, amended. Text converts to the declared scalar type: for every integer `n`
representable in the target, the decimal text of `n` converts to `n` for a signed and for an
unsigned integer field; the texts `true` and `false` convert to that boolean for a boolean
field; every value other than nil converts to its default stringification for a string field,
and nil converts to the empty string; a text that is not a decimal integer does not convert
for an integer field.  The round of `UnmarshalAttrs` for a field stores the converted value in
the field, and an error of the conversion makes the bind fail. -/
theorem C30_scalar_conversion (lib : AttrLib) :
    (∀ (k : IntKind) (n : Int), -(2 ^ (k.bits - 1)) ≤ n → n < 2 ^ (k.bits - 1) →
      convertValue lib (.int k) (.str (intDecimal n)) = .ok (.int k n))
    ∧ (∀ (k : UintKind) (n : Nat), n < 2 ^ k.bits →
      convertValue lib (.uint k) (.str (natDecimal n)) = .ok (.uint k n))
    ∧ convertValue lib .bool (.str "true".toList) = .ok (.bool true)
    ∧ convertValue lib .bool (.str "false".toList) = .ok (.bool false)
    ∧ (∀ value : GoValue, value.isNil = false →
      convertValue lib .string value = .ok (.str (sprintValue lib value)))
    ∧ convertValue lib .string .nil = .ok (.str [])
    ∧ (∀ (k : IntKind) (s : Str), decimalInteger s = false →
      convertValue lib (.int k) (.str s) = .error (.strconv s))
    ∧ (∀ (k : UintKind) (s : Str), decimalInteger s = false →
      convertValue lib (.uint k) (.str s) = .error (.strconv s))
    ∧ (∀ (f : fieldMeta) (attrs : List (Str × GoValue)) (vals : List GoValue)
        (raw cv : GoValue), findRaw attrs f.keys = some raw →
        convertValue lib f.typ raw = .ok cv → canAssign lib cv f.typ = true →
        bindMeta lib attrs f vals = (.ok (), vals.set f.index cv))
    ∧ (∀ (f : fieldMeta) (attrs : List (Str × GoValue)) (vals : List GoValue)
        (raw : GoValue) (e : BindError), findRaw attrs f.keys = some raw →
        convertValue lib f.typ raw = .error e →
        bindMeta lib attrs f vals = (.error (.field f.name e), vals)
        ∧ ∀ pre post : List fieldMeta,
            (bindPlan lib attrs (pre ++ f :: post) vals).1.tag ≠ 0) := by
  refine ⟨?_, ?_, ?_, ?_, convertValue_string lib, ?_, ?_, ?_, ?_, ?_⟩
  · intro k n h1 h2
    obtain ⟨hb, hb64⟩ := IntKind.bits_pos k
    have hp := pow_bits_le k.bits hb hb64
    rw [convertValue_int_str, convertInt, toInt64, parseInt10_intDecimal n (by omega) (by omega)]
    simp only [wrapInt_id k.bits hb n h1 h2]
  · intro k n h
    have hp : (2 : Nat) ^ k.bits ≤ 2 ^ 64 :=
      Nat.pow_le_pow_right (by decide) (UintKind.bits_le k)
    rw [convertValue_uint_str, convertUint, toUint64, parseUint10_natDecimal n (by omega)]
    simp only [wrapUint, Nat.mod_eq_of_lt h]
  · rw [convertValue_bool_str]
    rfl
  · rw [convertValue_bool_str]
    rfl
  · rw [convertValue]
    rfl
  · intro k s h
    rw [convertValue_int_str, convertInt, toInt64, (decimalInteger_parse s h).1]
  · intro k s h
    rw [convertValue_uint_str, convertUint, toUint64, (decimalInteger_parse s h).2]
  · intro f attrs vals raw cv hraw hconv hassign
    rw [bindMeta, hraw]
    simp only [hconv, hassign, if_true]
  · intro f attrs vals raw e hraw hconv
    have hm : ∀ v, bindMeta lib attrs f v = (.error (.field f.name e), v) := by
      intro v
      rw [bindMeta, hraw]
      simp only [hconv]
    refine ⟨hm vals, ?_⟩
    intro pre post
    rw [bindPlan_append]
    cases hp : bindPlan lib attrs pre vals with
    | mk st v1 =>
      cases st with
      | ok u =>
        simp only [bindPlan, hm v1]
        simp [Outcome.tag]
      | error e => simp [Outcome.tag]
      | panic => simp [Outcome.tag]

/-- The bind of the test `TestBindAttrs`: text to an integer, an integer to a string, text to
a boolean and to a float, an integer to a pointer, a slice and a map element by element, and a
nested map to a nested struct. -/
theorem UnmarshalAttrs_bindTarget :
    (fieldValues (UnmarshalAttrs sampleAttrLib
      (newStruct "bindTarget".toList bindTargetFields)
      (some [("id".toList, .str "12".toList), ("title".toList, .int .int 123),
        ("enabled".toList, .str "true".toList), ("rate".toList, .str "2".toList),
        ("count".toList, .int .int 7),
        ("tags".toList, .slice .any [.str "a".toList, .str "b".toList]),
        ("meta".toList, .map .any .any
          [(.str "x".toList, .str "1".toList), (.str "y".toList, .int .int 2)]),
        ("nested".toList, .map .string .any [(.str "name".toList, .str "neo".toList)]),
        ("default".toList, .str "ok".toList)])).2).map showValue
    = ["12".toList, "123".toList, "true".toList, "2".toList, "&7".toList, "[a b ]".toList,
       "map[x:1 y:2 ]".toList, "\x7bneo \x7d".toList, "ok".toList] := by
  decide!

/-! ## Integer conversion and the width of the field -/

theorem canAssign_int (lib : AttrLib) (k k2 : IntKind) (n : Int) :
    canAssign lib (.int k2 n) (.int k) = decide (k2 = k) := by
  cases k <;> cases k2 <;> rfl

/-- C31, the code at failing inputs. `convertInt` and `convertUint` read the source as a
64-bit number and `SetInt`, `SetUint` store it converted to the width of the field, with no
test of the range: every decimal text in the range of `int64` (of `uint64`) and every integer
of another signed type binds to a signed (unsigned) field of any width without an error, and
the field holds the number modulo two to the width.  The text `300` bound to an `int8` field
stores 44, the integer 256 bound to a `uint8` field stores 0, and a `uint` of value `2 ^ 63`
bound to an `int64` field stores `-2 ^ 63`, where the same number as a `uint64` is rejected. -/
theorem C31_narrow_integer_wraps :
    (∀ (lib : AttrLib) (k : IntKind) (n : Int), -(2 ^ 63) ≤ n → n < 2 ^ 63 →
      convertValue lib (.int k) (.str (intDecimal n)) = .ok (.int k (wrapInt k.bits n)))
    ∧ (∀ (lib : AttrLib) (k k2 : IntKind) (n : Int), k2 ≠ k →
      convertValue lib (.int k) (.int k2 n) = .ok (.int k (wrapInt k.bits n)))
    ∧ (∀ (lib : AttrLib) (k : UintKind) (n : Nat), n < 2 ^ 64 →
      convertValue lib (.uint k) (.str (natDecimal n)) = .ok (.uint k (n % 2 ^ k.bits)))
    ∧ wrapInt IntKind.int8.bits 300 = 44
    ∧ (UnmarshalAttrs sampleAttrLib
        (newStruct "T".toList [plainField "N".toList (.int .int8) "n".toList []])
        (some [("n".toList, .str "300".toList)])).1.tag = 0
    ∧ (fieldValues (UnmarshalAttrs sampleAttrLib
        (newStruct "T".toList [plainField "N".toList (.int .int8) "n".toList []])
        (some [("n".toList, .str "300".toList)])).2).map showValue = ["44".toList]
    ∧ (fieldValues (UnmarshalAttrs sampleAttrLib
        (newStruct "T".toList [plainField "N".toList (.uint .uint8) "n".toList []])
        (some [("n".toList, .int .int 256)])).2).map showValue = ["0".toList]
    ∧ (fieldValues (UnmarshalAttrs sampleAttrLib
        (newStruct "T".toList [plainField "N".toList (.int .int64) "n".toList []])
        (some [("n".toList, .uint .uint (2 ^ 63))])).2).map showValue
        = ["-9223372036854775808".toList]
    ∧ (UnmarshalAttrs sampleAttrLib
        (newStruct "T".toList [plainField "N".toList (.int .int64) "n".toList []])
        (some [("n".toList, .uint .uint64 (2 ^ 63))])).1.tag = 1 := by
  refine ⟨?_, ?_, ?_, by decide, by decide!, by decide!, by decide!, by decide!, by decide!⟩
  · intro lib k n h1 h2
    rw [convertValue_int_str, convertInt, toInt64, parseInt10_intDecimal n (by omega) (by omega)]
  · intro lib k k2 n hk
    rw [convertValue]
    simp only [convertGuard, GoValue.isNil, canAssign_int, decide_eq_false hk, convertInt, toInt64]
    simp
  · intro lib k n h
    rw [convertValue_uint_str, convertUint, toUint64, parseUint10_natDecimal n (by omega)]
    rfl

/-! ## The bind stops at the first failing field -/

theorem bindMeta_error (lib : AttrLib) (attrs : List (Str × GoValue)) (f : fieldMeta)
    (vals vals1 : List GoValue) (e : BindError)
    (h : bindMeta lib attrs f vals = (.error e, vals1)) : vals1 = vals := by
  unfold bindMeta at h
  split at h
  · split at h <;> simp at h
    exact h.2.symm
  · split at h
    · simp at h
      exact h.2.symm
    · simp at h
    · split at h <;> simp at h

theorem bindMeta_ok (lib : AttrLib) (attrs : List (Str × GoValue)) (f : fieldMeta)
    (vals vals1 : List GoValue) (u : Unit)
    (h : bindMeta lib attrs f vals = (.ok u, vals1)) :
    vals1.length = vals.length
    ∧ (∀ i, f.index ≠ i → vals1.get? i = vals.get? i)
    ∧ (findRaw attrs f.keys = none → vals1 = vals) := by
  unfold bindMeta at h
  split at h
  · split at h <;> simp at h
    subst h
    exact ⟨rfl, fun _ _ => rfl, fun _ => rfl⟩
  · rename_i raw hraw
    split at h
    · simp at h
    · simp at h
    · split at h <;> simp at h
      subst h
      refine ⟨by simp, ?_, ?_⟩
      · intro i hi
        simp [List.getElem?_set_ne hi]
      · intro hn
        rw [hraw] at hn
        cases hn

theorem bindPlan_error_split (lib : AttrLib) (attrs : List (Str × GoValue))
    (plan : List fieldMeta) (vals vals1 : List GoValue) (e : BindError)
    (h : bindPlan lib attrs plan vals = (.error e, vals1)) :
    ∃ pre f post, plan = pre ++ f :: post
      ∧ bindPlan lib attrs pre vals = (.ok (), vals1)
      ∧ bindMeta lib attrs f vals1 = (.error e, vals1) := by
  induction plan generalizing vals with
  | nil => simp [bindPlan] at h
  | cons f rest ih =>
    rw [bindPlan] at h
    cases hm : bindMeta lib attrs f vals with
    | mk st v1 =>
      rw [hm] at h
      cases st with
      | ok u =>
        simp only at h
        obtain ⟨pre, g, post, hp, hpre, hg⟩ := ih v1 h
        refine ⟨f :: pre, g, post, by rw [hp]; rfl, ?_, hg⟩
        rw [bindPlan, hm]
        exact hpre
      | error e1 =>
        simp only [Prod.mk.injEq, Outcome.error.injEq] at h
        obtain ⟨he, hv⟩ := h
        subst he hv
        have := bindMeta_error lib attrs f vals v1 e1 hm
        subst this
        exact ⟨[], f, rest, rfl, rfl, hm⟩
      | panic => simp at h

theorem bindPlan_ok_frame (lib : AttrLib) (attrs : List (Str × GoValue))
    (plan : List fieldMeta) (vals vals1 : List GoValue) (u : Unit)
    (h : bindPlan lib attrs plan vals = (.ok u, vals1)) :
    vals1.length = vals.length
    ∧ (∀ i, (∀ g ∈ plan, g.index ≠ i) → vals1.get? i = vals.get? i)
    ∧ ((∀ g ∈ plan, findRaw attrs g.keys = none) → vals1 = vals) := by
  induction plan generalizing vals with
  | nil =>
    simp only [bindPlan, Prod.mk.injEq] at h
    obtain ⟨_, hv⟩ := h
    subst hv
    exact ⟨rfl, fun _ _ => rfl, fun _ => rfl⟩
  | cons f rest ih =>
    rw [bindPlan] at h
    cases hm : bindMeta lib attrs f vals with
    | mk st v1 =>
      rw [hm] at h
      cases st with
      | ok u1 =>
        simp only at h
        obtain ⟨hl, hframe, hnone⟩ := ih v1 h
        obtain ⟨hl1, hframe1, hnone1⟩ := bindMeta_ok lib attrs f vals v1 u1 hm
        refine ⟨hl.trans hl1, ?_, ?_⟩
        · intro i hi
          rw [hframe i (fun g hg => hi g (List.mem_cons_of_mem _ hg)),
            hframe1 i (hi f (List.mem_cons_self _ _))]
        · intro hall
          rw [hnone (fun g hg => hall g (List.mem_cons_of_mem _ hg)),
            hnone1 (hall f (List.mem_cons_self _ _))]
      | error e1 => simp at h
      | panic => simp at h

theorem buildFields_index (fields : List StructField) (start : Nat) :
    (∀ g ∈ buildFields fields start, start ≤ g.index)
    ∧ (buildFields fields start).Pairwise fun a b => a.index < b.index := by
  induction fields generalizing start with
  | nil => simp [buildFields]
  | cons sf rest ih =>
    obtain ⟨h1, h2⟩ := ih (start + 1)
    have hle : ∀ g ∈ buildFields rest (start + 1), start ≤ g.index :=
      fun g hg => Nat.le_of_succ_le (h1 g hg)
    rw [buildFields]
    split
    · cases hm : parseFieldMeta sf start with
      | none => exact ⟨hle, h2⟩
      | some m =>
        have hidx : m.index = start := by
          have := parseFieldMeta_eq sf start
          rw [hm] at this
          split_ifs at this
          simp only [Option.some.injEq] at this
          rw [this]
        simp only
        refine ⟨?_, ?_⟩
        · intro g hg
          rcases List.mem_cons.1 hg with rfl | hg
          · omega
          · exact hle g hg
        · rw [List.pairwise_cons]
          refine ⟨?_, h2⟩
          intro g hg
          rw [hidx]
          exact h1 g hg
    · exact ⟨hle, h2⟩


/-- C32, counterexample. A struct with the integer fields `A` and `B`, bound with the integer
1 under `a` and the text `bad` under `b`: `UnmarshalAttrs` returns an error, and the field `A`
of the struct holds 1 afterwards, where it held 0 before the call. -/
theorem C32_counterexample :
    (UnmarshalAttrs sampleAttrLib
        (newStruct "T".toList [plainField "A".toList (.int .int) "a".toList [],
          plainField "B".toList (.int .int) "b".toList []])
        (some [("a".toList, .int .int 1), ("b".toList, .str "bad".toList)])).1.tag = 1
    ∧ (fieldValues (UnmarshalAttrs sampleAttrLib
        (newStruct "T".toList [plainField "A".toList (.int .int) "a".toList [],
          plainField "B".toList (.int .int) "b".toList []])
        (some [("a".toList, .int .int 1), ("b".toList, .str "bad".toList)])).2).map showValue
        = ["1".toList, "0".toList]
    ∧ (fieldValues (newStruct "T".toList [plainField "A".toList (.int .int) "a".toList [],
          plainField "B".toList (.int .int) "b".toList []])).map showValue
        = ["0".toList, "0".toList] := by
  decide!

/-- C32, amended. The bind stops at the first field that fails.  Whenever `UnmarshalAttrs`
returns an error on a pointer to a struct, the plan of the struct splits into the fields
before the failing field, the failing field and the fields after it: the fields before it
have been bound without an error, as in a successful call, the round of the failing field
returns the error and writes nothing, and the struct holds the values at that moment.  The
failing field, every field after it and every field that is not in the plan are as they were
before the call, and the whole struct is as it was when no field before the failing one has a
key in attrs. -/
theorem C32_bind_stops_at_failure (lib : AttrLib) (attrs : Option (List (Str × GoValue)))
    (name n : Str) (fields fs : List StructField) (vals : List GoValue) (e : BindError)
    (dst1 : GoValue)
    (h : UnmarshalAttrs lib (.ptr (.struct name fields) (some (.struct n fs vals))) attrs
      = (.error e, dst1)) :
    ∃ pre f post vals1, buildTypeMeta fields = pre ++ f :: post
      ∧ dst1 = .ptr (.struct name fields) (some (.struct n fs vals1))
      ∧ bindPlan lib (attrs.getD []) pre vals = (.ok (), vals1)
      ∧ bindMeta lib (attrs.getD []) f vals1 = (.error e, vals1)
      ∧ vals1.length = vals.length
      ∧ (∀ i, (∀ g ∈ pre, g.index ≠ i) → vals1.get? i = vals.get? i)
      ∧ vals1.get? f.index = vals.get? f.index
      ∧ (∀ g ∈ post, vals1.get? g.index = vals.get? g.index)
      ∧ ((∀ g ∈ pre, findRaw (attrs.getD []) g.keys = none) → vals1 = vals) := by
  have hU : UnmarshalAttrs lib (.ptr (.struct name fields) (some (.struct n fs vals))) attrs
      = ((bindPlan lib (attrs.getD []) (buildTypeMeta fields) vals).1,
          .ptr (.struct name fields)
            (some (.struct n fs (bindPlan lib (attrs.getD []) (buildTypeMeta fields) vals).2))) :=
    rfl
  rw [hU] at h
  simp only [Prod.mk.injEq] at h
  obtain ⟨h1, h2⟩ := h
  have hp : bindPlan lib (attrs.getD []) (buildTypeMeta fields) vals
      = (.error e, (bindPlan lib (attrs.getD []) (buildTypeMeta fields) vals).2) := by
    rw [← h1]
  obtain ⟨pre, f, post, hsplit, hpre, hf⟩ := bindPlan_error_split _ _ _ _ _ _ hp
  obtain ⟨hl, hframe, hnone⟩ := bindPlan_ok_frame _ _ _ _ _ _ hpre
  have hpw := (buildFields_index fields 0).2
  rw [← buildTypeMeta, hsplit, List.pairwise_append] at hpw
  obtain ⟨_, hpw2, hpw3⟩ := hpw
  refine ⟨pre, f, post, _, hsplit, h2.symm, hpre, hf, hl, hframe, ?_, ?_, hnone⟩
  · exact hframe _ fun g hg => Nat.ne_of_lt (hpw3 g hg f (List.mem_cons_self _ _))
  · intro g hg
    exact hframe _ fun g1 hg1 => Nat.ne_of_lt (hpw3 g1 hg1 g (List.mem_cons_of_mem _ hg))

/-- Witness of C32: the struct of the counterexample; the field `A` is before the failing
field `B`. -/
theorem C32_bind_stops_at_failure_witness :
    ∃ pre f post vals1,
      buildTypeMeta [plainField "A".toList (.int .int) "a".toList [],
          plainField "B".toList (.int .int) "b".toList []] = pre ++ f :: post
      ∧ GoValue.ptr (.struct "T".toList [plainField "A".toList (.int .int) "a".toList [],
            plainField "B".toList (.int .int) "b".toList []])
          (some (.struct "T".toList [plainField "A".toList (.int .int) "a".toList [],
            plainField "B".toList (.int .int) "b".toList []] [.int .int 1, .int .int 0]))
        = .ptr (.struct "T".toList [plainField "A".toList (.int .int) "a".toList [],
            plainField "B".toList (.int .int) "b".toList []])
          (some (.struct "T".toList [plainField "A".toList (.int .int) "a".toList [],
            plainField "B".toList (.int .int) "b".toList []] vals1))
      ∧ bindPlan sampleAttrLib
          ((some [("a".toList, GoValue.int .int 1), ("b".toList, .str "bad".toList)]).getD [])
          pre [.int .int 0, .int .int 0] = (.ok (), vals1)
      ∧ bindMeta sampleAttrLib
          ((some [("a".toList, GoValue.int .int 1), ("b".toList, .str "bad".toList)]).getD [])
          f vals1 = (.error (.field "B".toList (.strconv "bad".toList)), vals1)
      ∧ vals1.length = [GoValue.int .int 0, .int .int 0].length
      ∧ (∀ i, (∀ g ∈ pre, g.index ≠ i) → vals1.get? i = [GoValue.int .int 0, .int .int 0].get? i)
      ∧ vals1.get? f.index = [GoValue.int .int 0, .int .int 0].get? f.index
      ∧ (∀ g ∈ post, vals1.get? g.index = [GoValue.int .int 0, .int .int 0].get? g.index)
      ∧ ((∀ g ∈ pre, findRaw
            ((some [("a".toList, GoValue.int .int 1), ("b".toList, .str "bad".toList)]).getD [])
            g.keys = none) → vals1 = [.int .int 0, .int .int 0]) :=
  C32_bind_stops_at_failure sampleAttrLib
    (some [("a".toList, .int .int 1), ("b".toList, .str "bad".toList)])
    "T".toList "T".toList
    [plainField "A".toList (.int .int) "a".toList [],
      plainField "B".toList (.int .int) "b".toList []]
    [plainField "A".toList (.int .int) "a".toList [],
      plainField "B".toList (.int .int) "b".toList []]
    [.int .int 0, .int .int 0] (.field "B".toList (.strconv "bad".toList))
    (.ptr (.struct "T".toList [plainField "A".toList (.int .int) "a".toList [],
            plainField "B".toList (.int .int) "b".toList []])
          (some (.struct "T".toList [plainField "A".toList (.int .int) "a".toList [],
            plainField "B".toList (.int .int) "b".toList []] [.int .int 1, .int .int 0])))
    rfl

/-! ## Fields of an interface type -/

/-- C33, the code at a failing input. `convertValue` returns every value other than nil
unchanged and without an error for a field of an interface type, whether or not the type of
the value implements the interface; `field.Set` then goes into a panic on a value that is not
assignable to the field.  A struct with a field `W` of the interface type `io.Writer`, bound
with the integer 1 under `w`: whenever `int` does not implement the interface, the call
neither returns nil nor an error, it goes into a panic and the struct is as before. -/
theorem C33_interface_field_panics :
    (∀ (lib : AttrLib) (i : Str) (value : GoValue), value.isNil = false →
      convertValue lib (.iface i) value = .ok value)
    ∧ (∀ lib : AttrLib, lib.implements (.int .int) "io.Writer".toList = false →
      UnmarshalAttrs lib
          (newStruct "T".toList [plainField "W".toList (.iface "io.Writer".toList) "w".toList []])
          (some [("w".toList, .int .int 1)])
        = (.panic,
          newStruct "T".toList [plainField "W".toList (.iface "io.Writer".toList) "w".toList []]))
    ∧ (UnmarshalAttrs sampleAttrLib
        (newStruct "T".toList [plainField "W".toList (.iface "io.Writer".toList) "w".toList []])
        (some [("w".toList, .int .int 1)])).1.tag = 2 := by
  refine ⟨?_, ?_, by decide!⟩
  · intro lib i value hv
    rw [convertValue, convertGuard, hv]
    simp
  · intro lib himp
    have hassign : canAssign lib (.int .int 1) (.iface "io.Writer".toList) = false := by
      simp only [canAssign, GoValue.typeOf, GoType.same, himp, Bool.or_self]
    have hmeta : buildTypeMeta [plainField "W".toList (.iface "io.Writer".toList) "w".toList []]
        = [⟨0, [.text "w".toList, .text "W".toList], .iface "io.Writer".toList, "W".toList,
            true⟩] := by
      rfl
    have hconv : convertValue lib (.iface "io.Writer".toList) (.int .int 1)
        = .ok (.int .int 1) := by
      rw [convertValue, convertGuard]
      simp [GoValue.isNil]
    have hbm : ∀ vals, bindMeta lib [("w".toList, GoValue.int .int 1)]
        ⟨0, [.text "w".toList, .text "W".toList], .iface "io.Writer".toList, "W".toList, true⟩
        vals = (.panic, vals) := by
      intro vals
      have hraw : findRaw [("w".toList, GoValue.int .int 1)]
          [.text "w".toList, .text "W".toList] = some (.int .int 1) := rfl
      rw [bindMeta]
      simp only [hraw, hconv, hassign]
      rfl
    rw [newStruct, UnmarshalAttrs_struct, hmeta, bindPlan, hbm]

/-! ## Conversion of sequences -/

mutual
theorem goType_same_eq : ∀ (a b : GoType), a.same b = true → a = b
  | .bool, b, h => by cases b <;> simp_all [GoType.same]
  | .int k, b, h => by cases b <;> simp_all [GoType.same]
  | .uint k, b, h => by cases b <;> simp_all [GoType.same]
  | .float k, b, h => by cases b <;> simp_all [GoType.same]
  | .string, b, h => by cases b <;> simp_all [GoType.same]
  | .any, b, h => by cases b <;> simp_all [GoType.same]
  | .iface i, b, h => by cases b <;> simp_all [GoType.same]
  | .other i, b, h => by cases b <;> simp_all [GoType.same]
  | .ptr e, b, h => by
    cases b with
    | ptr e2 =>
      simp only [GoType.same] at h
      rw [goType_same_eq _ _ h]
    | _ => simp [GoType.same] at h
  | .slice e, b, h => by
    cases b with
    | slice e2 =>
      simp only [GoType.same] at h
      rw [goType_same_eq _ _ h]
    | _ => simp [GoType.same] at h
  | .map k e, b, h => by
    cases b with
    | map k2 e2 =>
      simp only [GoType.same, Bool.and_eq_true] at h
      rw [goType_same_eq _ _ h.1, goType_same_eq _ _ h.2]
    | _ => simp [GoType.same] at h
  | .struct n fs, b, h => by
    cases b with
    | struct n2 fs2 =>
      simp only [GoType.same, Bool.and_eq_true, beq_iff_eq] at h
      rw [h.1, sameFields_eq _ _ h.2]
    | _ => simp [GoType.same] at h
theorem sameFields_eq : ∀ (a b : List StructField), sameFields a b = true → a = b
  | [], b, h => by cases b <;> simp_all [sameFields]
  | f :: fs, b, h => by
    cases b with
    | nil => simp [sameFields] at h
    | cons g gs =>
      simp only [sameFields, Bool.and_eq_true] at h
      rw [structField_same_eq _ _ h.1, sameFields_eq _ _ h.2]
theorem structField_same_eq : ∀ (a b : StructField), a.same b = true → a = b
  | .mk n t a j p e, .mk n2 t2 a2 j2 p2 e2, h => by
    simp only [StructField.same, Bool.and_eq_true, beq_iff_eq] at h
    obtain ⟨⟨⟨⟨⟨h1, h2⟩, h3⟩, h4⟩, h5⟩, h6⟩ := h
    rw [h1, goType_same_eq _ _ h2, h3, h4, h5, h6]
end


theorem canAssign_slice (lib : AttrLib) (e0 elem : GoType) (vs : List GoValue) :
    canAssign lib (.slice e0 vs) (.slice elem) = e0.same elem := by
  simp [canAssign, GoValue.typeOf, GoType.same]

theorem convertValue_assignable (lib : AttrLib) (t : GoType) (v : GoValue)
    (h : canAssign lib v t = true) : convertValue lib t v = .ok v := by
  have hg : ∀ conv, convertGuard lib t v conv = .ok v := by
    intro conv
    unfold convertGuard
    by_cases hn : v.isNil = true
    · rw [if_pos hn]
      cases v <;> simp [GoValue.isNil] at hn
      cases t <;> simp [canAssign, GoValue.typeOf, GoType.isInterface] at h <;> rfl
    · rw [if_neg hn, if_pos h]
  cases t <;> unfold convertValue <;> exact hg _

theorem convertElems_ok (lib : AttrLib) (elem : GoType) (conv : GoValue → Outcome GoValue)
    (vs : List GoValue)
    (h : ∀ v ∈ vs, ∃ c, conv v = .ok c ∧ canAssign lib c elem = true) :
    ∃ cs, convertElems lib elem conv vs = .ok cs ∧ cs.length = vs.length
      ∧ ∀ i v, vs.get? i = some v → ∃ c, cs.get? i = some c ∧ conv v = .ok c := by
  induction vs with
  | nil => exact ⟨[], rfl, rfl, by simp⟩
  | cons v vs ih =>
    obtain ⟨c, hc, ha⟩ := h v (List.mem_cons_self _ _)
    obtain ⟨cs, hcs, hl, hi⟩ := ih fun u hu => h u (List.mem_cons_of_mem _ hu)
    refine ⟨c :: cs, ?_, by simp [hl], ?_⟩
    · rw [convertElems]
      simp only [hc, ha, if_true, hcs]
    · intro i u hu
      cases i with
      | zero =>
        simp only [List.get?_cons_zero, Option.some.injEq] at hu
        subst hu
        exact ⟨c, rfl, hc⟩
      | succ j =>
        simp only [List.get?_cons_succ] at hu ⊢
        exact hi j u hu

theorem convertElems_error (lib : AttrLib) (elem : GoType) (conv : GoValue → Outcome GoValue)
    (pre post : List GoValue) (v : GoValue) (e : BindError)
    (h : ∀ u ∈ pre, ∃ c, conv u = .ok c ∧ canAssign lib c elem = true)
    (hv : conv v = .error e) :
    convertElems lib elem conv (pre ++ v :: post) = .error e := by
  induction pre with
  | nil =>
    rw [List.nil_append, convertElems]
    simp only [hv]
  | cons u us ih =>
    obtain ⟨c, hc, ha⟩ := h u (List.mem_cons_self _ _)
    rw [List.cons_append, convertElems]
    simp only [hc, ha, if_true, ih fun w hw => h w (List.mem_cons_of_mem _ hw)]

theorem convertValue_slice (lib : AttrLib) (elem e0 : GoType) (vs : List GoValue)
    (h : e0.same elem = false) :
    convertValue lib (.slice elem) (.slice e0 vs)
      = match convertElems lib elem (fun v => convertValue lib elem v) vs with
        | .ok cs => .ok (.slice elem cs)
        | .error e => .error e
        | .panic => .panic := by
  rw [convertValue, convertGuard]
  simp only [GoValue.isNil, canAssign_slice, h]
  rfl

theorem convertValue_array (lib : AttrLib) (elem : GoType) (t : Str) (vs : List GoValue) :
    convertValue lib (.slice elem) (.array t vs)
      = match convertElems lib elem (fun v => convertValue lib elem v) vs with
        | .ok cs => .ok (.slice elem cs)
        | .error e => .error e
        | .panic => .panic := by
  rw [convertValue, convertGuard]
  simp [GoValue.isNil, canAssign, GoValue.typeOf, GoType.same]

/-- C34, counterexample. The source nil is not list-like, and it converts to a sequence type
without an error: the result is the zero value of the type, and the bind of a field of type
`[]string` with nil under its key succeeds. -/
theorem C34_counterexample :
    (convertValue sampleAttrLib (.slice .string) .nil).tag = 0
    ∧ (UnmarshalAttrs sampleAttrLib
        (newStruct "T".toList [plainField "Tags".toList (.slice .string) "tags".toList []])
        (some [("tags".toList, .nil)])).1.tag = 0
    ∧ (fieldValues (UnmarshalAttrs sampleAttrLib
        (newStruct "T".toList [plainField "Tags".toList (.slice .string) "tags".toList []])
        (some [("tags".toList, .nil)])).2).map showValue = ["[]".toList] := by
  decide!

/-- C34, amended. Sequence conversion is element-wise.  For a list-like source, a slice or an
array, with the items `vs` (the items of a slice being values of its element type): when
every item converts to a value of the element type of the target, the result is a slice of
the target type of the same length whose i-th item is the conversion of the i-th item of the
source; when an item fails to convert and the items before it convert, the whole conversion
fails with the error of that item; a source that is neither nil nor list-like fails; and nil
converts to the zero value of the sequence type. -/
theorem C34_sequence_conversion (lib : AttrLib) (elem : GoType) (src : GoValue)
    (vs : List GoValue) (hsrc : src.items = some vs)
    (htyped : ∀ e0, src = .slice e0 vs → ∀ v ∈ vs, canAssign lib v e0 = true) :
    ((∀ v ∈ vs, ∃ c, convertValue lib elem v = .ok c ∧ canAssign lib c elem = true) →
      ∃ cs, convertValue lib (.slice elem) src = .ok (.slice elem cs)
        ∧ cs.length = vs.length
        ∧ ∀ i v, vs.get? i = some v → ∃ c, cs.get? i = some c ∧ convertValue lib elem v = .ok c)
    ∧ (∀ (pre post : List GoValue) (v : GoValue) (e : BindError), vs = pre ++ v :: post →
        (∀ u ∈ pre, ∃ c, convertValue lib elem u = .ok c ∧ canAssign lib c elem = true) →
        convertValue lib elem v = .error e →
        convertValue lib (.slice elem) src = .error e)
    ∧ (∀ value : GoValue, value.isNil = false → value.items = none →
        convertValue lib (.slice elem) value = .error .expected)
    ∧ convertValue lib (.slice elem) .nil = .ok (.slice elem []) := by
  have hcases : (∃ e0, src = .slice e0 vs) ∨ (∃ t, src = .array t vs) := by
    cases src <;> simp [GoValue.items] at hsrc
    · subst hsrc
      exact Or.inl ⟨_, rfl⟩
    · subst hsrc
      exact Or.inr ⟨_, rfl⟩
  refine ⟨?_, ?_, ?_, ?_⟩
  · intro hall
    rcases hcases with ⟨e0, rfl⟩ | ⟨t, rfl⟩
    · cases hs : e0.same elem with
      | true =>
        have he := goType_same_eq _ _ hs
        subst he
        refine ⟨vs, ?_, rfl, ?_⟩
        · exact convertValue_assignable lib _ _ (by rw [canAssign_slice, hs])
        · intro i v hv
          exact ⟨v, hv, convertValue_assignable lib _ _ (htyped _ rfl v (List.get?_mem hv))⟩
      | false =>
        obtain ⟨cs, hcs, hl, hi⟩ :=
          convertElems_ok lib elem (fun v => convertValue lib elem v) vs hall
        refine ⟨cs, ?_, hl, hi⟩
        rw [convertValue_slice lib elem e0 vs hs, hcs]
    · obtain ⟨cs, hcs, hl, hi⟩ :=
        convertElems_ok lib elem (fun v => convertValue lib elem v) vs hall
      refine ⟨cs, ?_, hl, hi⟩
      rw [convertValue_array, hcs]
  · intro pre post v e hsplit hpre hv
    rcases hcases with ⟨e0, rfl⟩ | ⟨t, rfl⟩
    · cases hs : e0.same elem with
      | true =>
        have he := goType_same_eq _ _ hs
        subst he
        have hmem : v ∈ vs := by rw [hsplit]; simp
        rw [convertValue_assignable lib _ _ (htyped _ rfl v hmem)] at hv
        cases hv
      | false =>
        rw [convertValue_slice lib elem e0 vs hs, hsplit,
          convertElems_error lib elem (fun v => convertValue lib elem v) pre post v e hpre hv]
    · rw [convertValue_array, hsplit,
        convertElems_error lib elem (fun v => convertValue lib elem v) pre post v e hpre hv]
  · intro value hn hns
    unfold convertValue
    rw [convertGuard, hn]
    cases value <;> first
      | (simp [GoValue.items] at hns; done)
      | (simp [GoValue.isNil] at hn; done)
      | simp [canAssign, GoValue.typeOf, GoType.same]
  · rfl

/-- Witness of C34: the slice of the test `TestBindAttrs`, two texts in a `[]any`, and an
array of the same two texts, converted to `[]string`. -/
theorem C34_sequence_conversion_witness :
    (∃ cs, convertValue sampleAttrLib (.slice .string)
          (.slice .any [.str "a".toList, .str "b".toList]) = .ok (.slice .string cs)
      ∧ cs.length = [GoValue.str "a".toList, .str "b".toList].length
      ∧ ∀ i v, [GoValue.str "a".toList, .str "b".toList].get? i = some v →
          ∃ c, cs.get? i = some c ∧ convertValue sampleAttrLib .string v = .ok c)
    ∧ (∃ cs, convertValue sampleAttrLib (.slice .string)
          (.array "[2]any".toList [.str "a".toList, .str "b".toList]) = .ok (.slice .string cs)
      ∧ cs.length = [GoValue.str "a".toList, .str "b".toList].length
      ∧ ∀ i v, [GoValue.str "a".toList, .str "b".toList].get? i = some v →
          ∃ c, cs.get? i = some c ∧ convertValue sampleAttrLib .string v = .ok c) :=
  ⟨(C34_sequence_conversion sampleAttrLib .string
      (.slice .any [.str "a".toList, .str "b".toList]) [.str "a".toList, .str "b".toList] rfl
      (by
        intro e0 h v hv
        cases h
        simp at hv
        rcases hv with rfl | rfl <;> rfl)).1
      (by
        intro v hv
        simp at hv
        rcases hv with rfl | rfl
        · exact ⟨_, rfl, rfl⟩
        · exact ⟨_, rfl, rfl⟩),
    (C34_sequence_conversion sampleAttrLib .string
      (.array "[2]any".toList [.str "a".toList, .str "b".toList])
      [.str "a".toList, .str "b".toList] rfl
      (by intro e0 h; cases h)).1
      (by
        intro v hv
        simp at hv
        rcases hv with rfl | rfl
        · exact ⟨_, rfl, rfl⟩
        · exact ⟨_, rfl, rfl⟩)⟩

/-! ## The mirror of compare -/

theorem F64.lt_asymm (a b : F64) (h : a.lt b = true) : b.lt a = false := by
  cases a <;> cases b <;> simp_all [F64.lt, F64.val] <;> exact le_of_lt h

theorem sign_mirror (p q : Bool) (h : p = true → q = false) :
    (if q then (-1 : Int) else if p then 1 else 0) = -(if p then (-1 : Int) else if q then 1 else 0) := by
  cases p <;> cases q <;> simp_all

theorem compare_float_mirror (lib : GoLib) (l r : Value) (lf rf : F64)
    (hl : asFloat lib l = some lf) (hr : asFloat lib r = some rf) :
    compare lib l r = some (if lf.lt rf then -1 else if rf.lt lf then 1 else 0)
    ∧ compare lib r l = some (-(if lf.lt rf then -1 else if rf.lt lf then 1 else 0)) := by
  constructor
  · simp only [compare, hl, hr]
  · simp only [compare, hl, hr]
    rw [← sign_mirror (lf.lt rf) (rf.lt lf) (F64.lt_asymm lf rf)]


theorem compare_mirror (lib : GoLib) (l r : Value) (hl : l.isPlain = true)
    (hr : r.isPlain = true)
    (hmix : ∀ a b, l = .str a → r = .str b →
      (lib.parseFloat a).isSome = (lib.parseFloat b).isSome) :
    compare lib r l = (compare lib l r).map fun c => -c := by
  cases hfl : asFloat lib l with
  | some lf =>
    cases hfr : asFloat lib r with
    | some rf =>
      obtain ⟨h1, h2⟩ := compare_float_mirror lib l r lf rf hfl hfr
      rw [h1, h2]
      rfl
    | none =>
      have h1 : compare lib l r = none := by simp only [compare, hfl, hfr]
      rw [h1]
      cases l <;> simp [Value.isPlain] at hl <;> cases r <;> simp [Value.isPlain] at hr <;>
        simp_all [compare, asFloat]
  | none =>
    cases hfr : asFloat lib r with
    | some rf =>
      have h1 : compare lib r l = none := by simp only [compare, hfl, hfr]
      rw [h1]
      cases l <;> simp [Value.isPlain] at hl <;> cases r <;> simp [Value.isPlain] at hr <;>
        simp_all [compare, asFloat]
    | none =>
      cases l <;> simp [Value.isPlain] at hl <;> cases r <;> simp [Value.isPlain] at hr <;>
        simp_all [compare, asFloat]
      · rename_i x y
        cases x <;> cases y <;> rfl
      · rename_i a b
        exact (sign_mirror (strLt a b) (strLt b a) (strLt_asymm a b)).symm ▸ rfl


/-- C35, counterexample. The strings `12` and `abc`: `compare` fails on (`12`, `abc`), the left
string being the text of a number and the right one not, and succeeds with 1 on (`abc`, `12`);
so `"12" < "abc"` fails and `"abc" > "12"` is true. -/
theorem C35_counterexample :
    compare sampleLib (.str "12".toList) (.str "abc".toList) = none
    ∧ compare sampleLib (.str "abc".toList) (.str "12".toList) = some 1
    ∧ (applyBinary sampleLib .LSS (.str "12".toList) (.str "abc".toList)).isNone = true
    ∧ (applyBinary sampleLib .GTR (.str "abc".toList) (.str "12".toList)).map truthy
        = some true := by
  decide!

/-- C35, amended. For all values `l` and `r` that are strings, booleans or integers, a pair of
two strings of which exactly one is the text of a number aside: `compare l r` succeeds if and
only if `compare r l` succeeds, and then the one result is the negative of the other, so that
`l < r` and `r > l`, and `l <= r` and `r >= l`, both fail or give the same boolean. -/
theorem C35_compare_mirror (lib : GoLib) (l r : Value) (hl : l.isPlain = true)
    (hr : r.isPlain = true)
    (hmix : ∀ a b, l = .str a → r = .str b →
      (lib.parseFloat a).isSome = (lib.parseFloat b).isSome) :
    ((compare lib l r).isSome = (compare lib r l).isSome)
    ∧ (∀ c, compare lib l r = some c → compare lib r l = some (-c))
    ∧ applyBinary lib .LSS l r = applyBinary lib .GTR r l
    ∧ applyBinary lib .LEQ l r = applyBinary lib .GEQ r l := by
  have h := compare_mirror lib l r hl hr hmix
  refine ⟨?_, ?_, ?_, ?_⟩
  · rw [h]
    cases compare lib l r <;> rfl
  · intro c hc
    rw [h, hc]
    rfl
  · simp only [applyBinary, h]
    cases compare lib l r with
    | none => rfl
    | some c => simp
  · simp only [applyBinary, h]
    cases compare lib l r with
    | none => rfl
    | some c => simp

/-- Witness of C35: the strings `a` and `b` of the tests, neither the text of a number. -/
theorem C35_compare_mirror_witness :
    ((compare sampleLib (.str "a".toList) (.str "b".toList)).isSome
        = (compare sampleLib (.str "b".toList) (.str "a".toList)).isSome)
    ∧ (∀ c, compare sampleLib (.str "a".toList) (.str "b".toList) = some c →
        compare sampleLib (.str "b".toList) (.str "a".toList) = some (-c))
    ∧ applyBinary sampleLib .LSS (.str "a".toList) (.str "b".toList)
        = applyBinary sampleLib .GTR (.str "b".toList) (.str "a".toList)
    ∧ applyBinary sampleLib .LEQ (.str "a".toList) (.str "b".toList)
        = applyBinary sampleLib .GEQ (.str "b".toList) (.str "a".toList) :=
  C35_compare_mirror sampleLib (.str "a".toList) (.str "b".toList) rfl rfl
    (by intro a b h1 h2; cases h1; cases h2; rfl)

/-! ## Equality and ordering of integers -/

theorem bitLength_le (fuel n k : Nat) (h : n < 2 ^ k) : bitLength fuel n ≤ k := by
  induction fuel generalizing n k with
  | zero => simp [bitLength]
  | succ f ih =>
    rw [bitLength]
    split
    · omega
    · rename_i hn
      cases k with
      | zero => simp at h; omega
      | succ k =>
        have : n / 2 < 2 ^ k := by
          rw [pow_succ] at h
          omega
        have := ih (n / 2) k this
        omega

theorem roundNat53_small (n : Nat) (h : n < 2 ^ 53) : roundNat53 n = n := by
  unfold roundNat53
  simp only [if_pos (bitLength_le n n 53 h)]

theorem float64OfInt_small (i : Int) (h1 : -(2 ^ 53) < i) (h2 : i < 2 ^ 53) :
    float64OfInt i = .fin (i : ℚ) := by
  unfold float64OfInt
  by_cases hi : i < 0
  · obtain ⟨n, hn⟩ := Int.eq_ofNat_of_zero_le (show 0 ≤ -i by omega)
    have hi2 : i = -(n : Int) := by omega
    subst hi2
    rw [if_pos hi, roundNat53_small _ (by simp; omega)]
    simp
  · obtain ⟨n, hn⟩ := Int.eq_ofNat_of_zero_le (show 0 ≤ i by omega)
    subst hn
    rw [if_neg hi, roundNat53_small _ (by simp; omega)]
    simp

theorem compare_fin (a b : Int) :
    ((if (F64.fin (a : ℚ)).lt (.fin (b : ℚ)) then (-1 : Int)
      else if (F64.fin (b : ℚ)).lt (.fin (a : ℚ)) then 1 else 0) = 0) ↔ a = b := by
  simp only [F64.lt, F64.val, decide_eq_true_eq, Int.cast_lt]
  split_ifs <;> constructor <;> intro h <;> first | omega | simp at h


theorem compare_small (lib : GoLib) (l r : Value) (a b : Int) (hl : asFloat lib l = some (float64OfInt a))
    (hr : asFloat lib r = some (float64OfInt b)) (ha1 : -(2 ^ 53) < a) (ha2 : a < 2 ^ 53)
    (hb1 : -(2 ^ 53) < b) (hb2 : b < 2 ^ 53) :
    decide (compare lib l r = some 0) = decide (a = b) := by
  rw [float64OfInt_small a ha1 ha2] at hl
  rw [float64OfInt_small b hb1 hb2] at hr
  simp only [compare, hl, hr, Option.some.injEq, compare_fin]

/-- C36, counterexample. The integer 2 of type `int` and the integer 2 of type `int64`: the
ordering says that they are equal, `compare` is 0, and `==` is false; so `x == 2` is false in
a context that binds `x` to the `int` 2, the literal being an `int64`.  And on two different
integers of one type beyond `2 ^ 53`, which are the same `float64`, `compare` is 0 and `==`
is false. -/
theorem C36_counterexample :
    compare sampleLib (.int 2) (.int64 2) = some 0
    ∧ (applyBinary sampleLib .EQL (.int 2) (.int64 2)).map truthy = some false
    ∧ (evalAST sampleLib (.binary (.ident "x".toList) .EQL (.basicLit .INT "2".toList))
        [("x".toList, .int 2)]).map truthy = some false
    ∧ (evalAST sampleLib (.binary (.ident "x".toList) .GEQ (.basicLit .INT "2".toList))
        [("x".toList, .int 2)]).map truthy = some true
    ∧ (evalAST sampleLib (.binary (.ident "x".toList) .LEQ (.basicLit .INT "2".toList))
        [("x".toList, .int 2)]).map truthy = some true
    ∧ compare sampleLib (.int64 (2 ^ 53)) (.int64 (2 ^ 53 + 1)) = some 0
    ∧ (applyBinary sampleLib .EQL (.int64 (2 ^ 53)) (.int64 (2 ^ 53 + 1))).map truthy
        = some false := by
  decide!

/-- C36, amended. Equality agrees with ordering on two integers of one type that a `float64`
holds exactly: for integers `a` and `b` of absolute value below `2 ^ 53`, both of type `int`
or both of type `int64`, `a == b` is true if and only if `compare` is 0 on them, and `a != b`
is its negation.  On two integers of different types `==` is false and `!=` is true, whatever
their values. -/
theorem C36_equality_and_ordering (lib : GoLib) (a b : Int) (ha1 : -(2 ^ 53) < a)
    (ha2 : a < 2 ^ 53) (hb1 : -(2 ^ 53) < b) (hb2 : b < 2 ^ 53) :
    applyBinary lib .EQL (.int a) (.int b)
        = some (.bool (decide (compare lib (.int a) (.int b) = some 0)))
    ∧ applyBinary lib .NEQ (.int a) (.int b)
        = some (.bool (!decide (compare lib (.int a) (.int b) = some 0)))
    ∧ applyBinary lib .EQL (.int64 a) (.int64 b)
        = some (.bool (decide (compare lib (.int64 a) (.int64 b) = some 0)))
    ∧ applyBinary lib .NEQ (.int64 a) (.int64 b)
        = some (.bool (!decide (compare lib (.int64 a) (.int64 b) = some 0)))
    ∧ (∀ x y : Int, applyBinary lib .EQL (.int x) (.int64 y) = some (.bool false)
        ∧ applyBinary lib .EQL (.int64 x) (.int y) = some (.bool false)
        ∧ applyBinary lib .NEQ (.int x) (.int64 y) = some (.bool true)
        ∧ applyBinary lib .NEQ (.int64 x) (.int y) = some (.bool true)) := by
  have h1 := compare_small lib (.int a) (.int b) a b rfl rfl ha1 ha2 hb1 hb2
  have h2 := compare_small lib (.int64 a) (.int64 b) a b rfl rfl ha1 ha2 hb1 hb2
  have hbeq : (a == b) = decide (a = b) := by
    by_cases h : a = b <;> simp [h]
  refine ⟨?_, ?_, ?_, ?_, fun x y => ?_⟩
  · rw [h1, ← hbeq]
    simp only [applyBinary, deepEqual]
  · rw [h1, ← hbeq]
    simp only [applyBinary, deepEqual]
  · rw [h2, ← hbeq]
    simp only [applyBinary, deepEqual]
  · rw [h2, ← hbeq]
    simp only [applyBinary, deepEqual]
  · simp [applyBinary, deepEqual]

/-- Witness of C36: the integers 4 and 2 of the tests. -/
theorem C36_equality_and_ordering_witness :
    applyBinary sampleLib .EQL (.int 4) (.int 2)
        = some (.bool (decide (compare sampleLib (.int 4) (.int 2) = some 0)))
    ∧ applyBinary sampleLib .NEQ (.int 4) (.int 2)
        = some (.bool (!decide (compare sampleLib (.int 4) (.int 2) = some 0)))
    ∧ applyBinary sampleLib .EQL (.int64 4) (.int64 2)
        = some (.bool (decide (compare sampleLib (.int64 4) (.int64 2) = some 0)))
    ∧ applyBinary sampleLib .NEQ (.int64 4) (.int64 2)
        = some (.bool (!decide (compare sampleLib (.int64 4) (.int64 2) = some 0)))
    ∧ (∀ x y : Int, applyBinary sampleLib .EQL (.int x) (.int64 y) = some (.bool false)
        ∧ applyBinary sampleLib .EQL (.int64 x) (.int y) = some (.bool false)
        ∧ applyBinary sampleLib .NEQ (.int x) (.int64 y) = some (.bool true)
        ∧ applyBinary sampleLib .NEQ (.int64 x) (.int y) = some (.bool true)) :=
  C36_equality_and_ordering sampleLib 4 2 (by decide) (by decide) (by decide) (by decide)

/-! ## The round trip of attribute keys -/

theorem toUpper_lower (c : Char) (h : isLower c = true) :
    isUpper c.toUpper = true ∧ c.toUpper.toLower = c := by
  have h' := (isLower_iff c).1 h
  have e : c.toUpper = Char.ofNat (c.toNat - 32) := by
    unfold Char.toUpper
    simp only []
    rw [if_pos (by omega)]
  have hn : (Char.ofNat (c.toNat - 32)).toNat = c.toNat - 32 :=
    toNat_ofNat_small _ (by omega)
  rw [e]
  refine ⟨(isUpper_iff _).2 (by omega), ?_⟩
  unfold Char.toLower
  simp only []
  rw [if_pos (by omega), hn]
  apply char_eq_of_toNat
  rw [toNat_ofNat_small _ (by omega)]
  omega

theorem camelCasePat_none (prev : Option Char) (c : Char) (cs : Str) (h1 : c ≠ '_')
    (h2 : c ≠ '-') : camelCasePat.matchAt prev (c :: cs) = none := by
  simp [Re.matchAt, camelCasePat, run_seq, run_chr_cons, h1, h2]

theorem camelCasePat_match (prev : Option Char) (s c : Char) (t : Str)
    (hs : s = '_' ∨ s = '-') (hc : isLower c = true) :
    camelCasePat.matchAt prev (s :: c :: t) = some ⟨[s, c], t, []⟩ := by
  rcases hs with rfl | rfl <;> simp [Re.matchAt, camelCasePat, run_seq, run_chr_cons, hc]


theorem camel_run (f : Str → Str) (ls rest : Str) (hls : ∀ x ∈ ls, isLower x = true)
    (prev : Option Char) :
    camelCasePat.replaceAux f 0 prev (ls ++ rest)
      = ls ++ camelCasePat.replaceAux f 0 (advPrev prev ls) rest := by
  induction ls generalizing prev with
  | nil => rfl
  | cons c cs ih =>
    have hc : isLower c = true := hls c (by simp)
    have h1 : c ≠ '_' := fun e => absurd (e ▸ hc) (by decide)
    have h2 : c ≠ '-' := fun e => absurd (e ▸ hc) (by decide)
    rw [List.cons_append, replaceAux_of_matchAt_none _ _ _ _ _ (camelCasePat_none prev c _ h1 h2),
      ih (fun x hx => hls x (by simp [hx]))]
    rfl

theorem camel_callback (s c : Char) (hs : s = '_' ∨ s = '-') (hc : isLower c = true) :
    (if byteLen [s, c] < 2 then [s, c] else ([s, c].drop 1).map Char.toUpper) = [c.toUpper] := by
  have hc' := (isLower_iff c).1 hc
  have h1 : s.utf8Size = 1 := by rcases hs with rfl | rfl <;> rfl
  have h2 : c.utf8Size = 1 := utf8Size_ascii c (by omega)
  have hb : byteLen [s, c] = 2 := by simp [byteLen, h1, h2]
  rw [hb, if_neg (by decide)]
  rfl

theorem camel_words (ws : List (Char × Str)) (w0 : Str) (hw0 : ∀ x ∈ w0, isLower x = true)
    (hws : ∀ p ∈ ws, (p.1 = '_' ∨ p.1 = '-') ∧ p.2 ≠ [] ∧ ∀ x ∈ p.2, isLower x = true)
    (prev : Option Char) :
    camelCasePat.replaceAux
        (fun mat => if byteLen mat < 2 then mat else (mat.drop 1).map Char.toUpper) 0 prev
        (sepJoin w0 ws)
      = w0 ++ ws.flatMap fun p => capWord p.2 := by
  induction ws generalizing w0 prev with
  | nil =>
    have := camel_run (fun mat => if byteLen mat < 2 then mat else (mat.drop 1).map Char.toUpper)
      w0 [] hw0 prev
    simpa [sepJoin, Re.replaceAux] using this
  | cons p ps ih =>
    obtain ⟨s, w⟩ := p
    obtain ⟨hs, hne, hlow⟩ := hws (s, w) (by simp)
    cases w with
    | nil => exact absurd rfl hne
    | cons c cs =>
      have hc : isLower c = true := hlow c (by simp)
      have hcs : ∀ x ∈ cs, isLower x = true := fun x hx => hlow x (by simp [hx])
      have e : sepJoin w0 ((s, c :: cs) :: ps) = w0 ++ s :: c :: sepJoin cs ps := by
        simp [sepJoin]
      rw [e, camel_run _ w0 _ hw0 prev]
      simp only [Re.replaceAux, camelCasePat_match _ s c _ hs hc, List.length_cons,
        List.length_nil, camel_callback s c hs hc]
      simp only [Nat.reduceAdd, Nat.reduceSub, Nat.succ_ne_zero, if_false, Re.replaceAux]
      rw [ih cs hcs (fun q hq => hws q (by simp [hq]))]
      simp [capWord]


theorem replaceAux_capWords_last (re : Re) (f : Str → Str) (sep : Char)
    (hnone : ∀ prev c cs, (∀ d ∈ cs.head?, isUpper d = false) → re.matchAt prev (c :: cs) = none)
    (hmatch : ∀ prev l u t, isDot l = true → isUpper u = true →
      (∀ d ∈ t.head?, isUpper d = false) → re.matchAt prev (l :: u :: t) = some ⟨[l, u], t, []⟩)
    (hf : ∀ l u, isLower l = true → isUpper u = true → f [l, u] = [l, sep, u.toLower])
    (ws : List Str) (hws : ∀ w ∈ ws, isCapWord w = true) (v : Char) (hv : isUpper v = true)
    (ls : Str) (hne : ls ≠ []) (hls : ∀ x ∈ ls, isLower x = true) (prev : Option Char) :
    re.replaceAux f 0 prev (ls ++ ws.flatten ++ [v])
      = ls ++ ws.flatMap (fun w => sep :: w.map Char.toLower) ++ [sep, v.toLower] := by
  induction ws generalizing ls prev with
  | nil =>
    obtain ⟨ls1, l, rfl⟩ : ∃ ls1 l, ls = ls1 ++ [l] := by
      rcases List.eq_nil_or_concat ls with h | ⟨ls1, l, h⟩
      · exact absurd h hne
      · exact ⟨ls1, l, by simpa using h⟩
    have hl : isLower l = true := hls l (by simp)
    have hls1 : ∀ x ∈ ls1, isLower x = true := fun x hx => hls x (by simp [hx])
    have e : ls1 ++ [l] ++ ([] : List Str).flatten ++ [v] = ls1 ++ l :: v :: [] := by simp
    rw [e, replaceAux_lower_upper re f hnone hmatch ls1 hls1 l v hl hv [] (by simp) prev,
      hf l v hl hv]
    simp [Re.replaceAux]
  | cons w ws ih =>
    obtain ⟨u, m, ms, rfl, hu, hm, hms⟩ := (isCapWord_iff w).1 (hws w (by simp))
    have hws1 : ∀ x ∈ ws, isCapWord x = true := fun x hx => hws x (by simp [hx])
    obtain ⟨ls1, l, rfl⟩ : ∃ ls1 l, ls = ls1 ++ [l] := by
      rcases List.eq_nil_or_concat ls with h | ⟨ls1, l, h⟩
      · exact absurd h hne
      · exact ⟨ls1, l, by simpa using h⟩
    have hl : isLower l = true := hls l (by simp)
    have hls1 : ∀ x ∈ ls1, isLower x = true := fun x hx => hls x (by simp [hx])
    have hmms : ∀ x ∈ m :: ms, isLower x = true := by
      intro x hx
      rcases List.mem_cons.1 hx with h | h
      · rw [h]; exact hm
      · exact hms x h
    have ht : ∀ d ∈ ((m :: ms) ++ ws.flatten ++ [v]).head?, isUpper d = false := by
      intro d hd
      simp at hd
      subst hd
      exact isUpper_not_isLower _ hm
    have e : ls1 ++ [l] ++ ((u :: m :: ms) :: ws).flatten ++ [v]
        = ls1 ++ l :: u :: ((m :: ms) ++ ws.flatten ++ [v]) := by simp
    rw [e, replaceAux_lower_upper re f hnone hmatch ls1 hls1 l u hl hu _ ht prev,
      ih hws1 (m :: ms) (by simp) hmms (some u), hf l u hl hu]
    simp [toLower_lower m hm, map_toLower_lower ms hms]

theorem capWord_isCapWord (w : Str) (hlow : ∀ x ∈ w, isLower x = true) (hlen : 2 ≤ w.length) :
    isCapWord (capWord w) = true ∧ (capWord w).map Char.toLower = w := by
  match w, hlow, hlen with
  | c :: m :: ms, hlow, _ =>
    have hc := hlow c (by simp)
    have hm := hlow m (by simp)
    have hms : ∀ x ∈ ms, isLower x = true := fun x hx => hlow x (by simp [hx])
    refine ⟨(isCapWord_iff _).2 ⟨c.toUpper, m, ms, rfl, (toUpper_lower c hc).1, hm, hms⟩, ?_⟩
    simp [capWord, (toUpper_lower c hc).2, toLower_lower m hm, map_toLower_lower ms hms]

theorem param_words (tbl : Char → Char) (w0 : Str) (ws : List Str) (hne : w0 ≠ [])
    (hw0 : ∀ x ∈ w0, isLower x = true)
    (hws : ∀ w ∈ ws, w ≠ [] ∧ ∀ x ∈ w, isLower x = true)
    (hmid : ∀ w ∈ ws.dropLast, 2 ≤ w.length) :
    ParamCase tbl (w0 ++ (ws.map capWord).flatten) = stringsJoin "-".toList (w0 :: ws) := by
  have hletters : ∀ x ∈ w0 ++ (ws.map capWord).flatten, isLower x = true ∨ isUpper x = true := by
    intro x hx
    rcases List.mem_append.1 hx with h | h
    · exact Or.inl (hw0 x h)
    · obtain ⟨cw, hcw, hxw⟩ := List.mem_flatten.1 h
      obtain ⟨w, hw, rfl⟩ := List.mem_map.1 hcw
      obtain ⟨hwne, hwl⟩ := hws w hw
      cases w with
      | nil => exact absurd rfl hwne
      | cons c cs =>
        rcases List.mem_cons.1 hxw with h1 | h1
        · right; rw [h1]; exact (toUpper_lower c (hwl c (by simp))).1
        · left; exact hwl x (by simp [h1])
  have hun : uncapitalize tbl (w0 ++ (ws.map capWord).flatten)
      = w0 ++ (ws.map capWord).flatten := by
    cases w0 with
    | nil => exact absurd rfl hne
    | cons c cs => simp [uncapitalize, toLowerRune_lower tbl c (hw0 c (by simp))]
  unfold ParamCase
  simp only [hun, String.toList]
  rw [replaceAll_single_id _ _ _ (letters_no_sep _ hletters).1]
  unfold Re.replaceAllFunc
  rw [stringsJoin_cons]
  rcases List.eq_nil_or_concat ws with h | ⟨init, last, h⟩
  · subst h
    simpa using replaceAux_no_upper paramCasePat _ paramCasePat_none w0
      (fun c hc => isUpper_not_isLower c (hw0 c hc)) none
  · rw [List.concat_eq_append] at h
    subst h
    have hinit : ∀ w ∈ init, isCapWord (capWord w) = true ∧ (capWord w).map Char.toLower = w := by
      intro w hw
      exact capWord_isCapWord w (hws w (by simp [hw])).2 (hmid w (by simpa using hw))
    have hflat : (init.map capWord).flatMap (fun w => '-' :: w.map Char.toLower)
        = init.flatMap fun x => "-".toList ++ x := by
      rw [List.flatMap_map]
      apply flatMap_congr_mem
      intro w hw
      rw [(hinit w hw).2]
      rfl
    obtain ⟨hlne, hll⟩ := hws last (by simp)
    by_cases hlen : 2 ≤ last.length
    · have hall : ∀ w ∈ (init ++ [last]).map capWord, isCapWord w = true := by
        intro cw hcw
        obtain ⟨w, hw, rfl⟩ := List.mem_map.1 hcw
        rcases List.mem_append.1 hw with h1 | h1
        · exact (hinit w h1).1
        · simp at h1
          subst h1
          exact (capWord_isCapWord w hll hlen).1
      rw [replaceAux_capWords paramCasePat _ '-' paramCasePat_none paramCasePat_match
        (fun l u hl hu => caseCallback_lower_upper tbl ['-'] l u hl hu) _ hall w0 hne hw0 none]
      simp only [List.map_append, List.flatMap_append, hflat, List.map_cons, List.map_nil,
        List.flatMap_cons, List.flatMap_nil, List.append_nil,
        (capWord_isCapWord last hll hlen).2]
      rfl
    · obtain ⟨c, rfl⟩ : ∃ c, last = [c] := by
        match last, hlne, hlen with
        | [c], _, _ => exact ⟨c, rfl⟩
        | _ :: _ :: _, _, h => exact absurd (by simp) h
      have hc : isLower c = true := hll c (by simp)
      have e : w0 ++ ((init ++ [[c]]).map capWord).flatten
          = w0 ++ (init.map capWord).flatten ++ [c.toUpper] := by
        simp [capWord]
      rw [e, replaceAux_capWords_last paramCasePat _ '-' paramCasePat_none paramCasePat_match
        (fun l u hl hu => caseCallback_lower_upper tbl ['-'] l u hl hu) _
        (fun w hw => by
          obtain ⟨w1, hw1, rfl⟩ := List.mem_map.1 hw
          exact (hinit w1 hw1).1) c.toUpper (toUpper_lower c hc).1 w0 hne hw0 none]
      simp only [hflat, List.flatMap_append, List.flatMap_cons, List.flatMap_nil,
        List.append_nil, (toUpper_lower c hc).2]
      simp


/-- C37, counterexample. The key `a-b-c` of three one-letter words: `camelCase` gives `aBC`,
and `ParamCase` reads the run `BC` of capitals as one word and gives `a-bc`. -/
theorem C37_counterexample :
    camelCase "a-b-c".toList = "aBC".toList
    ∧ ParamCase id "aBC".toList = "a-bc".toList
    ∧ ParamCase id (camelCase "a-b-c".toList) ≠ "a-b-c".toList := by
  decide

/-- C37, amended. For every key made of one or more non-empty words of ASCII lower-case
letters joined by single `-` characters, in which every word between the first and the last
has at least two letters: `camelCase` drops each separator and puts the letter after it in
upper case, and `ParamCase` of the result is the key.  `camelCase` does the same for words
joined by `_` or `-`, as on `a_b-c`, which becomes `aBC`. -/
theorem C37_key_roundtrip (tbl : Char → Char) (w0 : Str) (ws : List Str) (hne : w0 ≠ [])
    (hw0 : isLowerWord w0 = true) (hws : ∀ w ∈ ws, w ≠ [] ∧ isLowerWord w = true)
    (hmid : ∀ w ∈ ws.dropLast, 2 ≤ w.length) :
    camelCase (stringsJoin "-".toList (w0 :: ws)) = w0 ++ (ws.map capWord).flatten
    ∧ ParamCase tbl (camelCase (stringsJoin "-".toList (w0 :: ws)))
        = stringsJoin "-".toList (w0 :: ws)
    ∧ (∀ seps : List (Char × Str),
        (∀ p ∈ seps, (p.1 = '_' ∨ p.1 = '-') ∧ p.2 ≠ [] ∧ isLowerWord p.2 = true) →
        camelCase (sepJoin w0 seps) = w0 ++ seps.flatMap fun p => capWord p.2)
    ∧ camelCase "a_b-c".toList = "aBC".toList := by
  have hw0l : ∀ x ∈ w0, isLower x = true := by
    simpa [isLowerWord, List.all_eq_true] using hw0
  have hwsl : ∀ w ∈ ws, w ≠ [] ∧ ∀ x ∈ w, isLower x = true := by
    intro w hw
    have := hws w hw
    exact ⟨this.1, by simpa [isLowerWord, List.all_eq_true] using this.2⟩
  have hsep : ∀ seps : List (Char × Str),
      (∀ p ∈ seps, (p.1 = '_' ∨ p.1 = '-') ∧ p.2 ≠ [] ∧ isLowerWord p.2 = true) →
      camelCase (sepJoin w0 seps) = w0 ++ seps.flatMap fun p => capWord p.2 := by
    intro seps hseps
    unfold camelCase Re.replaceAllFunc
    exact camel_words seps w0 hw0l (fun p hp => by
      have := hseps p hp
      exact ⟨this.1, this.2.1, by simpa [isLowerWord, List.all_eq_true] using this.2.2⟩) none
  have hjoin : stringsJoin "-".toList (w0 :: ws) = sepJoin w0 (ws.map fun w => ('-', w)) := by
    rw [stringsJoin_cons, sepJoin, List.flatMap_map]
    rfl
  have hcamel : camelCase (stringsJoin "-".toList (w0 :: ws))
      = w0 ++ (ws.map capWord).flatten := by
    rw [hjoin, hsep _ (fun p hp => by
      obtain ⟨w, hw, rfl⟩ := List.mem_map.1 hp
      exact ⟨Or.inr rfl, (hws w hw).1, (hws w hw).2⟩)]
    rw [List.flatMap_map, List.flatMap_def]
  refine ⟨hcamel, ?_, hsep, by decide⟩
  rw [hcamel]
  exact param_words tbl w0 ws hne hw0l hwsl hmid

/-- Witness of C37: the key `foo-bar-b`. -/
theorem C37_key_roundtrip_witness :
    camelCase (stringsJoin "-".toList ["foo".toList, "bar".toList, "b".toList])
        = "foo".toList ++ (["bar".toList, "b".toList].map capWord).flatten
    ∧ ParamCase id (camelCase (stringsJoin "-".toList ["foo".toList, "bar".toList, "b".toList]))
        = stringsJoin "-".toList ["foo".toList, "bar".toList, "b".toList]
    ∧ (∀ seps : List (Char × Str),
        (∀ p ∈ seps, (p.1 = '_' ∨ p.1 = '-') ∧ p.2 ≠ [] ∧ isLowerWord p.2 = true) →
        camelCase (sepJoin "foo".toList seps) = "foo".toList ++ seps.flatMap fun p => capWord p.2)
    ∧ camelCase "a_b-c".toList = "aBC".toList :=
  C37_key_roundtrip id "foo".toList ["bar".toList, "b".toList] (by decide) (by decide)
    (by decide) (by decide)

/-! ## Selector lists -/

theorem stringsSplit_comma (a rest : Str) (ha : ',' ∉ a) :
    stringsSplit ',' (a ++ ',' :: rest) = a :: stringsSplit ',' rest := by
  induction a with
  | nil => simp [stringsSplit]
  | cons c cs ih =>
    have hc : c ≠ ',' := fun e => ha (e ▸ List.mem_cons_self _ _)
    have hcs : ',' ∉ cs := fun hm => ha (List.mem_cons_of_mem _ hm)
    rw [List.cons_append, stringsSplit, if_neg hc, ih hcs]

theorem Select_groups (ev : Evaluator) (forest : List Element) (q : Str)
    (g : List selector) (gs : List (List selector)) (hq : parseSelector q = g :: gs) :
    Select ev (.pointers forest) (.text q) = selectLoop forest (g :: gs) [] := by
  simp only [Select, hq, List.isEmpty_cons, Bool.false_eq_true, if_false, selectElements,
    Bool.or_false]
  cases forest with
  | nil => simp [selectLoop]
  | cons e es => simp

/-- The query `a,b`. -/
theorem selectLoop_either (a b : Str) (forest : List Element) :
    selectLoop forest [[⟨a, " ".toList⟩], [⟨b, " ".toList⟩]] []
      = selectWhere (fun type _ _ => hits ⟨a, " ".toList⟩ type || hits ⟨b, " ".toList⟩ type)
          forest := by
  refine selectLoop_spec
    (fun type _ _ => hits ⟨a, " ".toList⟩ type || hits ⟨b, " ".toList⟩ type)
    (fun _ _ base adj => base = [[⟨a, " ".toList⟩], [⟨b, " ".toList⟩]] ∧ adj = []) ?_
    forest [] [] _ _ ⟨rfl, rfl⟩
  rintro type anc before base adj ⟨rfl, rfl⟩
  have hround : groupRound type [[⟨a, " ".toList⟩], [⟨b, " ".toList⟩]] []
      = ⟨hits ⟨a, " ".toList⟩ type || hits ⟨b, " ".toList⟩ type,
          [[⟨a, " ".toList⟩], [⟨b, " ".toList⟩]], [],
          [[⟨a, " ".toList⟩], [⟨b, " ".toList⟩]]⟩ := by
    unfold groupRound
    simp only [List.append_nil, List.foldl, groupStep_last, Bool.false_or, if_true,
      List.nil_append, List.singleton_append]
  rw [hround]
  exact ⟨rfl, ⟨rfl, rfl⟩, by simp, rfl, rfl⟩

/-- The query `a, b`: the groups of `a` and of the empty name followed by `b`. -/
theorem selectLoop_blank (a b : Str) (hb : b ≠ "*".toList) (forest : List Element) :
    selectLoop forest [[⟨a, " ".toList⟩], [⟨[], " ".toList⟩, ⟨b, " ".toList⟩]] []
      = selectWhere (fun type anc _ =>
          hits ⟨a, " ".toList⟩ type || (decide (type = b) && decide (([] : Str) ∈ anc)))
          forest := by
  refine selectLoop_spec
    (fun type anc _ =>
      hits ⟨a, " ".toList⟩ type || (decide (type = b) && decide (([] : Str) ∈ anc)))
    (fun anc _ base adj => adj = [] ∧ ∃ k, base = [⟨a, " ".toList⟩]
        :: (List.replicate k [⟨b, " ".toList⟩]
          ++ [[⟨[], " ".toList⟩, ⟨b, " ".toList⟩]]) ∧ (0 < k ↔ ([] : Str) ∈ anc))
    ?_ forest [] [] _ _ ⟨rfl, 0, rfl, by simp⟩
  rintro type anc before base adj ⟨rfl, k, rfl, hk⟩
  have he : ([] : Str) ≠ "*".toList := by decide
  have hround : groupRound type ([⟨a, " ".toList⟩] :: (List.replicate k [⟨b, " ".toList⟩]
        ++ [[⟨[], " ".toList⟩, ⟨b, " ".toList⟩]])) []
      = ⟨hits ⟨a, " ".toList⟩ type || (decide (0 < k) && decide (type = b)),
          [⟨a, " ".toList⟩] :: (List.replicate (k + if type = [] then 1 else 0)
              [⟨b, " ".toList⟩] ++ [[⟨[], " ".toList⟩, ⟨b, " ".toList⟩]]), [],
          [⟨a, " ".toList⟩] :: (List.replicate k [⟨b, " ".toList⟩]
            ++ [[⟨[], " ".toList⟩, ⟨b, " ".toList⟩]])⟩ := by
    unfold groupRound
    rw [List.append_nil, List.foldl_cons, groupStep_last, List.foldl_append,
      foldl_groupStep_replicate, List.foldl_cons, List.foldl_nil, groupStep_pair _ _ _ _ _ rfl,
      if_pos (Or.inl rfl), hits_name _ _ _ he, hits_name _ _ _ hb]
    by_cases h : type = []
    · simp [h, List.replicate_succ']
    · simp [h]
  rw [hround]
  refine ⟨?_, ⟨rfl, k, rfl, hk⟩, by simp, rfl, _, rfl, ?_⟩
  · by_cases h : type = b <;> by_cases h2 : ([] : Str) ∈ anc <;> simp [h, h2, hk]
  · by_cases h : type = []
    · simp [h]
    · have h2 : ¬ [] = type := fun e => h e.symm
      simp [h, h2, hk]


mutual
theorem locateList_ancestors : ∀ (forest : List Element) (anc before : List Str),
    (∀ l ∈ locateList anc forest before, l.elem.type ≠ []) → ([] : Str) ∉ anc →
    ∀ l ∈ locateList anc forest before, ([] : Str) ∉ l.ancestors
  | [], _, _, _, _ => by simp [locateList]
  | e :: rest, anc, before, h, hanc => by
    rw [locateList] at h ⊢
    intro l hl
    rcases List.mem_append.1 hl with h1 | h1
    · exact locateElem_ancestors e anc before
        (fun x hx => h x (List.mem_append_left _ hx)) hanc l h1
    · exact locateList_ancestors rest anc (e.type :: before)
        (fun x hx => h x (List.mem_append_right _ hx)) hanc l h1
theorem locateElem_ancestors : ∀ (e : Element) (anc before : List Str),
    (∀ l ∈ locateElem anc before e, l.elem.type ≠ []) → ([] : Str) ∉ anc →
    ∀ l ∈ locateElem anc before e, ([] : Str) ∉ l.ancestors
  | .mk type attrs children, anc, before, h, hanc => by
    rw [locateElem] at h ⊢
    intro l hl
    rcases List.mem_cons.1 hl with h1 | h1
    · rw [h1]
      exact hanc
    · have ht : type ≠ [] := h ⟨.mk type attrs children, anc, before⟩ (List.mem_cons_self _ _)
      exact locateList_ancestors children (type :: anc) []
        (fun x hx => h x (List.mem_cons_of_mem _ hx))
        (by
          intro hm
          rcases List.mem_cons.1 hm with h2 | h2
          · exact ht h2.symm
          · exact hanc h2) l h1
end

/-- C38, counterexample. On the fixture of the tests the query `a,b` selects the three
elements `a` and the element `b`, and the query `a, b` selects the three elements `a` only. -/
theorem C38_counterexample :
    (Select nullEvaluator (.pointers selectFixture) (.text "a,b".toList)).map Element.type
      = ["a".toList, "b".toList, "a".toList, "a".toList]
    ∧ (Select nullEvaluator (.pointers selectFixture) (.text "a, b".toList)).map Element.type
      = ["a".toList, "a".toList, "a".toList]
    ∧ parseSelector "a, b".toList
      = [[⟨"a".toList, " ".toList⟩], [⟨[], " ".toList⟩, ⟨"b".toList, " ".toList⟩]] := by
  decide!

/-- C38, amended. For every forest of elements and type names `a` and `b` (without combinator
characters or commas, other than the wildcard), `Select` with the query `a,b` returns the
elements of type `a` or of type `b`, each once, in document pre-order.  A blank after the
comma is not trimmed: in the query `a, b` it is the descendant combinator after an empty type
name, and `Select` returns the elements of type `a` and the elements of type `b` that have an
ancestor whose type is the empty text; in a forest without an element of the empty type these
are the elements of type `a`, the result of the query `a`. -/
theorem C38_selector_list (ev : Evaluator) (forest : List Element) (a b : Str)
    (ha : ∀ x ∈ a, isCombinator x = false) (hb : ∀ x ∈ b, isCombinator x = false)
    (hac : ',' ∉ a) (hbc : ',' ∉ b) (has : a ≠ "*".toList) (hbs : b ≠ "*".toList) :
    Select ev (.pointers forest) (.text (a ++ ",".toList ++ b))
      = ((locateList [] forest []).filter
          fun l => decide (l.elem.type = a ∨ l.elem.type = b)).map (fun l => l.elem)
    ∧ Select ev (.pointers forest) (.text (a ++ ", ".toList ++ b))
      = ((locateList [] forest []).filter
          fun l => decide (l.elem.type = a ∨ (l.elem.type = b ∧ ([] : Str) ∈ l.ancestors))).map
            (fun l => l.elem)
    ∧ ((∀ l ∈ locateList [] forest [], l.elem.type ≠ []) →
        Select ev (.pointers forest) (.text (a ++ ", ".toList ++ b))
          = Select ev (.pointers forest) (.text a)) := by
  have h1 : Select ev (.pointers forest) (.text (a ++ ", ".toList ++ b))
      = ((locateList [] forest []).filter
          fun l => decide (l.elem.type = a ∨ (l.elem.type = b ∧ ([] : Str) ∈ l.ancestors))).map
            (fun l => l.elem) := by
    rw [Select_groups ev forest _ [⟨a, " ".toList⟩] [[⟨[], " ".toList⟩, ⟨b, " ".toList⟩]]
      (by
        rw [parseSelector]
        have e : a ++ ", ".toList ++ b = a ++ ',' :: (' ' :: b) := by simp
        rw [e, stringsSplit_comma a _ hac, stringsSplit_none _ _ (by simpa using hbc)]
        simp only [List.map_cons, List.map_nil, parseQuery_single a ha]
        have := parseQuery_space [] b (by simp) hb
        rw [List.nil_append] at this
        rw [this]),
      selectLoop_blank a b hbs, selectWhere]
    simp only [hits_name _ _ _ has, Bool.decide_or, Bool.decide_and]
  refine ⟨?_, h1, ?_⟩
  · rw [Select_groups ev forest _ [⟨a, " ".toList⟩] [[⟨b, " ".toList⟩]]
      (by
        rw [parseSelector]
        have e : a ++ ",".toList ++ b = a ++ ',' :: b := by simp
        rw [e, stringsSplit_comma a _ hac, stringsSplit_none _ _ hbc]
        simp only [List.map_cons, List.map_nil, parseQuery_single a ha, parseQuery_single b hb]),
      selectLoop_either, selectWhere]
    simp only [hits_name _ _ _ has, hits_name _ _ _ hbs, Bool.decide_or]
  · intro hne
    have h0 : Select ev (.pointers forest) (.text a)
        = ((locateList [] forest []).filter fun l => decide (l.elem.type = a)).map
            (fun l => l.elem) := by
      rw [Select_text ev forest a [⟨a, " ".toList⟩]
        (by rw [parseSelector, stringsSplit_none _ _ hac, List.map_singleton,
          parseQuery_single a ha]),
        selectLoop_single, selectWhere]
      simp only [hits_name _ _ _ has]
    rw [h1, h0]
    congr 1
    apply List.filter_congr
    intro l hl
    have := locateList_ancestors forest [] [] hne (by simp) l hl
    simp [this]

/-- Witness of C38: the queries `a,b` and `a, b` on the fixture of the tests. -/
theorem C38_selector_list_witness :
    (Select nullEvaluator (.pointers selectFixture)
        (.text ("a".toList ++ ",".toList ++ "b".toList))).map Element.type
      = ["a".toList, "b".toList, "a".toList, "a".toList]
    ∧ (Select nullEvaluator (.pointers selectFixture)
        (.text ("a".toList ++ ", ".toList ++ "b".toList))).map Element.type
      = ["a".toList, "a".toList, "a".toList] := by
  have h := C38_selector_list nullEvaluator selectFixture "a".toList "b".toList (by decide)
    (by decide) (by decide) (by decide) (by decide) (by decide)
  rw [h.1, h.2.1]
  decide!

/-! ## Folding and flattening -/

theorem flattenItems_append (xs ys : List Item) :
    flattenItems (xs ++ ys) = flattenItems xs ++ flattenItems ys := by
  induction xs with
  | nil => rfl
  | cons x xs ih =>
    cases x with
    | text s => simp [flattenItems, ih]
    | tok t => simp [flattenItems, ih]

theorem push_simple (k n s e : Str) (xs vals : List Item) :
    StackItem.push ⟨.mk k n .Open s e [("default".toList, xs)], "default".toList⟩ vals
      = ⟨.mk k n .Open s e [("default".toList, xs ++ vals)], "default".toList⟩ := by
  simp [StackItem.push, slotSet, slotGet, Token.withChildren, Token.children]

theorem fold_flat (ts : List Item) :
    ∀ (top : StackItem) (below : List StackItem), top.simple → (∀ f ∈ below, f.simple) →
      wellNested ts (namesAbove top below) = true →
      (foldLoop ts top below).2 = [] ∧ (foldLoop ts top below).1.simple
        ∧ flattenSlot (foldLoop ts top below).1.token.children
          = pending top below ++ ts.map canonItem := by
  induction ts with
  | nil =>
    intro top below htop hbelow hw
    cases below with
    | nil => exact ⟨rfl, htop, by simp [foldLoop, pending]⟩
    | cons p bs => simp [wellNested, namesAbove] at hw
  | cons x rest ih =>
    intro top below htop hbelow hw
    obtain ⟨hslot, k, n, s, e, xs, htok⟩ := htop
    obtain ⟨tok, slot⟩ := top
    simp only at hslot htok
    subst hslot htok
    have hnames : ∀ ys, namesAbove ⟨.mk k n .Open s e [("default".toList, ys)], "default".toList⟩
        below = namesAbove ⟨.mk k n .Open s e [("default".toList, xs)], "default".toList⟩
          below := by
      intro ys
      cases below <;> rfl
    have hpend : ∀ ys, pending ⟨.mk k n .Open s e [("default".toList, xs ++ ys)],
          "default".toList⟩ below
        = pending ⟨.mk k n .Open s e [("default".toList, xs)], "default".toList⟩ below
          ++ flattenItems ys := by
      intro ys
      cases below <;>
        simp [pending, flattenSlot, flattenItems_append, Token.children, Token.withChildren]
    cases x with
    | text t =>
      rw [wellNested] at hw
      rw [foldLoop, push_simple]
      have := ih ⟨.mk k n .Open s e [("default".toList, xs ++ [.text t])], "default".toList⟩
        below ⟨rfl, k, n, s, e, _, rfl⟩ hbelow (by rw [hnames]; exact hw)
      rw [hpend] at this
      simpa [flattenItems, canonItem] using this
    | tok t =>
      obtain ⟨k2, n2, pos, s2, e2, c2⟩ := t
      cases pos with
      | Open =>
        simp only [wellNested, Token.position, Token.name] at hw
        rw [foldLoop_open]
        have := ih ⟨.mk k2 n2 .Open s2 e2 [("default".toList, [])], "default".toList⟩
          (⟨.mk k n .Open s e [("default".toList, xs)], "default".toList⟩ :: below)
          ⟨rfl, k2, n2, s2, e2, _, rfl⟩
          (by
            intro f hf
            rcases List.mem_cons.1 hf with h | h
            · rw [h]; exact ⟨rfl, k, n, s, e, xs, rfl⟩
            · exact hbelow f h)
          (by simpa [namesAbove, Token.name] using hw)
        simpa [pending, flattenSlot, flattenItems, canonItem, Token.position,
          Token.withChildren, Token.children] using this
      | Empty =>
        simp only [wellNested, Token.position] at hw
        rw [foldLoop_empty, push_simple]
        have := ih ⟨.mk k n .Open s e [("default".toList,
            xs ++ [.tok (.mk k2 n2 .Empty s2 e2 c2)])], "default".toList⟩
          below ⟨rfl, k, n, s, e, _, rfl⟩ hbelow (by rw [hnames]; exact hw)
        rw [hpend] at this
        simpa [flattenItems, flattenToken, canonItem, Token.position] using this
      | Continue => simp [wellNested, Token.position] at hw
      | Close =>
        cases below with
        | nil => simp [wellNested, Token.position, namesAbove] at hw
        | cons parent below1 =>
          simp only [wellNested, Token.position, Token.name, namesAbove, Bool.and_eq_true,
            decide_eq_true_eq] at hw
          obtain ⟨hn, hw⟩ := hw
          subst hn
          obtain ⟨hps, pk, pn, ps, pe, pxs, hptok⟩ := hbelow parent (List.mem_cons_self _ _)
          obtain ⟨ptok, pslot⟩ := parent
          simp only at hps hptok
          subst hps hptok
          rw [foldLoop_close, push_simple]
          have hnames2 : namesAbove ⟨.mk pk pn .Open ps pe [("default".toList,
                pxs ++ [.tok (.mk k n .Open s e [("default".toList, xs)])])], "default".toList⟩
              below1
              = namesAbove ⟨.mk pk pn .Open ps pe [("default".toList, pxs)], "default".toList⟩
                below1 := by
            cases below1 <;> rfl
          have := ih ⟨.mk pk pn .Open ps pe [("default".toList,
              pxs ++ [.tok (.mk k n .Open s e [("default".toList, xs)])])], "default".toList⟩
            below1 ⟨rfl, pk, pn, ps, pe, _, rfl⟩
            (fun f hf => hbelow f (List.mem_cons_of_mem _ hf))
            (by rw [hnames2]; exact hw)
          have hp2 : pending ⟨.mk pk pn .Open ps pe [("default".toList,
                pxs ++ [.tok (.mk k n .Open s e [("default".toList, xs)])])], "default".toList⟩
              below1
              = pending ⟨.mk k n .Open s e [("default".toList, xs)], "default".toList⟩
                  (⟨.mk pk pn .Open ps pe [("default".toList, pxs)], "default".toList⟩ :: below1)
                ++ [.tok (closing n)] := by
            cases below1 <;>
              simp [pending, flattenSlot, flattenItems_append, flattenItems, flattenToken,
                Token.children, Token.withChildren]
          rw [hp2] at this
          simpa [canonItem, Token.position, Token.name] using this

/-- C39. For a token list that is well nested and has no Continue token, the flattening of
the folded list is the input list: the text runs and the tokens in their order, every Open
token as the token itself (the fold fills its children in; the flattening lists it without
them), followed by the flattening of its slot `default` and by a Close token of its name where
the input has its closing token.  So the flattening has as many items as the input, and it is
the input itself when the Open tokens of the input have no children yet and its Close tokens
carry their name only. -/
theorem C39_fold_flatten (ts : List Item) (h : wellNested ts [] = true) :
    flattenItems (foldToken ts) = ts.map canonItem
    ∧ (flattenItems (foldToken ts)).length = ts.length
    ∧ ((∀ x ∈ ts, canonItem x = x) → flattenItems (foldToken ts) = ts) := by
  have hroot : rootFrame.simple := ⟨rfl, _, _, _, _, _, rfl⟩
  obtain ⟨h2, hs, hflat⟩ := fold_flat ts rootFrame [] hroot (by simp) h
  have hmain : flattenItems (foldToken ts) = ts.map canonItem := by
    rw [foldToken_eq, h2, foldClose]
    obtain ⟨hslot, k, n, s, e, xs, htok⟩ := hs
    rw [htok] at hflat ⊢
    simpa [flattenSlot, slotGet, Token.children, pending, rootFrame, flattenItems] using hflat
  refine ⟨hmain, by rw [hmain, List.length_map], ?_⟩
  intro hcanon
  rw [hmain]
  exact (List.map_congr_left hcanon).trans (List.map_id _)

/-- Witness of C39: a text, an `if` block that holds a text and an empty tag, and the closing
token of the block. -/
theorem C39_fold_flatten_witness :
    flattenItems (foldToken nestedSample) = nestedSample.map canonItem
    ∧ (flattenItems (foldToken nestedSample)).length = nestedSample.length
    ∧ ((∀ x ∈ nestedSample, canonItem x = x) →
        flattenItems (foldToken nestedSample) = nestedSample) :=
  C39_fold_flatten nestedSample rfl

/-! ## Transform and the element factory registry -/

theorem transformRound_registered (lib : AttrLib) (reg : Registry) (e : Element)
    (h : (reg.elementFactoryMap.lookup e.Tag).isSome = true) (added : List TypedElement)
    (hr : transformRound lib reg e = .ok added) : added = [] := by
  obtain ⟨type, attrs, children⟩ := e
  cases hk : reg.elementFactoryMap.lookup (Element.Tag (.mk type attrs children)) with
  | none => rw [hk] at h; cases h
  | some kind =>
    rw [transformRound] at hr
    simp only [hk] at hr
    generalize attach _ _ _ = r at hr
    cases r with
    | ok x =>
      simp only [TransformResult.ok.injEq] at hr
      exact hr.symm
    | failed err => cases hr
    | panic => cases hr

theorem Transform_registered (lib : AttrLib) (reg : Registry) (elems : List Element)
    (h : ∀ e ∈ elems, (reg.elementFactoryMap.lookup e.Tag).isSome = true)
    (message : List TypedElement) (hr : Transform lib reg elems = .ok message) :
    message = [] := by
  induction elems generalizing message with
  | nil =>
    rw [Transform] at hr
    cases hr
    rfl
  | cons e rest ih =>
    rw [Transform] at hr
    cases h1 : transformRound lib reg e with
    | ok added =>
      have ha := transformRound_registered lib reg e (h e (List.mem_cons_self _ _)) added h1
      subst ha
      rw [h1] at hr
      cases h2 : Transform lib reg rest with
      | ok m2 =>
        rw [h2] at hr
        simp only [List.nil_append, TransformResult.ok.injEq] at hr
        rw [← hr]
        exact ih (fun x hx => h x (List.mem_cons_of_mem _ hx)) m2 h2
      | failed err => rw [h2] at hr; cases hr
      | panic => rw [h2] at hr; cases hr
    | failed err => rw [h1] at hr; cases hr
    | panic => rw [h1] at hr; cases hr

/-- C40, the code at failing inputs. The branch of `Transform` for a tag of the element
factory registry builds the typed element and adds its children, and does not append it to
the result: whenever `Transform` succeeds on elements whose tags are all in that registry, it
returns the empty list, whatever the length of the input.  With the registry of the package,
a single `text` element gives the empty list; of the five elements `text`, `strong`, `at`,
`foo`, `newline` the result holds the three with the tags `b`, `foo`, `br`, the elements of
the other branches; a `b` element with a `text` child comes back as one element. -/
theorem C40_registered_tags_dropped :
    (∀ (lib : AttrLib) (reg : Registry) (elems : List Element) (message : List TypedElement),
      (∀ e ∈ elems, (reg.elementFactoryMap.lookup e.Tag).isSome = true) →
      Transform lib reg elems = .ok message → message = [])
    ∧ (Transform sampleAttrLib initRegistry
        [.mk "text".toList [("text".toList, .str "hi".toList)] []]).tags = some []
    ∧ (Transform sampleAttrLib initRegistry
        [.mk "text".toList [("text".toList, .str "hi".toList)] [],
          .mk "strong".toList [] [], .mk "at".toList [("id".toList, .str "1".toList)] [],
          .mk "foo".toList [] [], .mk "newline".toList [] []]).tags
        = some ["b".toList, "foo".toList, "br".toList]
    ∧ (Transform sampleAttrLib initRegistry
        [.mk "b".toList [] [.mk "text".toList [("text".toList, .str "hi".toList)] []]]).tags
        = some ["b".toList] := by
  refine ⟨fun lib reg elems message h hr => Transform_registered lib reg elems h message hr,
    by decide!, by decide!, by decide!⟩

end Xhtml
